import Mathlib

/-!
Boyer–Myrvold edge-addition embedder (`graphEmbed.c`): model and properties

The C translation unit `graphEmbed.c` is embedded as pure state-passing Lean
functions over a record `graph` that mirrors the C structure `baseGraphStructure`.

Conventions of the embedding.

* C arrays (`G[]`, `V[]`, `extFace[]`, `buckets[]`, list-collection nodes) are total maps
  `Int → record`; an assignment `A[i].f = x` is a point-wise update at `i`.
* C `int` values are `Int`; `NIL` is `-1`, so that the source's test
  `J >= theGraph->edgeOffset` ("J is an arc") is false for `NIL`.
* A `while`/`do-while` loop is a function that is structurally recursive on a `fuel`
  argument; it yields `none` when the fuel does not suffice.  A `for` loop over
  `0 .. N-1` is a fold over `List.range`.
* The function-pointer table `theGraph->functions` is a separate record `graphFunctionTable`;
  functions of other translation units are the fields of a record `externals`.
* `gp_Embed` and `_WalkDown` return a `Run`: the state reached together with the value
  returned, if the code ran to completion.  They record the calls they make in the ghost
  field `trace` of the state.
-/

namespace Planarity

/-! ## Constants of the absent header `graph.h` -/

/-- Modelled from the spec: the `NONE` index of the data model (`NIL` in the source); the
header that defines it is absent, the value `-1` makes `NIL >= edgeOffset` false. -/
def NIL : Int := -1

/-- Modelled from the spec: outcome kind OK.  The header with the numeric values is absent;
only the pairwise distinctness of the three outcome codes is ever used. -/
def OK : Int := 1

/-- Modelled from the spec: outcome kind FAILURE (`NOTOK` in the source). -/
def NOTOK : Int := 0

/-- Modelled from the spec: outcome kind NONEMBEDDABLE. -/
def NONEMBEDDABLE : Int := -3

/-- Modelled from the spec: arc type DFS_CHILD. -/
def EDGE_DFSCHILD : Int := 1

/-- Modelled from the spec: arc type FORWARD. -/
def EDGE_FORWARD : Int := 2

/-- Modelled from the spec: arc type BACK. -/
def EDGE_BACK : Int := 3

/-- Modelled from the spec: arc type DFS_PARENT. -/
def EDGE_DFSPARENT : Int := 4

/-- Modelled from the spec: embedFlags value selecting core planarity. -/
def EMBEDFLAGS_PLANAR : Int := 1

/-- Modelled from the spec: embedFlags value selecting outerplanarity. -/
def EMBEDFLAGS_OUTERPLANAR : Int := 2

/-- Modelled from the spec: internal flag bit "vertices are sorted by DFI". -/
def FLAGS_SORTEDBYDFI : Int := 2

/-- Modelled from the spec: activity classification, inactive. -/
def VAS_INACTIVE : Int := 0

/-- Modelled from the spec: activity classification, internally active. -/
def VAS_INTERNAL : Int := 1

/-- Modelled from the spec: activity classification, externally active. -/
def VAS_EXTERNAL : Int := 2

/-! ## Data model -/

/-- Point-wise update of a C array modelled as a total map. -/
def upd {β : Type} (f : Int → β) (i : Int) (x : β) : Int → β :=
  fun j => if j = i then x else f j

/-- Node record `G[i]` (vertex slot or arc slot). -/
structure graphNode where
  v : Int
  visited : Int
  link : Int → Int
  type : Int
  inverted : Bool

/-- Vertex attributes `V[i]`. -/
structure vertexRec where
  DFSParent : Int
  leastAncestor : Int
  Lowpoint : Int
  adjacentTo : Int
  pertinentBicompList : Int
  separatedDFSChildList : Int
  fwdArcList : Int

/-- External-face side table entry `extFace[i]`. -/
structure extFaceLinkRec where
  link : Int → Int
  inversionFlag : Int

/-- One node of a list collection. -/
structure lcnode where
  prev : Int
  next : Int

/-- A list collection: a pool of list nodes indexed by node id. -/
structure listCollection where
  List : Int → lcnode

/-- Ghost record of one call made by `gp_Embed` or `_WalkDown`, with the value the callee
returned where it returns one; `I` is the vertex being processed by the main loop. -/
inductive Event where
  | CreateDFSTree (result : Int)
  | SortVertices (result : Int)
  | CreateFwdArcLists (result : Int)
  | WalkUp (I J : Int)
  | WalkDown (I RootVertex result : Int)
  | MergeBicomps (I result : Int)
  | HandleInactiveVertex (I result : Int)
  | EmbedIterationPostprocess (I result : Int)
  | EmbedPostprocess (I edgeEmbeddingResult : Int)
  deriving DecidableEq

/-- The graph arena (`baseGraphStructure`), without the function table.  The field `trace`
is ghost state: the calls made so far, most recent first; no code reads it. -/
structure graph where
  trace : List Event
  G : Int → graphNode
  V : Int → vertexRec
  N : Int
  edgeOffset : Int
  theStack : List Int
  internalFlags : Int
  embedFlags : Int
  BicompLists : listCollection
  DFSChildLists : listCollection
  buckets : Int → Int
  bin : listCollection
  extFace : Int → extFaceLinkRec

/-! ## List collection (absent `listcoll.c`) -/

/-- Modelled from the spec: `LCReset` of the absent list-collection module empties the pool,
every node gets `prev = next = NIL`. -/
def LCReset (_lc : listCollection) : listCollection :=
  ⟨fun _ => ⟨NIL, NIL⟩⟩

/-- Modelled from the spec: `next(head, id)` of the absent list-collection module returns the
next id, or `NIL` after wrap. -/
def LCGetNext (lc : listCollection) (theList theNode : Int) : Int :=
  if theList = NIL ∨ theNode = NIL then NIL
  else
    let next := (lc.List theNode).next
    if next = theList then NIL else next

/-- Modelled from the spec: `append(head, id)` of the absent list-collection module.  The
lists are circular and doubly linked; a node appended to an empty list becomes a singleton,
otherwise it is linked in as predecessor of the head.  Returns the pool and the head. -/
def LCAppend (lc : listCollection) (theList theNode : Int) : listCollection × Int :=
  if theList = NIL then
    (⟨upd lc.List theNode ⟨theNode, theNode⟩⟩, theNode)
  else
    let pred := (lc.List theList).prev
    let l1 := upd lc.List theNode ⟨pred, theList⟩
    let l2 := upd l1 pred ⟨(l1 pred).prev, theNode⟩
    let l3 := upd l2 theList ⟨theNode, (l2 theList).next⟩
    (⟨l3⟩, theList)

/-- Modelled from the spec: `prepend(head, id)` of the absent list-collection module: append,
then back the head up by one node. -/
def LCPrepend (lc : listCollection) (theList theNode : Int) : listCollection × Int :=
  let r := LCAppend lc theList theNode
  (r.1, (r.1.List r.2).prev)

/-- Modelled from the spec: `delete(head, id)` of the absent list-collection module. -/
def LCDelete (lc : listCollection) (theList theNode : Int) : listCollection × Int :=
  if (lc.List theList).next = theList then
    (⟨upd lc.List theList ⟨NIL, NIL⟩⟩, NIL)
  else
    let pred := (lc.List theNode).prev
    let succ := (lc.List theNode).next
    let l1 := upd lc.List pred ⟨(lc.List pred).prev, succ⟩
    let l2 := upd l1 succ ⟨pred, (l1 succ).next⟩
    let l3 := upd l2 theNode ⟨NIL, NIL⟩
    (⟨l3⟩, if theList = theNode then succ else theList)

/-- The iteration idiom of the source (`J = head; while (J != NIL) J = LCGetNext(..)`),
collecting the ids visited. -/
def LCIterate : Nat → listCollection → Int → Int → Option (List Int)
  | 0, _, _, _ => none
  | fuel + 1, lc, theList, J =>
    if J = NIL then some []
    else (LCIterate fuel lc theList (LCGetNext lc theList J)).map (fun r => J :: r)

/-! ## `_CreateSortedSeparatedDFSChildLists` -/

/-- Assignment `theGraph->V[P].separatedDFSChildList = x`. -/
def setSeparatedDFSChildList (g : graph) (P x : Int) : graph :=
  { g with V := upd g.V P { g.V P with separatedDFSChildList := x } }

/-- Second loop of `_CreateSortedSeparatedDFSChildLists`: vertex `I` goes to the bucket of
its Lowpoint. -/
def fillBucket (g : graph) (I : Int) : graph :=
  let J := (g.V I).Lowpoint
  let r := LCAppend g.bin (g.buckets J) I
  { g with bin := r.1, buckets := upd g.buckets J r.2 }

/-- Body of the inner `while` of the third loop: vertex `J` is appended to the
separatedDFSChildList of its DFS parent. -/
def addToParentList (g : graph) (J : Int) : graph :=
  let DFSParent := (g.V J).DFSParent
  if DFSParent ≠ NIL ∧ DFSParent ≠ J then
    let theList := (g.V DFSParent).separatedDFSChildList
    let r := LCAppend g.DFSChildLists theList J
    setSeparatedDFSChildList { g with DFSChildLists := r.1 } DFSParent r.2
  else g

/-- Inner `while (J != NIL)` of the third loop, over bucket `I`. -/
def drainBucket : Nat → graph → Int → Int → Option graph
  | 0, _, _, _ => none
  | fuel + 1, g, I, J =>
    if J = NIL then some g
    else
      let g1 := addToParentList g J
      drainBucket fuel g1 I (LCGetNext g1.bin (g1.buckets I) J)

/-- The function `_CreateSortedSeparatedDFSChildLists`. -/
def _CreateSortedSeparatedDFSChildLists (fuel : Nat) (g : graph) : Option graph :=
  let g0 : graph := { g with bin := LCReset g.bin }
  let g1 : graph :=
    (List.range g.N.toNat).foldl (fun s (I : Nat) => { s with buckets := upd s.buckets (I : Int) NIL }) g0
  let g2 : graph := (List.range g.N.toNat).foldl (fun s (I : Nat) => fillBucket s (I : Int)) g1
  (List.range g.N.toNat).foldl
    (fun s (I : Nat) => s.bind (fun s => drainBucket fuel s (I : Int) (s.buckets (I : Int)))) (some g2)

/-! ## Field assignments -/

/-- Assignment `theGraph->G[i].link[s] = x`. -/
def setGLink (g : graph) (i s x : Int) : graph :=
  { g with G := upd g.G i { g.G i with link := upd (g.G i).link s x } }

/-- Assignment `theGraph->G[i].v = x`. -/
def setGv (g : graph) (i x : Int) : graph :=
  { g with G := upd g.G i { g.G i with v := x } }

/-- Assignment `theGraph->G[i].visited = x`. -/
def setGVisited (g : graph) (i x : Int) : graph :=
  { g with G := upd g.G i { g.G i with visited := x } }

/-- The macros `SET_EDGEFLAG_INVERTED` (`b = true`) and `CLEAR_EDGEFLAG_INVERTED`
(`b = false`) on arc `i`. -/
def setEdgeFlagInverted (g : graph) (i : Int) (b : Bool) : graph :=
  { g with G := upd g.G i { g.G i with inverted := b } }

/-- Assignment `theGraph->extFace[i].link[s] = x`. -/
def setExtFaceLink (g : graph) (i s x : Int) : graph :=
  { g with extFace := upd g.extFace i { g.extFace i with link := upd (g.extFace i).link s x } }

/-- Assignment `theGraph->extFace[i].inversionFlag = x`. -/
def setInversionFlag (g : graph) (i x : Int) : graph :=
  { g with extFace := upd g.extFace i { g.extFace i with inversionFlag := x } }

/-- Assignment `theGraph->V[i].adjacentTo = x`. -/
def setAdjacentTo (g : graph) (i x : Int) : graph :=
  { g with V := upd g.V i { g.V i with adjacentTo := x } }

/-- Assignment `theGraph->V[i].pertinentBicompList = x`. -/
def setPertinentBicompList (g : graph) (i x : Int) : graph :=
  { g with V := upd g.V i { g.V i with pertinentBicompList := x } }

/-- Assignment `theGraph->V[i].fwdArcList = x`. -/
def setFwdArcList (g : graph) (i x : Int) : graph :=
  { g with V := upd g.V i { g.V i with fwdArcList := x } }

/-! ## Macros of the absent headers -/

/-- Modelled from the spec: the macro `gp_GetTwinArc` of the absent header; the twin of arc
`J` is obtained by flipping the lowest bit of `J - edgeOffset` and reading back. -/
def gp_GetTwinArc (g : graph) (J : Int) : Int :=
  g.edgeOffset + Int.xor (J - g.edgeOffset) 1

/-- Modelled from the spec: the stack macro `sp_ClearStack` of the absent header. -/
def sp_ClearStack (g : graph) : graph := { g with theStack := [] }

/-- Modelled from the spec: the stack macro `sp_NonEmpty` of the absent header. -/
def sp_NonEmpty (g : graph) : Bool := !g.theStack.isEmpty

/-- Modelled from the spec: the stack macro `sp_Push2` of the absent header pushes `a`, then
`b`; the head of the list is the top of the LIFO. -/
def sp_Push2 (g : graph) (a b : Int) : graph := { g with theStack := b :: a :: g.theStack }

/-- Modelled from the spec: the stack macro `sp_Pop2` of the absent header pops `b`, then `a`,
and yields `(a, b)`; a pop below the bottom of the stack yields `NIL`. -/
def sp_Pop2 (g : graph) : graph × Int × Int :=
  ({ g with theStack := g.theStack.drop 2 }, (g.theStack.drop 1).headD NIL, g.theStack.headD NIL)

/-- Modelled from the spec: the macro `PERTINENT` of the absent header; a vertex is pertinent
when `adjacentTo ≠ NONE` or its pertinentBicompList is not empty. -/
def PERTINENT (g : graph) (W : Int) : Bool :=
  decide ((g.V W).adjacentTo ≠ NIL) || decide ((g.V W).pertinentBicompList ≠ NIL)

/-- Modelled from the spec: external activity at iteration `I`; `leastAncestor[W] < I` or the
lowpoint of the first separated child of `W` is `< I`. -/
def EXTERNALLYACTIVE (g : graph) (W I : Int) : Bool :=
  decide ((g.V W).leastAncestor < I) ||
    (decide ((g.V W).separatedDFSChildList ≠ NIL) &&
      decide ((g.V (g.V W).separatedDFSChildList).Lowpoint < I))

/-- Modelled from the spec: the macro `_VertexActiveStatus` of the absent header; the activity
classification of section 4.5. -/
def _VertexActiveStatus (g : graph) (W I : Int) : Int :=
  if EXTERNALLYACTIVE g W I then VAS_EXTERNAL
  else if PERTINENT g W then VAS_INTERNAL
  else VAS_INACTIVE

/-! ## `_CreateFwdArcLists`, `_CreateDFSTreeEmbedding` -/

/-- The loop `while (G[Jnext].type == EDGE_FORWARD) Jnext = G[Jnext].link[1]`. -/
def fwdArcRunEnd : Nat → graph → Int → Option Int
  | 0, _, _ => none
  | fuel + 1, g, Jnext =>
    if (g.G Jnext).type = EDGE_FORWARD then fwdArcRunEnd fuel g ((g.G Jnext).link 1)
    else some Jnext

/-- Body of the `for` loop of `_CreateFwdArcLists` for vertex `I`. -/
def createFwdArcListAt (fuel : Nat) (g : graph) (I : Int) : Option graph :=
  let Jfirst := (g.G I).link 1
  if ¬ (Jfirst ≥ g.edgeOffset) then some g
  else if (g.G Jfirst).type = EDGE_FORWARD then
    (fwdArcRunEnd fuel g Jfirst).map fun Jnext =>
      let Jlast := (g.G Jnext).link 0
      let g := setGLink g Jnext 0 I
      let g := setGLink g I 1 Jnext
      let g := setFwdArcList g I Jfirst
      let g := setGLink g Jfirst 0 Jlast
      setGLink g Jlast 1 Jfirst
  else some g

/-- The function `_CreateFwdArcLists`; the value returned is always `OK`. -/
def _CreateFwdArcLists (fuel : Nat) (g : graph) : Option (Int × graph) :=
  ((List.range g.N.toNat).foldl
    (fun s (I : Nat) => s.bind (fun s => createFwdArcListAt fuel s (I : Int))) (some g)).map
    (fun s => (OK, s))

/-- The loop `while (G[J].type != EDGE_DFSPARENT) J = G[J].link[0]`. -/
def findParentArc : Nat → graph → Int → Option Int
  | 0, _, _ => none
  | fuel + 1, g, J =>
    if (g.G J).type ≠ EDGE_DFSPARENT then findParentArc fuel g ((g.G J).link 0)
    else some J

/-- Body of the `for` loop of `_CreateDFSTreeEmbedding` for vertex `I`, with `R = N + I`. -/
def createDFSTreeEmbeddingAt (fuel : Nat) (g : graph) (I : Int) : Option graph :=
  let R := g.N + I
  if (g.V I).DFSParent = NIL then
    some (setGLink (setGLink g I 1 I) I 0 I)
  else
    (findParentArc fuel g ((g.G I).link 0)).map fun J =>
      let g := setGLink (setGLink g I 1 J) I 0 J
      let g := setGLink (setGLink g J 1 I) J 0 I
      let g := setGv g J R
      let Jtwin := gp_GetTwinArc g J
      let g := setGLink (setGLink g R 1 Jtwin) R 0 Jtwin
      let g := setGLink (setGLink g Jtwin 1 R) Jtwin 0 R
      let g := setExtFaceLink (setExtFaceLink g R 1 I) R 0 I
      setExtFaceLink (setExtFaceLink g I 1 R) I 0 R

/-- The function `_CreateDFSTreeEmbedding`. -/
def _CreateDFSTreeEmbedding (fuel : Nat) (g : graph) : Option graph :=
  (List.range g.N.toNat).foldl
    (fun s (I : Nat) => s.bind (fun s => createDFSTreeEmbeddingAt fuel s (I : Int))) (some g)

/-! ## `_EmbedBackEdgeToDescendant`, `_InvertVertex`, `_MergeVertex` -/

/-- The statements of `_EmbedBackEdgeToDescendant` that remove the forward arc `fwdArc`
from the circular `fwdArcList` of `parentCopy`. -/
def detachForwardArc (g : graph) (parentCopy fwdArc : Int) : graph :=
  let g :=
    if (g.V parentCopy).fwdArcList = fwdArc then
      if (g.G fwdArc).link 0 = fwdArc then setFwdArcList g parentCopy NIL
      else setFwdArcList g parentCopy ((g.G fwdArc).link 0)
    else g
  let g := setGLink g ((g.G fwdArc).link 0) 1 ((g.G fwdArc).link 1)
  setGLink g ((g.G fwdArc).link 1) 0 ((g.G fwdArc).link 0)

/-- The four statements of `_EmbedBackEdgeToDescendant` that add the arc `arc` to the
adjacency list of the vertex `X` on its side `side` (the forward arc at `RootVertex` on
`RootSide`, the back arc at `W` on `WPrevLink`). -/
def attachArc (g : graph) (arc side X : Int) : graph :=
  let g := setGLink g arc (Int.xor 1 side) X
  let g := setGLink g arc side ((g.G X).link side)
  let g := setGLink g ((g.G X).link side) (Int.xor 1 side) arc
  setGLink g X side arc

/-- The function `_EmbedBackEdgeToDescendant`. -/
def _EmbedBackEdgeToDescendant (g : graph) (RootSide RootVertex W WPrevLink : Int) : graph :=
  let fwdArc := (g.V W).adjacentTo
  let backArc := gp_GetTwinArc g fwdArc
  let parentCopy := (g.V (RootVertex - g.N)).DFSParent
  let g := detachForwardArc g parentCopy fwdArc
  let g := attachArc g fwdArc RootSide RootVertex
  let g := setGv g backArc RootVertex
  let g := attachArc g backArc WPrevLink W
  let g := setExtFaceLink g RootVertex RootSide W
  setExtFaceLink g W WPrevLink RootVertex

/-- The `do { swap links of J; J = G[J].link[0]; } while (J >= edgeOffset)` loop of
`_InvertVertex`, entered at node `J`. -/
def invertRing : Nat → graph → Int → Option graph
  | 0, _, _ => none
  | fuel + 1, g, J =>
    let JTemp := (g.G J).link 0
    let g := setGLink g J 0 ((g.G J).link 1)
    let g := setGLink g J 1 JTemp
    let J := (g.G J).link 0
    if J ≥ g.edgeOffset then invertRing fuel g J else some g

/-- The function `_InvertVertex`. -/
def _InvertVertex (fuel : Nat) (g : graph) (V : Int) : Option graph :=
  (invertRing fuel g V).map fun g =>
    let JTemp := (g.extFace V).link 0
    let g := setExtFaceLink g V 0 ((g.extFace V).link 1)
    setExtFaceLink g V 1 JTemp

/-- First loop of `_MergeVertex`: every arc `J` of the ring of `R` gets the `v` of its twin
set to `W`. -/
def redirectArcs : Nat → graph → Int → Int → Option graph
  | 0, _, _, _ => none
  | fuel + 1, g, W, J =>
    if J ≥ g.edgeOffset then
      let JTwin := gp_GetTwinArc g J
      let g := setGv g JTwin W
      redirectArcs fuel g W ((g.G J).link 0)
    else some g

/-- The function `_MergeVertex`; `fpInitGraphNode` is the entry of the function table that
the last statement calls. -/
def _MergeVertex (fuel : Nat) (fpInitGraphNode : graph → Int → graph)
    (g : graph) (W WPrevLink R : Int) : Option graph :=
  (redirectArcs fuel g W ((g.G R).link 0)).map fun g =>
    let e_w := (g.G W).link WPrevLink
    let e_r := (g.G R).link (Int.xor 1 WPrevLink)
    let e_ext := (g.G R).link WPrevLink
    let g := setGLink g e_w (Int.xor 1 WPrevLink) e_r
    let g := setGLink g e_r WPrevLink e_w
    let g := setGLink g W WPrevLink e_ext
    let g := setGLink g e_ext (Int.xor 1 WPrevLink) W
    fpInitGraphNode g R

/-- Modelled from the spec: the default `fpInitGraphNode` of the absent module; a retired
root copy has its links reset to `NIL` (defunct root copies have `link[0] = NONE`). -/
def _InitGraphNode (g : graph) (I : Int) : graph :=
  { g with G := upd g.G I ⟨NIL, 0, fun _ => NIL, 0, false⟩ }

/-! ## Function table, external collaborators, runs -/

/-- The function-pointer table `theGraph->functions` (the entries used by `graphEmbed.c`).
A hook yields `none` when it does not return. -/
structure graphFunctionTable where
  fpCreateFwdArcLists : graph → Option (Int × graph)
  fpCreateDFSTreeEmbedding : graph → Option graph
  fpEmbedBackEdgeToDescendant : graph → Int → Int → Int → Int → Option graph
  fpMergeBicomps : graph → Int → Int → Int → Int → Option (Int × graph)
  fpHandleInactiveVertex : graph → Int → Int → Int → Option (Int × graph × Int × Int)
  fpEmbedIterationPostprocess : graph → Int → Option (Int × graph)
  fpEmbedPostprocess : graph → Int → Int → Option (Int × graph)
  fpInitGraphNode : graph → Int → graph

/-- Functions of other translation units that `graphEmbed.c` calls. -/
structure externals where
  gp_CreateDFSTree : graph → Int × graph
  gp_SortVertices : graph → Int × graph
  gp_LowpointAndLeastAncestor : graph → graph
  _IsolateKuratowskiSubgraph : graph → Int → Int × graph
  _IsolateOuterplanarObstruction : graph → Int → Int × graph

/-- Outcome of running code with bounded fuel: the state reached and, when the code ran to
completion, the value it returned (`none`: the fuel ran out or a hook did not return). -/
structure Run (α : Type) where
  g : graph
  val : Option α

/-- The state `g1` a callee left, with the ghost trace of the caller's state `g0` extended
by the event `e`. -/
def logCall (g0 g1 : graph) (e : Event) : graph :=
  { g1 with trace := e :: g0.trace }

/-! ## `_MergeBicomps` -/

/-- The loop of `_MergeBicomps` that looks for the DFS_CHILD arc in the ring of `R` and sets
its inverted flag. -/
def markChildArcInverted : Nat → graph → Int → Option graph
  | 0, _, _ => none
  | fuel + 1, g, J =>
    if J ≥ g.edgeOffset then
      if (g.G J).type = EDGE_DFSCHILD then some (setEdgeFlagInverted g J true)
      else markChildArcInverted fuel g ((g.G J).link 0)
    else some g

/-- One iteration of the `while (sp_NonEmpty(theStack))` loop of `_MergeBicomps`. -/
def mergeBicompsStep (fuel : Nat) (fpInitGraphNode : graph → Int → graph) (g : graph) :
    Option graph :=
  let (g, R, Rout) := sp_Pop2 g
  let (g, Z, ZPrevLink) := sp_Pop2 g
  let extFaceVertex := (g.extFace R).link (Int.xor 1 Rout)
  let g := setExtFaceLink g Z ZPrevLink extFaceVertex
  let g :=
    if (g.extFace extFaceVertex).link 0 = (g.extFace extFaceVertex).link 1 then
      setExtFaceLink g extFaceVertex (Int.xor Rout (g.extFace extFaceVertex).inversionFlag) Z
    else
      setExtFaceLink g extFaceVertex (if (g.extFace extFaceVertex).link 0 = R then 0 else 1) Z
  let flipped : Option graph :=
    if ZPrevLink = Rout then
      (if (g.G R).link 0 ≠ (g.G R).link 1 then _InvertVertex fuel g R else some g).bind
        fun g => markChildArcInverted fuel g ((g.G R).link 0)
    else some g
  flipped.bind fun g =>
    let RootID_DFSChild := R - g.N
    let theList := (g.V Z).pertinentBicompList
    let r := LCDelete g.BicompLists theList RootID_DFSChild
    let g := setPertinentBicompList { g with BicompLists := r.1 } Z r.2
    let theList := (g.V Z).separatedDFSChildList
    let r := LCDelete g.DFSChildLists theList RootID_DFSChild
    let g := setSeparatedDFSChildList { g with DFSChildLists := r.1 } Z r.2
    _MergeVertex fuel fpInitGraphNode g Z ZPrevLink R

/-- The `while (sp_NonEmpty(theStack))` loop of `_MergeBicomps`. -/
def mergeBicompsLoop (fuel : Nat) (fpInitGraphNode : graph → Int → graph) :
    Nat → graph → Option graph
  | 0, _ => none
  | n + 1, g =>
    if sp_NonEmpty g then
      (mergeBicompsStep fuel fpInitGraphNode g).bind (mergeBicompsLoop fuel fpInitGraphNode n)
    else some g

/-- The function `_MergeBicomps`; `I`, `RootVertex`, `W`, `WPrevLink` are not used. -/
def _MergeBicomps (fuel : Nat) (fpInitGraphNode : graph → Int → graph)
    (g : graph) (_I _RootVertex _W _WPrevLink : Int) : Option (Int × graph) :=
  (mergeBicompsLoop fuel fpInitGraphNode fuel g).map (fun g => (OK, g))

/-! ## `_WalkUp` -/

/-- The `while (Zig != I)` loop of `_WalkUp`. -/
def walkUpLoop : Nat → graph → Int → Int → Int → Int → Int → Option graph
  | 0, _, _, _, _, _, _ => none
  | fuel + 1, g, I, Zig, Zag, ZigPrevLink, ZagPrevLink =>
    if Zig = I then some g
    else if (g.G Zig).visited = I then some g
    else if (g.G Zag).visited = I then some g
    else
      let g := setGVisited g Zig I
      let g := setGVisited g Zag I
      let R := if Zig ≥ g.N then Zig else if Zag ≥ g.N then Zag else NIL
      if R ≠ NIL then
        let RootID_DFSChild := R - g.N
        let ParentCopy := (g.V RootID_DFSChild).DFSParent
        let g :=
          if ParentCopy ≠ I then
            let BicompList := (g.V ParentCopy).pertinentBicompList
            let r :=
              if (g.V RootID_DFSChild).Lowpoint < I then
                LCAppend g.BicompLists BicompList RootID_DFSChild
              else LCPrepend g.BicompLists BicompList RootID_DFSChild
            setPertinentBicompList { g with BicompLists := r.1 } ParentCopy r.2
          else g
        walkUpLoop fuel g I ParentCopy ParentCopy 1 0
      else
        let nextZig := (g.extFace Zig).link (Int.xor 1 ZigPrevLink)
        let ZigPrevLink := if (g.extFace nextZig).link 0 = Zig then 0 else 1
        let nextZag := (g.extFace Zag).link (Int.xor 1 ZagPrevLink)
        let ZagPrevLink := if (g.extFace nextZag).link 0 = Zag then 0 else 1
        walkUpLoop fuel g I nextZig nextZag ZigPrevLink ZagPrevLink

/-- The function `_WalkUp`. -/
def _WalkUp (fuel : Nat) (g : graph) (I J : Int) : Option graph :=
  let W := (g.G J).v
  let g := setAdjacentTo g W J
  walkUpLoop fuel g I W W 1 0

/-! ## `_HandleInactiveVertex`, `_WalkDown` -/

/-- The function `_HandleInactiveVertex`; the result is the value returned, the state, and
the new values of `*pW` and `*pWPrevLink`. -/
def _HandleInactiveVertex (g : graph) (_BicompRoot W WPrevLink : Int) :
    Int × graph × Int × Int :=
  let X := (g.extFace W).link (Int.xor 1 WPrevLink)
  (OK, g, X, if (g.extFace X).link 0 = W then 0 else 1)

/-- The macro `_GetPertinentChildBicomp` of `graphEmbed.c`. -/
def _GetPertinentChildBicomp (g : graph) (W : Int) : Int :=
  if (g.V W).pertinentBicompList = NIL then NIL else (g.V W).pertinentBicompList + g.N

/-- How the inner loop of `_WalkDown` is left: by a `return` of the function, or by the end
of the loop (its condition or the `break`) with the current `W` and `WPrevLink`. -/
inductive WalkDownExit where
  | returned (RetVal : Int)
  | ended (W WPrevLink : Int)
  deriving DecidableEq

/-- The descend step of `_WalkDown` at a vertex `W` with a pertinent child bicomp: the pushes
and the choice of the next `W` and `WPrevLink`. -/
def walkDownDescend (g : graph) (I W WPrevLink : Int) : graph × Int × Int :=
  let g := sp_Push2 g W WPrevLink
  let R := _GetPertinentChildBicomp g W
  let X := (g.extFace R).link 0
  let XPrevLink : Int := if (g.extFace X).link 1 = R then 1 else 0
  let Y := (g.extFace R).link 1
  let YPrevLink : Int := if (g.extFace Y).link 0 = R then 0 else 1
  let flip : Bool := decide (X = Y) && decide ((g.extFace X).inversionFlag ≠ 0)
  let XPrevLink := if flip then 0 else XPrevLink
  let YPrevLink := if flip then 1 else YPrevLink
  let W' :=
    if _VertexActiveStatus g X I = VAS_INTERNAL then X
    else if _VertexActiveStatus g Y I = VAS_INTERNAL then Y
    else if PERTINENT g X then X
    else Y
  let WPrevLink' := if W' = X then XPrevLink else YPrevLink
  let Rout : Int := if W' = X then 0 else 1
  (sp_Push2 g R Rout, W', WPrevLink')

/-- The steps of one iteration of the inner loop of `_WalkDown` after the embed step, on the
state `g` the embed step left: the descent to a pertinent child bicomp, the skip of an
inactive vertex, or the `break` at a stopping vertex.  `loop` runs the remaining iterations
from the new `W` and `WPrevLink`. -/
def walkDownRest (fns : graphFunctionTable) (loop : graph → Int → Int → Run WalkDownExit)
    (g : graph) (I RootVertex W WPrevLink : Int) : Run WalkDownExit :=
  if (g.V W).pertinentBicompList ≠ NIL then
    let (g, W', WPrevLink') := walkDownDescend g I W WPrevLink
    loop g W' WPrevLink'
  else if _VertexActiveStatus g W I = VAS_INACTIVE then
    match fns.fpHandleInactiveVertex g RootVertex W WPrevLink with
    | none => ⟨g, none⟩
    | some (r, g1, W', WPrevLink') =>
      let g1 := logCall g g1 (.HandleInactiveVertex I r)
      if r ≠ OK then ⟨g1, some (.returned NOTOK)⟩
      else loop g1 W' WPrevLink'
  else ⟨g, some (.ended W WPrevLink)⟩

/-- The embed step of one iteration of the inner loop of `_WalkDown`, after the bicomps on
the stack are merged: the call of `fpEmbedBackEdgeToDescendant` and the clearing of
`V[W].adjacentTo`, followed by the rest of the iteration. -/
def walkDownEmbed (fns : graphFunctionTable) (loop : graph → Int → Int → Run WalkDownExit)
    (g : graph) (I RootVertex RootSide W WPrevLink : Int) : Run WalkDownExit :=
  match fns.fpEmbedBackEdgeToDescendant g RootSide RootVertex W WPrevLink with
  | none => ⟨g, none⟩
  | some g1 =>
    walkDownRest fns loop (setAdjacentTo { g1 with trace := g.trace } W NIL) I RootVertex W
      WPrevLink

/-- The body of the inner loop of `_WalkDown` at a vertex `W` other than `RootVertex`. -/
def walkDownBody (fns : graphFunctionTable) (loop : graph → Int → Int → Run WalkDownExit)
    (g : graph) (I RootVertex RootSide W WPrevLink : Int) : Run WalkDownExit :=
  if (g.V W).adjacentTo ≠ NIL then
    if sp_NonEmpty g then
      match fns.fpMergeBicomps g I RootVertex W WPrevLink with
      | none => ⟨g, none⟩
      | some (RetVal, g1) =>
        let g1 := logCall g g1 (.MergeBicomps I RetVal)
        if RetVal ≠ OK then ⟨g1, some (.returned RetVal)⟩
        else walkDownEmbed fns loop g1 I RootVertex RootSide W WPrevLink
    else walkDownEmbed fns loop g I RootVertex RootSide W WPrevLink
  else walkDownRest fns loop g I RootVertex W WPrevLink

/-- The inner loop `while (W != RootVertex)` of `_WalkDown`. -/
def walkDownLoop (fns : graphFunctionTable) :
    Nat → graph → Int → Int → Int → Int → Int → Run WalkDownExit
  | 0, g, _, _, _, _, _ => ⟨g, none⟩
  | fuel + 1, g, I, RootVertex, RootSide, W, WPrevLink =>
    if W = RootVertex then ⟨g, some (.ended W WPrevLink)⟩
    else
      walkDownBody fns
        (fun g W WPrevLink => walkDownLoop fns fuel g I RootVertex RootSide W WPrevLink)
        g I RootVertex RootSide W WPrevLink

/-- The statements of `_WalkDown` after the inner loop of pass `RootSide` ended at `W` with
an empty stack: the external-face short-circuit and the inversionFlag update. -/
def walkDownShortCircuit (g : graph) (RootVertex RootSide W WPrevLink : Int) : graph :=
  let g := setExtFaceLink g RootVertex RootSide W
  let g := setExtFaceLink g W WPrevLink RootVertex
  if (g.extFace W).link 0 = (g.extFace W).link 1 ∧ WPrevLink = RootSide then
    setInversionFlag g W 1
  else setInversionFlag g W 0

/-- The inner loop of pass `RootSide` of `_WalkDown`, from its start
`W = extFace[RootVertex].link[RootSide]`, `WPrevLink = 1^RootSide`. -/
def walkDownPassLoop (fuel : Nat) (fns : graphFunctionTable) (g : graph)
    (I RootVertex RootSide : Int) : Run WalkDownExit :=
  walkDownLoop fns fuel g I RootVertex RootSide
    ((g.extFace RootVertex).link RootSide) (Int.xor 1 RootSide)

/-- One pass of the `for (RootSide ...)` loop of `_WalkDown`: `some r` when the function
returns `r` in or after this pass without entering a further pass (`OK` when `W` came back
to the root), `none` when the `for` loop goes on. -/
def walkDownPass (fuel : Nat) (fns : graphFunctionTable) (g : graph)
    (I RootVertex RootSide : Int) : Run (Option Int) :=
  match walkDownPassLoop fuel fns g I RootVertex RootSide with
  | ⟨g, none⟩ => ⟨g, none⟩
  | ⟨g, some (.returned r)⟩ => ⟨g, some (some r)⟩
  | ⟨g, some (.ended W WPrevLink)⟩ =>
    if sp_NonEmpty g then ⟨g, some (some NONEMBEDDABLE)⟩
    else
      let g := walkDownShortCircuit g RootVertex RootSide W WPrevLink
      if W = RootVertex then ⟨g, some (some OK)⟩ else ⟨g, some none⟩

/-- The function `_WalkDown`. -/
def _WalkDown (fuel : Nat) (fns : graphFunctionTable) (g : graph) (I RootVertex : Int) :
    Run Int :=
  let g := sp_ClearStack g
  match walkDownPass fuel fns g I RootVertex 0 with
  | ⟨g, none⟩ => ⟨g, none⟩
  | ⟨g, some (some r)⟩ => ⟨g, some r⟩
  | ⟨g, some none⟩ =>
    match walkDownPass fuel fns g I RootVertex 1 with
    | ⟨g, none⟩ => ⟨g, none⟩
    | ⟨g, some (some r)⟩ => ⟨g, some r⟩
    | ⟨g, some none⟩ => ⟨g, some OK⟩

/-! ## Postprocessing: `_OrientVerticesInEmbedding`, `_JoinBicomps`, `_EmbedPostprocess` -/

/-- The inner loop of `_OrientVerticesInBicomp` over the ring of the popped vertex: each
DFS_CHILD arc `J` pushes `(G[J].v, invertedFlag ^ inverted(J))` and, unless `PreserveSigns`,
has its inverted flag cleared.  The flag bit is read as `1`/`0`. -/
def pushDFSChildren : Nat → graph → Int → Int → Int → Option graph
  | 0, _, _, _, _ => none
  | fuel + 1, g, J, invertedFlag, PreserveSigns =>
    if J ≥ g.edgeOffset then
      let g :=
        if (g.G J).type = EDGE_DFSCHILD then
          let g := sp_Push2 g (g.G J).v (Int.xor invertedFlag (if (g.G J).inverted then 1 else 0))
          if PreserveSigns = 0 then setEdgeFlagInverted g J false else g
        else g
      pushDFSChildren fuel g ((g.G J).link 0) invertedFlag PreserveSigns
    else some g

/-- The `while (sp_NonEmpty(theStack))` loop of `_OrientVerticesInBicomp`. -/
def orientLoop (fuel : Nat) : Nat → graph → Int → Option graph
  | 0, _, _ => none
  | n + 1, g, PreserveSigns =>
    if sp_NonEmpty g then
      let (g, V, invertedFlag) := sp_Pop2 g
      ((if invertedFlag ≠ 0 then _InvertVertex fuel g V else some g).bind fun g =>
        pushDFSChildren fuel g ((g.G V).link 0) invertedFlag PreserveSigns).bind fun g =>
          orientLoop fuel n g PreserveSigns
    else some g

/-- The function `_OrientVerticesInBicomp`. -/
def _OrientVerticesInBicomp (fuel : Nat) (g : graph) (BicompRoot PreserveSigns : Int) :
    Option graph :=
  orientLoop fuel fuel (sp_Push2 (sp_ClearStack g) BicompRoot 0) PreserveSigns

/-- The function `_OrientVerticesInEmbedding`: the root copies `R = N .. edgeOffset-1`. -/
def _OrientVerticesInEmbedding (fuel : Nat) (g : graph) : Option graph :=
  (List.range (g.edgeOffset - g.N).toNat).foldl
    (fun s (k : Nat) => s.bind fun s =>
      let R := g.N + (k : Int)
      if (s.G R).link 0 ≠ NIL then _OrientVerticesInBicomp fuel s R 0 else some s)
    (some (sp_ClearStack g))

/-- The function `_JoinBicomps`; the value returned is always `OK`. -/
def _JoinBicomps (fuel : Nat) (fpInitGraphNode : graph → Int → graph) (g : graph) :
    Option (Int × graph) :=
  ((List.range (g.edgeOffset - g.N).toNat).foldl
    (fun s (k : Nat) => s.bind fun s =>
      let R := g.N + (k : Int)
      if (s.G R).link 0 ≠ NIL then
        _MergeVertex fuel fpInitGraphNode s (s.V (R - g.N)).DFSParent 0 R
      else some s)
    (some g)).map (fun s => (OK, s))

/-- The function `_EmbedIterationPostprocess`. -/
def _EmbedIterationPostprocess (g : graph) (_I : Int) : Int × graph :=
  (NONEMBEDDABLE, g)

/-- The function `_EmbedPostprocess`. -/
def _EmbedPostprocess (fuel : Nat) (fpInitGraphNode : graph → Int → graph) (ext : externals)
    (g : graph) (I edgeEmbeddingResult : Int) : Option (Int × graph) :=
  let RetVal := edgeEmbeddingResult
  if edgeEmbeddingResult = OK then
    (_OrientVerticesInEmbedding fuel g).bind fun g =>
      (_JoinBicomps fuel fpInitGraphNode g).map fun r => (RetVal, r.2)
  else if edgeEmbeddingResult = NONEMBEDDABLE then
    if g.embedFlags = EMBEDFLAGS_PLANAR then
      let r := ext._IsolateKuratowskiSubgraph g I
      some (if r.1 ≠ OK then NOTOK else RetVal, r.2)
    else if g.embedFlags = EMBEDFLAGS_OUTERPLANAR then
      let r := ext._IsolateOuterplanarObstruction g I
      some (if r.1 ≠ OK then NOTOK else RetVal, r.2)
    else some (RetVal, g)
  else some (RetVal, g)

/-- The default function table: every hook is the function of `graphEmbed.c` of the same
name; `fpInitGraphNode` is the entry of the table that `_MergeVertex` calls. -/
def defaultFunctions (fuel : Nat) (fpInitGraphNode : graph → Int → graph) (ext : externals) :
    graphFunctionTable where
  fpCreateFwdArcLists := _CreateFwdArcLists fuel
  fpCreateDFSTreeEmbedding := _CreateDFSTreeEmbedding fuel
  fpEmbedBackEdgeToDescendant := fun g RootSide RootVertex W WPrevLink =>
    some (_EmbedBackEdgeToDescendant g RootSide RootVertex W WPrevLink)
  fpMergeBicomps := _MergeBicomps fuel fpInitGraphNode
  fpHandleInactiveVertex := fun g BicompRoot W WPrevLink =>
    some (_HandleInactiveVertex g BicompRoot W WPrevLink)
  fpEmbedIterationPostprocess := fun g I => some (_EmbedIterationPostprocess g I)
  fpEmbedPostprocess := _EmbedPostprocess fuel fpInitGraphNode ext
  fpInitGraphNode := fpInitGraphNode

/-! ## The driver `gp_Embed` -/

/-- The loop of `gp_Embed` that calls `_WalkUp` for each forward arc `J` of
`V[I].fwdArcList` (one tour of the circular list). -/
def walkUpForwardArcs (fuel : Nat) : Nat → graph → Int → Int → Run Unit
  | 0, g, _, _ => ⟨g, none⟩
  | n + 1, g, I, J =>
    if J = NIL then ⟨g, some ()⟩
    else
      let g0 := logCall g g (.WalkUp I J)
      match _WalkUp fuel g0 I J with
      | none => ⟨g0, none⟩
      | some g1 =>
        let J := (g1.G J).link 0
        let J := if J = (g1.V I).fwdArcList then NIL else J
        walkUpForwardArcs fuel n g1 I J

/-- How the loop over the separated DFS children is left in `gp_Embed`: by `return NOTOK`,
or by its end (its condition or the `break`) with the current `RetVal`. -/
inductive ChildLoopExit where
  | returned (RetVal : Int)
  | ended (RetVal : Int)
  deriving DecidableEq

/-- The loop of `gp_Embed` over `child` in `V[I].separatedDFSChildList` that calls
`_WalkDown` on the root copy `child + N` of each child with a pertinent bicomp list; `N` is
the local variable of `gp_Embed`. -/
def walkDownChildren (fuel : Nat) (fns : graphFunctionTable) (N : Int) :
    Nat → graph → Int → Int → Int → Run ChildLoopExit
  | 0, g, _, _, _ => ⟨g, none⟩
  | n + 1, g, I, child, RetVal =>
    if child = NIL then ⟨g, some (.ended RetVal)⟩
    else if (g.V child).pertinentBicompList ≠ NIL then
      match _WalkDown fuel fns g I (child + N) with
      | ⟨g1, none⟩ => ⟨g1, none⟩
      | ⟨g1, some r⟩ =>
        let g1 := logCall g1 g1 (.WalkDown I (child + N) r)
        if r ≠ OK then
          if r = NOTOK then ⟨g1, some (.returned NOTOK)⟩ else ⟨g1, some (.ended r)⟩
        else
          walkDownChildren fuel fns N n g1 I
            (LCGetNext g1.DFSChildLists (g1.V I).separatedDFSChildList child) r
    else
      walkDownChildren fuel fns N n g I
        (LCGetNext g.DFSChildLists (g.V I).separatedDFSChildList child) RetVal

/-- How one iteration of the main loop of `gp_Embed` is left: by `return NOTOK`, by `break`
with the current `RetVal`, or by reaching the end of the loop body with the current
`RetVal`. -/
inductive IterationExit where
  | returned (RetVal : Int)
  | broke (RetVal : Int)
  | next (RetVal : Int)
  deriving DecidableEq

/-- The body of the main loop of `gp_Embed` for vertex `I`; `N` is the local variable of
`gp_Embed`. -/
def embedIteration (fuel : Nat) (fns : graphFunctionTable) (N : Int) (g : graph) (I : Int) :
    Run IterationExit :=
  match walkUpForwardArcs fuel fuel g I (g.V I).fwdArcList with
  | ⟨g, none⟩ => ⟨g, none⟩
  | ⟨g, some ()⟩ =>
    match walkDownChildren fuel fns N fuel g I (g.V I).separatedDFSChildList OK with
    | ⟨g, none⟩ => ⟨g, none⟩
    | ⟨g, some (.returned r)⟩ => ⟨g, some (.returned r)⟩
    | ⟨g, some (.ended RetVal)⟩ =>
      if (g.V I).fwdArcList ≠ NIL then
        match fns.fpEmbedIterationPostprocess g I with
        | none => ⟨g, none⟩
        | some (RetVal, g1) =>
          let g1 := logCall g g1 (.EmbedIterationPostprocess I RetVal)
          if RetVal ≠ OK then ⟨g1, some (.broke RetVal)⟩ else ⟨g1, some (.next RetVal)⟩
      else ⟨g, some (.next RetVal)⟩

/-- How the main loop of `gp_Embed` is left: by `return NOTOK`, or by its end (its condition
or the `break`) with the current `I` and `RetVal`. -/
inductive EmbedLoopExit where
  | returned (RetVal : Int)
  | ended (I RetVal : Int)
  deriving DecidableEq

/-- The main loop `for (I = N-1; I >= 0; I--)` of `gp_Embed`; the counter `k` is `I + 1`,
`RetVal` the value the variable holds when the loop condition is tested.  When the loop
ends by its condition, `I` is `-1` (for `N >= 0`). -/
def embedLoop (fuel : Nat) (fns : graphFunctionTable) (N : Int) :
    Nat → graph → Int → Run EmbedLoopExit
  | 0, g, RetVal => ⟨g, some (.ended (-1) RetVal)⟩
  | k + 1, g, _ =>
    match embedIteration fuel fns N g (k : Int) with
    | ⟨g, none⟩ => ⟨g, none⟩
    | ⟨g, some (.returned r)⟩ => ⟨g, some (.returned r)⟩
    | ⟨g, some (.broke RetVal)⟩ => ⟨g, some (.ended (k : Int) RetVal)⟩
    | ⟨g, some (.next RetVal)⟩ => embedLoop fuel fns N k g RetVal

/-- The loop `for (I = 0; I < edgeOffset; I++) G[I].visited = N` of `gp_Embed`. -/
def fillVisited (g : graph) (N : Int) : graph :=
  (List.range g.edgeOffset.toNat).foldl (fun s (I : Nat) => setGVisited s (I : Int) N) g

/-- The state component of the run of `gp_Embed` on a NULL pointer, where there is no
arena. -/
def nullGraph : graph where
  trace := []
  G := fun _ => ⟨NIL, 0, fun _ => NIL, 0, false⟩
  V := fun _ => ⟨NIL, NIL, NIL, NIL, NIL, NIL, NIL⟩
  N := 0
  edgeOffset := 0
  theStack := []
  internalFlags := 0
  embedFlags := 0
  BicompLists := ⟨fun _ => ⟨NIL, NIL⟩⟩
  DFSChildLists := ⟨fun _ => ⟨NIL, NIL⟩⟩
  buckets := fun _ => NIL
  bin := ⟨fun _ => ⟨NIL, NIL⟩⟩
  extFace := fun _ => ⟨fun _ => NIL, 0⟩

/-- The statements of `gp_Embed` from the call of `_CreateSortedSeparatedDFSChildLists` to
the loop that sets the `visited` members; `N` is the local variable of `gp_Embed`.  The
result is `some r` when the function returns `r` there, `none` when the main loop is
reached. -/
def embedPreprocessLists (fuel : Nat) (fns : graphFunctionTable) (g : graph) (N : Int) :
    Run (Option Int) :=
  match _CreateSortedSeparatedDFSChildLists fuel g with
  | none => ⟨g, none⟩
  | some g =>
    match fns.fpCreateFwdArcLists g with
    | none => ⟨g, none⟩
    | some (r, g1) =>
      let g := logCall g g1 (.CreateFwdArcLists r)
      if r ≠ OK then ⟨g, some (some NOTOK)⟩
      else
        match fns.fpCreateDFSTreeEmbedding g with
        | none => ⟨g, none⟩
        | some g1 => ⟨fillVisited { g1 with trace := g.trace } N, some none⟩

/-- The statements of `gp_Embed` before the main loop, on a non-NULL graph: `some r` when
the function returns `r` there, `none` when the main loop is reached.  The ghost trace of
the run starts empty. -/
def embedPreprocess (fuel : Nat) (fns : graphFunctionTable) (ext : externals) (g : graph)
    (embedFlags : Int) : Run (Option Int) :=
  let N := g.N
  let g := { g with embedFlags := embedFlags, trace := [] }
  let r := ext.gp_CreateDFSTree g
  let g := logCall g r.2 (.CreateDFSTree r.1)
  if r.1 ≠ OK then ⟨g, some (some NOTOK)⟩
  else
    let sorted : Int × graph :=
      if Int.land g.internalFlags FLAGS_SORTEDBYDFI = 0 then
        let r := ext.gp_SortVertices g
        (r.1, logCall g r.2 (.SortVertices r.1))
      else (OK, g)
    if sorted.1 ≠ OK then ⟨sorted.2, some (some NOTOK)⟩
    else
      let g := sorted.2
      embedPreprocessLists fuel fns { ext.gp_LowpointAndLeastAncestor g with trace := g.trace } N

/-- The function `gp_Embed` on a non-NULL graph, after the parameter check. -/
def embedGraph (fuel : Nat) (fns : graphFunctionTable) (ext : externals) (g : graph)
    (embedFlags : Int) : Run Int :=
  let N := g.N
  match embedPreprocess fuel fns ext g embedFlags with
  | ⟨g, none⟩ => ⟨g, none⟩
  | ⟨g, some (some r)⟩ => ⟨g, some r⟩
  | ⟨g, some none⟩ =>
    match (if g.N < 0 then (⟨g, some (.ended (g.N - 1) OK)⟩ : Run EmbedLoopExit)
           else embedLoop fuel fns N g.N.toNat g OK) with
    | ⟨g, none⟩ => ⟨g, none⟩
    | ⟨g, some (.returned r)⟩ => ⟨g, some r⟩
    | ⟨g, some (.ended I RetVal)⟩ =>
      let g0 := logCall g g (.EmbedPostprocess I RetVal)
      match fns.fpEmbedPostprocess g0 I RetVal with
      | none => ⟨g0, none⟩
      | some (r, g1) => ⟨{ g1 with trace := g0.trace }, some r⟩

/-- The function `gp_Embed`; `theGraph = none` is the NULL pointer. -/
def gp_Embed (fuel : Nat) (fns : graphFunctionTable) (ext : externals)
    (theGraph : Option graph) (embedFlags : Int) : Run Int :=
  match theGraph with
  | none => ⟨nullGraph, some NOTOK⟩
  | some g => embedGraph fuel fns ext g embedFlags

/-! ## Concrete input graphs -/

/-- One arc of a concrete input: its slot `J`, the neighbour `v` it leads to, its type. -/
structure arcSpec where
  J : Int
  v : Int
  type : Int

/-- The two links of a node as a map from the link index. -/
def linkPair (l0 l1 : Int) : Int → Int := fun s => if s = 0 then l0 else l1

/-- The nodes of the ring of vertex `owner` holding `arcs` in `link[0]` order: the vertex
node and one node per arc. -/
def ringNodes (owner : Int) (arcs : List arcSpec) : List (Int × graphNode) :=
  let js := arcs.map (fun a => a.J)
  (owner, ⟨NIL, 0, linkPair (js.headD NIL) (js.getLastD NIL), 0, false⟩) ::
    (List.range arcs.length).map fun k =>
      let a := arcs.getD k ⟨NIL, NIL, 0⟩
      (a.J, ⟨a.v, 0,
        linkPair (js.getD (k + 1) owner) (if k = 0 then owner else js.getD (k - 1) owner),
        a.type, false⟩)

/-- Lookup in a finite table, with a default. -/
def lookupD {β : Type} (t : List (Int × β)) (d : β) (i : Int) : β :=
  match t.find? (fun p => p.1 = i) with
  | some p => p.2
  | none => d

/-- The arena of a graph on `N` vertices that has been DFS-numbered, sorted by DFI and
labelled: vertex `i` has the ring `rings[i]` and the attributes
`attrs[i] = (DFSParent, leastAncestor, Lowpoint)`; all lists are empty. -/
def mkGraph (N : Int) (rings : List (List arcSpec)) (attrs : List (Int × Int × Int)) : graph :=
  let nodes : List (Int × graphNode) :=
    ((List.range rings.length).map fun i => ringNodes (Int.ofNat i) (rings.getD i [])).flatten
  { nullGraph with
    G := lookupD nodes ⟨NIL, 0, fun _ => NIL, 0, false⟩
    V := fun i =>
      if 0 ≤ i ∧ i < N then
        let a := attrs.getD i.toNat (NIL, NIL, NIL)
        ⟨a.1, a.2.1, a.2.2, NIL, NIL, NIL, NIL⟩
      else ⟨NIL, NIL, NIL, NIL, NIL, NIL, NIL⟩
    N := N
    edgeOffset := 2 * N
    internalFlags := 3 }

/-- External collaborators for an arena that is already DFS-numbered, sorted and labelled:
each reports `OK` and leaves the arena as it is. -/
def readyExternals : externals where
  gp_CreateDFSTree := fun g => (OK, g)
  gp_SortVertices := fun g => (OK, g)
  gp_LowpointAndLeastAncestor := fun g => g
  _IsolateKuratowskiSubgraph := fun g _ => (OK, g)
  _IsolateOuterplanarObstruction := fun g _ => (OK, g)

/-- The triangle `{(0,1),(1,2),(0,2)}` after DFS `0 → 1 → 2`. -/
def triangle : graph :=
  mkGraph 3
    [[⟨6, 1, EDGE_DFSCHILD⟩, ⟨10, 2, EDGE_FORWARD⟩],
     [⟨7, 0, EDGE_DFSPARENT⟩, ⟨8, 2, EDGE_DFSCHILD⟩],
     [⟨9, 1, EDGE_DFSPARENT⟩, ⟨11, 0, EDGE_BACK⟩]]
    [(NIL, 0, 0), (0, 1, 0), (1, 0, 0)]

/-- The complete graph `K5` after the DFS `0 → 1 → 2 → 3 → 4`; edge `k` occupies the arc
slots `10 + 2k` (at the ancestor) and `11 + 2k` (at the descendant). -/
def K5 : graph :=
  mkGraph 5
    [[⟨10, 1, EDGE_DFSCHILD⟩, ⟨18, 2, EDGE_FORWARD⟩, ⟨20, 3, EDGE_FORWARD⟩, ⟨22, 4, EDGE_FORWARD⟩],
     [⟨11, 0, EDGE_DFSPARENT⟩, ⟨12, 2, EDGE_DFSCHILD⟩, ⟨24, 3, EDGE_FORWARD⟩, ⟨26, 4, EDGE_FORWARD⟩],
     [⟨13, 1, EDGE_DFSPARENT⟩, ⟨19, 0, EDGE_BACK⟩, ⟨14, 3, EDGE_DFSCHILD⟩, ⟨28, 4, EDGE_FORWARD⟩],
     [⟨15, 2, EDGE_DFSPARENT⟩, ⟨21, 0, EDGE_BACK⟩, ⟨25, 1, EDGE_BACK⟩, ⟨16, 4, EDGE_DFSCHILD⟩],
     [⟨17, 3, EDGE_DFSPARENT⟩, ⟨23, 0, EDGE_BACK⟩, ⟨27, 1, EDGE_BACK⟩, ⟨29, 2, EDGE_BACK⟩]]
    [(NIL, 0, 0), (0, 1, 0), (1, 0, 0), (2, 0, 0), (3, 0, 0)]

/-- The complete bipartite graph `K3,3` on `{0,2,4} × {1,3,5}` (DFI labels) after the DFS
`0 → 1 → 2 → 3 → 4 → 5`; edge `k` occupies the arc slots `12 + 2k` and `13 + 2k`. -/
def K33 : graph :=
  mkGraph 6
    [[⟨12, 1, EDGE_DFSCHILD⟩, ⟨22, 3, EDGE_FORWARD⟩, ⟨24, 5, EDGE_FORWARD⟩],
     [⟨13, 0, EDGE_DFSPARENT⟩, ⟨14, 2, EDGE_DFSCHILD⟩, ⟨28, 4, EDGE_FORWARD⟩],
     [⟨15, 1, EDGE_DFSPARENT⟩, ⟨16, 3, EDGE_DFSCHILD⟩, ⟨26, 5, EDGE_FORWARD⟩],
     [⟨17, 2, EDGE_DFSPARENT⟩, ⟨23, 0, EDGE_BACK⟩, ⟨18, 4, EDGE_DFSCHILD⟩],
     [⟨19, 3, EDGE_DFSPARENT⟩, ⟨29, 1, EDGE_BACK⟩, ⟨20, 5, EDGE_DFSCHILD⟩],
     [⟨21, 4, EDGE_DFSPARENT⟩, ⟨25, 0, EDGE_BACK⟩, ⟨27, 2, EDGE_BACK⟩]]
    [(NIL, 0, 0), (0, 1, 0), (1, 2, 0), (2, 0, 0), (3, 1, 0), (4, 0, 0)]

/-! ## Specification predicates -/

/-- `LCRep lc head l`: in the pool `lc` the list with head `head` is the circular doubly
linked list of the ids `l`, in this order (`next` of the last id is the head, `prev` of the
head is the last id); the empty list has head `NIL`. -/
def LCRep (lc : listCollection) (head : Int) (l : List Int) : Prop :=
  NIL ∉ l ∧ l.Nodup ∧ head = l.headD NIL ∧
    ∀ i, i < l.length →
      (lc.List (l.getD i NIL)).next = l.getD ((i + 1) % l.length) NIL ∧
      (lc.List (l.getD ((i + 1) % l.length) NIL)).prev = l.getD i NIL

/-! ## Further definitions used in the statements: sorting, traces, concrete runs -/

/-- The vertex indices `0 .. n-1`. -/
def vertexIds (n : Nat) : List Int := (List.range n).map (fun (k : Nat) => (k : Int))

/-- The vertices among the first `k` whose Lowpoint is `b`, in increasing order: the
content of bucket `b` after `k` vertices were bucketed. -/
def bucketOf (g : graph) (k : Nat) (b : Int) : List Int :=
  (vertexIds k).filter (fun I => decide ((g.V I).Lowpoint = b))

/-- The order in which the third loop of `_CreateSortedSeparatedDFSChildLists` visits the
vertices: bucket after bucket. -/
def bucketOrder (g : graph) (n : Nat) : List Int :=
  (vertexIds n).flatMap (fun b => bucketOf g n b)

/-- `J` is a vertex that the third loop appends to the list of `P`. -/
def isSeparatedChild (g : graph) (P J : Int) : Bool :=
  decide ((g.V J).DFSParent = P ∧ P ≠ NIL ∧ P ≠ J)

/-- State `s` agrees with `g` outside `bin` and `buckets`. -/
def sameButBuckets (g s : graph) : Prop :=
  s.V = g.V ∧ s.DFSChildLists = g.DFSChildLists ∧ s.N = g.N

/-- Invariant of the third loop after the vertices `pre` were visited: the DFS parents and
Lowpoints are those of `g0`, and the list of every `P` holds the visited vertices that are
appended to it, in the order of the visits. -/
def SepInv (g0 s : graph) (pre : List Int) : Prop :=
  (∀ v, (s.V v).DFSParent = (g0.V v).DFSParent ∧ (s.V v).Lowpoint = (g0.V v).Lowpoint) ∧
    ∀ P, LCRep s.DFSChildLists (s.V P).separatedDFSChildList
      (pre.filter (isSeparatedChild g0 P))

/-- The vertex `I` of the main loop that an event of an iteration belongs to. -/
def iterationOf : Event → Option Int
  | .WalkUp I _ => some I
  | .WalkDown I _ _ => some I
  | .MergeBicomps I _ => some I
  | .HandleInactiveVertex I _ => some I
  | .EmbedIterationPostprocess I _ => some I
  | _ => none

/-- The event is a call of `fpMergeBicomps` or `fpHandleInactiveVertex` made by `_WalkDown`
for vertex `I`. -/
def isHookCall (I : Int) (e : Event) : Prop :=
  (∃ x, e = .MergeBicomps I x) ∨ ∃ x, e = .HandleInactiveVertex I x

/-- Relation between the events `new` logged by a run of the inner loop of `_WalkDown` for
vertex `I` and the way the loop was left. -/
def loopShape (I : Int) (new : List Event) (val : Option WalkDownExit) : Prop :=
  (∀ e ∈ new, isHookCall I e) ∧
  (∀ x, x ≠ OK → Event.MergeBicomps I x ∈ new → val = some (.returned x)) ∧
  (∀ x, x ≠ OK → Event.HandleInactiveVertex I x ∈ new → val = some (.returned NOTOK)) ∧
  (∀ x, val = some (.returned x) → x ≠ OK)

/-- Relation between the events `new` logged by a run of `_WalkDown` (or of one of its
passes, with `some r` for a return of `r`) for vertex `I` and the value returned. -/
def walkDownShape (I : Int) (new : List Event) (ret : Option Int) : Prop :=
  (∀ e ∈ new, isHookCall I e) ∧
  (∀ x, x ≠ OK → Event.MergeBicomps I x ∈ new → ret = some x) ∧
  (∀ x, x ≠ OK → Event.HandleInactiveVertex I x ∈ new → ret = some NOTOK)

/-- The event is the call of `fpEmbedPostprocess`. -/
def isPostprocess : Event → Prop
  | .EmbedPostprocess _ _ => True
  | _ => False

/-- The event is the call of `fpEmbedPostprocess` or belongs to an iteration for a vertex
smaller than `I`. -/
def below (I : Int) (e : Event) : Prop :=
  isPostprocess e ∨ ∃ I', iterationOf e = some I' ∧ I' < I

/-- The event is the call of `fpEmbedPostprocess` or belongs to an iteration for a vertex
not larger than `I`. -/
def atOrBelow (I : Int) (e : Event) : Prop :=
  isPostprocess e ∨ ∃ I', iterationOf e = some I' ∧ I' ≤ I

/-- What the control flow of `gp_Embed` allows to be logged (`later`) once an event has been
logged: nothing after `fpEmbedPostprocess` or after a `_WalkDown` that returned `NOTOK`;
after a `_WalkDown` for `I` with another result than `OK`, in iteration `I` only the call of
`fpEmbedIterationPostprocess`; after `fpEmbedIterationPostprocess` returned `r` other than
`OK` only `fpEmbedPostprocess` with the same `I` and `r`; otherwise events of the same or
later iterations (smaller vertices). -/
def follows (later : Event) : Event → Prop
  | .EmbedPostprocess _ _ => False
  | .WalkDown I _ x =>
    if x = OK then atOrBelow I later
    else if x = NOTOK then False
    else (∃ r, later = .EmbedIterationPostprocess I r) ∨ below I later
  | .EmbedIterationPostprocess I r =>
    if r = OK then below I later else later = .EmbedPostprocess I r
  | .WalkUp I _ => atOrBelow I later
  | .MergeBicomps I _ => atOrBelow I later
  | .HandleInactiveVertex I _ => atOrBelow I later
  | .CreateDFSTree _ => True
  | .SortVertices _ => True
  | .CreateFwdArcLists _ => True

/-- An event of iteration `I` after which the iteration goes on normally. -/
def calm (I : Int) : Event → Prop
  | .WalkUp I' _ => I' = I
  | .MergeBicomps I' _ => I' = I
  | .HandleInactiveVertex I' _ => I' = I
  | .WalkDown I' _ x => I' = I ∧ x = OK
  | _ => False

/-- The way the child loop of `gp_Embed` is left after `_WalkDown` returned `x ≠ OK`. -/
def childExit (x : Int) : ChildLoopExit :=
  if x = NOTOK then .returned NOTOK else .ended x

/-- Relation between the events `new` logged by the child loop of `gp_Embed` in iteration
`I` and the way the loop was left. -/
def childShape (I : Int) (new : List Event) (val : Option ChildLoopExit) : Prop :=
  (∀ e ∈ new, isHookCall I e ∨ ∃ R x, e = Event.WalkDown I R x) ∧
  (∀ e ∈ new.tail, calm I e) ∧
  (∀ R x, x ≠ OK → Event.WalkDown I R x ∈ new → val = some (childExit x)) ∧
  (∀ x, x ≠ OK → Event.HandleInactiveVertex I x ∈ new → val = some (.returned NOTOK)) ∧
  (Event.MergeBicomps I NOTOK ∈ new → val = some (.returned NOTOK)) ∧
  (∀ x, val = some (.returned x) → x = NOTOK)

/-- Relation between the events `new` logged by one iteration of the main loop of
`gp_Embed`, for vertex `I`, and the way the iteration was left. -/
def iterShape (fns : graphFunctionTable) (I : Int) (new : List Event)
    (val : Option IterationExit) : Prop :=
  (∀ e ∈ new, iterationOf e = some I) ∧
  new.Pairwise follows ∧
  (∀ R, Event.WalkDown I R NOTOK ∈ new → val = some (.returned NOTOK)) ∧
  (∀ x, x ≠ OK → Event.HandleInactiveVertex I x ∈ new → val = some (.returned NOTOK)) ∧
  (Event.MergeBicomps I NOTOK ∈ new → val = some (.returned NOTOK)) ∧
  (∀ r, Event.EmbedIterationPostprocess I r ∈ new →
    val = some (if r ≠ OK then .broke r else .next r) ∧
    (∃ g0 g1, fns.fpEmbedIterationPostprocess g0 I = some (r, g1))) ∧
  (∀ r, val = some (.next r) → ∀ a, below I a → ∀ b ∈ new, follows a b) ∧
  (∀ r, val = some (.broke r) → ∀ b ∈ new, follows (.EmbedPostprocess I r) b) ∧
  (∀ r, val = some (.returned r) → r = NOTOK)

/-- Relation between the events `new` logged by the main loop of `gp_Embed` run from
`I = k - 1` down and the way the loop was left. -/
def mainShape (fns : graphFunctionTable) (k : Nat) (new : List Event)
    (val : Option EmbedLoopExit) : Prop :=
  (∀ e ∈ new, ∃ I : Int, iterationOf e = some I ∧ 0 ≤ I ∧ I < k) ∧
  new.Pairwise follows ∧
  (∀ I R, Event.WalkDown I R NOTOK ∈ new → val = some (.returned NOTOK)) ∧
  (∀ I x, x ≠ OK → Event.HandleInactiveVertex I x ∈ new → val = some (.returned NOTOK)) ∧
  (∀ I, Event.MergeBicomps I NOTOK ∈ new → val = some (.returned NOTOK)) ∧
  (∀ I r, r ≠ OK → Event.EmbedIterationPostprocess I r ∈ new → val = some (.ended I r)) ∧
  (∀ I r, Event.EmbedIterationPostprocess I r ∈ new →
    ∃ g0 g1, fns.fpEmbedIterationPostprocess g0 I = some (r, g1)) ∧
  (∀ I r, val = some (.ended I r) → ∀ b ∈ new, follows (.EmbedPostprocess I r) b) ∧
  (∀ r, val = some (.returned r) → r = NOTOK)

/-- The event is a call made by `gp_Embed` before its main loop. -/
def isPreprocess : Event → Prop
  | .CreateDFSTree _ => True
  | .SortVertices _ => True
  | .CreateFwdArcLists _ => True
  | _ => False

/-- Summary of the control flow of `gp_Embed` in terms of the ghost trace `tr` of a run and
the value `val` returned. -/
def runShape (fns : graphFunctionTable) (tr : List Event) (val : Option Int) : Prop :=
  tr.Pairwise follows ∧
  (∀ x, x ≠ OK → Event.CreateDFSTree x ∈ tr → val = some NOTOK) ∧
  (∀ x, x ≠ OK → Event.SortVertices x ∈ tr → val = some NOTOK) ∧
  (∀ x, x ≠ OK → Event.CreateFwdArcLists x ∈ tr → val = some NOTOK) ∧
  (∀ I R, Event.WalkDown I R NOTOK ∈ tr → val = some NOTOK) ∧
  (∀ I x, x ≠ OK → Event.HandleInactiveVertex I x ∈ tr → val = some NOTOK) ∧
  (∀ I, Event.MergeBicomps I NOTOK ∈ tr → val = some NOTOK) ∧
  (∀ I r, r ≠ OK → Event.EmbedIterationPostprocess I r ∈ tr →
    tr.head? = some (.EmbedPostprocess I r)) ∧
  (∀ I r, Event.EmbedIterationPostprocess I r ∈ tr →
    ∃ g0 g1, fns.fpEmbedIterationPostprocess g0 I = some (r, g1)) ∧
  (∀ I r, Event.EmbedPostprocess I r ∈ tr →
    ∃ g0, val = (fns.fpEmbedPostprocess g0 I r).map Prod.fst)

/-- The state in which pass 1 of `_WalkDown` starts when pass 0 ended at `W`, `WPrevLink`. -/
def secondPassLoop (fuel : Nat) (fns : graphFunctionTable) (g : graph) (I R W WP : Int) :
    Run WalkDownExit :=
  walkDownPassLoop fuel fns
    (walkDownShortCircuit (walkDownPassLoop fuel fns (sp_ClearStack g) I R 0).g R 0 W WP) I R 1

/-- A stopping vertex of the Walkdown for `I`: `W` is not the endpoint of an unembedded
back edge, has no pertinent child bicomp and is not inactive. -/
def isStoppingVertex (g : graph) (I W : Int) : Prop :=
  (g.V W).adjacentTo = NIL ∧ (g.V W).pertinentBicompList = NIL ∧
    _VertexActiveStatus g W I ≠ VAS_INACTIVE

/-- The arena of `K5` when `gp_Embed` (default hooks) is about to call `_WalkDown(1, 7)`:
after the preprocessing, the iterations for `I = 4, 3, 2` and the Walkups of `I = 1`. -/
def K5AtWalkDown : graph :=
  let fns := defaultFunctions 50 _InitGraphNode readyExternals
  let g0 := (embedPreprocess 50 fns readyExternals K5 EMBEDFLAGS_PLANAR).g
  let g4 := (embedIteration 50 fns 5 g0 4).g
  let g3 := (embedIteration 50 fns 5 g4 3).g
  let g2 := (embedIteration 50 fns 5 g3 2).g
  (walkUpForwardArcs 50 50 g2 1 (g2.V 1).fwdArcList).g

/-- The default function table (fuel 50, identity collaborators) used on the concrete
inputs. -/
def stdFunctions : graphFunctionTable := defaultFunctions 50 _InitGraphNode readyExternals

/-- The default table with an extension hook `fpMergeBicomps` that reports `NOTOK`. -/
def mergeFailing : graphFunctionTable :=
  { stdFunctions with fpMergeBicomps := fun g _ _ _ _ => some (NOTOK, g) }

/-- The default table with an extension hook `fpHandleInactiveVertex` that reports
`NONEMBEDDABLE` and leaves the graph, `W` and `WPrevLink` as they are. -/
def inactiveNonembeddable : graphFunctionTable :=
  { stdFunctions with
    fpHandleInactiveVertex := fun g _ W WPrevLink => some (NONEMBEDDABLE, g, W, WPrevLink) }

/-- The default table with an extension hook `fpEmbedIterationPostprocess` that reports
`OK` (as a search extension does when it goes on after a blocked Walkdown). -/
def iterationGoesOn : graphFunctionTable :=
  { stdFunctions with fpEmbedIterationPostprocess := fun g _ => some (OK, g) }

/-- The tour along `link[s]` from node `J`: the arcs met (nodes `≥ edgeOffset`) and the
first node below `edgeOffset` reached. -/
def ringTour : Nat → graph → Int → Int → Option (List Int × Int)
  | 0, _, _, _ => none
  | fuel + 1, g, s, J =>
    if J ≥ g.edgeOffset then
      (ringTour fuel g s ((g.G J).link s)).map fun r => (J :: r.1, r.2)
    else some ([], J)

/-- Two disjoint triangles `{(0,1),(1,2),(0,2),(3,4),(4,5),(3,5)}` after the DFS
`0 → 1 → 2`, `3 → 4 → 5`; edge `k` occupies the arc slots `12 + 2k` and `13 + 2k`, so the
arcs of the first triangle are `12 .. 17` and those of the second `18 .. 23`. -/
def twoTriangles : graph :=
  mkGraph 6
    [[⟨12, 1, EDGE_DFSCHILD⟩, ⟨16, 2, EDGE_FORWARD⟩],
     [⟨13, 0, EDGE_DFSPARENT⟩, ⟨14, 2, EDGE_DFSCHILD⟩],
     [⟨15, 1, EDGE_DFSPARENT⟩, ⟨17, 0, EDGE_BACK⟩],
     [⟨18, 4, EDGE_DFSCHILD⟩, ⟨22, 5, EDGE_FORWARD⟩],
     [⟨19, 3, EDGE_DFSPARENT⟩, ⟨20, 5, EDGE_DFSCHILD⟩],
     [⟨21, 4, EDGE_DFSPARENT⟩, ⟨23, 3, EDGE_BACK⟩]]
    [(NIL, 0, 0), (0, 1, 0), (1, 0, 0), (NIL, 3, 3), (3, 4, 3), (4, 3, 3)]

/-- The state in which `gp_Embed` ends on the two disjoint triangles; its last step is
`_JoinBicomps`, called by `_EmbedPostprocess`. -/
def twoTrianglesEmbedded : Run Int :=
  gp_Embed 50 stdFunctions readyExternals (some twoTriangles) EMBEDFLAGS_PLANAR

/-- The bicomp root on which a cursor of `_WalkUp` stands: `R` of the source, `NIL` when
neither `Zig` nor `Zag` is at or above `N`. -/
def walkUpRoot (g : graph) (Zig Zag : Int) : Int :=
  if Zig ≥ g.N then Zig else if Zag ≥ g.N then Zag else NIL

/-- The loop of `_WalkUp` enters its body and gets past the two `visited` checks. -/
def walkUpPasses (g : graph) (I Zig Zag : Int) : Prop :=
  Zig ≠ I ∧ (g.G Zig).visited ≠ I ∧ (g.G Zag).visited ≠ I

instance (g : graph) (I Zig Zag : Int) : Decidable (walkUpPasses g I Zig Zag) := by
  unfold walkUpPasses; infer_instance

/-- The block of `_WalkUp` guarded by `(ParentCopy = V[RootID_DFSChild].DFSParent) != I`:
the child is appended to the pertinent bicomp list of the parent copy when its lowpoint is
below `I`, and prepended otherwise. -/
def walkUpRecord (g : graph) (I RootID_DFSChild : Int) : graph :=
  let ParentCopy := (g.V RootID_DFSChild).DFSParent
  if ParentCopy ≠ I then
    let BicompList := (g.V ParentCopy).pertinentBicompList
    let r :=
      if (g.V RootID_DFSChild).Lowpoint < I then
        LCAppend g.BicompLists BicompList RootID_DFSChild
      else LCPrepend g.BicompLists BicompList RootID_DFSChild
    setPertinentBicompList { g with BicompLists := r.1 } ParentCopy r.2
  else g

/-- One pass through the body of the loop of `_WalkUp` after the two `visited` checks: the
new state and the new values of `Zig`, `Zag`, `ZigPrevLink`, `ZagPrevLink`. -/
def walkUpStep (g : graph) (I Zig Zag ZigPrevLink ZagPrevLink : Int) :
    graph × Int × Int × Int × Int :=
  let g := setGVisited g Zig I
  let g := setGVisited g Zag I
  let R := walkUpRoot g Zig Zag
  if R ≠ NIL then
    let RootID_DFSChild := R - g.N
    let ParentCopy := (g.V RootID_DFSChild).DFSParent
    (walkUpRecord g I RootID_DFSChild, ParentCopy, ParentCopy, 1, 0)
  else
    let nextZig := (g.extFace Zig).link (Int.xor 1 ZigPrevLink)
    let ZigPrevLink := if (g.extFace nextZig).link 0 = Zig then 0 else 1
    let nextZag := (g.extFace Zag).link (Int.xor 1 ZagPrevLink)
    let ZagPrevLink := if (g.extFace nextZag).link 0 = Zag then 0 else 1
    (g, nextZig, nextZag, ZigPrevLink, ZagPrevLink)

/-- Ghost list of the steps of the loop of `_WalkUp` that got past the two `visited`
checks, in order: the state before the step and the cursors `Zig` and `Zag` of the step. -/
def walkUpSteps : Nat → graph → Int → Int → Int → Int → Int → List (graph × Int × Int)
  | 0, _, _, _, _, _, _ => []
  | fuel + 1, g, I, Zig, Zag, ZigPrevLink, ZagPrevLink =>
    if walkUpPasses g I Zig Zag then
      let s := walkUpStep g I Zig Zag ZigPrevLink ZagPrevLink
      (g, Zig, Zag) :: walkUpSteps fuel s.1 I s.2.1 s.2.2.1 s.2.2.2.1 s.2.2.2.2
    else []

/-- A sequence of calls `_WalkUp(I, J)`, one for each `J` of the list. -/
def walkUps (fuel : Nat) (I : Int) : graph → List Int → Option graph
  | g, [] => some g
  | g, J :: Js => (_WalkUp fuel g I J).bind fun g1 => walkUps fuel I g1 Js

/-- Ghost list of the steps (see `walkUpSteps`) of a sequence of calls `_WalkUp(I, J)`. -/
def walkUpsSteps (fuel : Nat) (I : Int) : graph → List Int → List (graph × Int × Int)
  | _, [] => []
  | g, J :: Js =>
    walkUpSteps fuel (setAdjacentTo g (g.G J).v J) I (g.G J).v (g.G J).v 1 0 ++
      match _WalkUp fuel g I J with
      | some g1 => walkUpsSteps fuel I g1 Js
      | none => []

/-- The insertions `(ParentCopy, RootID_DFSChild)` into pertinent bicomp lists made by the
steps of a ghost list: one for each step with a cursor on a bicomp root whose parent copy is
not `I`. -/
def insertions (I : Int) (steps : List (graph × Int × Int)) : List (Int × Int) :=
  steps.filterMap fun s =>
    let R := walkUpRoot s.1 s.2.1 s.2.2
    let c := R - s.1.N
    if R ≠ NIL ∧ (s.1.V c).DFSParent ≠ I then some ((s.1.V c).DFSParent, c) else none

/-- The arena of the triangle when `gp_Embed` (default hooks) starts the iteration `I = 0`:
after the preprocessing and the iterations for `I = 2, 1`. -/
def triangleAtWalkUp : graph :=
  let g0 := (embedPreprocess 50 stdFunctions readyExternals triangle EMBEDFLAGS_PLANAR).g
  let g2 := (embedIteration 50 stdFunctions 3 g0 2).g
  (embedIteration 50 stdFunctions 3 g2 1).g

/-- Invariant of the pertinent bicomp lists during the Walkups of iteration `I`, for the
ghost list `ins` of the insertions `(ParentCopy, child)` made so far: every child recorded
was inserted at its DFS parent and its root copy carries the stamp `I`; no child was
inserted twice; and, when the lists were empty at the start (`b`), the pertinent bicomp list
of every vertex `P` is a valid list holding exactly the children inserted at `P`. -/
def PertInv (b : Prop) (g : graph) (I : Int) (ins : List (Int × Int)) : Prop :=
  (∀ p ∈ ins, p.1 = (g.V p.2).DFSParent ∧ (g.G (p.2 + g.N)).visited = I) ∧
  (ins.map Prod.snd).Nodup ∧
  (b → ∃ l : Int → List Int, ∀ P,
    LCRep g.BicompLists (g.V P).pertinentBicompList (l P) ∧ ∀ c, c ∈ l P ↔ (P, c) ∈ ins)

/-- Nodes `x` and `y` are neighbours in a doubly-linked list: `y` follows `x` along
`link[s]` and `x` follows `y` along `link[1^s]`. -/
def Linked (g : graph) (s x y : Int) : Prop :=
  (g.G x).link s = y ∧ (g.G y).link (Int.xor 1 s) = x

instance (g : graph) (s x y : Int) : Decidable (Linked g s x y) :=
  inferInstanceAs (Decidable ((g.G x).link s = y ∧ (g.G y).link (Int.xor 1 s) = x))

/-- Executable check that each node of `a :: l` is linked to the next one. -/
def chainCheck (g : graph) (s : Int) : Int → List Int → Bool
  | _, [] => true
  | a, b :: t => decide (Linked g s a b) && chainCheck g s b t

/-- The ring (adjacency list) of the vertex or root copy `V` is a valid circular
doubly-linked list holding the arcs `l` in `link[s]` order: the `link[s]` tour from `V`
visits `l` and comes back to `V`, the `link[1^s]` tour is the reverse tour, no node occurs
twice, `V` lies below `edgeOffset` and the arcs lie at or above it. -/
def Ring (g : graph) (s V : Int) (l : List Int) : Prop :=
  List.Chain' (Linked g s) (V :: l ++ [V]) ∧ (V :: l).Nodup ∧ V < g.edgeOffset ∧
    ∀ a ∈ l, g.edgeOffset ≤ a

/-- Executable form of `Ring`. -/
def ringCheck (g : graph) (s V : Int) (l : List Int) : Bool :=
  chainCheck g s V (l ++ [V]) && decide ((V :: l).Nodup) && decide (V < g.edgeOffset) &&
    l.all fun a => decide (g.edgeOffset ≤ a)

/-- What is assumed of the hook `fpInitGraphNode`, whose default lies outside
`graphEmbed.c`: it re-initialises the node `x` only, whose links become `NIL`. -/
def RetiresNode (init : graph → Int → graph) : Prop :=
  ∀ (s : graph) (x : Int), (init s x).edgeOffset = s.edgeOffset ∧ (init s x).N = s.N ∧
    (init s x).V = s.V ∧ (∀ j, j ≠ x → (init s x).G j = s.G j) ∧
    ∀ t, ((init s x).G x).link t = NIL

/-- The root copy `N + i` is live in `g`: not defunct. -/
def liveRoot (g : graph) (i : Nat) : Prop := (g.G (g.N + (i : Int))).link 0 ≠ NIL

instance (g : graph) (i : Nat) : Decidable (liveRoot g i) :=
  inferInstanceAs (Decidable ((g.G (g.N + (i : Int))).link 0 ≠ NIL))

/-- The arcs, in `link[0]` order, that the ring of the vertex `W` holds once the live root
copies `N + i`, `i < k`, are joined to their parent copies `DFSParent[i]` through link 0
without inversion: the rings `rl (N + i)` of the root copies joined to `W`, the last one
joined in front, each in its own order, followed by the ring `rl W` of `W`. -/
def joinedRing (g : graph) (rl : Int → List Int) (k : Nat) (W : Int) : List Int :=
  (((List.range k).filter fun i =>
      decide (liveRoot g i ∧ (g.V (i : Int)).DFSParent = W)).reverse.flatMap
    fun i => rl (g.N + (i : Int))) ++ rl W

/-- The state `_JoinBicomps` expects: every vertex `W` in `[0, N)` and every live root copy
in `[N, edgeOffset)` has a valid ring whose arcs in `link[0]` order are `rl`; the ring of a
live root copy `N + i` holds an arc and `DFSParent[i]` is a vertex; different rings share
no arc. -/
def JoinReady (g : graph) (rl : Int → List Int) : Prop :=
  (∀ W, 0 ≤ W → W < g.N → Ring g 0 W (rl W)) ∧
  (∀ i : Nat, g.N + (i : Int) < g.edgeOffset → liveRoot g i →
    Ring g 0 (g.N + (i : Int)) (rl (g.N + (i : Int))) ∧ rl (g.N + (i : Int)) ≠ [] ∧
    0 ≤ (g.V (i : Int)).DFSParent ∧ (g.V (i : Int)).DFSParent < g.N) ∧
  ∀ X Y, 0 ≤ X → X < g.edgeOffset → 0 ≤ Y → Y < g.edgeOffset → X ≠ Y →
    ∀ x ∈ rl X, x ∉ rl Y

/-- The body of the loop of `_JoinBicomps` for `R = N + k`, where `N` is the local variable
set from `g0`. -/
def joinStep (fuel : Nat) (init : graph → Int → graph) (g0 : graph) (s : Option graph)
    (k : Nat) : Option graph :=
  s.bind fun s =>
    let R := g0.N + (k : Int)
    if (s.G R).link 0 ≠ NIL then
      _MergeVertex fuel init s (s.V (R - g0.N)).DFSParent 0 R
    else some s

/-- The arena of the two disjoint triangles when `_EmbedPostprocess` is about to call
`_JoinBicomps`: after the preprocessing, the main loop and `_OrientVerticesInEmbedding`. -/
def twoTrianglesAtJoin : graph :=
  let g0 := (embedPreprocess 50 stdFunctions readyExternals twoTriangles EMBEDFLAGS_PLANAR).g
  let g1 := (embedLoop 50 stdFunctions 6 6 g0 OK).g
  (_OrientVerticesInEmbedding 50 g1).getD g1

/-- The rings of `twoTrianglesAtJoin` in `link[0]` order: the vertices `1, 2, 4, 5` and the
live root copies `7 = N + 1` and `10 = N + 4` hold two arcs each, the DFS roots `0` and `3`
none. -/
def twoTrianglesRings : Int → List Int :=
  lookupD [(1, [13, 14]), (2, [15, 17]), (4, [19, 20]), (5, [21, 23]), (7, [16, 12]),
    (10, [22, 18])] []

/-- The `visited` stamps of all nodes. -/
def stamps (g : graph) : Int → Int := fun j => (g.G j).visited

/-- The double assignment `G[X].link[0] = G[X].link[1] = A`. -/
def bothLinks (g : graph) (X A : Int) : graph :=
  setGLink (setGLink g X 1 A) X 0 A

/-- The double assignment `extFace[X].link[0] = extFace[X].link[1] = A`. -/
def bothExtFaceLinks (g : graph) (X A : Int) : graph :=
  setExtFaceLink (setExtFaceLink g X 1 A) X 0 A

/-- The statements of `_CreateDFSTreeEmbedding` for a vertex `I` with a DFS parent, once the
DFS_PARENT arc `J` is found. -/
def treeStep (g : graph) (I J : Int) : graph :=
  let R := g.N + I
  let g := bothLinks g I J
  let g := bothLinks g J I
  let g := setGv g J R
  let Jtwin := gp_GetTwinArc g J
  let g := bothLinks g R Jtwin
  let g := bothLinks g Jtwin R
  let g := bothExtFaceLinks g R I
  bothExtFaceLinks g I R

/-- What `_CreateDFSTreeEmbedding` establishes at a vertex `C` of `g0` in the state `g1`,
`J` being the DFS_PARENT arc of `C`: a DFS root is alone in its ring; otherwise the ring of
`C` holds `J` only, `J.v` is the root copy `N + C`, the ring of the root copy holds the twin
of `J` only, and `C` and the root copy are each other's external-face neighbours. -/
def treeEmbeddedAt (g0 g1 : graph) (C J : Int) : Prop :=
  if (g0.V C).DFSParent = NIL then (g1.G C).link 0 = C ∧ (g1.G C).link 1 = C
  else
    (g1.G C).link 0 = J ∧ (g1.G C).link 1 = J ∧
    (g1.G J).link 0 = C ∧ (g1.G J).link 1 = C ∧ (g1.G J).v = g0.N + C ∧
    (g1.G (g0.N + C)).link 0 = gp_GetTwinArc g0 J ∧
    (g1.G (g0.N + C)).link 1 = gp_GetTwinArc g0 J ∧
    (g1.G (gp_GetTwinArc g0 J)).link 0 = g0.N + C ∧
    (g1.G (gp_GetTwinArc g0 J)).link 1 = g0.N + C ∧
    (g1.extFace (g0.N + C)).link 0 = C ∧ (g1.extFace (g0.N + C)).link 1 = C ∧
    (g1.extFace C).link 0 = g0.N + C ∧ (g1.extFace C).link 1 = g0.N + C

/-- The input `_CreateDFSTreeEmbedding` expects: `N ≥ 0` and the root copies lie below
`edgeOffset`; every vertex `V` in `[0, N)` has a valid ring (arcs `rl V` in `link[0]`
order) and the rings share no arc; for a vertex `C` with a DFS parent the ring is
`pre C ++ J C :: post` with `J C` the first DFS_PARENT arc (found with the fuel given), and
the twin of `J C` is an arc, not of type DFS_PARENT, in the ring of a vertex with a smaller
index (the DFS parent, vertices being numbered by DFI). -/
def TreeReady (fuel : Nat) (g : graph) (rl pre : Int → List Int) (J : Int → Int) : Prop :=
  0 ≤ g.N ∧ 2 * g.N ≤ g.edgeOffset ∧
  (∀ V, 0 ≤ V → V < g.N → Ring g 0 V (rl V)) ∧
  (∀ X Y, 0 ≤ X → X < g.N → 0 ≤ Y → Y < g.N → X ≠ Y → ∀ x ∈ rl X, x ∉ rl Y) ∧
  ∀ C, 0 ≤ C → C < g.N → (g.V C).DFSParent ≠ NIL →
    (∃ post, rl C = pre C ++ J C :: post) ∧
    (∀ x ∈ pre C, (g.G x).type ≠ EDGE_DFSPARENT) ∧ (g.G (J C)).type = EDGE_DFSPARENT ∧
    (pre C).length < fuel ∧ (g.G (gp_GetTwinArc g (J C))).type ≠ EDGE_DFSPARENT ∧
    ∃ P, 0 ≤ P ∧ P < C ∧ gp_GetTwinArc g (J C) ∈ rl P

/-- The rings of the triangle in `link[0]` order. -/
def triangleRings : Int → List Int :=
  lookupD [(0, [6, 10]), (1, [7, 8]), (2, [9, 11])] []

/-- The DFS_PARENT arcs of the triangle: arc `7` at vertex `1`, arc `9` at vertex `2`. -/
def triangleParentArc : Int → Int :=
  lookupD [(1, 7), (2, 9)] NIL

/-- The arcs `l` form a circular doubly-linked list of their own in `link[s]` order: the
`link[s]` tour from the first arc visits `l` and comes back to the first arc, the
`link[1^s]` tour is the reverse tour, and no arc occurs twice. -/
def Cycle (g : graph) (s : Int) (l : List Int) : Prop :=
  List.Chain' (Linked g s) (l ++ l.take 1) ∧ l.Nodup

/-- The statements of `_CreateFwdArcLists` for a vertex `I` whose `link[1]` arc `Jfirst` is
a forward arc, once the end `Jnext` of the run of forward arcs is found. -/
def fwdStep (g : graph) (I Jfirst Jnext : Int) : graph :=
  let Jlast := (g.G Jnext).link 0
  let g := setGLink g Jnext 0 I
  let g := setGLink g I 1 Jnext
  let g := setFwdArcList g I Jfirst
  let g := setGLink g Jfirst 0 Jlast
  setGLink g Jlast 1 Jfirst

/-- What `_CreateFwdArcLists` establishes at a vertex `V` of `g0` in the state `g1`, `fw`
being the run of forward arcs at the `link[1]` end of the ring of `V` and `rest` the other
arcs, both in `link[1]` order.  Without forward arcs nothing changes at `V`; otherwise
`fwdArcList[V]` is the first forward arc, the forward arcs form a circular list of their own
in their original order, and the ring of `V` is a valid ring holding the other arcs in
their original order. -/
def fwdArcListsAt (g0 g1 : graph) (V : Int) (fw rest : List Int) : Prop :=
  if fw = [] then g1.G V = g0.G V ∧ (∀ x ∈ rest, g1.G x = g0.G x) ∧ g1.V V = g0.V V
  else (g1.V V).fwdArcList = fw.headD NIL ∧ Cycle g1 1 fw ∧ Ring g1 1 V rest

/-- The input for which `_CreateFwdArcLists` is specified: the vertices lie below
`edgeOffset`; a vertex `V` in `[0, N)` with an arc at `G[V].link[1]` has a valid ring whose
arcs in `link[1]` order are `fw V ++ rest V`, where `fw V` are forward arcs (few enough for
the fuel) and the node after them is not a forward arc; a vertex without arcs has empty
lists; the rings share no arc. -/
def FwdReady (fuel : Nat) (g : graph) (fw rest : Int → List Int) : Prop :=
  g.N ≤ g.edgeOffset ∧
  (∀ V, 0 ≤ V → V < g.N → g.edgeOffset ≤ (g.G V).link 1 →
    Ring g 1 V (fw V ++ rest V) ∧ (∀ x ∈ fw V, (g.G x).type = EDGE_FORWARD) ∧
    (g.G ((rest V ++ [V]).headD V)).type ≠ EDGE_FORWARD ∧ (fw V).length < fuel) ∧
  (∀ V, 0 ≤ V → V < g.N → (g.G V).link 1 < g.edgeOffset → fw V = [] ∧ rest V = []) ∧
  ∀ X Y, 0 ≤ X → X < g.N → 0 ≤ Y → Y < g.N → X ≠ Y →
    ∀ x ∈ fw X ++ rest X, x ∉ fw Y ++ rest Y

/-- An arena with one vertex whose `link[1]` arc `2` is a forward arc that is its own
`link[1]` successor: the run of forward arcs never ends. -/
def endlessForwardRun : graph :=
  { nullGraph with
    N := 1
    edgeOffset := 2
    G := fun j =>
      if j = 0 then ⟨NIL, 0, fun _ => 2, 0, false⟩ else ⟨0, 0, fun _ => 2, EDGE_FORWARD, false⟩ }

/-- The forward arcs of the triangle at the `link[1]` end of each ring: the arc `10` at
vertex `0`. -/
def triangleForward : Int → List Int :=
  lookupD [(0, [10])] []

/-- The other arcs of the rings of the triangle, in `link[1]` order. -/
def triangleOthers : Int → List Int :=
  lookupD [(0, [6]), (1, [8, 7]), (2, [11, 9])] []

/-- The statements of the inner loop of `_OrientVerticesInBicomp` at the arc `J`, for
`PreserveSigns = 0`: a DFS_CHILD arc pushes its child with the accumulated flag and has its
inverted flag cleared. -/
def orientArc (invertedFlag : Int) (g : graph) (J : Int) : graph :=
  if (g.G J).type = EDGE_DFSCHILD then
    setEdgeFlagInverted
      (sp_Push2 g (g.G J).v (Int.xor invertedFlag (if (g.G J).inverted then 1 else 0))) J false
  else g

/-- The statements of the loop of `_InvertVertex` at the node `J`: its two links are
swapped. -/
def swapLinks (g : graph) (J : Int) : graph :=
  setGLink (setGLink g J 0 ((g.G J).link 1)) J 1 ((g.G J).link 0)

/-- The entries that the inner loop of `_OrientVerticesInBicomp` pushes for the arcs `l`
(visited in this order), top of the stack first. -/
def pushedBy (g : graph) (invertedFlag : Int) : List Int → List Int
  | [] => []
  | J :: t =>
    pushedBy g invertedFlag t ++
      (if (g.G J).type = EDGE_DFSCHILD then
        [Int.xor invertedFlag (if (g.G J).inverted then 1 else 0), (g.G J).v]
      else [])

/-- The pairs `(child, flag)` that the inner loop of `_OrientVerticesInBicomp` pushes for
the arcs `l` (visited in this order), the pair on top of the stack first. -/
def childPairs (g : graph) (invertedFlag : Int) : List Int → List (Int × Int)
  | [] => []
  | J :: t =>
    childPairs g invertedFlag t ++
      (if (g.G J).type = EDGE_DFSCHILD then
        [((g.G J).v, Int.xor invertedFlag (if (g.G J).inverted then 1 else 0))]
      else [])

/-- The stack entries of a list of pairs `(vertex, flag)`, each pushed by `sp_Push2`, the
pair on top first. -/
def stackOf (ps : List (Int × Int)) : List Int :=
  ps.flatMap fun p => [p.2, p.1]

/-- The vertices and root copies that `_OrientVerticesInEmbedding` visits: the live root
copies in `[N, edgeOffset)` and what is reached from them through the DFS_CHILD arcs of the
rings `rl`. -/
inductive Reach (g : graph) (rl : Int → List Int) : Int → Prop
  | root (k : Nat) : g.N + (k : Int) < g.edgeOffset → (g.G (g.N + (k : Int))).link 0 ≠ NIL →
      Reach g rl (g.N + (k : Int))
  | child (U J : Int) : Reach g rl U → J ∈ rl U → (g.G J).type = EDGE_DFSCHILD →
      Reach g rl (g.G J).v

/-- The node `W` is `U` or is reached from `U` through DFS_CHILD arcs of the rings `rl`. -/
inductive Desc (g : graph) (rl : Int → List Int) : Int → Int → Prop
  | refl (U : Int) : Desc g rl U U
  | step (U J W : Int) : J ∈ rl U → (g.G J).type = EDGE_DFSCHILD → Desc g rl (g.G J).v W →
      Desc g rl U W

/-- The sum of the weights of the children that the DFS_CHILD arcs among `l` lead to. -/
def childWeight (g : graph) (wt : Int → Nat) (l : List Int) : Nat :=
  ((l.filter fun J => decide ((g.G J).type = EDGE_DFSCHILD)).map fun J => wt (g.G J).v).sum

/-- The state `_OrientVerticesInEmbedding` expects after the edge-embedding phase: `N` and
`edgeOffset` are not negative; every node visited has a valid ring (arcs `rl` in `link[0]`
order) that the fuel suffices to walk; the rings of different nodes visited share no arc;
and the DFS_CHILD arcs form a forest, which the weight `wt` expresses: the weight of a node
exceeds the sum of the weights of its children (and is below the fuel). -/
def OrientReady (fuel : Nat) (g : graph) (rl : Int → List Int) (wt : Int → Nat) : Prop :=
  0 ≤ g.N ∧ 0 ≤ g.edgeOffset ∧
  (∀ U, Reach g rl U →
    Ring g 0 U (rl U) ∧ (rl U).length < fuel ∧ wt U < fuel ∧ childWeight g wt (rl U) < wt U) ∧
  ∀ U W, Reach g rl U → Reach g rl W → U ≠ W → ∀ x ∈ rl U, x ∉ rl W

/-- Invariant of `_OrientVerticesInEmbedding` relating a state `s` to the initial state
`g`: the sizes, the types and the `v` members are those of `g`; no inverted flag is set that
was not set in `g`; every node visited has a valid ring with the arcs of `g`, in the order
of `g` or reversed; nodes below `edgeOffset` that are not visited are as in `g`. -/
def OrientInv (g : graph) (rl : Int → List Int) (s : graph) : Prop :=
  s.N = g.N ∧ s.edgeOffset = g.edgeOffset ∧
  (∀ x, (s.G x).type = (g.G x).type ∧ (s.G x).v = (g.G x).v) ∧
  (∀ x, (s.G x).inverted = true → (g.G x).inverted = true) ∧
  (∀ U, Reach g rl U → Ring s 0 U (rl U) ∨ Ring s 0 U (rl U).reverse) ∧
  ∀ x, x < g.edgeOffset → ¬ Reach g rl x → s.G x = g.G x

/-- The path `0 - 1 - 2 - 3 - 4` with the chords `(2,4)`, `(1,3)` and `(0,4)` after the DFS
`0 → 1 → 2 → 3 → 4`; edge `k` occupies the arc slots `10 + 2k` and `11 + 2k`.  Its embedding
flips the bicomp below vertex `2`. -/
def chordedPath : graph :=
  mkGraph 5
    [[⟨10, 1, EDGE_DFSCHILD⟩, ⟨22, 4, EDGE_FORWARD⟩],
     [⟨11, 0, EDGE_DFSPARENT⟩, ⟨12, 2, EDGE_DFSCHILD⟩, ⟨20, 3, EDGE_FORWARD⟩],
     [⟨13, 1, EDGE_DFSPARENT⟩, ⟨14, 3, EDGE_DFSCHILD⟩, ⟨18, 4, EDGE_FORWARD⟩],
     [⟨15, 2, EDGE_DFSPARENT⟩, ⟨21, 1, EDGE_BACK⟩, ⟨16, 4, EDGE_DFSCHILD⟩],
     [⟨17, 3, EDGE_DFSPARENT⟩, ⟨23, 0, EDGE_BACK⟩, ⟨19, 2, EDGE_BACK⟩]]
    [(NIL, 0, 0), (0, 1, 0), (1, 2, 0), (2, 1, 0), (3, 0, 0)]

/-- The arena of `chordedPath` when `_EmbedPostprocess` is about to call
`_OrientVerticesInEmbedding`: after the preprocessing and the main loop of `gp_Embed`. -/
def chordedPathAtOrient : graph :=
  (embedLoop 50 stdFunctions 5 5
    (embedPreprocess 50 stdFunctions readyExternals chordedPath EMBEDFLAGS_PLANAR).g OK).g

/-- The rings of `chordedPathAtOrient` in `link[0]` order: one bicomp, with the root copy
`6 = N + 1`. -/
def chordedPathRings : Int → List Int :=
  lookupD [(1, [11, 20, 12]), (2, [13, 14, 18]), (3, [21, 15, 16]), (4, [23, 17, 19]),
    (6, [22, 10])] []

/-- The number of vertices in the DFS subtree below a vertex of `chordedPathAtOrient`, the
vertex included. -/
def chordedPathWeight : Int → Nat :=
  lookupD [(6, 5), (1, 4), (2, 3), (3, 2), (4, 1)] 0

/-- The arena of `chordedPath` when `gp_Embed` (default hooks) is about to call
`_WalkDown(1, 7)`: after the preprocessing, the iterations for `I = 4, 3, 2` and the Walkups
of `I = 1`. -/
def chordedPathAtWalkDown : graph :=
  let g0 := (embedPreprocess 50 stdFunctions readyExternals chordedPath EMBEDFLAGS_PLANAR).g
  let g4 := (embedIteration 50 stdFunctions 5 g0 4).g
  let g3 := (embedIteration 50 stdFunctions 5 g4 3).g
  let g2 := (embedIteration 50 stdFunctions 5 g3 2).g
  (walkUpForwardArcs 50 50 g2 1 (g2.V 1).fwdArcList).g

/-- The state `_EmbedBackEdgeToDescendant(RootSide, R, W, WPrevLink)` expects, with
`fwdArc = adjacentTo[W]` and `backArc` its twin: the link indices are `0` or `1`; `R` and `W`
are different and have valid rings (arcs `a` and `c` in `link[0]` order) that share no arc;
the forward arcs `fw`, in `link[1]` order, form a valid circular list of arcs that holds
`fwdArc` and shares no arc with the two rings; `backArc` is in neither ring and not in that
list. -/
def EmbedReady (g : graph) (RootSide R W WPrevLink : Int) (a c fw : List Int) : Prop :=
  0 ≤ g.edgeOffset ∧ (RootSide = 0 ∨ RootSide = 1) ∧ (WPrevLink = 0 ∨ WPrevLink = 1) ∧
  Ring g 0 R a ∧ Ring g 0 W c ∧ R ≠ W ∧ (∀ x ∈ a, x ∉ c) ∧
  Cycle g 1 fw ∧ (g.V W).adjacentTo ∈ fw ∧
  (∀ x ∈ fw, g.edgeOffset ≤ x ∧ x ∉ a ∧ x ∉ c) ∧
  gp_GetTwinArc g (g.V W).adjacentTo ∉ a ∧ gp_GetTwinArc g (g.V W).adjacentTo ∉ c ∧
  gp_GetTwinArc g (g.V W).adjacentTo ∉ fw

/-- The arena of `K5` when `_WalkDown(1, 7)` is about to call
`_EmbedBackEdgeToDescendant(0, 7, 4, 1)`: the Walkdown has descended from the vertex `2` to
the root copy `8` and on to the vertex `4`, and `_MergeBicomps` has merged `8` into `2`. -/
def K5AtEmbed : graph :=
  (mergeBicompsStep 50 _InitGraphNode
    (walkDownDescend (sp_ClearStack K5AtWalkDown) 1 2 1).1).getD K5AtWalkDown

/-- The statements of an iteration of `_MergeBicomps` that stitch the external face at `Z`:
`extFace[Z].link[ZPrevLink]` becomes the neighbour `extFace[R].link[1 ^ Rout]` of `R`, and
one link of that neighbour becomes `Z`. -/
def stitchExtFace (g : graph) (R Rout Z ZPrevLink : Int) : graph :=
  let extFaceVertex := (g.extFace R).link (Int.xor 1 Rout)
  let g := setExtFaceLink g Z ZPrevLink extFaceVertex
  if (g.extFace extFaceVertex).link 0 = (g.extFace extFaceVertex).link 1 then
    setExtFaceLink g extFaceVertex (Int.xor Rout (g.extFace extFaceVertex).inversionFlag) Z
  else
    setExtFaceLink g extFaceVertex (if (g.extFace extFaceVertex).link 0 = R then 0 else 1) Z

/-- The statements of an iteration of `_MergeBicomps` under `if (ZPrevLink == Rout)`: the
inversion of `R` and the mark on its DFS_CHILD arc. -/
def flipRoot (fuel : Nat) (g : graph) (R Rout ZPrevLink : Int) : Option graph :=
  if ZPrevLink = Rout then
    (if (g.G R).link 0 ≠ (g.G R).link 1 then _InvertVertex fuel g R else some g).bind
      fun g => markChildArcInverted fuel g ((g.G R).link 0)
  else some g

/-- The statements of an iteration of `_MergeBicomps` that delete `R - N` from
`pertinentBicompList[Z]` and from `separatedDFSChildList[Z]`. -/
def dropFromLists (g : graph) (R Z : Int) : graph :=
  let RootID_DFSChild := R - g.N
  let theList := (g.V Z).pertinentBicompList
  let r := LCDelete g.BicompLists theList RootID_DFSChild
  let g := setPertinentBicompList { g with BicompLists := r.1 } Z r.2
  let theList := (g.V Z).separatedDFSChildList
  let r := LCDelete g.DFSChildLists theList RootID_DFSChild
  setSeparatedDFSChildList { g with DFSChildLists := r.1 } Z r.2

/-- The vertex records, the bounds and the two list collections of the arena. -/
def vertexData (g : graph) :
    (Int → vertexRec) × Int × Int × listCollection × listCollection :=
  (g.V, g.N, g.edgeOffset, g.BicompLists, g.DFSChildLists)

/-- What is assumed of the hook `fpInitGraphNode` where the external-face table and the
lists matter: it leaves the external-face table, the vertex records, the bounds and the list
collections as they are. -/
def KeepsSideTables (init : graph → Int → graph) : Prop :=
  ∀ (s : graph) (x : Int), (init s x).extFace = s.extFace ∧
    vertexData (init s x) = vertexData s

/-- The first DFS_CHILD arc of a list of arcs, if there is one. -/
def firstChildArc (g : graph) (l : List Int) : Option Int :=
  l.find? fun J => decide ((g.G J).type = EDGE_DFSCHILD)

/-- The arc `J`, if there is one, gets its inverted flag set. -/
def markArc (g : graph) : Option Int → graph
  | none => g
  | some J => setEdgeFlagInverted g J true

/-- The arena of `chordedPath` when `_WalkDown(1, 7)` is about to call `_MergeBicomps`: the
Walkdown has descended from the vertex `2` to the root copy `8` and on to the vertex `3`, and
the stack holds `(2, 1)` and `(8, 1)`. -/
def chordedPathAtMerge : graph :=
  (walkDownDescend (sp_ClearStack chordedPathAtWalkDown) 1 2 1).1

/-- The arena of the triangle when `gp_Embed` (default hooks) is about to call
`_WalkDown(0, 4)`: after the preprocessing, the iterations for `I = 2, 1` and the Walkup of
`I = 0`.  The vertex `1` has the pertinent child bicomp with the root copy `5`, whose only
other vertex is `2`. -/
def triangleAtWalkDown : graph :=
  (walkUpForwardArcs 50 50 triangleAtWalkUp 0 (triangleAtWalkUp.V 0).fwdArcList).g

/-- What `_WalkUp(I, .)` leaves as it is: the links, `v`, type and inverted flag of every
node, the external-face table, every member of the vertex records other than `adjacentTo`
and `pertinentBicompList`, the pool of the separated-child lists, the bounds, the stack, and
`pertinentBicompList[I]`. -/
def walkUpKeeps (I : Int) (g g1 : graph) : Prop :=
  (∀ x, (g1.G x).link = (g.G x).link ∧ (g1.G x).v = (g.G x).v ∧
    (g1.G x).type = (g.G x).type ∧ (g1.G x).inverted = (g.G x).inverted) ∧
  g1.extFace = g.extFace ∧
  (∀ x, (g1.V x).fwdArcList = (g.V x).fwdArcList ∧
    (g1.V x).separatedDFSChildList = (g.V x).separatedDFSChildList ∧
    (g1.V x).DFSParent = (g.V x).DFSParent ∧ (g1.V x).leastAncestor = (g.V x).leastAncestor ∧
    (g1.V x).Lowpoint = (g.V x).Lowpoint ∧ (g1.V x).adjacentTo = (g.V x).adjacentTo) ∧
  g1.DFSChildLists = g.DFSChildLists ∧ g1.N = g.N ∧ g1.edgeOffset = g.edgeOffset ∧
  g1.theStack = g.theStack ∧
  (g1.V I).pertinentBicompList = (g.V I).pertinentBicompList

/-- A pair of links with the entries `link[0]` and `link[1]` exchanged. -/
def swapPair (f : Int → Int) : Int → Int := upd (upd f 0 (f 1)) 1 (f 0)

/-- The arena `g` with `link[0]` and `link[1]` exchanged in the node `V`, in every arc of
`l` and in `extFace[V]`, everything else being as in `g`: the state that `_InvertVertex(V)`
is shown to produce when `l` is the ring of `V`. -/
def invertedState (g : graph) (V : Int) (l : List Int) : graph :=
  { g with
    G := fun x =>
      if x ∈ V :: l then { g.G x with link := swapPair (g.G x).link } else g.G x
    extFace := upd g.extFace V { g.extFace V with link := swapPair (g.extFace V).link } }

/-- The stack that holds, for each entry `(R, Rout, Z, ZPrevLink)` of the list, the pair
`(Z, ZPrevLink)` and on top of it the pair `(R, Rout)`, the first entry of the list on top:
the stack on which `_WalkDown` calls `_MergeBicomps`. -/
def mergeStack (ps : List (Int × Int × Int × Int)) : List Int :=
  ps.flatMap fun p => [p.2.1, p.1, p.2.2.2, p.2.2.1]

/-- The cut vertices and root copies of a list of entries `(R, Rout, Z, ZPrevLink)`. -/
def mergeNodes (ps : List (Int × Int × Int × Int)) : List Int :=
  ps.flatMap fun p => [p.2.2.1, p.1]

/-- What `_MergeBicomps` expects of the entries `(R, Rout, Z, ZPrevLink)` on the stack:
the prev-links are `0` or `1`; the cut vertices `Z` and the root copies `R` are pairwise
different and have valid rings (arcs `rl` in `link[0]` order) that share no arc; the ring
of a root copy holds an arc, and the fuel suffices to walk it. -/
def MergeReady (fuel : Nat) (g : graph) (rl : Int → List Int)
    (ps : List (Int × Int × Int × Int)) : Prop :=
  (∀ p ∈ ps, (p.2.2.2 = 0 ∨ p.2.2.2 = 1) ∧ rl p.1 ≠ [] ∧ (rl p.1).length < fuel) ∧
  (mergeNodes ps).Nodup ∧
  (∀ X ∈ mergeNodes ps, Ring g 0 X (rl X)) ∧
  ∀ X ∈ mergeNodes ps, ∀ Y ∈ mergeNodes ps, X ≠ Y → ∀ x ∈ rl X, x ∉ rl Y

/-- In the list `l` of DFS children no child with `Lowpoint >= I` (internally active bicomp)
comes after a child with `Lowpoint < I` (externally active bicomp): the internally active
ones precede the externally active ones. -/
def ActiveFirst (g : graph) (I : Int) (l : List Int) : Prop :=
  l.Pairwise fun x y => (g.V x).Lowpoint < I → (g.V y).Lowpoint < I

/-- Invariant of the pertinent bicomp lists in the iteration for `I`: the list of every `P`
is a valid list `l P` in which the internally active children precede the externally active
ones; its members are DFS children of `P`, and their root copies carry the stamp `I`. -/
def PertOrdered (g : graph) (I : Int) (l : Int → List Int) : Prop :=
  ∀ P, LCRep g.BicompLists (g.V P).pertinentBicompList (l P) ∧ ActiveFirst g I (l P) ∧
    ∀ c ∈ l P, (g.V c).DFSParent = P ∧ (g.G (c + g.N)).visited = I

/-- The state `s1` has the pertinent bicomp lists, the Lowpoints, the DFS parents, the
stamps and `N` of the state `s`: what every step of the iteration for `I` other than an
insertion by `_WalkUp` and a deletion by `_MergeBicomps` leaves as it is. -/
def SamePertinent (s s1 : graph) : Prop :=
  s1.BicompLists = s.BicompLists ∧ s1.N = s.N ∧
  (∀ v, (s1.V v).pertinentBicompList = (s.V v).pertinentBicompList ∧
    (s1.V v).Lowpoint = (s.V v).Lowpoint ∧ (s1.V v).DFSParent = (s.V v).DFSParent) ∧
  ∀ j, (s1.G j).visited = (s.G j).visited

/-- The states reached from `g` in the iteration for `I` by any sequence of calls
`_WalkUp(I, J)`, of iterations of the loop of `_MergeBicomps` that merge the root copy at
the head of the pertinent bicomp list of the cut vertex (where `_WalkDown` took it from),
and of steps that leave the pertinent bicomp lists as they are. -/
inductive PertRun (fuel : Nat) (init : graph → Int → graph) (I : Int) (g : graph) :
    graph → Prop
  | start : PertRun fuel init I g g
  | walkUp (s s1 : graph) (J : Int) : PertRun fuel init I g s →
      _WalkUp fuel s I J = some s1 → PertRun fuel init I g s1
  | merge (s s1 : graph) (R Rout Z ZPrevLink : Int) (rest : List Int) :
      PertRun fuel init I g s → s.theStack = Rout :: R :: ZPrevLink :: Z :: rest →
      (s.V Z).pertinentBicompList ≠ NIL → R = _GetPertinentChildBicomp s Z →
      mergeBicompsStep fuel init s = some s1 → PertRun fuel init I g s1
  | other (s s1 : graph) : PertRun fuel init I g s → SamePertinent s s1 →
      PertRun fuel init I g s1

/-- The arena of the triangle at the start of the iteration `I = 0` (after the iterations
for `I = 2, 1`), with the heads of the pertinent bicomp lists written as `NIL`, which is
what they are at the start of an iteration. -/
def triangleAtStart : graph :=
  { triangleAtWalkUp with
    V := fun P => { triangleAtWalkUp.V P with pertinentBicompList := NIL } }

/-- The state after `_WalkUp(0, 10)` on `triangleAtStart`: the child `2` is in the pertinent
bicomp list of the vertex `1`. -/
def triangleWalkedUp : graph :=
  (_WalkUp 50 triangleAtStart 0 10).getD triangleAtStart

/-- The state in which `_WalkDown(0, 4)` calls `_MergeBicomps`: after the descent from the
vertex `1` to the root copy `5`, the stack holding `(1, 1)` and `(5, 0)`. -/
def triangleAtMerge : graph :=
  (walkDownDescend (sp_ClearStack triangleWalkedUp) 0 1 1).1

/-- The state after the iteration of the loop of `_MergeBicomps` on `triangleAtMerge`. -/
def triangleMerged : graph :=
  (mergeBicompsStep 50 _InitGraphNode triangleAtMerge).getD triangleAtMerge

/-- The statements of the inner loop of `_OrientVerticesInBicomp` at the arc `J`: a
DFS_CHILD arc pushes its child with the accumulated flag and, unless `PreserveSigns`, has
its inverted flag cleared. -/
def orientArcP (PreserveSigns invertedFlag : Int) (g : graph) (J : Int) : graph :=
  if (g.G J).type = EDGE_DFSCHILD then
    let g1 := sp_Push2 g (g.G J).v (Int.xor invertedFlag (if (g.G J).inverted then 1 else 0))
    if PreserveSigns = 0 then setEdgeFlagInverted g1 J false else g1
  else g

/-- The pairs `(V, invertedFlag)` that the `while` loop of `_OrientVerticesInBicomp` pops,
in the order in which it pops them; `_InvertVertex(V)` is called for the pairs with a
non-zero flag. -/
def orientVisits (fuel : Nat) : Nat → graph → Int → Option (List (Int × Int))
  | 0, _, _ => none
  | n + 1, g, PreserveSigns =>
    if sp_NonEmpty g then
      let (g, V, invertedFlag) := sp_Pop2 g
      ((if invertedFlag ≠ 0 then _InvertVertex fuel g V else some g).bind fun g =>
        pushDFSChildren fuel g ((g.G V).link 0) invertedFlag PreserveSigns).bind fun g =>
          (orientVisits fuel n g PreserveSigns).map fun r => (V, invertedFlag) :: r
    else some []

/-- The flag with which a vertex of the DFS tree is reached: `PathFlag g rl U f W f1` says
that a path of DFS_CHILD arcs of the rings `rl` leads from `U` to `W` and that `f1` is `f`
XOR the inverted flags (read as `1`/`0`) of the arcs of the path. -/
inductive PathFlag (g : graph) (rl : Int → List Int) : Int → Int → Int → Int → Prop
  | refl (U f : Int) : PathFlag g rl U f U f
  | step (U f J W f1 : Int) : J ∈ rl U → (g.G J).type = EDGE_DFSCHILD →
      PathFlag g rl (g.G J).v (Int.xor f (if (g.G J).inverted then 1 else 0)) W f1 →
      PathFlag g rl U f W f1

/-- The DFS_CHILD arcs in the rings of the nodes visited lead to different children: every
node has at most one parent arc, so the DFS_CHILD arcs form trees. -/
def ChildrenApart (g : graph) (rl : Int → List Int) : Prop :=
  ∀ U W, Reach g rl U → Reach g rl W → ∀ J ∈ rl U, ∀ K ∈ rl W,
    (g.G J).type = EDGE_DFSCHILD → (g.G K).type = EDGE_DFSCHILD →
    (g.G J).v = (g.G K).v → J = K

/-- The members of the arena that `_OrientVerticesInBicomp` never writes. -/
def arenaRest (g : graph) :
    List Event × (Int → vertexRec) × Int × Int × Int × Int × listCollection ×
      listCollection × (Int → Int) × listCollection :=
  (g.trace, g.V, g.N, g.edgeOffset, g.internalFlags, g.embedFlags, g.BicompLists,
    g.DFSChildLists, g.buckets, g.bin)

/-- The nodes whose links the visits `ws` exchange: the vertex and the arcs of its ring
`rl`, for every pair with a non-zero flag. -/
def flips (rl : Int → List Int) (ws : List (Int × Int)) : List Int :=
  ws.flatMap fun p => if p.2 ≠ 0 then p.1 :: rl p.1 else []

/-- The vertices that the visits `ws` invert: those of the pairs with a non-zero flag. -/
def flipVerts (ws : List (Int × Int)) : List Int :=
  ws.flatMap fun p => if p.2 ≠ 0 then [p.1] else []

/-- The arcs in the rings `rl` of the vertices visited. -/
def arcsOf (rl : Int → List Int) (ws : List (Int × Int)) : List Int :=
  ws.flatMap fun p => rl p.1

/-- The state `s1` is the state `s` with `link[0]` and `link[1]` exchanged in the nodes `F`
and in the external-face entries `Fv`; the stack may differ, and so may, if
`PreserveSigns` is `0`, the inverted flags of the arcs `C`; nothing else differs. -/
def Flipped (PreserveSigns : Int) (F Fv C : List Int) (s s1 : graph) : Prop :=
  arenaRest s1 = arenaRest s ∧
  (∀ x, (s1.G x).v = (s.G x).v ∧ (s1.G x).type = (s.G x).type ∧
    (s1.G x).visited = (s.G x).visited) ∧
  (∀ x, (s1.G x).link = if x ∈ F then swapPair (s.G x).link else (s.G x).link) ∧
  (∀ x, PreserveSigns ≠ 0 ∨ x ∉ C → (s1.G x).inverted = (s.G x).inverted) ∧
  ∀ x, (s1.extFace x).inversionFlag = (s.extFace x).inversionFlag ∧
    (s1.extFace x).link =
      if x ∈ Fv then swapPair (s.extFace x).link else (s.extFace x).link

/-- In the state `s` the vertex `W` has not been visited yet: its ring holds the arcs
`rl W` in this order or in the reverse order, and their inverted flags are those of `g`. -/
def Fresh (g : graph) (rl : Int → List Int) (s : graph) (W : Int) : Prop :=
  (Ring s 0 W (rl W) ∨ Ring s 0 W (rl W).reverse) ∧
  ∀ J ∈ rl W, (s.G J).inverted = (g.G J).inverted

/-- The state `s` has the bounds of `g` and the types and `v` members of its nodes. -/
def SameShape (g s : graph) : Prop :=
  s.N = g.N ∧ s.edgeOffset = g.edgeOffset ∧
  ∀ x, (s.G x).type = (g.G x).type ∧ (s.G x).v = (g.G x).v

/-- The pair `p` is one that the visit of `U` with the flag `flag` pushes: the child and
the flag of a DFS_CHILD arc in the ring of `U`. -/
def ChildPair (g : graph) (rl : Int → List Int) (U flag : Int) (p : Int × Int) : Prop :=
  ∃ J ∈ rl U, (g.G J).type = EDGE_DFSCHILD ∧
    p = ((g.G J).v, Int.xor flag (if (g.G J).inverted then 1 else 0))

theorem upd_same {β : Type} (f : Int → β) (i : Int) (x : β) : upd f i x i = x := by
  simp [upd]

theorem upd_other {β : Type} (f : Int → β) (i j : Int) (x : β) (h : j ≠ i) :
    upd f i x j = f j := by
  simp [upd, h]

/-- Fields of a node after `LCAppend` to a non-empty list. -/
theorem LCAppend_next (lc : listCollection) (h x y : Int) (hh : h ≠ NIL)
    (hx : x ≠ h) (hp : x ≠ (lc.List h).prev) :
    ((LCAppend lc h x).1.List y).next =
      if y = x then h else if y = (lc.List h).prev then x else (lc.List y).next := by
  simp only [LCAppend, if_neg hh, upd]
  split_ifs <;> first | rfl | (exfalso; omega) | (subst_vars; rfl)

theorem LCAppend_prev (lc : listCollection) (h x y : Int) (hh : h ≠ NIL) :
    ((LCAppend lc h x).1.List y).prev =
      if y = h then x else if y = x then (lc.List h).prev else (lc.List y).prev := by
  simp only [LCAppend, if_neg hh, upd]
  split_ifs <;> first | rfl | (exfalso; omega) | (subst_vars; rfl)

theorem LCAppend_head (lc : listCollection) (h x : Int) :
    (LCAppend lc h x).2 = if h = NIL then x else h := by
  unfold LCAppend; split_ifs <;> rfl

theorem LCAppend_nil (lc : listCollection) (x y : Int) :
    (LCAppend lc NIL x).1.List y = if y = x then ⟨x, x⟩ else lc.List y := by
  simp [LCAppend, upd]

theorem LCRep_nil_iff (lc : listCollection) (h : Int) : LCRep lc h [] ↔ h = NIL := by
  simp [LCRep]

theorem getD_mem {l : List Int} {i : Nat} (hi : i < l.length) : l.getD i NIL ∈ l := by
  rw [List.getD_eq_getElem l NIL hi]; exact List.getElem_mem hi

theorem getD_inj {l : List Int} (hn : l.Nodup) {i j : Nat} (hi : i < l.length)
    (hj : j < l.length) (h : l.getD i NIL = l.getD j NIL) : i = j := by
  rw [List.getD_eq_getElem l NIL hi, List.getD_eq_getElem l NIL hj] at h
  exact (List.Nodup.getElem_inj_iff hn).1 h

theorem LCRep_head {lc : listCollection} {h : Int} {l : List Int} (hr : LCRep lc h l)
    (hl : l ≠ []) : h = l.getD 0 NIL ∧ h ∈ l ∧ h ≠ NIL := by
  obtain ⟨h1, _, h3, _⟩ := hr
  cases l with
  | nil => exact absurd rfl hl
  | cons a t =>
    simp only [List.headD_cons] at h3
    subst h3
    refine ⟨by simp, by simp, ?_⟩
    intro e; apply h1; rw [← e]; simp

theorem LCRep_head_getD {lc : listCollection} {h : Int} {l : List Int} (hr : LCRep lc h l) :
    h = l.getD 0 NIL := by
  rw [hr.2.2.1]
  cases l <;> simp

theorem LCRep_prev_head {lc : listCollection} {h : Int} {l : List Int} (hr : LCRep lc h l)
    (hl : l ≠ []) : (lc.List h).prev = l.getD (l.length - 1) NIL := by
  have hh := (LCRep_head hr hl).1
  obtain ⟨_, _, _, h4⟩ := hr
  have hpos : 0 < l.length := List.length_pos.2 hl
  have := (h4 (l.length - 1) (by omega)).2
  have e : (l.length - 1 + 1) % l.length = 0 := by
    rw [Nat.sub_add_cancel hpos]; exact Nat.mod_self _
  rw [e] at this
  rw [hh]; exact this

theorem LCRep_append {lc : listCollection} {h : Int} {l : List Int} (x : Int)
    (hr : LCRep lc h l) (hx : x ∉ l) (hn : x ≠ NIL) :
    LCRep (LCAppend lc h x).1 (LCAppend lc h x).2 (l ++ [x]) := by
  by_cases hl : l = []
  · subst hl
    have hh : h = NIL := (LCRep_nil_iff lc h).1 hr
    subst hh
    refine ⟨by simpa using hn.symm, by simp, by simp [LCAppend_head], ?_⟩
    intro i hi
    have : i = 0 := by simpa using hi
    subst this
    simp [LCAppend_nil]
  · obtain ⟨hh0, hhm, hhn⟩ := LCRep_head hr hl
    have hprev := LCRep_prev_head hr hl
    obtain ⟨h1, h2, h3, h4⟩ := hr
    have hpos : 0 < l.length := List.length_pos.2 hl
    have hzmem : l.getD (l.length - 1) NIL ∈ l := getD_mem (by omega)
    have hxh : x ≠ h := fun e => hx (e ▸ hhm)
    have hxz : x ≠ (lc.List h).prev := by
      rw [hprev]; exact fun e => hx (e ▸ hzmem)
    refine ⟨?_, ?_, ?_, ?_⟩
    · simp only [List.mem_append, List.mem_singleton, not_or]
      exact ⟨h1, hn.symm⟩
    · rw [List.nodup_append]
      refine ⟨h2, by simp, ?_⟩
      intro a ha hb
      simp only [List.mem_singleton] at hb
      exact hx (hb ▸ ha)
    · rw [LCAppend_head, if_neg hhn, h3]
      cases l with
      | nil => exact absurd rfl hl
      | cons a t => simp
    · intro i hi
      simp only [List.length_append, List.length_singleton] at hi ⊢
      rw [LCAppend_next lc h x _ hhn hxh hxz, LCAppend_prev lc h x _ hhn]
      have gl : ∀ k, k < l.length → (l ++ [x]).getD k NIL = l.getD k NIL := by
        intro k hk
        rw [List.getD_append _ _ _ _ hk]
      have gx : (l ++ [x]).getD l.length NIL = x := by
        rw [List.getD_append_right _ _ _ _ (le_refl _)]; simp
      have hne : ∀ k, k < l.length → l.getD k NIL ≠ x := fun k hk e => hx (e ▸ getD_mem hk)
      by_cases c1 : i = l.length
      · subst c1
        rw [Nat.mod_self, gx, gl 0 hpos, ← hh0]
        simp [hxh]
      · have hil : i < l.length := by omega
        rw [Nat.mod_eq_of_lt (by omega), gl i hil]
        by_cases c2 : i + 1 = l.length
        · rw [c2, gx]
          have ez : l.getD i NIL = (lc.List h).prev := by
            rw [hprev]; congr 1; omega
          rw [if_neg (hne i hil), if_pos ez, if_neg hxh, if_pos rfl]
          exact ⟨rfl, ez.symm⟩
        · have hi1 : i + 1 < l.length := by omega
          rw [gl (i + 1) hi1]
          have a1 := h4 i hil
          rw [Nat.mod_eq_of_lt hi1] at a1
          have n1 : l.getD i NIL ≠ (lc.List h).prev := by
            rw [hprev]; intro e
            have := getD_inj h2 hil (by omega) e
            omega
          have n2 : l.getD (i + 1) NIL ≠ h := by
            rw [hh0]; intro e
            have := getD_inj h2 hi1 hpos e
            omega
          rw [if_neg (hne i hil), if_neg n1, if_neg n2, if_neg (hne (i + 1) hi1)]
          exact a1

theorem LCRep_frame {lc lc' : listCollection} {h : Int} {l : List Int} (hr : LCRep lc h l)
    (hf : ∀ y ∈ l, lc'.List y = lc.List y) : LCRep lc' h l := by
  obtain ⟨h1, h2, h3, h4⟩ := hr
  refine ⟨h1, h2, h3, ?_⟩
  intro i hi
  have hm : (i + 1) % l.length < l.length := Nat.mod_lt _ (by omega)
  rw [hf _ (getD_mem hi), hf _ (getD_mem hm)]
  exact h4 i hi

theorem LCAppend_frame (lc : listCollection) (h x y : Int) (hx : y ≠ x)
    (hh : h ≠ NIL → y ≠ h ∧ y ≠ (lc.List h).prev) :
    (LCAppend lc h x).1.List y = lc.List y := by
  unfold LCAppend
  split_ifs with c
  · simp [upd, hx]
  · simp [upd, hx, (hh c).1, (hh c).2]

/-- Appending to one list of a pool leaves every list alone whose ids are all different
from the new id and from the ids of the list appended to. -/
theorem LCRep_append_other {lc : listCollection} {h h' : Int} {l l' : List Int} (x : Int)
    (hr : LCRep lc h l) (hr' : LCRep lc h' l') (hx : x ∉ l') (hd : ∀ y ∈ l', y ∉ l) :
    LCRep (LCAppend lc h x).1 h' l' := by
  refine LCRep_frame hr' ?_
  intro y hy
  refine LCAppend_frame lc h x y (fun e => hx (e ▸ hy)) ?_
  intro hne
  have hl : l ≠ [] := by
    intro e; subst e
    exact hne ((LCRep_nil_iff lc h).1 hr)
  have hm := (LCRep_head hr hl).2.1
  have hp := LCRep_prev_head hr hl
  have hz : l.getD (l.length - 1) NIL ∈ l :=
    getD_mem (Nat.sub_lt (List.length_pos.2 hl) Nat.one_pos)
  exact ⟨fun e => hd y hy (e ▸ hm), fun e => hd y hy (by rw [e, hp]; exact hz)⟩

theorem LCGetNext_rep {lc : listCollection} {h : Int} {l : List Int} (hr : LCRep lc h l)
    {i : Nat} (hi : i < l.length) :
    LCGetNext lc h (l.getD i NIL) = l.getD (i + 1) NIL := by
  have hl : l ≠ [] := by intro e; subst e; simp at hi
  obtain ⟨hh0, _, hhn⟩ := LCRep_head hr hl
  obtain ⟨h1, h2, _, h4⟩ := hr
  have hJ : l.getD i NIL ≠ NIL := fun e => h1 (e ▸ getD_mem hi)
  unfold LCGetNext
  rw [if_neg (not_or.2 ⟨hhn, hJ⟩)]
  simp only
  rw [(h4 i hi).1]
  by_cases c : i + 1 < l.length
  · rw [Nat.mod_eq_of_lt c, if_neg]
    rw [hh0]; intro e
    have := getD_inj h2 c (by omega) e
    omega
  · have e : i + 1 = l.length := by omega
    rw [e, Nat.mod_self, if_pos hh0.symm]
    exact (List.getD_eq_default _ _ (le_refl _)).symm

theorem LCIterate_rep {lc : listCollection} {h : Int} {l : List Int} (hr : LCRep lc h l) :
    ∀ (k i fuel : Nat), i + k = l.length → k < fuel →
      LCIterate fuel lc h (l.getD i NIL) = some (l.drop i) := by
  intro k
  induction k with
  | zero =>
    intro i fuel hi hf
    have e : i = l.length := by omega
    subst e
    cases fuel with
    | zero => omega
    | succ f =>
      rw [List.getD_eq_default _ _ (le_refl _)]
      simp [LCIterate]
  | succ k ih =>
    intro i fuel hi hf
    have hil : i < l.length := by omega
    cases fuel with
    | zero => omega
    | succ f =>
      have hJ : l.getD i NIL ≠ NIL := fun e => hr.1 (e ▸ getD_mem hil)
      rw [LCIterate, if_neg hJ, LCGetNext_rep hr hil, ih (i + 1) f (by omega) (by omega)]
      rw [List.getD_eq_getElem l NIL hil]
      simp

/-- Iterating a represented list from its head yields its ids, in order. -/
theorem LCIterate_head {lc : listCollection} {h : Int} {l : List Int} (hr : LCRep lc h l)
    {fuel : Nat} (hf : l.length < fuel) : LCIterate fuel lc h h = some l := by
  have := LCIterate_rep hr l.length 0 fuel (by omega) hf
  rw [List.drop_zero] at this
  rw [← this]
  congr 1
  rw [hr.2.2.1]
  cases l <;> simp

/-! ### The bucketing loop -/

theorem vertexIds_succ (k : Nat) : vertexIds (k + 1) = vertexIds k ++ [(k : Int)] := by
  simp [vertexIds, List.range_succ]

theorem mem_vertexIds {n : Nat} {x : Int} : x ∈ vertexIds n ↔ 0 ≤ x ∧ x < n := by
  simp only [vertexIds, List.mem_map, List.mem_range]
  constructor
  · rintro ⟨k, hk, rfl⟩; omega
  · rintro ⟨h0, h1⟩; exact ⟨x.toNat, by omega, by omega⟩

theorem mem_bucketOf {g : graph} {k : Nat} {b x : Int} :
    x ∈ bucketOf g k b ↔ (0 ≤ x ∧ x < k) ∧ (g.V x).Lowpoint = b := by
  simp [bucketOf, mem_vertexIds]

theorem bucketOf_succ (g : graph) (k : Nat) (b : Int) :
    bucketOf g (k + 1) b =
      if (g.V (k : Int)).Lowpoint = b then bucketOf g k b ++ [(k : Int)] else bucketOf g k b := by
  simp only [bucketOf, vertexIds_succ, List.filter_append]
  split_ifs with c <;> simp [List.filter, c]

theorem fillBuckets_inv (g : graph) (n : Nat)
    (hlow : ∀ I : Int, 0 ≤ I → I < n → 0 ≤ (g.V I).Lowpoint ∧ (g.V I).Lowpoint < n)
    (hbk : ∀ b : Int, 0 ≤ b → b < n → g.buckets b = NIL) :
    ∀ k : Nat, k ≤ n →
      sameButBuckets g ((List.range k).foldl (fun s (I : Nat) => fillBucket s (I : Int)) g) ∧
      ∀ b : Int, 0 ≤ b → b < n →
        LCRep ((List.range k).foldl (fun s (I : Nat) => fillBucket s (I : Int)) g).bin
          (((List.range k).foldl (fun s (I : Nat) => fillBucket s (I : Int)) g).buckets b)
          (bucketOf g k b) := by
  intro k
  induction k with
  | zero =>
    intro _
    refine ⟨⟨rfl, rfl, rfl⟩, ?_⟩
    intro b hb0 hb1
    simp only [List.range_zero, List.foldl_nil]
    have : bucketOf g 0 b = [] := by simp [bucketOf, vertexIds]
    rw [this, LCRep_nil_iff]
    exact hbk b hb0 hb1
  | succ k ih =>
    intro hk
    obtain ⟨⟨hV, hD, hN⟩, hrep⟩ := ih (by omega)
    rw [List.range_succ, List.foldl_append]
    simp only [List.foldl_cons, List.foldl_nil]
    generalize (List.range k).foldl (fun s (I : Nat) => fillBucket s (I : Int)) g = s
      at hV hD hN hrep
    have hJ := hlow (k : Int) (by omega) (by omega)
    have hkn : (k : Int) ≠ NIL := by unfold NIL; omega
    have hknot : ∀ b, (k : Int) ∉ bucketOf g k b := by
      intro b hm
      have := (mem_bucketOf.1 hm).1.2
      omega
    refine ⟨⟨by simp [fillBucket, hV], by simp [fillBucket, hD], by simp [fillBucket, hN]⟩, ?_⟩
    intro b hb0 hb1
    simp only [fillBucket, hV]
    rw [bucketOf_succ]
    by_cases c : (g.V (k : Int)).Lowpoint = b
    · rw [if_pos c, c, upd_same]
      exact LCRep_append (k : Int) (hrep b hb0 hb1) (hknot b) hkn
    · rw [if_neg c, upd_other _ _ _ _ (Ne.symm c)]
      refine LCRep_append_other (k : Int) (hrep _ hJ.1 hJ.2) (hrep b hb0 hb1) (hknot b) ?_
      intro y hy hy'
      have e1 := (mem_bucketOf.1 hy).2
      have e2 := (mem_bucketOf.1 hy').2
      exact c (e2.symm.trans e1)

theorem resetBuckets_spec (g : graph) :
    ∀ k : Nat,
      sameButBuckets g
        ((List.range k).foldl
          (fun s (I : Nat) => { s with buckets := upd s.buckets (I : Int) NIL }) g) ∧
      ∀ b : Int, 0 ≤ b → b < k →
        ((List.range k).foldl
          (fun s (I : Nat) => { s with buckets := upd s.buckets (I : Int) NIL }) g).buckets b =
          NIL := by
  intro k
  induction k with
  | zero => exact ⟨⟨rfl, rfl, rfl⟩, fun b h0 h1 => by omega⟩
  | succ k ih =>
    obtain ⟨⟨hV, hD, hN⟩, hb⟩ := ih
    rw [List.range_succ, List.foldl_append]
    simp only [List.foldl_cons, List.foldl_nil]
    refine ⟨⟨hV, hD, hN⟩, ?_⟩
    intro b h0 h1
    simp only [upd]
    split_ifs with c
    · rfl
    · exact hb b h0 (by omega)

/-! ### The draining loop -/

theorem addToParentList_bin (g : graph) (J : Int) :
    (addToParentList g J).bin = g.bin ∧ (addToParentList g J).buckets = g.buckets ∧
      (addToParentList g J).N = g.N := by
  simp only [addToParentList]
  split_ifs <;> simp [setSeparatedDFSChildList]

theorem foldl_addToParentList_bin (l : List Int) (g : graph) :
    (l.foldl addToParentList g).bin = g.bin ∧ (l.foldl addToParentList g).buckets = g.buckets ∧
      (l.foldl addToParentList g).N = g.N := by
  induction l generalizing g with
  | nil => simp
  | cons a t ih =>
    simp only [List.foldl_cons]
    obtain ⟨h1, h2, h3⟩ := ih (addToParentList g a)
    obtain ⟨e1, e2, e3⟩ := addToParentList_bin g a
    exact ⟨h1.trans e1, h2.trans e2, h3.trans e3⟩

theorem drainBucket_rep {lc : listCollection} {h : Int} {l : List Int} (I : Int)
    (hr : LCRep lc h l) :
    ∀ (k i fuel : Nat) (s : graph), i + k = l.length → k < fuel → s.bin = lc →
      s.buckets I = h →
      drainBucket fuel s I (l.getD i NIL) = some ((l.drop i).foldl addToParentList s) := by
  intro k
  induction k with
  | zero =>
    intro i fuel s hi hf _ _
    have e : i = l.length := by omega
    subst e
    cases fuel with
    | zero => omega
    | succ f =>
      rw [List.getD_eq_default _ _ (le_refl _)]
      simp [drainBucket]
  | succ k ih =>
    intro i fuel s hi hf hb hk
    have hil : i < l.length := by omega
    cases fuel with
    | zero => omega
    | succ f =>
      have hJ : l.getD i NIL ≠ NIL := fun e => hr.1 (e ▸ getD_mem hil)
      obtain ⟨e1, e2, _⟩ := addToParentList_bin s (l.getD i NIL)
      rw [drainBucket, if_neg hJ]
      simp only
      rw [e1, e2, hb, hk, LCGetNext_rep hr hil,
        ih (i + 1) f _ (by omega) (by omega) (by rw [e1, hb]) (by rw [e2, hk])]
      congr 1
      rw [List.drop_eq_getElem_cons hil, List.foldl_cons, List.getD_eq_getElem l NIL hil]

theorem bucketOf_length_le (g : graph) (k : Nat) (b : Int) : (bucketOf g k b).length ≤ k := by
  unfold bucketOf
  refine (List.length_filter_le _ _).trans ?_
  simp [vertexIds]

/-- The third loop visits the vertices in bucket order. -/
theorem drainBuckets_eq (fuel n : Nat) (g0 g : graph) (hf : n < fuel)
    (hrep : ∀ b : Int, 0 ≤ b → b < n → LCRep g.bin (g.buckets b) (bucketOf g0 n b)) :
    ∀ k : Nat, k ≤ n →
      (List.range k).foldl
        (fun s (I : Nat) =>
          s.bind (fun s => drainBucket fuel s (I : Int) (s.buckets (I : Int)))) (some g) =
      some (((vertexIds k).flatMap (fun b => bucketOf g0 n b)).foldl addToParentList g) := by
  intro k
  induction k with
  | zero => intro _; simp [vertexIds]
  | succ k ih =>
    intro hk
    rw [List.range_succ, List.foldl_append, ih (by omega)]
    simp only [List.foldl_cons, List.foldl_nil, Option.some_bind, Option.bind_eq_bind]
    rw [vertexIds_succ, List.flatMap_append, List.foldl_append]
    obtain ⟨hs1, hs2, _⟩ :=
      foldl_addToParentList_bin ((vertexIds k).flatMap (fun b => bucketOf g0 n b)) g
    generalize ((vertexIds k).flatMap (fun b => bucketOf g0 n b)).foldl addToParentList g = s
      at hs1 hs2 ⊢
    have hr := hrep (k : Int) (by omega) (by omega)
    have h0 := drainBucket_rep (k : Int) hr (bucketOf g0 n k).length 0 fuel s (by omega)
      (lt_of_le_of_lt (bucketOf_length_le g0 n k) hf) hs1 (by rw [hs2])
    rw [← LCRep_head_getD hr, List.drop_zero] at h0
    rw [hs2, h0]
    simp

/-! ### The separated-child lists -/

theorem mem_filter_child {g0 : graph} {P y : Int} {pre : List Int}
    (h : y ∈ pre.filter (isSeparatedChild g0 P)) : y ∈ pre ∧ (g0.V y).DFSParent = P := by
  rw [List.mem_filter] at h
  refine ⟨h.1, ?_⟩
  have := h.2
  simp only [isSeparatedChild, decide_eq_true_eq] at this
  exact this.1

theorem SepInv_step {g0 s : graph} {pre : List Int} {J : Int} (hi : SepInv g0 s pre)
    (hJ : J ∉ pre) (hn : J ≠ NIL) : SepInv g0 (addToParentList s J) (pre ++ [J]) := by
  obtain ⟨hV, hL⟩ := hi
  have hfil : ∀ P, (pre ++ [J]).filter (isSeparatedChild g0 P) =
      if isSeparatedChild g0 P J = true then pre.filter (isSeparatedChild g0 P) ++ [J]
      else pre.filter (isSeparatedChild g0 P) := by
    intro P
    rw [List.filter_append]
    split_ifs with c <;> simp [List.filter, c]
  simp only [addToParentList]
  by_cases c : (s.V J).DFSParent ≠ NIL ∧ (s.V J).DFSParent ≠ J
  · rw [if_pos c]
    refine ⟨?_, ?_⟩
    · intro v
      simp only [setSeparatedDFSChildList, upd]
      split_ifs with e
      · subst e; exact hV _
      · exact hV v
    · intro P
      rw [hfil]
      by_cases e : P = (s.V J).DFSParent
      · have hc : isSeparatedChild g0 P J = true := by
          simp only [isSeparatedChild, decide_eq_true_eq]
          refine ⟨?_, ?_, ?_⟩
          · rw [(hV J).1.symm, e]
          · rw [e]; exact c.1
          · rw [e]; exact c.2
        rw [if_pos hc]
        subst e
        simp only [setSeparatedDFSChildList, upd_same]
        refine LCRep_append J (hL _) ?_ hn
        exact fun hm => hJ (mem_filter_child hm).1
      · have hc : ¬ isSeparatedChild g0 P J = true := by
          simp only [isSeparatedChild, decide_eq_true_eq]
          intro hh
          exact e (by rw [← hh.1, (hV J).1])
        rw [if_neg hc]
        simp only [setSeparatedDFSChildList, upd_other _ _ _ _ e]
        refine LCRep_append_other J (hL _) (hL P) ?_ ?_
        · exact fun hm => hJ (mem_filter_child hm).1
        · intro y hy hy'
          have a1 := (mem_filter_child hy).2
          have a2 := (mem_filter_child hy').2
          rw [(hV J).1] at a2
          rw [(hV J).1] at e
          exact e (a1.symm.trans a2)
  · rw [if_neg c]
    refine ⟨hV, ?_⟩
    intro P
    rw [hfil]
    have hc : ¬ isSeparatedChild g0 P J = true := by
      simp only [isSeparatedChild, decide_eq_true_eq]
      intro hh
      apply c
      rw [(hV J).1, hh.1]
      exact ⟨hh.2.1, hh.2.2⟩
    rw [if_neg hc]
    exact hL P

theorem SepInv_foldl {g0 : graph} (l : List Int) :
    ∀ (s : graph) (pre : List Int), SepInv g0 s pre → (pre ++ l).Nodup → NIL ∉ l →
      SepInv g0 (l.foldl addToParentList s) (pre ++ l) := by
  induction l with
  | nil => intro s pre h _ _; simpa using h
  | cons a t ih =>
    intro s pre h hnd hn
    simp only [List.foldl_cons]
    have ha : a ∉ pre := by
      intro hm
      have := (List.nodup_append.1 hnd).2.2
      exact this hm (List.mem_cons_self a t)
    have h1 := SepInv_step h ha (fun e => hn (e ▸ List.mem_cons_self a t))
    have := ih (addToParentList s a) (pre ++ [a]) h1 (by simpa using hnd)
      (fun hm => hn (List.mem_cons_of_mem a hm))
    simpa using this

theorem bucketOf_congr {g g' : graph} (h : g'.V = g.V) (k : Nat) (b : Int) :
    bucketOf g' k b = bucketOf g k b := by
  simp [bucketOf, h]

theorem vertexIds_pairwise (n : Nat) : (vertexIds n).Pairwise (fun a b => a < b) := by
  unfold vertexIds
  rw [List.pairwise_map]
  exact (List.pairwise_lt_range n).imp (fun h => by omega)

theorem vertexIds_nodup (n : Nat) : (vertexIds n).Nodup :=
  (vertexIds_pairwise n).imp (fun h => ne_of_lt h)

theorem bucketOrder_pairwise (g : graph) (n : Nat) :
    (bucketOrder g n).Pairwise (fun a b => (g.V a).Lowpoint ≤ (g.V b).Lowpoint) := by
  unfold bucketOrder
  rw [List.pairwise_flatMap]
  refine ⟨?_, ?_⟩
  · intro b _
    refine List.pairwise_of_forall_mem_list ?_
    intro x hx y hy
    rw [(mem_bucketOf.1 hx).2, (mem_bucketOf.1 hy).2]
  · refine (vertexIds_pairwise n).imp ?_
    intro b1 b2 hlt x hx y hy
    rw [(mem_bucketOf.1 hx).2, (mem_bucketOf.1 hy).2]
    exact le_of_lt hlt

theorem bucketOrder_nodup (g : graph) (n : Nat) : (bucketOrder g n).Nodup := by
  unfold bucketOrder
  rw [List.nodup_flatMap]
  refine ⟨?_, ?_⟩
  · intro b _
    exact (vertexIds_nodup n).filter _
  · refine (vertexIds_pairwise n).imp ?_
    intro b1 b2 hlt
    simp only [Function.onFun]
    intro x hx hy
    have e1 := (mem_bucketOf.1 hx).2
    have e2 := (mem_bucketOf.1 hy).2
    omega

theorem mem_bucketOrder {g : graph} {n : Nat} {x : Int} (h : x ∈ bucketOrder g n) :
    0 ≤ x ∧ x < n := by
  unfold bucketOrder at h
  rw [List.mem_flatMap] at h
  obtain ⟨b, _, hx⟩ := h
  exact (mem_bucketOf.1 hx).1

theorem sorted_lists_of_inv {g0 s : graph} {n : Nat} (hi : SepInv g0 s (bucketOrder g0 n))
    {fuel : Nat} (hf : n < fuel) (P : Int) :
    ∃ l, LCIterate fuel s.DFSChildLists (s.V P).separatedDFSChildList
        (s.V P).separatedDFSChildList = some l ∧
      l.Pairwise (fun a b => (s.V a).Lowpoint ≤ (s.V b).Lowpoint) := by
  refine ⟨(bucketOrder g0 n).filter (isSeparatedChild g0 P), ?_, ?_⟩
  · refine LCIterate_head (hi.2 P) (lt_of_le_of_lt ?_ hf)
    have hsub : (bucketOrder g0 n).filter (isSeparatedChild g0 P) ⊆ vertexIds n := by
      intro x hx
      exact mem_vertexIds.2 (mem_bucketOrder (List.mem_filter.1 hx).1)
    have := (List.subperm_of_subset ((bucketOrder_nodup g0 n).filter _) hsub).length_le
    simpa [vertexIds] using this
  · refine List.Pairwise.filter _ ?_
    refine (bucketOrder_pairwise g0 n).imp ?_
    intro a b h
    rw [(hi.1 a).2, (hi.1 b).2]
    exact h

/-- C10 The separated DFS child lists are sorted: for every arena in which the Lowpoint of
every vertex lies in `[0, N)` and every `separatedDFSChildList` head is `NIL`,
`_CreateSortedSeparatedDFSChildLists` returns (with fuel above `N`), leaves the Lowpoints
as they were, and afterwards iterating the list of any `P` from its head yields vertices
whose Lowpoints are non-decreasing. -/
theorem createSortedSeparatedDFSChildLists_sorted (fuel : Nat) (g : graph)
    (hlow : ∀ I : Int, 0 ≤ I → I < g.N → 0 ≤ (g.V I).Lowpoint ∧ (g.V I).Lowpoint < g.N)
    (hnil : ∀ P : Int, (g.V P).separatedDFSChildList = NIL)
    (hf : g.N.toNat < fuel) :
    ∃ g', _CreateSortedSeparatedDFSChildLists fuel g = some g' ∧
      (∀ v, (g'.V v).Lowpoint = (g.V v).Lowpoint) ∧
      ∀ P : Int, ∃ l,
        LCIterate fuel g'.DFSChildLists (g'.V P).separatedDFSChildList
          (g'.V P).separatedDFSChildList = some l ∧
        l.Pairwise (fun a b => (g'.V a).Lowpoint ≤ (g'.V b).Lowpoint) := by
  unfold _CreateSortedSeparatedDFSChildLists
  simp only
  obtain ⟨⟨hV1, hD1, hN1⟩, hb1⟩ := resetBuckets_spec { g with bin := LCReset g.bin } g.N.toNat
  generalize (List.range g.N.toNat).foldl
    (fun s (I : Nat) => { s with buckets := upd s.buckets (I : Int) NIL })
    { g with bin := LCReset g.bin } = g1 at hV1 hD1 hN1 hb1
  simp only at hV1 hD1 hN1
  have hlow1 : ∀ I : Int, 0 ≤ I → I < g.N.toNat →
      0 ≤ (g1.V I).Lowpoint ∧ (g1.V I).Lowpoint < g.N.toNat := by
    intro I h0 h1
    rw [hV1]
    have := hlow I h0 (by omega)
    omega
  obtain ⟨⟨hV2, hD2, hN2⟩, hb2⟩ := fillBuckets_inv g1 g.N.toNat hlow1 hb1 g.N.toNat (le_refl _)
  generalize (List.range g.N.toNat).foldl (fun s (I : Nat) => fillBucket s (I : Int)) g1 = g2
    at hV2 hD2 hN2 hb2
  rw [drainBuckets_eq fuel g.N.toNat g1 g2 hf hb2 g.N.toNat (le_refl _)]
  have hinit : SepInv g1 g2 [] := by
    refine ⟨fun v => by rw [hV2]; exact ⟨rfl, rfl⟩, ?_⟩
    intro P
    simp only [List.filter_nil]
    rw [LCRep_nil_iff, hV2, hV1]
    exact hnil P
  have hfin := SepInv_foldl (bucketOrder g1 g.N.toNat) g2 [] hinit
    (by simpa using bucketOrder_nodup g1 g.N.toNat)
    (fun hm => by
      have := (mem_bucketOrder hm).1
      unfold NIL at this
      omega)
  simp only [List.nil_append] at hfin
  refine ⟨_, rfl, ?_, ?_⟩
  · intro v
    have := (hfin.1 v).2
    rw [hV1] at this
    exact this
  · intro P
    exact sorted_lists_of_inv hfin hf P

/-! ### Control flow of `_WalkDown` and `gp_Embed` in terms of the trace -/

theorem setAdjacentTo_trace (g : graph) (i x : Int) : (setAdjacentTo g i x).trace = g.trace := rfl

theorem walkDownDescend_trace (g : graph) (I W WP : Int) :
    (walkDownDescend g I W WP).1.trace = g.trace := rfl

theorem loopShape_nil_ended (I W WP : Int) : loopShape I [] (some (.ended W WP)) := by
  refine ⟨by simp, by simp, by simp, by simp⟩

theorem loopShape_nil_none (I : Int) : loopShape I [] none := by
  refine ⟨by simp, by simp, by simp, by simp⟩

theorem loopShape_snoc_merge (I : Int) (new : List Event) (val : Option WalkDownExit)
    (h : loopShape I new val) : loopShape I (new ++ [Event.MergeBicomps I OK]) val := by
  obtain ⟨h1, h2, h3, h4⟩ := h
  refine ⟨?_, ?_, ?_, h4⟩
  · intro e he
    rcases List.mem_append.1 he with he | he
    · exact h1 e he
    · exact Or.inl ⟨OK, by simpa using he⟩
  · intro x hx he
    rcases List.mem_append.1 he with he | he
    · exact h2 x hx he
    · simp at he; exact absurd he hx
  · intro x hx he
    rcases List.mem_append.1 he with he | he
    · exact h3 x hx he
    · simp at he

theorem loopShape_snoc_inactive (I : Int) (new : List Event) (val : Option WalkDownExit)
    (h : loopShape I new val) : loopShape I (new ++ [Event.HandleInactiveVertex I OK]) val := by
  obtain ⟨h1, h2, h3, h4⟩ := h
  refine ⟨?_, ?_, ?_, h4⟩
  · intro e he
    rcases List.mem_append.1 he with he | he
    · exact h1 e he
    · exact Or.inr ⟨OK, by simpa using he⟩
  · intro x hx he
    rcases List.mem_append.1 he with he | he
    · exact h2 x hx he
    · simp at he
  · intro x hx he
    rcases List.mem_append.1 he with he | he
    · exact h3 x hx he
    · simp at he; exact absurd he hx

theorem loopShape_bad_inactive (I r : Int) :
    loopShape I [Event.HandleInactiveVertex I r] (some (.returned NOTOK)) := by
  refine ⟨?_, ?_, ?_, ?_⟩
  · intro e he; exact Or.inr ⟨r, by simpa using he⟩
  · intro x _ he; simp at he
  · intro x _ _; rfl
  · intro x hx; simp at hx; subst hx; decide

theorem loopShape_bad_merge (I r : Int) (hr : r ≠ OK) :
    loopShape I [Event.MergeBicomps I r] (some (.returned r)) := by
  refine ⟨?_, ?_, ?_, ?_⟩
  · intro e he; exact Or.inl ⟨r, by simpa using he⟩
  · intro x _ he; simp at he; subst he; rfl
  · intro x _ he; simp at he
  · intro x hx; simp at hx; subst hx; exact hr

theorem walkDownRest_trace (fns : graphFunctionTable)
    (loop : graph → Int → Int → Run WalkDownExit) (I R : Int)
    (hloop : ∀ g W WP, ∃ new, (loop g W WP).g.trace = new ++ g.trace ∧
      loopShape I new (loop g W WP).val) (g : graph) (W WP : Int) :
    ∃ new, (walkDownRest fns loop g I R W WP).g.trace = new ++ g.trace ∧
      loopShape I new (walkDownRest fns loop g I R W WP).val := by
  unfold walkDownRest
  split_ifs with h1 h2
  · exact hloop _ _ _
  · split
    · exact ⟨[], rfl, loopShape_nil_none I⟩
    · rename_i r g1 W' WP' _
      by_cases hr : r = OK
      · simp only [hr, ne_eq, not_true_eq_false, if_false]
        obtain ⟨new, e1, e2⟩ := hloop (logCall g g1 (.HandleInactiveVertex I OK)) W' WP'
        exact ⟨new ++ [.HandleInactiveVertex I OK], by rw [e1]; simp [logCall],
          loopShape_snoc_inactive I new _ e2⟩
      · simp only [ne_eq, hr, not_false_eq_true, if_true]
        exact ⟨[.HandleInactiveVertex I r], rfl, loopShape_bad_inactive I r⟩
  · exact ⟨[], rfl, loopShape_nil_ended I W WP⟩

theorem walkDownEmbed_trace (fns : graphFunctionTable)
    (loop : graph → Int → Int → Run WalkDownExit) (I R side : Int)
    (hloop : ∀ g W WP, ∃ new, (loop g W WP).g.trace = new ++ g.trace ∧
      loopShape I new (loop g W WP).val) (g : graph) (W WP : Int) :
    ∃ new, (walkDownEmbed fns loop g I R side W WP).g.trace = new ++ g.trace ∧
      loopShape I new (walkDownEmbed fns loop g I R side W WP).val := by
  unfold walkDownEmbed
  split
  · exact ⟨[], rfl, loopShape_nil_none I⟩
  · rename_i g1 _
    exact walkDownRest_trace fns loop I R hloop (setAdjacentTo { g1 with trace := g.trace } W NIL)
      W WP

theorem walkDownBody_trace (fns : graphFunctionTable)
    (loop : graph → Int → Int → Run WalkDownExit) (I R side : Int)
    (hloop : ∀ g W WP, ∃ new, (loop g W WP).g.trace = new ++ g.trace ∧
      loopShape I new (loop g W WP).val) (g : graph) (W WP : Int) :
    ∃ new, (walkDownBody fns loop g I R side W WP).g.trace = new ++ g.trace ∧
      loopShape I new (walkDownBody fns loop g I R side W WP).val := by
  unfold walkDownBody
  split_ifs with h1 h2
  · split
    · exact ⟨[], rfl, loopShape_nil_none I⟩
    · rename_i r g1 _
      by_cases hr : r = OK
      · simp only [hr, ne_eq, not_true_eq_false, if_false]
        obtain ⟨new, e1, e2⟩ := walkDownEmbed_trace fns loop I R side hloop
          (logCall g g1 (.MergeBicomps I OK)) W WP
        exact ⟨new ++ [.MergeBicomps I OK], by rw [e1]; simp [logCall],
          loopShape_snoc_merge I new _ e2⟩
      · simp only [ne_eq, hr, not_false_eq_true, if_true]
        exact ⟨[.MergeBicomps I r], rfl, loopShape_bad_merge I r hr⟩
  · exact walkDownEmbed_trace fns loop I R side hloop g W WP
  · exact walkDownRest_trace fns loop I R hloop g W WP

theorem walkDownLoop_trace (fns : graphFunctionTable) (fuel : Nat) :
    ∀ (g : graph) (I R side W WP : Int),
      ∃ new, (walkDownLoop fns fuel g I R side W WP).g.trace = new ++ g.trace ∧
        loopShape I new (walkDownLoop fns fuel g I R side W WP).val := by
  induction fuel with
  | zero => intro g I R side W WP; exact ⟨[], rfl, loopShape_nil_none I⟩
  | succ n ih =>
    intro g I R side W WP
    simp only [walkDownLoop]
    by_cases hW : W = R
    · rw [if_pos hW]; exact ⟨[], rfl, loopShape_nil_ended I W WP⟩
    rw [if_neg hW]
    exact walkDownBody_trace fns _ I R side (fun g W WP => ih g I R side W WP) g W WP

theorem walkDownShortCircuit_trace (g : graph) (R side W WP : Int) :
    (walkDownShortCircuit g R side W WP).trace = g.trace := by
  unfold walkDownShortCircuit
  simp only []
  split_ifs <;> rfl

theorem walkDownPass_trace (fuel : Nat) (fns : graphFunctionTable) (g : graph)
    (I R side : Int) :
    ∃ new, (walkDownPass fuel fns g I R side).g.trace = new ++ g.trace ∧
      (∀ e ∈ new, isHookCall I e) ∧
      (∀ x, x ≠ OK → Event.MergeBicomps I x ∈ new →
        (walkDownPass fuel fns g I R side).val = some (some x)) ∧
      (∀ x, x ≠ OK → Event.HandleInactiveVertex I x ∈ new →
        (walkDownPass fuel fns g I R side).val = some (some NOTOK)) := by
  obtain ⟨new, e1, h1, h2, h3, _⟩ := walkDownLoop_trace fns fuel g I R side
    ((g.extFace R).link side) (Int.xor 1 side)
  refine ⟨new, ?_, h1, ?_, ?_⟩
  all_goals
    unfold walkDownPass walkDownPassLoop
    rcases h : walkDownLoop fns fuel g I R side ((g.extFace R).link side) (Int.xor 1 side)
      with ⟨g1, _ | _ | ⟨W, WP⟩⟩
    all_goals rw [h] at e1 h2 h3
    all_goals simp only [] at e1 h2 h3 ⊢
  · exact e1
  · exact e1
  · split_ifs
    · exact e1
    · rw [walkDownShortCircuit_trace]; exact e1
    · rw [walkDownShortCircuit_trace]; exact e1
  · intro x hx he; have := h2 x hx he; simp at this
  · intro x hx he; have := h2 x hx he; simp at this; subst this; rfl
  · intro x hx he; have := h2 x hx he; simp at this
  · intro x hx he; have := h3 x hx he; simp at this
  · intro x hx he; have := h3 x hx he; simp at this; subst this; rfl
  · intro x hx he; have := h3 x hx he; simp at this

theorem walkDown_trace (fuel : Nat) (fns : graphFunctionTable) (g : graph) (I R : Int) :
    ∃ new, (_WalkDown fuel fns g I R).g.trace = new ++ g.trace ∧
      walkDownShape I new (_WalkDown fuel fns g I R).val := by
  obtain ⟨new0, e0, a0, b0, c0⟩ := walkDownPass_trace fuel fns (sp_ClearStack g) I R 0
  unfold _WalkDown
  simp only []
  rcases h : walkDownPass fuel fns (sp_ClearStack g) I R 0 with ⟨g1, _ | _ | r⟩
  all_goals rw [h] at e0 b0 c0
  all_goals simp only [] at e0 b0 c0 ⊢
  · refine ⟨new0, e0, a0, ?_, ?_⟩
    · intro x hx he; have := b0 x hx he; simp at this
    · intro x hx he; have := c0 x hx he; simp at this
  · obtain ⟨new1, e1, a1, b1, c1⟩ := walkDownPass_trace fuel fns g1 I R 1
    have hno0 : ∀ x, x ≠ OK → Event.MergeBicomps I x ∉ new0 := by
      intro x hx he; have := b0 x hx he; simp at this
    have hno1 : ∀ x, x ≠ OK → Event.HandleInactiveVertex I x ∉ new0 := by
      intro x hx he; have := c0 x hx he; simp at this
    have hall : ∀ e ∈ new1 ++ new0, isHookCall I e := by
      intro e he
      rcases List.mem_append.1 he with he | he
      · exact a1 e he
      · exact a0 e he
    rcases h1 : walkDownPass fuel fns g1 I R 1 with ⟨g2, _ | _ | r⟩
    all_goals rw [h1] at e1 b1 c1
    all_goals simp only [] at e1 b1 c1 ⊢
    all_goals refine ⟨new1 ++ new0, by rw [e1, e0, List.append_assoc]; rfl, hall, ?_, ?_⟩
    all_goals intro x hx he
    all_goals rcases List.mem_append.1 he with he | he
    all_goals first
      | exact absurd he (hno0 x hx)
      | exact absurd he (hno1 x hx)
      | (have h9 := b1 x hx he; simp at h9; done)
      | (have h9 := c1 x hx he; simp at h9; done)
      | (have h9 := b1 x hx he; simp at h9; subst h9; rfl)
      | (have h9 := c1 x hx he; simp at h9; subst h9; rfl)
  · refine ⟨new0, e0, a0, ?_, ?_⟩
    · intro x hx he; have := b0 x hx he; simp at this; subst this; rfl
    · intro x hx he; have := c0 x hx he; simp at this; subst this; rfl

theorem walkUpLoop_trace (fuel : Nat) :
    ∀ (g : graph) (I Zig Zag ZigPrevLink ZagPrevLink : Int) (g1 : graph),
      walkUpLoop fuel g I Zig Zag ZigPrevLink ZagPrevLink = some g1 → g1.trace = g.trace := by
  induction fuel with
  | zero => intro g I Zig Zag ZP ZZ g1 h; simp [walkUpLoop] at h
  | succ n ih =>
    intro g I Zig Zag ZP ZZ g1 h
    simp only [walkUpLoop] at h
    split_ifs at h with h1 h2 h3 h4 h5
    all_goals first
      | (simp only [Option.some.injEq] at h; subst h; rfl)
      | (have h9 := ih _ _ _ _ _ _ _ h; rw [h9]; rfl)

theorem walkUp_trace (fuel : Nat) (g : graph) (I J : Int) (g1 : graph)
    (h : _WalkUp fuel g I J = some g1) : g1.trace = g.trace := by
  unfold _WalkUp at h
  exact walkUpLoop_trace fuel (setAdjacentTo g (g.G J).v J) _ _ _ _ _ _ h

theorem walkUpForwardArcs_trace (fuel : Nat) (n : Nat) :
    ∀ (g : graph) (I J : Int),
      ∃ new, (walkUpForwardArcs fuel n g I J).g.trace = new ++ g.trace ∧
        ∀ e ∈ new, ∃ J', e = Event.WalkUp I J' := by
  induction n with
  | zero => intro g I J; exact ⟨[], rfl, by simp⟩
  | succ n ih =>
    intro g I J
    simp only [walkUpForwardArcs]
    split_ifs with hJ
    · exact ⟨[], rfl, by simp⟩
    · split
      · exact ⟨[.WalkUp I J], rfl, by simp⟩
      · rename_i g1 hg1
        obtain ⟨new, e1, e2⟩ := ih g1 I
          (if (g1.G J).link 0 = (g1.V I).fwdArcList then NIL else (g1.G J).link 0)
        refine ⟨new ++ [.WalkUp I J], ?_, ?_⟩
        · rw [e1, walkUp_trace fuel _ I J g1 hg1]; simp [logCall]
        · intro e he
          rcases List.mem_append.1 he with he | he
          · exact e2 e he
          · exact ⟨J, by simpa using he⟩

theorem calm_of_hook {I : Int} {e : Event} (h : isHookCall I e) : calm I e := by
  rcases h with ⟨x, rfl⟩ | ⟨x, rfl⟩ <;> simp [calm]

theorem follows_of_calm {I : Int} {a b : Event} (hb : calm I b) (ha : atOrBelow I a) :
    follows a b := by
  cases b <;> simp only [calm] at hb
  · subst hb; exact ha
  · obtain ⟨rfl, rfl⟩ := hb; simp only [follows, if_true]; exact ha
  · subst hb; exact ha
  · subst hb; exact ha

theorem mem_tail_append {α : Type} {a b : List α} {e : α} (h : e ∈ (a ++ b).tail) :
    e ∈ a.tail ∨ e ∈ b := by
  cases a with
  | nil => right; exact List.mem_of_mem_tail h
  | cons x xs =>
    simp only [List.cons_append, List.tail_cons] at h ⊢
    exact List.mem_append.1 h

theorem NOTOK_ne_OK : NOTOK ≠ OK := by decide

theorem walkDownChildren_trace (fuel : Nat) (fns : graphFunctionTable) (N : Int) (n : Nat) :
    ∀ (g : graph) (I child RetVal : Int),
      ∃ new, (walkDownChildren fuel fns N n g I child RetVal).g.trace = new ++ g.trace ∧
        childShape I new (walkDownChildren fuel fns N n g I child RetVal).val := by
  induction n with
  | zero =>
    intro g I child RetVal
    exact ⟨[], rfl, by simp, by simp, by simp, by simp, by simp, by simp [walkDownChildren]⟩
  | succ n ih =>
    intro g I child RetVal
    simp only [walkDownChildren]
    split_ifs with h1 h2
    · exact ⟨[], rfl, by simp, by simp, by simp, by simp, by simp, by simp⟩
    · obtain ⟨newW, eW, aW, bW, cW⟩ := walkDown_trace fuel fns g I (child + N)
      have hcalm : ∀ e ∈ newW, calm I e := fun e he => calm_of_hook (aW e he)
      have hnoWD : ∀ R x, Event.WalkDown I R x ∉ newW := by
        intro R x he
        rcases aW _ he with ⟨y, hy⟩ | ⟨y, hy⟩ <;> cases hy
      rcases h : _WalkDown fuel fns g I (child + N) with ⟨g1, _ | r⟩
      all_goals rw [h] at eW bW cW
      all_goals simp only [] at eW bW cW ⊢
      · refine ⟨newW, eW, fun e he => Or.inl (aW e he),
          fun e he => hcalm e (List.mem_of_mem_tail he), ?_, ?_, ?_, by simp⟩
        · intro R x _ he; exact absurd he (hnoWD R x)
        · intro x hx he; have := cW x hx he; simp at this
        · intro he; have := bW NOTOK NOTOK_ne_OK he; simp at this
      · by_cases hr : r = OK
        · subst hr
          simp only [ne_eq, not_true_eq_false, if_false]
          obtain ⟨newR, eR, aR, tR, vR1, vR2, vR3, vR4⟩ :=
            ih (logCall g1 g1 (.WalkDown I (child + N) OK)) I
              (LCGetNext (logCall g1 g1 (.WalkDown I (child + N) OK)).DFSChildLists
                ((logCall g1 g1 (.WalkDown I (child + N) OK)).V I).separatedDFSChildList child)
              OK
          refine ⟨newR ++ (.WalkDown I (child + N) OK :: newW), ?_, ?_, ?_, ?_, ?_, ?_, vR4⟩
          · rw [eR]; simp [logCall, eW]
          · intro e he
            rcases List.mem_append.1 he with he | he
            · exact aR e he
            · rcases List.mem_cons.1 he with he | he
              · exact Or.inr ⟨_, _, he⟩
              · exact Or.inl (aW e he)
          · intro e he
            rcases mem_tail_append he with he | he
            · exact tR e he
            · rcases List.mem_cons.1 he with he | he
              · subst he; simp [calm]
              · exact hcalm e he
          · intro R x hx he
            rcases List.mem_append.1 he with he | he
            · exact vR1 R x hx he
            · rcases List.mem_cons.1 he with he | he
              · simp only [Event.WalkDown.injEq] at he; exact absurd he.2.2 hx
              · exact absurd he (hnoWD R x)
          · intro x hx he
            rcases List.mem_append.1 he with he | he
            · exact vR2 x hx he
            · rcases List.mem_cons.1 he with he | he
              · cases he
              · have := cW x hx he; simp at this; exact absurd this.symm NOTOK_ne_OK
          · intro he
            rcases List.mem_append.1 he with he | he
            · exact vR3 he
            · rcases List.mem_cons.1 he with he | he
              · cases he
              · have := bW NOTOK NOTOK_ne_OK he; simp at this
                exact absurd this.symm NOTOK_ne_OK
        · have hval : (if r ≠ OK then
              if r = NOTOK then
                (⟨logCall g1 g1 (.WalkDown I (child + N) r), some (.returned NOTOK)⟩ :
                  Run ChildLoopExit)
              else ⟨logCall g1 g1 (.WalkDown I (child + N) r), some (.ended r)⟩
            else walkDownChildren fuel fns N n (logCall g1 g1 (.WalkDown I (child + N) r)) I
              (LCGetNext (logCall g1 g1 (.WalkDown I (child + N) r)).DFSChildLists
                ((logCall g1 g1 (.WalkDown I (child + N) r)).V I).separatedDFSChildList child)
              r) = ⟨logCall g1 g1 (.WalkDown I (child + N) r), some (childExit r)⟩ := by
            rw [if_pos hr]; unfold childExit; split_ifs <;> rfl
          rw [hval]
          refine ⟨.WalkDown I (child + N) r :: newW, ?_, ?_, ?_, ?_, ?_, ?_, ?_⟩
          · simp [logCall, eW]
          · intro e he
            rcases List.mem_cons.1 he with he | he
            · exact Or.inr ⟨_, _, he⟩
            · exact Or.inl (aW e he)
          · intro e he; exact hcalm e he
          · intro R x hx he
            rcases List.mem_cons.1 he with he | he
            · simp only [Event.WalkDown.injEq] at he; rw [he.2.2]
            · exact absurd he (hnoWD R x)
          · intro x hx he
            rcases List.mem_cons.1 he with he | he
            · cases he
            · have := cW x hx he; simp at this; subst this; simp [childExit]
          · intro he
            rcases List.mem_cons.1 he with he | he
            · cases he
            · have := bW NOTOK NOTOK_ne_OK he; simp at this; subst this; simp [childExit]
          · intro x hx
            simp only [childExit] at hx
            split_ifs at hx
            · simp at hx; exact hx.symm
            · simp at hx
    · exact ih g I _ RetVal

theorem atOrBelow_of_iterationOf {I : Int} {e : Event} (h : iterationOf e = some I) :
    atOrBelow I e := Or.inr ⟨I, h, le_refl I⟩

theorem atOrBelow_of_below {I : Int} {e : Event} (h : below I e) : atOrBelow I e := by
  rcases h with h | ⟨I', h1, h2⟩
  · exact Or.inl h
  · exact Or.inr ⟨I', h1, le_of_lt h2⟩

theorem iterationOf_of_calm {I : Int} {e : Event} (h : calm I e) : iterationOf e = some I := by
  cases e <;> simp only [calm] at h
  · subst h; rfl
  · obtain ⟨rfl, _⟩ := h; rfl
  · subst h; rfl
  · subst h; rfl

theorem pairwise_follows_of_calm_tail {I : Int} {l : List Event}
    (h1 : ∀ e ∈ l, iterationOf e = some I) (h2 : ∀ e ∈ l.tail, calm I e) :
    l.Pairwise follows := by
  cases l with
  | nil => exact List.Pairwise.nil
  | cons x xs =>
    simp only [List.tail_cons] at h2
    refine List.pairwise_cons.2 ⟨?_, ?_⟩
    · intro b hb
      exact follows_of_calm (h2 b hb) (atOrBelow_of_iterationOf (h1 x (List.mem_cons_self x xs)))
    · exact List.pairwise_of_forall_mem_list fun a ha b hb =>
        follows_of_calm (h2 b hb) (atOrBelow_of_iterationOf (iterationOf_of_calm (h2 a ha)))

theorem iterationOf_of_child {I : Int} {e : Event}
    (h : isHookCall I e ∨ ∃ R x, e = Event.WalkDown I R x) : iterationOf e = some I := by
  rcases h with (⟨x, rfl⟩ | ⟨x, rfl⟩) | ⟨R, x, rfl⟩ <;> rfl

theorem child_follows {I r0 : Int} {newC newU : List Event}
    (hC : childShape I newC (some (.ended r0)))
    (hU : ∀ e ∈ newU, ∃ J, e = Event.WalkUp I J) (a : Event)
    (ha : below I a ∨ ∃ r, a = Event.EmbedIterationPostprocess I r) :
    ∀ b ∈ newC ++ newU, follows a b := by
  have hab : atOrBelow I a := by
    rcases ha with ha | ⟨r, rfl⟩
    · exact atOrBelow_of_below ha
    · exact atOrBelow_of_iterationOf rfl
  obtain ⟨k, t, v1, _, _, _⟩ := hC
  intro b hb
  rcases List.mem_append.1 hb with hb | hb
  · rcases k b hb with hk | ⟨R, x, rfl⟩
    · exact follows_of_calm (calm_of_hook hk) hab
    · by_cases hx : x = OK
      · subst hx; simp only [follows, if_true]; exact hab
      · have := v1 R x hx hb
        have hx2 : x ≠ NOTOK := by
          intro h; subst h; simp [childExit] at this
        simp only [follows, if_neg hx, if_neg hx2]
        rcases ha with ha | ha
        · exact Or.inr ha
        · exact Or.inl ha
  · obtain ⟨J, rfl⟩ := hU b hb
    exact hab

theorem embedIteration_trace (fuel : Nat) (fns : graphFunctionTable) (N : Int) (g : graph)
    (I : Int) :
    ∃ new, (embedIteration fuel fns N g I).g.trace = new ++ g.trace ∧
      iterShape fns I new (embedIteration fuel fns N g I).val := by
  obtain ⟨newU, eU, hU⟩ := walkUpForwardArcs_trace fuel fuel g I (g.V I).fwdArcList
  have hUc : ∀ e ∈ newU, calm I e := by
    intro e he; obtain ⟨J, rfl⟩ := hU e he; simp [calm]
  unfold embedIteration
  rcases h : walkUpForwardArcs fuel fuel g I (g.V I).fwdArcList with ⟨gU, _ | ⟨⟩⟩
  all_goals rw [h] at eU
  all_goals simp only [] at eU ⊢
  · refine ⟨newU, eU, fun e he => iterationOf_of_calm (hUc e he),
      pairwise_follows_of_calm_tail (fun e he => iterationOf_of_calm (hUc e he))
        (fun e he => hUc e (List.mem_of_mem_tail he)), ?_, ?_, ?_, ?_, by simp, by simp, by simp⟩
    · intro R he; obtain ⟨J, hJ⟩ := hU _ he; cases hJ
    · intro x _ he; obtain ⟨J, hJ⟩ := hU _ he; cases hJ
    · intro he; obtain ⟨J, hJ⟩ := hU _ he; cases hJ
    · intro r he; obtain ⟨J, hJ⟩ := hU _ he; cases hJ
  · obtain ⟨newC, eC, hC⟩ :=
      walkDownChildren_trace fuel fns N fuel gU I (gU.V I).separatedDFSChildList OK
    have hC0 := hC
    obtain ⟨k, t, v1, v2, v3, v4⟩ := hC
    have hK : ∀ e ∈ newC ++ newU, iterationOf e = some I := by
      intro e he
      rcases List.mem_append.1 he with he | he
      · exact iterationOf_of_child (k e he)
      · exact iterationOf_of_calm (hUc e he)
    have hP : (newC ++ newU).Pairwise follows := by
      refine pairwise_follows_of_calm_tail hK ?_
      intro e he
      rcases mem_tail_append he with he | he
      · exact t e he
      · exact hUc e he
    have hnoEIP : ∀ r, Event.EmbedIterationPostprocess I r ∉ newC ++ newU := by
      intro r he
      rcases List.mem_append.1 he with he | he
      · rcases k _ he with (⟨x, hx⟩ | ⟨x, hx⟩) | ⟨R, x, hx⟩ <;> cases hx
      · obtain ⟨J, hJ⟩ := hU _ he; cases hJ
    have hWD : ∀ R, Event.WalkDown I R NOTOK ∈ newC ++ newU →
        (walkDownChildren fuel fns N fuel gU I (gU.V I).separatedDFSChildList OK).val =
          some (.returned NOTOK) := by
      intro R he
      rcases List.mem_append.1 he with he | he
      · have := v1 R NOTOK NOTOK_ne_OK he; simpa [childExit] using this
      · obtain ⟨J, hJ⟩ := hU _ he; cases hJ
    have hHI : ∀ x, x ≠ OK → Event.HandleInactiveVertex I x ∈ newC ++ newU →
        (walkDownChildren fuel fns N fuel gU I (gU.V I).separatedDFSChildList OK).val =
          some (.returned NOTOK) := by
      intro x hx he
      rcases List.mem_append.1 he with he | he
      · exact v2 x hx he
      · obtain ⟨J, hJ⟩ := hU _ he; cases hJ
    have hMB : Event.MergeBicomps I NOTOK ∈ newC ++ newU →
        (walkDownChildren fuel fns N fuel gU I (gU.V I).separatedDFSChildList OK).val =
          some (.returned NOTOK) := by
      intro he
      rcases List.mem_append.1 he with he | he
      · exact v3 he
      · obtain ⟨J, hJ⟩ := hU _ he; cases hJ
    rcases hc : walkDownChildren fuel fns N fuel gU I (gU.V I).separatedDFSChildList OK
      with ⟨gC, _ | r | r0⟩
    all_goals rw [hc] at eC hWD hHI hMB v4 hC0
    all_goals simp only [] at eC hWD hHI hMB v4 hC0 ⊢
    · refine ⟨newC ++ newU, by rw [eC, eU, List.append_assoc], hK, hP, ?_, ?_, ?_, ?_,
        by simp, by simp, by simp⟩
      · intro R he; have := hWD R he; simp at this
      · intro x hx he; have := hHI x hx he; simp at this
      · intro he; have := hMB he; simp at this
      · intro r he; exact absurd he (hnoEIP r)
    · have hr : r = NOTOK := v4 r rfl
      subst hr
      refine ⟨newC ++ newU, by rw [eC, eU, List.append_assoc], hK, hP, ?_, ?_, ?_, ?_,
        by simp, by simp, by simp⟩
      · intro R _; rfl
      · intro x _ _; rfl
      · intro _; rfl
      · intro r he; exact absurd he (hnoEIP r)
    · have hfol := child_follows hC0 hU
      split_ifs with hf
      · split
        · refine ⟨newC ++ newU, by rw [eC, eU, List.append_assoc], hK, hP, ?_, ?_, ?_, ?_,
            by simp, by simp, by simp⟩
          · intro R he; have := hWD R he; simp at this
          · intro x hx he; have := hHI x hx he; simp at this
          · intro he; have := hMB he; simp at this
          · intro r he; exact absurd he (hnoEIP r)
        · rename_i r g1 hhook
          have hval : (if r ≠ OK then
                (⟨logCall gC g1 (.EmbedIterationPostprocess I r), some (.broke r)⟩ :
                  Run IterationExit)
              else ⟨logCall gC g1 (.EmbedIterationPostprocess I r), some (.next r)⟩) =
              ⟨logCall gC g1 (.EmbedIterationPostprocess I r),
                some (if r ≠ OK then .broke r else .next r)⟩ := by
            split_ifs <;> rfl
          rw [hval]
          refine ⟨.EmbedIterationPostprocess I r :: (newC ++ newU), ?_, ?_, ?_, ?_, ?_, ?_, ?_,
            ?_, ?_, ?_⟩
          · simp [logCall, eC, eU]
          · intro e he
            rcases List.mem_cons.1 he with he | he
            · subst he; rfl
            · exact hK e he
          · exact List.pairwise_cons.2 ⟨hfol _ (Or.inr ⟨r, rfl⟩), hP⟩
          · intro R he
            rcases List.mem_cons.1 he with he | he
            · cases he
            · have := hWD R he; simp at this
          · intro x hx he
            rcases List.mem_cons.1 he with he | he
            · cases he
            · have := hHI x hx he; simp at this
          · intro he
            rcases List.mem_cons.1 he with he | he
            · cases he
            · have := hMB he; simp at this
          · intro r' he
            rcases List.mem_cons.1 he with he | he
            · simp only [Event.EmbedIterationPostprocess.injEq] at he
              obtain ⟨_, rfl⟩ := he
              exact ⟨rfl, gC, g1, hhook⟩
            · exact absurd he (hnoEIP r')
          · intro r' hr' a ha b hb
            rcases List.mem_cons.1 hb with hb | hb
            · subst hb
              have hrOK : r = OK := by
                by_contra hne; simp [hne] at hr'
              subst hrOK
              simp only [follows, if_true]; exact ha
            · exact hfol a (Or.inl ha) b hb
          · intro r' hr' b hb
            have hrne : r ≠ OK := by
              intro hne; simp [hne] at hr'
            have hrr : r' = r := by
              simp [hrne] at hr'; exact hr'.symm
            subst hrr
            rcases List.mem_cons.1 hb with hb | hb
            · subst hb; simp only [follows, if_neg hrne]
            · exact hfol (.EmbedPostprocess I r') (Or.inl (Or.inl (by simp [isPostprocess]))) b hb
          · intro r' hr'; split_ifs at hr' <;> simp at hr'
      · refine ⟨newC ++ newU, by rw [eC, eU, List.append_assoc], hK, hP, ?_, ?_, ?_, ?_,
          ?_, by simp, by simp⟩
        · intro R he; have := hWD R he; simp at this
        · intro x hx he; have := hHI x hx he; simp at this
        · intro he; have := hMB he; simp at this
        · intro r he; exact absurd he (hnoEIP r)
        · intro r _ a ha b hb; exact hfol a (Or.inl ha) b hb

theorem mainShape_of_iter {fns : graphFunctionTable} {k : Nat} {new : List Event}
    {v : Option IterationExit} {val : Option EmbedLoopExit}
    (h : iterShape fns (k : Int) new v)
    (hv : v = none ∧ val = none ∨ (∃ r, v = some (.returned r) ∧ val = some (.returned r)) ∨
      ∃ r, v = some (.broke r) ∧ val = some (.ended (k : Int) r)) :
    mainShape fns (k + 1) new val := by
  obtain ⟨k1, p, v1, v2, v3, v4, v5, v6, v7⟩ := h
  have hidx : ∀ e ∈ new, ∀ I, iterationOf e = some I → I = (k : Int) := by
    intro e he I hI; have := k1 e he; rw [this] at hI; exact (Option.some.inj hI).symm
  refine ⟨?_, p, ?_, ?_, ?_, ?_, ?_, ?_, ?_⟩
  · intro e he
    exact ⟨k, k1 e he, Int.natCast_nonneg k, by push_cast; omega⟩
  · intro I R he
    have hI := hidx _ he I rfl
    subst hI
    have := v1 R he
    rcases hv with ⟨hv, _⟩ | ⟨r, hv, hv2⟩ | ⟨r, hv, _⟩
    · rw [hv] at this; simp at this
    · rw [hv] at this; simp at this; subst this; exact hv2
    · rw [hv] at this; simp at this
  · intro I x hx he
    have hI := hidx _ he I rfl
    subst hI
    have := v2 x hx he
    rcases hv with ⟨hv, _⟩ | ⟨r, hv, hv2⟩ | ⟨r, hv, _⟩
    · rw [hv] at this; simp at this
    · rw [hv] at this; simp at this; subst this; exact hv2
    · rw [hv] at this; simp at this
  · intro I he
    have hI := hidx _ he I rfl
    subst hI
    have := v3 he
    rcases hv with ⟨hv, _⟩ | ⟨r, hv, hv2⟩ | ⟨r, hv, _⟩
    · rw [hv] at this; simp at this
    · rw [hv] at this; simp at this; subst this; exact hv2
    · rw [hv] at this; simp at this
  · intro I r hr he
    have hI := hidx _ he I rfl
    subst hI
    have := (v4 r he).1
    rw [if_pos hr] at this
    rcases hv with ⟨hv, _⟩ | ⟨r', hv, hv2⟩ | ⟨r', hv, hv2⟩
    · rw [hv] at this; simp at this
    · rw [hv] at this; simp at this
    · rw [hv] at this; simp at this; subst this; exact hv2
  · intro I r he
    have hI := hidx _ he I rfl
    subst hI
    exact (v4 r he).2
  · intro I r hval b hb
    rcases hv with ⟨_, hv2⟩ | ⟨r', _, hv2⟩ | ⟨r', hv, hv2⟩
    · rw [hv2] at hval; simp at hval
    · rw [hv2] at hval; simp at hval
    · rw [hv2] at hval; simp at hval
      obtain ⟨rfl, rfl⟩ := hval
      exact v6 r' hv b hb
  · intro r hval
    rcases hv with ⟨_, hv2⟩ | ⟨r', hv, hv2⟩ | ⟨r', _, hv2⟩
    · rw [hv2] at hval; simp at hval
    · rw [hv2] at hval; simp at hval; subst hval; exact v7 r' hv
    · rw [hv2] at hval; simp at hval

theorem embedLoop_trace (fuel : Nat) (fns : graphFunctionTable) (N : Int) (k : Nat) :
    ∀ (g : graph) (RetVal : Int),
      ∃ new, (embedLoop fuel fns N k g RetVal).g.trace = new ++ g.trace ∧
        mainShape fns k new (embedLoop fuel fns N k g RetVal).val := by
  induction k with
  | zero =>
    intro g RetVal
    exact ⟨[], rfl, by simp, List.Pairwise.nil, by simp, by simp, by simp, by simp, by simp,
      by simp, by simp [embedLoop]⟩
  | succ k ih =>
    intro g RetVal
    obtain ⟨new4, e4, h4⟩ := embedIteration_trace fuel fns N g (k : Int)
    simp only [embedLoop]
    rcases h : embedIteration fuel fns N g (k : Int) with ⟨g4, _ | r | r | r⟩
    all_goals rw [h] at e4 h4
    all_goals simp only [] at e4 h4 ⊢
    · exact ⟨new4, e4, mainShape_of_iter h4 (Or.inl ⟨rfl, rfl⟩)⟩
    · exact ⟨new4, e4, mainShape_of_iter h4 (Or.inr (Or.inl ⟨r, rfl, rfl⟩))⟩
    · exact ⟨new4, e4, mainShape_of_iter h4 (Or.inr (Or.inr ⟨r, rfl, rfl⟩))⟩
    · obtain ⟨newR, eR, kR, pR, r1, r2, r3, r4, r5, r6, r7⟩ := ih g4 r
      obtain ⟨k1, p, v1, v2, v3, v4, v5, v6, v7⟩ := h4
      have hidx : ∀ e ∈ new4, ∀ I, iterationOf e = some I → I = (k : Int) := by
        intro e he I hI; have := k1 e he; rw [this] at hI; exact (Option.some.inj hI).symm
      have hbelow : ∀ a ∈ newR, below (k : Int) a := by
        intro a ha
        obtain ⟨I, hI, _, h2⟩ := kR a ha
        exact Or.inr ⟨I, hI, h2⟩
      refine ⟨newR ++ new4, by rw [eR, e4, List.append_assoc], ?_, ?_, ?_, ?_, ?_, ?_, ?_, ?_,
        r7⟩
      · intro e he
        rcases List.mem_append.1 he with he | he
        · obtain ⟨I, hI, h1, h2⟩ := kR e he
          exact ⟨I, hI, h1, by push_cast; omega⟩
        · exact ⟨k, k1 e he, Int.natCast_nonneg k, by push_cast; omega⟩
      · exact List.pairwise_append.2 ⟨pR, p, fun a ha b hb => v5 r rfl a (hbelow a ha) b hb⟩
      · intro I R he
        rcases List.mem_append.1 he with he | he
        · exact r1 I R he
        · have hI := hidx _ he I rfl
          subst hI
          have := v1 R he; simp at this
      · intro I x hx he
        rcases List.mem_append.1 he with he | he
        · exact r2 I x hx he
        · have hI := hidx _ he I rfl
          subst hI
          have := v2 x hx he; simp at this
      · intro I he
        rcases List.mem_append.1 he with he | he
        · exact r3 I he
        · have hI := hidx _ he I rfl
          subst hI
          have := v3 he; simp at this
      · intro I r' hr' he
        rcases List.mem_append.1 he with he | he
        · exact r4 I r' hr' he
        · have hI := hidx _ he I rfl
          subst hI
          have := (v4 r' he).1; simp [hr'] at this
      · intro I r' he
        rcases List.mem_append.1 he with he | he
        · exact r5 I r' he
        · have hI := hidx _ he I rfl
          subst hI
          exact (v4 r' he).2
      · intro I r' hval b hb
        rcases List.mem_append.1 hb with hb | hb
        · exact r6 I r' hval b hb
        · exact v5 r rfl _ (Or.inl (by simp [isPostprocess])) b hb

theorem addToParentList_trace (g : graph) (J : Int) :
    (addToParentList g J).trace = g.trace := by
  unfold addToParentList
  simp only []
  split_ifs <;> rfl

theorem drainBucket_trace (fuel : Nat) :
    ∀ (g : graph) (I J : Int) (g1 : graph), drainBucket fuel g I J = some g1 →
      g1.trace = g.trace := by
  induction fuel with
  | zero => intro g I J g1 h; simp [drainBucket] at h
  | succ n ih =>
    intro g I J g1 h
    simp only [drainBucket] at h
    split_ifs at h
    · simp only [Option.some.injEq] at h; subst h; rfl
    · rw [ih _ _ _ _ h, addToParentList_trace]

theorem foldl_trace (f : graph → Nat → graph) (hf : ∀ s i, (f s i).trace = s.trace)
    (l : List Nat) : ∀ g : graph, (l.foldl f g).trace = g.trace := by
  induction l with
  | nil => intro g; rfl
  | cons x xs ih => intro g; rw [List.foldl_cons, ih, hf]

theorem foldl_bind_trace (f : graph → Nat → Option graph)
    (hf : ∀ s i s', f s i = some s' → s'.trace = s.trace) (l : List Nat) :
    ∀ (o : Option graph) (g1 : graph),
      l.foldl (fun s i => s.bind (fun s => f s i)) o = some g1 →
        ∃ g0, o = some g0 ∧ g1.trace = g0.trace := by
  induction l with
  | nil => intro o g1 h; exact ⟨g1, h, rfl⟩
  | cons x xs ih =>
    intro o g1 h
    rw [List.foldl_cons] at h
    obtain ⟨g0, h0, h1⟩ := ih _ _ h
    cases o with
    | none => simp at h0
    | some s =>
      simp only [Option.some_bind] at h0
      exact ⟨s, rfl, by rw [h1, hf s x g0 h0]⟩

theorem createSortedSeparatedDFSChildLists_trace (fuel : Nat) (g g1 : graph)
    (h : _CreateSortedSeparatedDFSChildLists fuel g = some g1) : g1.trace = g.trace := by
  unfold _CreateSortedSeparatedDFSChildLists at h
  simp only [] at h
  obtain ⟨g0, h0, h1⟩ := foldl_bind_trace
    (fun s (I : Nat) => drainBucket fuel s (I : Int) (s.buckets (I : Int)))
    (fun s i s' hs => drainBucket_trace fuel s _ _ s' hs) _ _ _ h
  simp only [Option.some.injEq] at h0
  rw [h1, ← h0, foldl_trace (fun s (I : Nat) => fillBucket s (I : Int)) (fun s i => rfl),
    foldl_trace (fun s (I : Nat) => { s with buckets := upd s.buckets (I : Int) NIL })
      (fun s i => rfl)]

theorem fillVisited_trace (g : graph) (N : Int) : (fillVisited g N).trace = g.trace := by
  unfold fillVisited
  exact foldl_trace (fun s (I : Nat) => setGVisited s (I : Int) N) (fun s i => rfl) _ _

theorem embedPreprocessLists_trace (fuel : Nat) (fns : graphFunctionTable) (g : graph)
    (N : Int) :
    ∃ new, (embedPreprocessLists fuel fns g N).g.trace = new ++ g.trace ∧
      (∀ e ∈ new, ∃ x, e = Event.CreateFwdArcLists x) ∧
      (∀ x, x ≠ OK → Event.CreateFwdArcLists x ∈ new →
        (embedPreprocessLists fuel fns g N).val = some (some NOTOK)) := by
  unfold embedPreprocessLists
  split
  · exact ⟨[], rfl, by simp, by simp⟩
  · rename_i g1 hg1
    have ht := createSortedSeparatedDFSChildLists_trace fuel g g1 hg1
    split
    · exact ⟨[], by simp [ht], by simp, by simp⟩
    · rename_i r g2 _
      simp only []
      split_ifs with hr
      · exact ⟨[.CreateFwdArcLists r], by simp [logCall, ht], by simp, by simp⟩
      · split
        · refine ⟨[.CreateFwdArcLists r], by simp [logCall, ht], by simp, ?_⟩
          intro x hx he; simp at he; subst he; exact absurd hx hr
        · refine ⟨[.CreateFwdArcLists r], by simp [logCall, ht, fillVisited_trace], by simp, ?_⟩
          intro x hx he; simp at he; subst he; exact absurd hx hr

theorem embedPreprocess_trace (fuel : Nat) (fns : graphFunctionTable) (ext : externals)
    (g : graph) (embedFlags : Int) :
    (∀ e ∈ (embedPreprocess fuel fns ext g embedFlags).g.trace, isPreprocess e) ∧
    (∀ x, x ≠ OK → Event.CreateDFSTree x ∈ (embedPreprocess fuel fns ext g embedFlags).g.trace →
      (embedPreprocess fuel fns ext g embedFlags).val = some (some NOTOK)) ∧
    (∀ x, x ≠ OK → Event.SortVertices x ∈ (embedPreprocess fuel fns ext g embedFlags).g.trace →
      (embedPreprocess fuel fns ext g embedFlags).val = some (some NOTOK)) ∧
    (∀ x, x ≠ OK →
      Event.CreateFwdArcLists x ∈ (embedPreprocess fuel fns ext g embedFlags).g.trace →
      (embedPreprocess fuel fns ext g embedFlags).val = some (some NOTOK)) := by
  unfold embedPreprocess
  simp only []
  generalize ext.gp_CreateDFSTree { g with embedFlags := embedFlags, trace := [] } = rD
  obtain ⟨r1, gD⟩ := rD
  simp only []
  by_cases h1 : r1 = OK
  · subst h1
    simp only [ne_eq, not_true_eq_false, if_false]
    by_cases hflag : Int.land (logCall { g with embedFlags := embedFlags, trace := [] } gD
        (.CreateDFSTree OK)).internalFlags FLAGS_SORTEDBYDFI = 0
    · simp only [if_pos hflag]
      generalize ext.gp_SortVertices (logCall { g with embedFlags := embedFlags, trace := [] } gD
        (.CreateDFSTree OK)) = rS
      obtain ⟨r2, gS⟩ := rS
      simp only []
      by_cases h2 : r2 = OK
      · subst h2
        simp only [not_true_eq_false, if_false]
        obtain ⟨new, e1, e2, e3⟩ := embedPreprocessLists_trace fuel fns
          { ext.gp_LowpointAndLeastAncestor (logCall (logCall
              { g with embedFlags := embedFlags, trace := [] } gD (.CreateDFSTree OK)) gS
              (.SortVertices OK)) with
            trace := (logCall (logCall { g with embedFlags := embedFlags, trace := [] } gD
              (.CreateDFSTree OK)) gS (.SortVertices OK)).trace } g.N
        rw [e1]
        simp only [logCall]
        refine ⟨?_, ?_, ?_, ?_⟩
        · intro e he
          rcases List.mem_append.1 he with he | he
          · obtain ⟨x, rfl⟩ := e2 e he; trivial
          · simp at he; rcases he with rfl | rfl <;> trivial
        · intro x hx he
          rcases List.mem_append.1 he with he | he
          · obtain ⟨y, hy⟩ := e2 _ he; cases hy
          · simp at he; exact absurd he hx
        · intro x hx he
          rcases List.mem_append.1 he with he | he
          · obtain ⟨y, hy⟩ := e2 _ he; cases hy
          · simp at he; exact absurd he hx
        · intro x hx he
          rcases List.mem_append.1 he with he | he
          · exact e3 x hx he
          · simp at he
      · simp only [h2, not_false_eq_true, if_true, logCall]
        refine ⟨?_, ?_, ?_, ?_⟩
        · intro e he; simp at he; rcases he with rfl | rfl <;> trivial
        · intro x _ _; trivial
        · intro x _ _; trivial
        · intro x _ _; trivial
    · simp only [if_neg hflag, not_true_eq_false, if_false]
      obtain ⟨new, e1, e2, e3⟩ := embedPreprocessLists_trace fuel fns
        { ext.gp_LowpointAndLeastAncestor (logCall
            { g with embedFlags := embedFlags, trace := [] } gD (.CreateDFSTree OK)) with
          trace := (logCall { g with embedFlags := embedFlags, trace := [] } gD
            (.CreateDFSTree OK)).trace } g.N
      rw [e1]
      simp only [logCall]
      refine ⟨?_, ?_, ?_, ?_⟩
      · intro e he
        rcases List.mem_append.1 he with he | he
        · obtain ⟨x, rfl⟩ := e2 e he; trivial
        · simp at he; subst he; trivial
      · intro x hx he
        rcases List.mem_append.1 he with he | he
        · obtain ⟨y, hy⟩ := e2 _ he; cases hy
        · simp at he; exact absurd he hx
      · intro x hx he
        rcases List.mem_append.1 he with he | he
        · obtain ⟨y, hy⟩ := e2 _ he; cases hy
        · simp at he
      · intro x hx he
        rcases List.mem_append.1 he with he | he
        · exact e3 x hx he
        · simp at he
  · simp only [ne_eq, h1, not_false_eq_true, if_true, logCall]
    refine ⟨?_, ?_, ?_, ?_⟩
    · intro e he; simp at he; subst he; trivial
    · intro x _ _; trivial
    · intro x _ _; trivial
    · intro x _ _; trivial

theorem follows_of_isPreprocess {a b : Event} (h : isPreprocess b) : follows a b := by
  cases b <;> simp only [isPreprocess] at h <;> trivial

theorem runShape_of_main {fns : graphFunctionTable} {k : Nat} {new newP : List Event}
    {v : Option EmbedLoopExit} {val : Option Int}
    (hP : ∀ e ∈ newP, isPreprocess e)
    (hbad : ∀ e ∈ newP, ∀ x, (e = .CreateDFSTree x ∨ e = .SortVertices x ∨
      e = .CreateFwdArcLists x) → x = OK)
    (h : mainShape fns k new v)
    (hv : v = none ∧ val = none ∨ ∃ r, v = some (.returned r) ∧ val = some r) :
    runShape fns (new ++ newP) val := by
  obtain ⟨kk, p, v1, v2, v3, v4, v5, v6, v7⟩ := h
  have hnP : ∀ e ∈ new, ¬ isPreprocess e := by
    intro e he hp
    obtain ⟨I, hI, _⟩ := kk e he
    cases e <;> simp [isPreprocess] at hp <;> simp [iterationOf] at hI
  have hval : ∀ r, v = some (.returned r) → val = some r := by
    intro r hr
    rcases hv with ⟨h1, _⟩ | ⟨r', h1, h2⟩
    · rw [h1] at hr; simp at hr
    · rw [h1] at hr; simp at hr; subst hr; exact h2
  refine ⟨?_, ?_, ?_, ?_, ?_, ?_, ?_, ?_, ?_, ?_⟩
  · exact List.pairwise_append.2 ⟨p, List.pairwise_of_forall_mem_list
      (fun a _ b hb => follows_of_isPreprocess (hP b hb)),
      fun a _ b hb => follows_of_isPreprocess (hP b hb)⟩
  · intro x hx he
    rcases List.mem_append.1 he with he | he
    · exact absurd trivial (hnP _ he)
    · exact absurd (hbad _ he x (Or.inl rfl)) hx
  · intro x hx he
    rcases List.mem_append.1 he with he | he
    · exact absurd trivial (hnP _ he)
    · exact absurd (hbad _ he x (Or.inr (Or.inl rfl))) hx
  · intro x hx he
    rcases List.mem_append.1 he with he | he
    · exact absurd trivial (hnP _ he)
    · exact absurd (hbad _ he x (Or.inr (Or.inr rfl))) hx
  · intro I R he
    rcases List.mem_append.1 he with he | he
    · exact hval _ (v1 I R he)
    · exact absurd (hP _ he) (by simp [isPreprocess])
  · intro I x hx he
    rcases List.mem_append.1 he with he | he
    · exact hval _ (v2 I x hx he)
    · exact absurd (hP _ he) (by simp [isPreprocess])
  · intro I he
    rcases List.mem_append.1 he with he | he
    · exact hval _ (v3 I he)
    · exact absurd (hP _ he) (by simp [isPreprocess])
  · intro I r hr he
    rcases List.mem_append.1 he with he | he
    · have := v4 I r hr he
      rcases hv with ⟨h1, _⟩ | ⟨r', h1, _⟩
      · rw [h1] at this; simp at this
      · rw [h1] at this; simp at this
    · exact absurd (hP _ he) (by simp [isPreprocess])
  · intro I r he
    rcases List.mem_append.1 he with he | he
    · exact v5 I r he
    · exact absurd (hP _ he) (by simp [isPreprocess])
  · intro I r he
    rcases List.mem_append.1 he with he | he
    · obtain ⟨I', hI, _⟩ := kk _ he; simp [iterationOf] at hI
    · exact absurd (hP _ he) (by simp [isPreprocess])

theorem runShape_of_ended {fns : graphFunctionTable} {k : Nat} {new newP : List Event}
    {I r : Int} (g0 : graph)
    (hP : ∀ e ∈ newP, isPreprocess e)
    (hbad : ∀ e ∈ newP, ∀ x, (e = .CreateDFSTree x ∨ e = .SortVertices x ∨
      e = .CreateFwdArcLists x) → x = OK)
    (h : mainShape fns k new (some (.ended I r))) :
    runShape fns (.EmbedPostprocess I r :: (new ++ newP))
      ((fns.fpEmbedPostprocess g0 I r).map Prod.fst) := by
  obtain ⟨kk, p, v1, v2, v3, v4, v5, v6, v7⟩ := h
  have hnP : ∀ e ∈ new, ¬ isPreprocess e := by
    intro e he hp
    obtain ⟨I, hI, _⟩ := kk e he
    cases e <;> simp [isPreprocess] at hp <;> simp [iterationOf] at hI
  refine ⟨?_, ?_, ?_, ?_, ?_, ?_, ?_, ?_, ?_, ?_⟩
  · refine List.pairwise_cons.2 ⟨?_, List.pairwise_append.2 ⟨p, List.pairwise_of_forall_mem_list
      (fun a _ b hb => follows_of_isPreprocess (hP b hb)),
      fun a _ b hb => follows_of_isPreprocess (hP b hb)⟩⟩
    intro b hb
    rcases List.mem_append.1 hb with hb | hb
    · exact v6 I r rfl b hb
    · exact follows_of_isPreprocess (hP b hb)
  · intro x hx he
    rcases List.mem_cons.1 he with he | he
    · cases he
    rcases List.mem_append.1 he with he | he
    · exact absurd trivial (hnP _ he)
    · exact absurd (hbad _ he x (Or.inl rfl)) hx
  · intro x hx he
    rcases List.mem_cons.1 he with he | he
    · cases he
    rcases List.mem_append.1 he with he | he
    · exact absurd trivial (hnP _ he)
    · exact absurd (hbad _ he x (Or.inr (Or.inl rfl))) hx
  · intro x hx he
    rcases List.mem_cons.1 he with he | he
    · cases he
    rcases List.mem_append.1 he with he | he
    · exact absurd trivial (hnP _ he)
    · exact absurd (hbad _ he x (Or.inr (Or.inr rfl))) hx
  · intro I' R he
    rcases List.mem_cons.1 he with he | he
    · cases he
    rcases List.mem_append.1 he with he | he
    · have := v1 I' R he; simp at this
    · exact absurd (hP _ he) (by simp [isPreprocess])
  · intro I' x hx he
    rcases List.mem_cons.1 he with he | he
    · cases he
    rcases List.mem_append.1 he with he | he
    · have := v2 I' x hx he; simp at this
    · exact absurd (hP _ he) (by simp [isPreprocess])
  · intro I' he
    rcases List.mem_cons.1 he with he | he
    · cases he
    rcases List.mem_append.1 he with he | he
    · have := v3 I' he; simp at this
    · exact absurd (hP _ he) (by simp [isPreprocess])
  · intro I' r' hr he
    rcases List.mem_cons.1 he with he | he
    · cases he
    rcases List.mem_append.1 he with he | he
    · have := v4 I' r' hr he
      simp only [Option.some.injEq, EmbedLoopExit.ended.injEq] at this
      obtain ⟨rfl, rfl⟩ := this
      rfl
    · exact absurd (hP _ he) (by simp [isPreprocess])
  · intro I' r' he
    rcases List.mem_cons.1 he with he | he
    · cases he
    rcases List.mem_append.1 he with he | he
    · exact v5 I' r' he
    · exact absurd (hP _ he) (by simp [isPreprocess])
  · intro I' r' he
    rcases List.mem_cons.1 he with he | he
    · simp only [Event.EmbedPostprocess.injEq] at he
      obtain ⟨rfl, rfl⟩ := he
      exact ⟨g0, rfl⟩
    rcases List.mem_append.1 he with he | he
    · obtain ⟨I'', hI, _⟩ := kk _ he; simp [iterationOf] at hI
    · exact absurd (hP _ he) (by simp [isPreprocess])

theorem mainShape_nil (fns : graphFunctionTable) (I r : Int) :
    mainShape fns 0 [] (some (.ended I r)) :=
  ⟨by simp, List.Pairwise.nil, by simp, by simp, by simp, by simp, by simp, by simp, by simp⟩

theorem embedGraph_trace (fuel : Nat) (fns : graphFunctionTable) (ext : externals)
    (g : graph) (embedFlags : Int) :
    runShape fns (embedGraph fuel fns ext g embedFlags).g.trace
      (embedGraph fuel fns ext g embedFlags).val := by
  obtain ⟨hP, a1, a2, a3⟩ := embedPreprocess_trace fuel fns ext g embedFlags
  unfold embedGraph
  simp only []
  rcases hp : embedPreprocess fuel fns ext g embedFlags with ⟨gP, _ | _ | r⟩
  all_goals rw [hp] at hP a1 a2 a3
  all_goals simp only [] at hP a1 a2 a3 ⊢
  · refine ⟨List.pairwise_of_forall_mem_list (fun a _ b hb => follows_of_isPreprocess (hP b hb)),
      ?_, ?_, ?_, ?_, ?_, ?_, ?_, ?_, ?_⟩
    · intro x hx he; have := a1 x hx he; simp at this
    · intro x hx he; have := a2 x hx he; simp at this
    · intro x hx he; have := a3 x hx he; simp at this
    · intro I R he; exact absurd (hP _ he) (by simp [isPreprocess])
    · intro I x _ he; exact absurd (hP _ he) (by simp [isPreprocess])
    · intro I he; exact absurd (hP _ he) (by simp [isPreprocess])
    · intro I r _ he; exact absurd (hP _ he) (by simp [isPreprocess])
    · intro I r he; exact absurd (hP _ he) (by simp [isPreprocess])
    · intro I r he; exact absurd (hP _ he) (by simp [isPreprocess])
  · have hbad : ∀ e ∈ gP.trace, ∀ x, (e = .CreateDFSTree x ∨ e = .SortVertices x ∨
        e = .CreateFwdArcLists x) → x = OK := by
      intro e he x hx
      by_contra hne
      rcases hx with rfl | rfl | rfl
      · have := a1 x hne he; simp at this
      · have := a2 x hne he; simp at this
      · have := a3 x hne he; simp at this
    have key : ∀ (k : Nat) (L : Run EmbedLoopExit) (new : List Event),
        L.g.trace = new ++ gP.trace → mainShape fns k new L.val →
        runShape fns
          (match L with
            | ⟨g, none⟩ => (⟨g, none⟩ : Run Int)
            | ⟨g, some (.returned r)⟩ => ⟨g, some r⟩
            | ⟨g, some (.ended I RetVal)⟩ =>
              match fns.fpEmbedPostprocess (logCall g g (.EmbedPostprocess I RetVal)) I RetVal with
              | none => ⟨logCall g g (.EmbedPostprocess I RetVal), none⟩
              | some (r, g1) =>
                ⟨{ g1 with trace := (logCall g g (.EmbedPostprocess I RetVal)).trace }, some r⟩).g.trace
          (match L with
            | ⟨g, none⟩ => (⟨g, none⟩ : Run Int)
            | ⟨g, some (.returned r)⟩ => ⟨g, some r⟩
            | ⟨g, some (.ended I RetVal)⟩ =>
              match fns.fpEmbedPostprocess (logCall g g (.EmbedPostprocess I RetVal)) I RetVal with
              | none => ⟨logCall g g (.EmbedPostprocess I RetVal), none⟩
              | some (r, g1) =>
                ⟨{ g1 with trace := (logCall g g (.EmbedPostprocess I RetVal)).trace }, some r⟩).val := by
      intro k L new e h
      rcases L with ⟨gL, _ | r | ⟨I, r⟩⟩
      all_goals simp only [] at e h ⊢
      · rw [e]; exact runShape_of_main hP hbad h (Or.inl ⟨rfl, rfl⟩)
      · rw [e]; exact runShape_of_main hP hbad h (Or.inr ⟨r, rfl, rfl⟩)
      · have := runShape_of_ended (logCall gL gL (.EmbedPostprocess I r)) hP hbad h
        rcases hh : fns.fpEmbedPostprocess (logCall gL gL (.EmbedPostprocess I r)) I r
          with _ | ⟨r', g1⟩
        all_goals rw [hh] at this
        all_goals simp only [logCall, e]
        all_goals exact this
    split_ifs with hN
    · exact key 0 ⟨gP, some (.ended (gP.N - 1) OK)⟩ [] rfl (mainShape_nil fns _ _)
    · obtain ⟨new, e, h⟩ := embedLoop_trace fuel fns g.N gP.N.toNat gP OK
      exact key _ _ new e h
  · refine ⟨List.pairwise_of_forall_mem_list (fun a _ b hb => follows_of_isPreprocess (hP b hb)),
      ?_, ?_, ?_, ?_, ?_, ?_, ?_, ?_, ?_⟩
    · intro x hx he; have := a1 x hx he; simp at this; rw [this]
    · intro x hx he; have := a2 x hx he; simp at this; rw [this]
    · intro x hx he; have := a3 x hx he; simp at this; rw [this]
    · intro I R he; exact absurd (hP _ he) (by simp [isPreprocess])
    · intro I x _ he; exact absurd (hP _ he) (by simp [isPreprocess])
    · intro I he; exact absurd (hP _ he) (by simp [isPreprocess])
    · intro I r _ he; exact absurd (hP _ he) (by simp [isPreprocess])
    · intro I r he; exact absurd (hP _ he) (by simp [isPreprocess])
    · intro I r he; exact absurd (hP _ he) (by simp [isPreprocess])

/-! ### Outcomes of `_WalkDown` -/

theorem walkDownRest_default (fuel1 : Nat) (init : graph → Int → graph) (ext : externals)
    (loop : graph → Int → Int → Run WalkDownExit)
    (hloop : ∀ g W WP x, (loop g W WP).val ≠ some (.returned x)) (g : graph) (I R W WP x : Int) :
    (walkDownRest (defaultFunctions fuel1 init ext) loop g I R W WP).val ≠
      some (.returned x) := by
  unfold walkDownRest
  split_ifs with h1 h2
  · exact hloop _ _ _ _
  · simp only [defaultFunctions, _HandleInactiveVertex, ne_eq, not_true_eq_false, if_false]
    exact hloop _ _ _ _
  · simp

theorem walkDownEmbed_default (fuel1 : Nat) (init : graph → Int → graph) (ext : externals)
    (loop : graph → Int → Int → Run WalkDownExit)
    (hloop : ∀ g W WP x, (loop g W WP).val ≠ some (.returned x))
    (g : graph) (I R side W WP x : Int) :
    (walkDownEmbed (defaultFunctions fuel1 init ext) loop g I R side W WP).val ≠
      some (.returned x) := by
  unfold walkDownEmbed
  split
  · simp
  · exact walkDownRest_default fuel1 init ext loop hloop _ I R W WP x

theorem walkDownBody_default (fuel1 : Nat) (init : graph → Int → graph) (ext : externals)
    (loop : graph → Int → Int → Run WalkDownExit)
    (hloop : ∀ g W WP x, (loop g W WP).val ≠ some (.returned x))
    (g : graph) (I R side W WP x : Int) :
    (walkDownBody (defaultFunctions fuel1 init ext) loop g I R side W WP).val ≠
      some (.returned x) := by
  unfold walkDownBody
  split_ifs with h1 h2
  · split
    · simp
    · rename_i r g1 hm
      have hr : r = OK := by
        simp only [defaultFunctions, _MergeBicomps, Option.map_eq_some', Prod.mk.injEq] at hm
        obtain ⟨_, _, h, _⟩ := hm
        exact h.symm
      subst hr
      simp only [ne_eq, not_true_eq_false, if_false]
      exact walkDownEmbed_default fuel1 init ext loop hloop _ I R side W WP x
  · exact walkDownEmbed_default fuel1 init ext loop hloop _ I R side W WP x
  · exact walkDownRest_default fuel1 init ext loop hloop _ I R W WP x

theorem walkDownLoop_default (fuel1 : Nat) (init : graph → Int → graph) (ext : externals)
    (fuel : Nat) :
    ∀ (g : graph) (I R side W WP x : Int),
      (walkDownLoop (defaultFunctions fuel1 init ext) fuel g I R side W WP).val ≠
        some (.returned x) := by
  induction fuel with
  | zero => intro g I R side W WP x; simp [walkDownLoop]
  | succ n ih =>
    intro g I R side W WP x
    simp only [walkDownLoop]
    split_ifs
    · simp
    · exact walkDownBody_default fuel1 init ext _ (fun g W WP x => ih g I R side W WP x)
        g I R side W WP x

theorem walkDownShortCircuit_theStack (g : graph) (R side W WP : Int) :
    (walkDownShortCircuit g R side W WP).theStack = g.theStack := by
  unfold walkDownShortCircuit
  simp only []
  split_ifs <;> rfl

theorem theStack_of_not_nonEmpty {g : graph} (h : ¬ sp_NonEmpty g = true) : g.theStack = [] := by
  unfold sp_NonEmpty at h
  cases hs : g.theStack with
  | nil => rfl
  | cons a l => rw [hs] at h; simp at h

theorem NONEMBEDDABLE_ne_OK : NONEMBEDDABLE ≠ OK := by decide

theorem walkDown_outcome (fuel : Nat) (fns : graphFunctionTable) (g : graph) (I R : Int) :
    ((walkDownPassLoop fuel fns (sp_ClearStack g) I R 0).val = none ∧
      _WalkDown fuel fns g I R = ⟨(walkDownPassLoop fuel fns (sp_ClearStack g) I R 0).g, none⟩) ∨
    (∃ r, (walkDownPassLoop fuel fns (sp_ClearStack g) I R 0).val = some (.returned r) ∧
      _WalkDown fuel fns g I R =
        ⟨(walkDownPassLoop fuel fns (sp_ClearStack g) I R 0).g, some r⟩) ∨
    ∃ W WP, (walkDownPassLoop fuel fns (sp_ClearStack g) I R 0).val = some (.ended W WP) ∧
      ((sp_NonEmpty (walkDownPassLoop fuel fns (sp_ClearStack g) I R 0).g = true ∧
        _WalkDown fuel fns g I R =
          ⟨(walkDownPassLoop fuel fns (sp_ClearStack g) I R 0).g, some NONEMBEDDABLE⟩) ∨
      (sp_NonEmpty (walkDownPassLoop fuel fns (sp_ClearStack g) I R 0).g = false ∧ W = R ∧
        _WalkDown fuel fns g I R =
          ⟨walkDownShortCircuit (walkDownPassLoop fuel fns (sp_ClearStack g) I R 0).g R 0 W WP,
            some OK⟩) ∨
      (sp_NonEmpty (walkDownPassLoop fuel fns (sp_ClearStack g) I R 0).g = false ∧ W ≠ R ∧
        (((secondPassLoop fuel fns g I R W WP).val = none ∧
          _WalkDown fuel fns g I R = ⟨(secondPassLoop fuel fns g I R W WP).g, none⟩) ∨
        (∃ r, (secondPassLoop fuel fns g I R W WP).val = some (.returned r) ∧
          _WalkDown fuel fns g I R = ⟨(secondPassLoop fuel fns g I R W WP).g, some r⟩) ∨
        ∃ W1 WP1, (secondPassLoop fuel fns g I R W WP).val = some (.ended W1 WP1) ∧
          ((sp_NonEmpty (secondPassLoop fuel fns g I R W WP).g = true ∧
            _WalkDown fuel fns g I R =
              ⟨(secondPassLoop fuel fns g I R W WP).g, some NONEMBEDDABLE⟩) ∨
          (sp_NonEmpty (secondPassLoop fuel fns g I R W WP).g = false ∧
            _WalkDown fuel fns g I R =
              ⟨walkDownShortCircuit (secondPassLoop fuel fns g I R W WP).g R 1 W1 WP1,
                some OK⟩))))) := by
  unfold secondPassLoop _WalkDown walkDownPass
  dsimp only
  rcases h0 : walkDownPassLoop fuel fns (sp_ClearStack g) I R 0 with ⟨g0, _ | r | ⟨W, WP⟩⟩
  · exact Or.inl ⟨rfl, rfl⟩
  · exact Or.inr (Or.inl ⟨r, rfl, rfl⟩)
  · refine Or.inr (Or.inr ⟨W, WP, rfl, ?_⟩)
    dsimp only
    by_cases hs : sp_NonEmpty g0 = true
    · exact Or.inl ⟨hs, by rw [if_pos hs]⟩
    · have hs2 : sp_NonEmpty g0 = false := by simpa using hs
      rw [if_neg hs]
      by_cases hW : W = R
      · exact Or.inr (Or.inl ⟨hs2, hW, by rw [if_pos hW]⟩)
      · refine Or.inr (Or.inr ⟨hs2, hW, ?_⟩)
        rw [if_neg hW]
        dsimp only
        rcases h1 : walkDownPassLoop fuel fns (walkDownShortCircuit g0 R 0 W WP) I R 1
          with ⟨g1, _ | r | ⟨W1, WP1⟩⟩
        · exact Or.inl ⟨rfl, rfl⟩
        · exact Or.inr (Or.inl ⟨r, rfl, rfl⟩)
        · refine Or.inr (Or.inr ⟨W1, WP1, rfl, ?_⟩)
          dsimp only
          by_cases hs1 : sp_NonEmpty g1 = true
          · exact Or.inl ⟨hs1, by rw [if_pos hs1]⟩
          · have hs3 : sp_NonEmpty g1 = false := by simpa using hs1
            refine Or.inr ⟨hs3, ?_⟩
            rw [if_neg hs1]
            split_ifs <;> rfl

/-- C3 With the default hooks `_WalkDown(I, R)` returns `NONEMBEDDABLE` exactly when the
inner loop of one of its passes ends with a non-empty stack: that of pass `RootSide = 0`,
or, after pass 0 ended with an empty stack at a `W` other than the root and its
short-circuit was done, that of pass `RootSide = 1`.  The state returned is then the one in
which that inner loop ended, so the short-circuit and the inversionFlag update of that
pass were not performed; and whenever `_WalkDown` returns `OK` the stack is empty. -/
theorem walkDown_nonembeddable_iff (fuel fuel1 : Nat) (init : graph → Int → graph)
    (ext : externals) (g : graph) (I R : Int) :
    let fns := defaultFunctions fuel1 init ext
    let run := _WalkDown fuel fns g I R
    let p0 := walkDownPassLoop fuel fns (sp_ClearStack g) I R 0
    (run.val = some NONEMBEDDABLE ↔
      (∃ W WP, p0.val = some (.ended W WP) ∧ sp_NonEmpty p0.g = true) ∨
      ∃ W WP, p0.val = some (.ended W WP) ∧ sp_NonEmpty p0.g = false ∧ W ≠ R ∧
        ∃ W1 WP1, (secondPassLoop fuel fns g I R W WP).val = some (.ended W1 WP1) ∧
          sp_NonEmpty (secondPassLoop fuel fns g I R W WP).g = true) ∧
    ((∃ W WP, p0.val = some (.ended W WP) ∧ sp_NonEmpty p0.g = true) → run.g = p0.g) ∧
    (∀ W WP, p0.val = some (.ended W WP) → sp_NonEmpty p0.g = false → W ≠ R →
      (∃ W1 WP1, (secondPassLoop fuel fns g I R W WP).val = some (.ended W1 WP1) ∧
        sp_NonEmpty (secondPassLoop fuel fns g I R W WP).g = true) →
      run.g = (secondPassLoop fuel fns g I R W WP).g) ∧
    (run.val = some OK → run.g.theStack = []) := by
  intro fns run p0
  have hd0 : ∀ x, p0.val ≠ some (.returned x) := fun x =>
    walkDownLoop_default fuel1 init ext fuel (sp_ClearStack g) I R 0 _ _ x
  have hd1 : ∀ W WP x, (secondPassLoop fuel fns g I R W WP).val ≠ some (.returned x) :=
    fun W WP x => walkDownLoop_default fuel1 init ext fuel _ I R 1 _ _ x
  have hne : NONEMBEDDABLE ≠ OK := NONEMBEDDABLE_ne_OK
  rcases walkDown_outcome fuel fns g I R with ⟨h0, hr⟩ | ⟨r, h0, _⟩ | ⟨W, WP, h0, hc⟩
  · have e0 : p0.val = none := h0
    have er : run = ⟨p0.g, none⟩ := hr
    refine ⟨⟨?_, ?_⟩, ?_, ?_, ?_⟩
    · intro h; rw [er] at h; simp at h
    · rintro (⟨W, WP, h, _⟩ | ⟨W, WP, h, _⟩) <;> rw [e0] at h <;> simp at h
    · rintro ⟨W, WP, h, _⟩; rw [e0] at h; simp at h
    · intro W WP h; rw [e0] at h; simp at h
    · intro h; rw [er] at h; simp at h
  · exact absurd h0 (hd0 r)
  · have e0 : p0.val = some (.ended W WP) := h0
    have inj : ∀ W' WP', p0.val = some (.ended W' WP') → W' = W ∧ WP' = WP := by
      intro W' WP' h; rw [e0] at h; simp at h; exact ⟨h.1.symm, h.2.symm⟩
    rcases hc with ⟨hs, hr⟩ | ⟨hs, hW, hr⟩ | ⟨hs, hW, hc⟩
    · have er : run = ⟨p0.g, some NONEMBEDDABLE⟩ := hr
      have hs' : sp_NonEmpty p0.g = true := hs
      refine ⟨⟨fun _ => Or.inl ⟨W, WP, e0, hs⟩, fun _ => by rw [er]⟩, fun _ => by rw [er], ?_, ?_⟩
      · intro W' WP' _ h; rw [hs'] at h; simp at h
      · intro h; rw [er] at h; simp at h; exact absurd h hne
    · have er : run = ⟨walkDownShortCircuit p0.g R 0 W WP, some OK⟩ := hr
      have hs' : sp_NonEmpty p0.g = false := hs
      refine ⟨⟨?_, ?_⟩, ?_, ?_, ?_⟩
      · intro h; rw [er] at h; simp at h; exact absurd h.symm hne
      · rintro (⟨W', WP', _, h⟩ | ⟨W', WP', h, _, hne', _⟩)
        · rw [hs'] at h; simp at h
        · exact absurd ((inj W' WP' h).1.trans hW) hne'
      · rintro ⟨W', WP', _, h⟩; rw [hs'] at h; simp at h
      · intro W' WP' h _ hne' _; exact absurd ((inj W' WP' h).1.trans hW) hne'
      · intro _; rw [er]
        show (walkDownShortCircuit p0.g R 0 W WP).theStack = []
        rw [walkDownShortCircuit_theStack]
        exact theStack_of_not_nonEmpty (by rw [hs']; simp)
    · have hs' : sp_NonEmpty p0.g = false := hs
      have hA : ¬ ∃ W WP, p0.val = some (.ended W WP) ∧ sp_NonEmpty p0.g = true := by
        rintro ⟨W', WP', _, h⟩; rw [hs'] at h; simp at h
      rcases hc with ⟨h1, hr⟩ | ⟨r, h1, _⟩ | ⟨W1, WP1, h1, hc⟩
      · have er : run = ⟨(secondPassLoop fuel fns g I R W WP).g, none⟩ := hr
        have hB : ∀ W' WP', p0.val = some (.ended W' WP') →
            ¬ ∃ W1 WP1, (secondPassLoop fuel fns g I R W' WP').val = some (.ended W1 WP1) ∧
              sp_NonEmpty (secondPassLoop fuel fns g I R W' WP').g = true := by
          intro W' WP' h
          obtain ⟨rfl, rfl⟩ := inj W' WP' h
          rintro ⟨W1, WP1, h2, _⟩; rw [h1] at h2; simp at h2
        refine ⟨⟨?_, ?_⟩, fun h => absurd h hA, ?_, ?_⟩
        · intro h; rw [er] at h; simp at h
        · rintro (h | ⟨W', WP', h, _, _, h2⟩)
          · exact absurd h hA
          · exact absurd h2 (hB W' WP' h)
        · intro W' WP' h _ _ h2; exact absurd h2 (hB W' WP' h)
        · intro h; rw [er] at h; simp at h
      · exact absurd h1 (hd1 W WP r)
      · rcases hc with ⟨hs1, hr⟩ | ⟨hs1, hr⟩
        · have er : run = ⟨(secondPassLoop fuel fns g I R W WP).g, some NONEMBEDDABLE⟩ := hr
          refine ⟨⟨fun _ => Or.inr ⟨W, WP, e0, hs, hW, W1, WP1, h1, hs1⟩, fun _ => by rw [er]⟩,
            fun h => absurd h hA, ?_, ?_⟩
          · intro W' WP' h _ _ _
            obtain ⟨rfl, rfl⟩ := inj W' WP' h
            rw [er]
          · intro h; rw [er] at h; simp at h; exact absurd h hne
        · have er : run = ⟨walkDownShortCircuit (secondPassLoop fuel fns g I R W WP).g R 1 W1 WP1,
              some OK⟩ := hr
          have hB : ∀ W' WP', p0.val = some (.ended W' WP') →
              ¬ ∃ W1 WP1, (secondPassLoop fuel fns g I R W' WP').val = some (.ended W1 WP1) ∧
                sp_NonEmpty (secondPassLoop fuel fns g I R W' WP').g = true := by
            intro W' WP' h
            obtain ⟨rfl, rfl⟩ := inj W' WP' h
            rintro ⟨W1, WP1, _, h2⟩; rw [hs1] at h2; simp at h2
          refine ⟨⟨?_, ?_⟩, fun h => absurd h hA, ?_, ?_⟩
          · intro h; rw [er] at h; simp at h; exact absurd h.symm hne
          · rintro (h | ⟨W', WP', h, _, _, h2⟩)
            · exact absurd h hA
            · exact absurd h2 (hB W' WP' h)
          · intro W' WP' h _ _ h2; exact absurd h2 (hB W' WP' h)
          · intro _; rw [er]
            show (walkDownShortCircuit (secondPassLoop fuel fns g I R W WP).g R 1 W1
              WP1).theStack = []
            rw [walkDownShortCircuit_theStack]
            exact theStack_of_not_nonEmpty (by rw [hs1]; simp)

theorem walkDownRest_ended (fns : graphFunctionTable)
    (loop : graph → Int → Int → Run WalkDownExit) (I R : Int)
    (hloop : ∀ g W WP W1 WP1, (loop g W WP).val = some (.ended W1 WP1) →
      W1 = R ∨ isStoppingVertex (loop g W WP).g I W1)
    (g : graph) (W WP : Int) (hadj : (g.V W).adjacentTo = NIL) (W1 WP1 : Int)
    (h : (walkDownRest fns loop g I R W WP).val = some (.ended W1 WP1)) :
    W1 = R ∨ isStoppingVertex (walkDownRest fns loop g I R W WP).g I W1 := by
  unfold walkDownRest at h ⊢
  split_ifs at h ⊢ with h1 h2
  · exact hloop _ _ _ _ _ h
  · split at h
    · simp at h
    · rename_i r g1 W' WP' _
      dsimp only at h ⊢
      split_ifs at h ⊢ with h3
      · simp at h
      · exact hloop _ _ _ _ _ h
  · simp only [Option.some.injEq, WalkDownExit.ended.injEq] at h
    obtain ⟨rfl, rfl⟩ := h
    exact Or.inr ⟨hadj, not_not.1 h1, h2⟩

theorem walkDownEmbed_ended (fns : graphFunctionTable)
    (loop : graph → Int → Int → Run WalkDownExit) (I R side : Int)
    (hloop : ∀ g W WP W1 WP1, (loop g W WP).val = some (.ended W1 WP1) →
      W1 = R ∨ isStoppingVertex (loop g W WP).g I W1)
    (g : graph) (W WP : Int) (W1 WP1 : Int)
    (h : (walkDownEmbed fns loop g I R side W WP).val = some (.ended W1 WP1)) :
    W1 = R ∨ isStoppingVertex (walkDownEmbed fns loop g I R side W WP).g I W1 := by
  unfold walkDownEmbed at h ⊢
  split at h
  · simp at h
  · rename_i g1 _
    exact walkDownRest_ended fns loop I R hloop _ W WP (by simp [setAdjacentTo, upd]) W1 WP1 h

theorem walkDownBody_ended (fns : graphFunctionTable)
    (loop : graph → Int → Int → Run WalkDownExit) (I R side : Int)
    (hloop : ∀ g W WP W1 WP1, (loop g W WP).val = some (.ended W1 WP1) →
      W1 = R ∨ isStoppingVertex (loop g W WP).g I W1)
    (g : graph) (W WP : Int) (W1 WP1 : Int)
    (h : (walkDownBody fns loop g I R side W WP).val = some (.ended W1 WP1)) :
    W1 = R ∨ isStoppingVertex (walkDownBody fns loop g I R side W WP).g I W1 := by
  unfold walkDownBody at h ⊢
  split_ifs at h ⊢ with h1 h2
  · split at h
    · simp at h
    · rename_i r g1 _
      dsimp only at h ⊢
      split_ifs at h ⊢ with h3
      · simp at h
      · exact walkDownEmbed_ended fns loop I R side hloop _ W WP W1 WP1 h
  · exact walkDownEmbed_ended fns loop I R side hloop _ W WP W1 WP1 h
  · exact walkDownRest_ended fns loop I R hloop g W WP (not_not.1 h1) W1 WP1 h

theorem walkDownLoop_ended (fns : graphFunctionTable) (fuel : Nat) :
    ∀ (g : graph) (I R side W WP W1 WP1 : Int),
      (walkDownLoop fns fuel g I R side W WP).val = some (.ended W1 WP1) →
        W1 = R ∨ isStoppingVertex (walkDownLoop fns fuel g I R side W WP).g I W1 := by
  induction fuel with
  | zero => intro g I R side W WP W1 WP1 h; simp [walkDownLoop] at h
  | succ n ih =>
    intro g I R side W WP W1 WP1 h
    simp only [walkDownLoop] at h ⊢
    split_ifs at h ⊢ with hW
    · simp only [Option.some.injEq, WalkDownExit.ended.injEq] at h
      exact Or.inl (h.1 ▸ hW)
    · exact walkDownBody_ended fns _ I R side (fun g W WP W1 WP1 h => ih g I R side W WP W1 WP1 h)
        g W WP W1 WP1 h

/-! ### Twin arcs -/

theorem nat_xor_one (n : Nat) : n ^^^ 1 = if n % 2 = 0 then n + 1 else n - 1 := by
  have h1 : (1 : Nat) = Nat.bit true 0 := by simp [Nat.bit_val]
  have hn := Nat.bit_decomp n
  have hx : n ^^^ 1 = Nat.bit (n.bodd != true) n.div2 := by
    conv_lhs => rw [← hn, h1, Nat.xor_bit, Nat.xor_zero]
  rw [hx]
  rw [Nat.bit_val] at hn ⊢
  cases hb : n.bodd <;> rw [hb] at hn <;> simp at hn ⊢ <;> split_ifs <;> omega

theorem int_xor_one (n : Int) (h : 0 ≤ n) :
    Int.xor n 1 = if n % 2 = 0 then n + 1 else n - 1 := by
  obtain ⟨m, rfl⟩ := Int.eq_ofNat_of_zero_le h
  show ((m ^^^ 1 : Nat) : Int) = _
  rw [nat_xor_one]
  split_ifs <;> omega

theorem foldl_bind_proj {α : Type} (pr : graph → α) (f : graph → Nat → Option graph)
    (hf : ∀ s i s', f s i = some s' → pr s' = pr s) (l : List Nat) :
    ∀ (o : Option graph) (g1 : graph),
      l.foldl (fun s i => s.bind (fun s => f s i)) o = some g1 →
        ∃ g0, o = some g0 ∧ pr g1 = pr g0 := by
  induction l with
  | nil => intro o g1 h; exact ⟨g1, h, rfl⟩
  | cons x xs ih =>
    intro o g1 h
    rw [List.foldl_cons] at h
    obtain ⟨g0, h0, h1⟩ := ih _ _ h
    cases o with
    | none => simp at h0
    | some s =>
      simp only [Option.some_bind] at h0
      exact ⟨s, rfl, by rw [h1, hf s x g0 h0]⟩

theorem createDFSTreeEmbeddingAt_edgeOffset (fuel : Nat) (g : graph) (I : Int) (g1 : graph)
    (h : createDFSTreeEmbeddingAt fuel g I = some g1) : g1.edgeOffset = g.edgeOffset := by
  unfold createDFSTreeEmbeddingAt at h
  simp only [] at h
  split_ifs at h
  · simp only [Option.some.injEq] at h; subst h; rfl
  · simp only [Option.map_eq_some'] at h
    obtain ⟨J, _, rfl⟩ := h
    rfl

theorem createDFSTreeEmbedding_edgeOffset (fuel : Nat) (g g1 : graph)
    (h : _CreateDFSTreeEmbedding fuel g = some g1) : g1.edgeOffset = g.edgeOffset := by
  unfold _CreateDFSTreeEmbedding at h
  obtain ⟨g0, h0, h1⟩ := foldl_bind_proj graph.edgeOffset
    (fun s (I : Nat) => createDFSTreeEmbeddingAt fuel s (I : Int))
    (fun s i s' hs => createDFSTreeEmbeddingAt_edgeOffset fuel s _ s' hs) _ _ _ h
  simp only [Option.some.injEq] at h0
  rw [h1, ← h0]

theorem embedBackEdgeToDescendant_edgeOffset (g : graph) (RootSide RootVertex W WPrevLink : Int) :
    (_EmbedBackEdgeToDescendant g RootSide RootVertex W WPrevLink).edgeOffset = g.edgeOffset := by
  have h : ∀ (s : graph) (p f : Int), (detachForwardArc s p f).edgeOffset = s.edgeOffset := by
    intro s p f
    unfold detachForwardArc
    simp only []
    split_ifs <;> rfl
  have h2 : ∀ (s : graph) (a b c : Int), (attachArc s a b c).edgeOffset = s.edgeOffset :=
    fun s a b c => rfl
  have h3 : ∀ (s : graph) (a b c : Int), (setExtFaceLink s a b c).edgeOffset = s.edgeOffset :=
    fun s a b c => rfl
  have h4 : ∀ (s : graph) (a b : Int), (setGv s a b).edgeOffset = s.edgeOffset :=
    fun s a b => rfl
  unfold _EmbedBackEdgeToDescendant
  simp only [h, h2, h3, h4]

theorem invertRing_edgeOffset (fuel : Nat) :
    ∀ (g : graph) (J : Int) (g1 : graph), invertRing fuel g J = some g1 →
      g1.edgeOffset = g.edgeOffset := by
  induction fuel with
  | zero => intro g J g1 h; simp [invertRing] at h
  | succ n ih =>
    intro g J g1 h
    simp only [invertRing] at h
    split_ifs at h
    · rw [ih _ _ _ h]; rfl
    · simp only [Option.some.injEq] at h; subst h; rfl

theorem invertVertex_edgeOffset (fuel : Nat) (g : graph) (V : Int) (g1 : graph)
    (h : _InvertVertex fuel g V = some g1) : g1.edgeOffset = g.edgeOffset := by
  unfold _InvertVertex at h
  simp only [Option.map_eq_some'] at h
  obtain ⟨g0, h0, rfl⟩ := h
  rw [← invertRing_edgeOffset fuel g V g0 h0]; rfl

theorem redirectArcs_edgeOffset (fuel : Nat) :
    ∀ (g : graph) (W J : Int) (g1 : graph), redirectArcs fuel g W J = some g1 →
      g1.edgeOffset = g.edgeOffset := by
  induction fuel with
  | zero => intro g W J g1 h; simp [redirectArcs] at h
  | succ n ih =>
    intro g W J g1 h
    simp only [redirectArcs] at h
    split_ifs at h
    · rw [ih _ _ _ _ h]; rfl
    · simp only [Option.some.injEq] at h; subst h; rfl

theorem mergeVertex_edgeOffset (fuel : Nat) (fpInitGraphNode : graph → Int → graph)
    (hinit : ∀ s I, (fpInitGraphNode s I).edgeOffset = s.edgeOffset)
    (g : graph) (W WPrevLink R : Int) (g1 : graph)
    (h : _MergeVertex fuel fpInitGraphNode g W WPrevLink R = some g1) :
    g1.edgeOffset = g.edgeOffset := by
  unfold _MergeVertex at h
  simp only [Option.map_eq_some'] at h
  obtain ⟨g0, h0, rfl⟩ := h
  rw [hinit, ← redirectArcs_edgeOffset fuel g W _ g0 h0]; rfl

theorem twin_props (eo maxE J : Int) (h1 : eo ≤ J) (h2 : J < eo + 2 * maxE) :
    (eo ≤ eo + Int.xor (J - eo) 1 ∧ eo + Int.xor (J - eo) 1 < eo + 2 * maxE) ∧
    eo + Int.xor (J - eo) 1 ≠ J ∧
    eo + Int.xor (eo + Int.xor (J - eo) 1 - eo) 1 = J := by
  have h0 : 0 ≤ J - eo := by omega
  rw [int_xor_one _ h0]
  have e : ∀ x : Int, eo + x - eo = x := fun x => by omega
  rw [e]
  split_ifs with hp
  · rw [int_xor_one _ (by omega)]
    split_ifs <;> omega
  · rw [int_xor_one _ (by omega)]
    split_ifs <;> omega

/-- C9 Twin arcs: for every arc index `J` of the edge region
`[edgeOffset, edgeOffset + 2*maxE)`, `gp_GetTwinArc` (flip the lowest bit of
`J - edgeOffset`) yields an index of the edge region other than `J` whose twin is `J`
again; and each of `_CreateDFSTreeEmbedding`, `_EmbedBackEdgeToDescendant`, `_MergeVertex`
(with the default `_InitGraphNode`) and `_InvertVertex` leaves `edgeOffset`, hence the twin
of every arc, as it was, so the three facts hold in the state after the operation too. -/
theorem twinArc_involution (g : graph) (maxE J : Int) (h1 : g.edgeOffset ≤ J)
    (h2 : J < g.edgeOffset + 2 * maxE) :
    ((g.edgeOffset ≤ gp_GetTwinArc g J ∧ gp_GetTwinArc g J < g.edgeOffset + 2 * maxE) ∧
      gp_GetTwinArc g J ≠ J ∧ gp_GetTwinArc g (gp_GetTwinArc g J) = J) ∧
    ∀ g1 : graph,
      ((∃ fuel, _CreateDFSTreeEmbedding fuel g = some g1) ∨
        (∃ RootSide RootVertex W WPrevLink,
          _EmbedBackEdgeToDescendant g RootSide RootVertex W WPrevLink = g1) ∨
        (∃ fuel W WPrevLink R, _MergeVertex fuel _InitGraphNode g W WPrevLink R = some g1) ∨
        (∃ fuel V, _InvertVertex fuel g V = some g1)) →
      gp_GetTwinArc g1 J = gp_GetTwinArc g J ∧
      (g1.edgeOffset ≤ gp_GetTwinArc g1 J ∧ gp_GetTwinArc g1 J < g1.edgeOffset + 2 * maxE) ∧
      gp_GetTwinArc g1 J ≠ J ∧ gp_GetTwinArc g1 (gp_GetTwinArc g1 J) = J := by
  refine ⟨twin_props g.edgeOffset maxE J h1 h2, ?_⟩
  intro g1 hop
  have he : g1.edgeOffset = g.edgeOffset := by
    rcases hop with ⟨fuel, h⟩ | ⟨a, b, c, d, h⟩ | ⟨fuel, a, b, c, h⟩ | ⟨fuel, a, h⟩
    · exact createDFSTreeEmbedding_edgeOffset fuel g g1 h
    · rw [← h]; exact embedBackEdgeToDescendant_edgeOffset g a b c d
    · exact mergeVertex_edgeOffset fuel _InitGraphNode (fun s I => rfl) g a b c g1 h
    · exact invertVertex_edgeOffset fuel g a g1 h
  unfold gp_GetTwinArc
  rw [he]
  exact ⟨rfl, twin_props g.edgeOffset maxE J h1 h2⟩

/-! ### `_EmbedPostprocess` -/

/-- C6 `_EmbedPostprocess(G, I, r)`: for `r = OK` the orientation and the joining of the
bicomps run and the value returned, once they have returned, is `r`; for
`r = NONEMBEDDABLE` the isolator selected by `embedFlags` runs on the unchanged graph and
the value is `NOTOK` when the isolator returned a value other than `OK`, else `r`; in every
other case (`r = NOTOK`, or `NONEMBEDDABLE` with other `embedFlags`) the function returns
`r` and leaves the graph as it was. -/
theorem embedPostprocess_cases (fuel : Nat) (fpInitGraphNode : graph → Int → graph)
    (ext : externals) (g : graph) (I r : Int) :
    (r = OK →
      _EmbedPostprocess fuel fpInitGraphNode ext g I r =
        (_OrientVerticesInEmbedding fuel g).bind fun g1 =>
          (_JoinBicomps fuel fpInitGraphNode g1).map fun p => (r, p.2)) ∧
    (r = NONEMBEDDABLE → g.embedFlags = EMBEDFLAGS_PLANAR →
      _EmbedPostprocess fuel fpInitGraphNode ext g I r =
        some (if (ext._IsolateKuratowskiSubgraph g I).1 ≠ OK then NOTOK else r,
          (ext._IsolateKuratowskiSubgraph g I).2)) ∧
    (r = NONEMBEDDABLE → g.embedFlags = EMBEDFLAGS_OUTERPLANAR →
      _EmbedPostprocess fuel fpInitGraphNode ext g I r =
        some (if (ext._IsolateOuterplanarObstruction g I).1 ≠ OK then NOTOK else r,
          (ext._IsolateOuterplanarObstruction g I).2)) ∧
    (r ≠ OK →
      (r ≠ NONEMBEDDABLE ∨
        (g.embedFlags ≠ EMBEDFLAGS_PLANAR ∧ g.embedFlags ≠ EMBEDFLAGS_OUTERPLANAR)) →
      _EmbedPostprocess fuel fpInitGraphNode ext g I r = some (r, g)) := by
  refine ⟨?_, ?_, ?_, ?_⟩
  · intro h; subst h; simp [_EmbedPostprocess]
  · intro h hf; subst h
    have : NONEMBEDDABLE ≠ OK := by decide
    simp [_EmbedPostprocess, this, hf]
  · intro h hf; subst h
    have h1 : NONEMBEDDABLE ≠ OK := by decide
    have h2 : EMBEDFLAGS_OUTERPLANAR ≠ EMBEDFLAGS_PLANAR := by decide
    simp [_EmbedPostprocess, h1, hf, h2]
  · intro h hc
    unfold _EmbedPostprocess
    simp only [if_neg h]
    rcases hc with hc | ⟨hc1, hc2⟩
    · rw [if_neg hc]
    · split_ifs <;> rfl

/-! ### Results on `gp_Embed` and `_WalkDown` -/

theorem nothing_after {tr : List Event} (hp : tr.Pairwise follows) {e : Event} (he : e ∈ tr)
    (hterm : ∀ a, ¬ follows a e) : ∃ t, tr = e :: t := by
  obtain ⟨s, t, rfl⟩ := List.append_of_mem he
  cases s with
  | nil => exact ⟨t, rfl⟩
  | cons a s =>
    have := (List.pairwise_append.1 hp).2.2 a (List.mem_cons_self a s) e
      (List.mem_cons_self e t)
    exact absurd this (hterm a)

theorem gp_Embed_shape (fuel : Nat) (fns : graphFunctionTable) (ext : externals)
    (theGraph : Option graph) (embedFlags : Int) :
    runShape fns (gp_Embed fuel fns ext theGraph embedFlags).g.trace
      (gp_Embed fuel fns ext theGraph embedFlags).val := by
  cases theGraph with
  | none =>
    exact ⟨List.Pairwise.nil, by simp [gp_Embed, nullGraph], by simp [gp_Embed, nullGraph],
      by simp [gp_Embed, nullGraph], by simp [gp_Embed, nullGraph],
      by simp [gp_Embed, nullGraph], by simp [gp_Embed, nullGraph],
      by simp [gp_Embed, nullGraph], by simp [gp_Embed, nullGraph],
      by simp [gp_Embed, nullGraph]⟩
  | some g => exact embedGraph_trace fuel fns ext g embedFlags

/-- C7 `gp_Embed` returns `NOTOK` when the graph pointer is NULL, and when any of
`gp_CreateDFSTree`, `gp_SortVertices`, `fpCreateFwdArcLists` (a value other than `OK`),
`fpMergeBicomps`, `fpHandleInactiveVertex` (`NOTOK`) or, with the default
`_EmbedPostprocess`, `fpEmbedIterationPostprocess` (`NOTOK`) was called in the run and
returned that value; a `NOTOK` returned by `_WalkDown` is returned by `gp_Embed`, that call
of `_WalkDown` is the last event of the run and `fpEmbedPostprocess` is not called. -/
theorem gp_Embed_failure (fuel : Nat) (fns : graphFunctionTable) (ext : externals)
    (theGraph : Option graph) (embedFlags : Int) :
    (theGraph = none → (gp_Embed fuel fns ext theGraph embedFlags).val = some NOTOK) ∧
    (∀ x, x ≠ OK →
      Event.CreateDFSTree x ∈ (gp_Embed fuel fns ext theGraph embedFlags).g.trace →
      (gp_Embed fuel fns ext theGraph embedFlags).val = some NOTOK) ∧
    (∀ x, x ≠ OK →
      Event.SortVertices x ∈ (gp_Embed fuel fns ext theGraph embedFlags).g.trace →
      (gp_Embed fuel fns ext theGraph embedFlags).val = some NOTOK) ∧
    (∀ x, x ≠ OK →
      Event.CreateFwdArcLists x ∈ (gp_Embed fuel fns ext theGraph embedFlags).g.trace →
      (gp_Embed fuel fns ext theGraph embedFlags).val = some NOTOK) ∧
    (∀ I, Event.MergeBicomps I NOTOK ∈ (gp_Embed fuel fns ext theGraph embedFlags).g.trace →
      (gp_Embed fuel fns ext theGraph embedFlags).val = some NOTOK) ∧
    (∀ I,
      Event.HandleInactiveVertex I NOTOK ∈ (gp_Embed fuel fns ext theGraph embedFlags).g.trace →
      (gp_Embed fuel fns ext theGraph embedFlags).val = some NOTOK) ∧
    (∀ fuel1 init ext1, fns.fpEmbedPostprocess = _EmbedPostprocess fuel1 init ext1 →
      ∀ I, Event.EmbedIterationPostprocess I NOTOK ∈
          (gp_Embed fuel fns ext theGraph embedFlags).g.trace →
        (gp_Embed fuel fns ext theGraph embedFlags).val = some NOTOK) ∧
    (∀ I R, Event.WalkDown I R NOTOK ∈ (gp_Embed fuel fns ext theGraph embedFlags).g.trace →
      (gp_Embed fuel fns ext theGraph embedFlags).val = some NOTOK ∧
      (gp_Embed fuel fns ext theGraph embedFlags).g.trace.head? = some (.WalkDown I R NOTOK) ∧
      ∀ I1 r, Event.EmbedPostprocess I1 r ∉
        (gp_Embed fuel fns ext theGraph embedFlags).g.trace) := by
  obtain ⟨p, a1, a2, a3, b, c, d, e, _, k⟩ := gp_Embed_shape fuel fns ext theGraph embedFlags
  refine ⟨?_, a1, a2, a3, d, fun I => c I NOTOK NOTOK_ne_OK, ?_, ?_⟩
  · intro h; subst h; rfl
  · intro fuel1 init ext1 hpost I he
    have hh := e I NOTOK NOTOK_ne_OK he
    obtain ⟨g0, hv⟩ := k I NOTOK (List.mem_of_mem_head? hh)
    rw [hv, hpost]
    have h1 : NOTOK ≠ NONEMBEDDABLE := by decide
    simp [_EmbedPostprocess, NOTOK_ne_OK, h1]
  · intro I R he
    obtain ⟨t, ht⟩ := nothing_after p he (fun a h => by simp [follows, NOTOK_ne_OK] at h)
    refine ⟨b I R he, by rw [ht]; rfl, ?_⟩
    intro I1 r hmem
    rw [ht] at hmem p
    rcases List.mem_cons.1 hmem with h | h
    · cases h
    · exact (List.pairwise_cons.1 p).1 _ h

set_option maxRecDepth 100000 in
theorem gp_Embed_failure_witness :
    (gp_Embed 50 mergeFailing readyExternals (some K5) EMBEDFLAGS_PLANAR).val = some NOTOK :=
  (gp_Embed_failure 50 mergeFailing readyExternals (some K5) EMBEDFLAGS_PLANAR).2.2.2.2.1 2
    (by decide!)

/-- C8 What a status other than `OK` from a hook leads to.  In `_WalkDown` a
`NONEMBEDDABLE` (any value other than `OK`) from `fpMergeBicomps` is the value returned,
but every value other than `OK` from `fpHandleInactiveVertex`, `NONEMBEDDABLE` included,
makes `_WalkDown` return `NOTOK`, and then `gp_Embed` returns `NOTOK`.  In `gp_Embed` a
`NONEMBEDDABLE` (any value `r` other than `OK`) from `fpEmbedIterationPostprocess` for `I`
ends the main loop: the next and last event is the call of `fpEmbedPostprocess` with that
`I` and `r`, whose value `gp_Embed` returns. -/
theorem hook_status_propagation (fuel : Nat) (fns : graphFunctionTable) :
    (∀ (g : graph) (I R : Int), ∃ new,
      (_WalkDown fuel fns g I R).g.trace = new ++ g.trace ∧
      (∀ x, x ≠ OK → Event.MergeBicomps I x ∈ new → (_WalkDown fuel fns g I R).val = some x) ∧
      (∀ x, x ≠ OK → Event.HandleInactiveVertex I x ∈ new →
        (_WalkDown fuel fns g I R).val = some NOTOK)) ∧
    (∀ (ext : externals) (theGraph : Option graph) (embedFlags : Int),
      (∀ I x, x ≠ OK →
        Event.HandleInactiveVertex I x ∈ (gp_Embed fuel fns ext theGraph embedFlags).g.trace →
        (gp_Embed fuel fns ext theGraph embedFlags).val = some NOTOK) ∧
      (∀ I r, r ≠ OK →
        Event.EmbedIterationPostprocess I r ∈
          (gp_Embed fuel fns ext theGraph embedFlags).g.trace →
        (gp_Embed fuel fns ext theGraph embedFlags).g.trace.head? =
          some (.EmbedPostprocess I r) ∧
        ∃ g0, (gp_Embed fuel fns ext theGraph embedFlags).val =
          (fns.fpEmbedPostprocess g0 I r).map Prod.fst)) := by
  refine ⟨?_, ?_⟩
  · intro g I R
    obtain ⟨new, e, _, h2, h3⟩ := walkDown_trace fuel fns g I R
    exact ⟨new, e, h2, h3⟩
  · intro ext theGraph embedFlags
    obtain ⟨_, _, _, _, _, c, _, e, _, k⟩ := gp_Embed_shape fuel fns ext theGraph embedFlags
    refine ⟨c, ?_⟩
    intro I r hr he
    have hh := e I r hr he
    exact ⟨hh, k I r (List.mem_of_mem_head? hh)⟩

set_option maxRecDepth 100000 in
/-- C8 counterexample: on the triangle, with a hook `fpHandleInactiveVertex` that returns
`NONEMBEDDABLE`, the hook is called in iteration `I = 0` and `_WalkDown(0, 4)` reports
`NOTOK`, not `NONEMBEDDABLE`, to `gp_Embed`, which returns `NOTOK`. -/
theorem inactive_nonembeddable_is_failure :
    (gp_Embed 50 inactiveNonembeddable readyExternals (some triangle) EMBEDFLAGS_PLANAR).val =
      some NOTOK ∧
    (gp_Embed 50 inactiveNonembeddable readyExternals (some triangle)
        EMBEDFLAGS_PLANAR).g.trace.take 2 =
      [.WalkDown 0 4 NOTOK, .HandleInactiveVertex 0 NONEMBEDDABLE] := by
  decide!

theorem not_isPostprocess_of_iterationOf {a : Event} {I : Int} (h : iterationOf a = some I) :
    ¬ isPostprocess a := by
  cases a <;> simp [iterationOf] at h <;> simp [isPostprocess]

theorem atOrBelow_le {I Ia : Int} {a : Event} (h : atOrBelow I a) (ha : iterationOf a = some Ia) :
    Ia ≤ I := by
  rcases h with h | ⟨I1, h1, h2⟩
  · exact absurd h (not_isPostprocess_of_iterationOf ha)
  · rw [ha] at h1; cases h1; exact h2

theorem below_lt {I Ia : Int} {a : Event} (h : below I a) (ha : iterationOf a = some Ia) :
    Ia < I := by
  rcases h with h | ⟨I1, h1, h2⟩
  · exact absurd h (not_isPostprocess_of_iterationOf ha)
  · rw [ha] at h1; cases h1; exact h2

theorem follows_mono {a b : Event} {Ia Ib : Int} (h : follows a b)
    (ha : iterationOf a = some Ia) (hb : iterationOf b = some Ib) : Ia ≤ Ib := by
  cases b with
  | CreateDFSTree x => simp [iterationOf] at hb
  | SortVertices x => simp [iterationOf] at hb
  | CreateFwdArcLists x => simp [iterationOf] at hb
  | EmbedPostprocess I r => simp [iterationOf] at hb
  | WalkUp I J =>
    simp only [iterationOf, Option.some.injEq] at hb; subst hb
    exact atOrBelow_le h ha
  | MergeBicomps I x =>
    simp only [iterationOf, Option.some.injEq] at hb; subst hb
    exact atOrBelow_le h ha
  | HandleInactiveVertex I x =>
    simp only [iterationOf, Option.some.injEq] at hb; subst hb
    exact atOrBelow_le h ha
  | WalkDown I R x =>
    simp only [iterationOf, Option.some.injEq] at hb; subst hb
    simp only [follows] at h
    split_ifs at h
    · exact atOrBelow_le h ha
    · rcases h with ⟨r, rfl⟩ | h
      · simp only [iterationOf, Option.some.injEq] at ha; exact le_of_eq ha.symm
      · exact le_of_lt (below_lt h ha)
  | EmbedIterationPostprocess I r =>
    simp only [iterationOf, Option.some.injEq] at hb; subst hb
    simp only [follows] at h
    split_ifs at h
    · exact le_of_lt (below_lt h ha)
    · subst h; simp [iterationOf] at ha

theorem NONEMBEDDABLE_ne_NOTOK : NONEMBEDDABLE ≠ NOTOK := by decide

/-- C4 After a `_WalkDown` call of iteration `I` returned `NONEMBEDDABLE` (the run's trace
is `post`, then that call, then `pre`): every later Walkup or Walkdown is for a vertex
smaller than `I`, so none is run for `I` any more; if `fpEmbedIterationPostprocess` is then
called for `I` and returns `r` other than `OK`, the loop halts there: the only later events
are that call and the call of `fpEmbedPostprocess` with that `I` and `r`, which is the last
event; and the default `fpEmbedIterationPostprocess` returns `NONEMBEDDABLE`. -/
theorem walkDown_nonembeddable_halts (fuel : Nat) (fns : graphFunctionTable) (ext : externals)
    (theGraph : Option graph) (embedFlags I R : Int) (pre post : List Event)
    (h : (gp_Embed fuel fns ext theGraph embedFlags).g.trace =
      post ++ Event.WalkDown I R NONEMBEDDABLE :: pre) :
    (∀ I1 J, Event.WalkUp I1 J ∈ post → I1 < I) ∧
    (∀ I1 R1 x, Event.WalkDown I1 R1 x ∈ post → I1 < I) ∧
    (∀ r, r ≠ OK → Event.EmbedIterationPostprocess I r ∈ post →
      post.head? = some (.EmbedPostprocess I r) ∧
      ∀ e ∈ post, e = .EmbedIterationPostprocess I r ∨ e = .EmbedPostprocess I r) ∧
    (fns.fpEmbedIterationPostprocess = (fun g I => some (_EmbedIterationPostprocess g I)) →
      ∀ r, Event.EmbedIterationPostprocess I r ∈ post → r = NONEMBEDDABLE) := by
  obtain ⟨p, _, _, _, _, _, _, e, f, _⟩ := gp_Embed_shape fuel fns ext theGraph embedFlags
  rw [h] at p e f
  obtain ⟨pp, _, cross⟩ := List.pairwise_append.1 p
  have hafter : ∀ a ∈ post, (∃ r, a = .EmbedIterationPostprocess I r) ∨ below I a := by
    intro a ha
    have := cross a ha _ (List.mem_cons_self _ _)
    simpa [follows, NONEMBEDDABLE_ne_OK, NONEMBEDDABLE_ne_NOTOK] using this
  refine ⟨?_, ?_, ?_, ?_⟩
  · intro I1 J ha
    rcases hafter _ ha with ⟨r, hr⟩ | hb
    · cases hr
    · exact below_lt hb rfl
  · intro I1 R1 x ha
    rcases hafter _ ha with ⟨r, hr⟩ | hb
    · cases hr
    · exact below_lt hb rfl
  · intro r hr ha
    have hh := e I r hr (List.mem_append_left _ ha)
    refine ⟨?_, ?_⟩
    · cases post with
      | nil => simp at ha
      | cons a s => simpa using hh
    · obtain ⟨s, t, rfl⟩ := List.append_of_mem ha
      obtain ⟨_, pt, cr⟩ := List.pairwise_append.1 pp
      intro e1 he1
      rcases List.mem_append.1 he1 with he1 | he1
      · right
        have := cr e1 he1 _ (List.mem_cons_self _ _)
        simpa [follows, hr] using this
      · rcases List.mem_cons.1 he1 with he1 | he1
        · exact Or.inl he1
        · exfalso
          have h1 : follows (.EmbedIterationPostprocess I r) e1 :=
            (List.pairwise_cons.1 pt).1 e1 he1
          rcases hafter e1 (List.mem_append_right _ (List.mem_cons_of_mem _ he1))
            with ⟨r1, rfl⟩ | hb | ⟨I1, hI1, hlt⟩
          · simp only [follows] at h1
            split_ifs at h1
            have := below_lt h1 rfl
            omega
          · cases e1 <;> simp [isPostprocess] at hb
            all_goals simp [follows] at h1
          · have := follows_mono h1 rfl hI1
            omega
  · intro hdef r ha
    obtain ⟨g0, g1, hg⟩ := f I r (List.mem_append_left _ ha)
    rw [hdef] at hg
    simp only [_EmbedIterationPostprocess, Option.some.injEq, Prod.mk.injEq] at hg
    exact hg.1.symm

set_option maxRecDepth 100000 in
/-- C4 counterexample: on `K33`, with a hook `fpEmbedIterationPostprocess` that returns
`OK`, `_WalkDown(1, 8)` returns `NONEMBEDDABLE` in iteration `I = 1`, yet the loop goes on:
the Walkups and the Walkdown of vertex `0` are run, and `fpEmbedPostprocess` is called with
`I = -1` and `OK`. -/
theorem walkDown_nonembeddable_goes_on :
    (gp_Embed 50 iterationGoesOn readyExternals (some K33) EMBEDFLAGS_PLANAR).g.trace =
      [.EmbedPostprocess (-1) OK, .WalkDown 0 7 OK, .HandleInactiveVertex 0 OK,
        .HandleInactiveVertex 0 OK, .HandleInactiveVertex 0 OK, .HandleInactiveVertex 0 OK,
        .HandleInactiveVertex 0 OK, .MergeBicomps 0 OK, .WalkUp 0 22, .WalkUp 0 24,
        .EmbedIterationPostprocess 1 OK, .WalkDown 1 8 NONEMBEDDABLE, .WalkUp 1 28,
        .WalkDown 2 9 OK, .MergeBicomps 2 OK, .WalkUp 2 26, .CreateFwdArcLists OK,
        .CreateDFSTree OK] := by
  decide!

set_option maxRecDepth 100000 in
theorem walkDown_nonembeddable_halts_witness :
    (gp_Embed 50 stdFunctions readyExternals (some K33) EMBEDFLAGS_PLANAR).g.trace =
      [.EmbedPostprocess 1 NONEMBEDDABLE, .EmbedIterationPostprocess 1 NONEMBEDDABLE] ++
        Event.WalkDown 1 8 NONEMBEDDABLE ::
          [.WalkUp 1 28, .WalkDown 2 9 OK, .MergeBicomps 2 OK, .WalkUp 2 26,
            .CreateFwdArcLists OK, .CreateDFSTree OK] ∧
    ∀ r, r ≠ OK →
      Event.EmbedIterationPostprocess 1 r ∈
        [Event.EmbedPostprocess 1 NONEMBEDDABLE, .EmbedIterationPostprocess 1 NONEMBEDDABLE] →
      [Event.EmbedPostprocess 1 NONEMBEDDABLE,
          .EmbedIterationPostprocess 1 NONEMBEDDABLE].head? = some (.EmbedPostprocess 1 r) ∧
      ∀ e ∈ [Event.EmbedPostprocess 1 NONEMBEDDABLE, .EmbedIterationPostprocess 1 NONEMBEDDABLE],
        e = .EmbedIterationPostprocess 1 r ∨ e = .EmbedPostprocess 1 r :=
  ⟨by decide!,
    (walkDown_nonembeddable_halts 50 stdFunctions readyExternals (some K33) EMBEDFLAGS_PLANAR
      1 8 [.WalkUp 1 28, .WalkDown 2 9 OK, .MergeBicomps 2 OK, .WalkUp 2 26,
        .CreateFwdArcLists OK, .CreateDFSTree OK]
      [.EmbedPostprocess 1 NONEMBEDDABLE, .EmbedIterationPostprocess 1 NONEMBEDDABLE]
      (by decide!)).2.2.1⟩

/-- C2 If `_WalkDown(I, R)` returns `OK`, the stack is empty and each of its passes ended
with an empty stack either back at `R` or at a stopping vertex `W` (no `adjacentTo`, no
pertinent child bicomp, not inactive): pass 0 at `W`, and when `W` is not `R`, pass 1 at
`W1`.  Nothing more follows: back edges into the subtree may be left unembedded. -/
theorem walkDown_ok_stops (fuel : Nat) (fns : graphFunctionTable) (g : graph) (I R : Int)
    (h : (_WalkDown fuel fns g I R).val = some OK) :
    (_WalkDown fuel fns g I R).g.theStack = [] ∧
    ∃ W WP, (walkDownPassLoop fuel fns (sp_ClearStack g) I R 0).val = some (.ended W WP) ∧
      sp_NonEmpty (walkDownPassLoop fuel fns (sp_ClearStack g) I R 0).g = false ∧
      (W = R ∨
        (isStoppingVertex (walkDownPassLoop fuel fns (sp_ClearStack g) I R 0).g I W ∧
          ∃ W1 WP1, (secondPassLoop fuel fns g I R W WP).val = some (.ended W1 WP1) ∧
            sp_NonEmpty (secondPassLoop fuel fns g I R W WP).g = false ∧
            (W1 = R ∨ isStoppingVertex (secondPassLoop fuel fns g I R W WP).g I W1))) := by
  have hret0 : ∀ r, (walkDownPassLoop fuel fns (sp_ClearStack g) I R 0).val =
      some (.returned r) → r ≠ OK := by
    intro r hr
    obtain ⟨_, _, _, _, _, h4⟩ := walkDownLoop_trace fns fuel (sp_ClearStack g) I R 0
      (((sp_ClearStack g).extFace R).link 0) (Int.xor 1 0)
    exact h4 r hr
  have hret1 : ∀ W WP r, (secondPassLoop fuel fns g I R W WP).val =
      some (.returned r) → r ≠ OK := by
    intro W WP r hr
    obtain ⟨_, _, _, _, _, h4⟩ := walkDownLoop_trace fns fuel
      (walkDownShortCircuit (walkDownPassLoop fuel fns (sp_ClearStack g) I R 0).g R 0 W WP)
      I R 1 _ (Int.xor 1 1)
    exact h4 r hr
  have hne : NONEMBEDDABLE ≠ OK := NONEMBEDDABLE_ne_OK
  rcases walkDown_outcome fuel fns g I R with ⟨_, hr⟩ | ⟨r, h0, hr⟩ | ⟨W, WP, h0, hc⟩
  · rw [hr] at h; simp at h
  · rw [hr] at h; simp at h; exact absurd h (hret0 r h0)
  · have hstop0 := walkDownLoop_ended fns fuel (sp_ClearStack g) I R 0 _ _ W WP h0
    rcases hc with ⟨_, hr⟩ | ⟨hs, hW, hr⟩ | ⟨hs, hW, hc⟩
    · rw [hr] at h; simp at h; exact absurd h hne
    · refine ⟨?_, W, WP, h0, hs, Or.inl hW⟩
      rw [hr]
      show (walkDownShortCircuit _ R 0 W WP).theStack = []
      rw [walkDownShortCircuit_theStack]
      exact theStack_of_not_nonEmpty (by rw [hs]; simp)
    · have hst0 : isStoppingVertex (walkDownPassLoop fuel fns (sp_ClearStack g) I R 0).g I W := by
        rcases hstop0 with h1 | h1
        · exact absurd h1 hW
        · exact h1
      rcases hc with ⟨_, hr⟩ | ⟨r, h1, hr⟩ | ⟨W1, WP1, h1, hc⟩
      · rw [hr] at h; simp at h
      · rw [hr] at h; simp at h; exact absurd h (hret1 W WP r h1)
      · have hstop1 := walkDownLoop_ended fns fuel _ I R 1 _ _ W1 WP1 h1
        rcases hc with ⟨_, hr⟩ | ⟨hs1, hr⟩
        · rw [hr] at h; simp at h; exact absurd h hne
        · refine ⟨?_, W, WP, h0, hs, Or.inr ⟨hst0, W1, WP1, h1, hs1, hstop1⟩⟩
          rw [hr]
          show (walkDownShortCircuit _ R 1 W1 WP1).theStack = []
          rw [walkDownShortCircuit_theStack]
          exact theStack_of_not_nonEmpty (by rw [hs1]; simp)

set_option maxRecDepth 100000 in
/-- C2 counterexample: in the run of `gp_Embed` on `K5`, in iteration `I = 1`, the call
`_WalkDown(1, 7)` for the DFS child `c = 2` returns `OK`, but afterwards vertex `3`, a
DFS child of `2`, still has `adjacentTo = 24`, and `fwdArcList[1]` still holds the forward
arc `24`, whose target is `3`. -/
theorem walkDown_ok_leaves_back_edge :
    (K5AtWalkDown.V 1).separatedDFSChildList = 2 ∧
    (K5AtWalkDown.V 2).pertinentBicompList ≠ NIL ∧
    (K5AtWalkDown.V 3).DFSParent = 2 ∧
    (_WalkDown 50 stdFunctions K5AtWalkDown 1 (2 + 5)).val = some OK ∧
    ((_WalkDown 50 stdFunctions K5AtWalkDown 1 (2 + 5)).g.V 3).adjacentTo = 24 ∧
    ((_WalkDown 50 stdFunctions K5AtWalkDown 1 (2 + 5)).g.V 1).fwdArcList = 24 ∧
    ((_WalkDown 50 stdFunctions K5AtWalkDown 1 (2 + 5)).g.G 24).v = 3 ∧
    Event.WalkDown 1 7 OK ∈
      (gp_Embed 50 stdFunctions readyExternals (some K5) EMBEDFLAGS_PLANAR).g.trace := by
  decide!

set_option maxRecDepth 100000 in
theorem walkDown_ok_stops_witness :
    (_WalkDown 50 stdFunctions K5AtWalkDown 1 7).val = some OK ∧
    (_WalkDown 50 stdFunctions K5AtWalkDown 1 7).g.theStack = [] :=
  ⟨by decide!, (walkDown_ok_stops 50 stdFunctions K5AtWalkDown 1 7 (by decide!)).1⟩

theorem twinArc_involution_witness :
    (K5.edgeOffset ≤ 10 ∧ (10 : Int) < K5.edgeOffset + 2 * 10) ∧
      gp_GetTwinArc K5 (gp_GetTwinArc K5 10) = 10 :=
  ⟨⟨by decide, by decide⟩, (twinArc_involution K5 10 10 (by decide) (by decide)).1.2.2⟩

theorem triangle_lowpoints (I : Int) (h0 : 0 ≤ I) (h1 : I < triangle.N) :
    0 ≤ (triangle.V I).Lowpoint ∧ (triangle.V I).Lowpoint < triangle.N := by
  have hN : triangle.N = 3 := rfl
  have : I = 0 ∨ I = 1 ∨ I = 2 := by omega
  rcases this with rfl | rfl | rfl <;> decide

theorem triangle_heads (P : Int) : (triangle.V P).separatedDFSChildList = NIL := by
  simp only [triangle, mkGraph]
  split_ifs <;> rfl

theorem createSortedSeparatedDFSChildLists_sorted_witness :
    (∀ I : Int, 0 ≤ I → I < triangle.N →
      0 ≤ (triangle.V I).Lowpoint ∧ (triangle.V I).Lowpoint < triangle.N) ∧
    (∀ P : Int, (triangle.V P).separatedDFSChildList = NIL) ∧
    triangle.N.toNat < 4 ∧
    ∃ g1, _CreateSortedSeparatedDFSChildLists 4 triangle = some g1 ∧
      (∀ v, (g1.V v).Lowpoint = (triangle.V v).Lowpoint) ∧
      ∀ P : Int, ∃ l,
        LCIterate 4 g1.DFSChildLists (g1.V P).separatedDFSChildList
          (g1.V P).separatedDFSChildList = some l ∧
        l.Pairwise (fun a b => (g1.V a).Lowpoint ≤ (g1.V b).Lowpoint) :=
  ⟨triangle_lowpoints, triangle_heads, by decide,
    createSortedSeparatedDFSChildLists_sorted 4 triangle triangle_lowpoints triangle_heads
      (by decide)⟩

/-! ### The two disjoint triangles -/

set_option maxRecDepth 100000 in
/-- C13 counterexample: on the two disjoint triangles the embedder returns `OK`, and after
`_JoinBicomps` no ring holds arcs of both components.  The `link[0]` list through vertex `0`
is `16, 12` and comes back to `0`, the one through vertex `3` is `22, 18` and comes back to
`3`; each of the twelve nodes `0 .. 11` has a tour that stays inside one triangle (arcs
`< 18` or arcs `≥ 18`), the root copies `6 .. 11` having no arcs at all. -/
theorem joinBicomps_two_triangles_two_rings :
    twoTrianglesEmbedded.val = some OK ∧
    ringTour 20 twoTrianglesEmbedded.g 0 ((twoTrianglesEmbedded.g.G 0).link 0)
      = some ([16, 12], 0) ∧
    ringTour 20 twoTrianglesEmbedded.g 0 ((twoTrianglesEmbedded.g.G 3).link 0)
      = some ([22, 18], 3) ∧
    ∀ j ∈ List.range 12, ∀ s ∈ [0, 1],
      (ringTour 20 twoTrianglesEmbedded.g s ((twoTrianglesEmbedded.g.G j).link s)).map
        (fun r => decide ((∀ a ∈ r.1, a < 18) ∨ (∀ a ∈ r.1, 18 ≤ a))) = some true := by
  decide!

set_option maxRecDepth 100000 in
/-- C13 (amended): on the two disjoint triangles the embedder returns `OK`; after
`_JoinBicomps` every root copy `6 .. 11` is defunct (`link[0] = NIL`), and every vertex has
its own ring of two arcs, which the `link[0]` tour and the `link[1]` tour traverse in
opposite orders before returning to the vertex: three rings with the arcs `12 .. 17` of the
first triangle and three with the arcs `18 .. 23` of the second. -/
theorem joinBicomps_two_triangles :
    twoTrianglesEmbedded.val = some OK ∧
    (∀ R ∈ [6, 7, 8, 9, 10, 11], (twoTrianglesEmbedded.g.G R).link 0 = NIL) ∧
    [0, 1, 2, 3, 4, 5].map (fun V =>
        ringTour 20 twoTrianglesEmbedded.g 0 ((twoTrianglesEmbedded.g.G V).link 0))
      = [some ([16, 12], 0), some ([13, 14], 1), some ([15, 17], 2),
         some ([22, 18], 3), some ([19, 20], 4), some ([21, 23], 5)] ∧
    [0, 1, 2, 3, 4, 5].map (fun V =>
        ringTour 20 twoTrianglesEmbedded.g 1 ((twoTrianglesEmbedded.g.G V).link 1))
      = [some ([12, 16], 0), some ([14, 13], 1), some ([17, 15], 2),
         some ([18, 22], 3), some ([20, 19], 4), some ([23, 21], 5)] := by
  decide!

/-! ### The loop of `_WalkUp`: stamps and pertinent bicomp lists -/

theorem walkUpLoop_succ (fuel : Nat) (g : graph) (I Zig Zag ZigPrevLink ZagPrevLink : Int) :
    walkUpLoop (fuel + 1) g I Zig Zag ZigPrevLink ZagPrevLink =
      if walkUpPasses g I Zig Zag then
        walkUpLoop fuel (walkUpStep g I Zig Zag ZigPrevLink ZagPrevLink).1 I
          (walkUpStep g I Zig Zag ZigPrevLink ZagPrevLink).2.1
          (walkUpStep g I Zig Zag ZigPrevLink ZagPrevLink).2.2.1
          (walkUpStep g I Zig Zag ZigPrevLink ZagPrevLink).2.2.2.1
          (walkUpStep g I Zig Zag ZigPrevLink ZagPrevLink).2.2.2.2
      else some g := by
  rw [walkUpLoop]
  unfold walkUpPasses walkUpStep walkUpRecord walkUpRoot
  by_cases h1 : Zig = I
  · simp [h1]
  by_cases h2 : (g.G Zig).visited = I
  · simp [h1, h2]
  by_cases h3 : (g.G Zag).visited = I
  · simp [h1, h2, h3]
  simp only [h1, h2, h3, if_false, ne_eq, not_false_eq_true, and_self, if_true]
  split_ifs <;> rfl

theorem walkUpRecord_N (g : graph) (I c : Int) : (walkUpRecord g I c).N = g.N := by
  unfold walkUpRecord; dsimp only; split_ifs <;> rfl

theorem walkUpRecord_G (g : graph) (I c : Int) : (walkUpRecord g I c).G = g.G := by
  unfold walkUpRecord; dsimp only; split_ifs <;> rfl

theorem walkUpRecord_extFace (g : graph) (I c : Int) :
    (walkUpRecord g I c).extFace = g.extFace := by
  unfold walkUpRecord; dsimp only; split_ifs <;> rfl

theorem walkUpRecord_DFSParent (g : graph) (I c x : Int) :
    ((walkUpRecord g I c).V x).DFSParent = (g.V x).DFSParent := by
  unfold walkUpRecord
  dsimp only
  split_ifs <;> simp only [setPertinentBicompList, upd] <;> split_ifs <;>
    first | rfl | (subst_vars; rfl)

theorem walkUpRecord_Lowpoint (g : graph) (I c x : Int) :
    ((walkUpRecord g I c).V x).Lowpoint = (g.V x).Lowpoint := by
  unfold walkUpRecord
  dsimp only
  split_ifs <;> simp only [setPertinentBicompList, upd] <;> split_ifs <;>
    first | rfl | (subst_vars; rfl)

theorem walkUpStep_fst (g : graph) (I Zig Zag zp gp : Int) :
    (walkUpStep g I Zig Zag zp gp).1 =
      if walkUpRoot g Zig Zag ≠ NIL then
        walkUpRecord (setGVisited (setGVisited g Zig I) Zag I) I (walkUpRoot g Zig Zag - g.N)
      else setGVisited (setGVisited g Zig I) Zag I := by
  unfold walkUpStep
  by_cases h : walkUpRoot g Zig Zag ≠ NIL
  · rw [if_pos h]
    show Prod.fst (ite (walkUpRoot g Zig Zag ≠ NIL) _ _ : graph × Int × Int × Int × Int) = _
    rw [if_pos h]
    rfl
  · rw [if_neg h]
    show Prod.fst (ite (walkUpRoot g Zig Zag ≠ NIL) _ _ : graph × Int × Int × Int × Int) = _
    rw [if_neg h]

theorem walkUpStep_root (g : graph) (I Zig Zag zp gp : Int) (h : walkUpRoot g Zig Zag ≠ NIL) :
    (walkUpStep g I Zig Zag zp gp).2 =
      ((g.V (walkUpRoot g Zig Zag - g.N)).DFSParent,
       (g.V (walkUpRoot g Zig Zag - g.N)).DFSParent, 1, 0) := by
  unfold walkUpStep
  show Prod.snd (ite (walkUpRoot g Zig Zag ≠ NIL) _ _ : graph × Int × Int × Int × Int) = _
  rw [if_pos h]
  rfl

theorem stamped_visited (g : graph) (I Zig Zag j : Int) :
    ((setGVisited (setGVisited g Zig I) Zag I).G j).visited =
      if j = Zig ∨ j = Zag then I else (g.G j).visited := by
  simp only [setGVisited, upd]
  split_ifs <;> first | rfl | (exfalso; tauto)

theorem walkUpStep_N (g : graph) (I Zig Zag zp gp : Int) :
    (walkUpStep g I Zig Zag zp gp).1.N = g.N := by
  rw [walkUpStep_fst]
  split_ifs
  · exact walkUpRecord_N _ _ _
  · rfl

theorem walkUpStep_DFSParent (g : graph) (I Zig Zag zp gp x : Int) :
    (((walkUpStep g I Zig Zag zp gp).1).V x).DFSParent = (g.V x).DFSParent := by
  rw [walkUpStep_fst]
  by_cases h : walkUpRoot g Zig Zag ≠ NIL
  · rw [if_pos h]; exact walkUpRecord_DFSParent _ _ _ _
  · rw [if_neg h]; rfl

theorem walkUpStep_Lowpoint (g : graph) (I Zig Zag zp gp x : Int) :
    (((walkUpStep g I Zig Zag zp gp).1).V x).Lowpoint = (g.V x).Lowpoint := by
  rw [walkUpStep_fst]
  by_cases h : walkUpRoot g Zig Zag ≠ NIL
  · rw [if_pos h]; exact walkUpRecord_Lowpoint _ _ _ _
  · rw [if_neg h]; rfl

/-- The list after `LCPrepend`: the new node in front of the former list. -/
theorem LCRep_prepend {lc : listCollection} {h : Int} {l : List Int} (x : Int)
    (hr : LCRep lc h l) (hx : x ∉ l) (hn : x ≠ NIL) :
    LCRep (LCPrepend lc h x).1 (LCPrepend lc h x).2 (x :: l) := by
  have ha := LCRep_append x hr hx hn
  have hne : l ++ [x] ≠ [] := by simp
  have hp := LCRep_prev_head ha hne
  obtain ⟨h1, h2, h3, h4⟩ := ha
  have hlen : (l ++ [x]).length = l.length + 1 := by simp
  have hlast : (l ++ [x]).getD l.length NIL = x := by
    simp [List.getD_eq_getElem?_getD]
  have hget : ∀ i, i < l.length → (l ++ [x]).getD i NIL = l.getD i NIL := by
    intro i hi
    simp [List.getD_eq_getElem?_getD, List.getElem?_append_left hi]
  have hhead : (LCPrepend lc h x).2 = x := by
    show ((LCAppend lc h x).1.List (LCAppend lc h x).2).prev = x
    rw [hp, hlen]; simp
  refine ⟨?_, ?_, ?_, ?_⟩
  · intro hm
    apply h1
    simp only [List.mem_cons] at hm
    simp only [List.mem_append, List.mem_singleton]
    tauto
  · exact List.nodup_cons.2 ⟨hx, (List.nodup_append.1 h2).1⟩
  · rw [hhead]; rfl
  · intro i hi
    show ((LCAppend lc h x).1.List ((x :: l).getD i NIL)).next = _ ∧
      ((LCAppend lc h x).1.List ((x :: l).getD ((i + 1) % (x :: l).length) NIL)).prev = _
    simp only [List.length_cons] at hi ⊢
    rw [hlen] at h4
    -- index `i` of `x :: l` is index `(i + l.length) % (l.length + 1)` of `l ++ [x]`
    rcases Nat.eq_zero_or_pos i with hi0 | hi0
    · subst hi0
      have := h4 l.length (by omega)
      rw [hlast, Nat.mod_self] at this
      rcases Nat.eq_zero_or_pos l.length with hl0 | hl0
      · have hl : l = [] := List.length_eq_zero.1 hl0
        subst hl
        simp at this ⊢; exact this
      · have e1 : (0 + 1) % (l.length + 1) = 1 := Nat.mod_eq_of_lt (by omega)
        rw [e1]
        rw [hget 0 hl0] at this
        simpa [List.getD_cons_succ] using this
    · obtain ⟨k, rfl⟩ : ∃ k, i = k + 1 := ⟨i - 1, by omega⟩
      have hk : k < l.length := by omega
      have := h4 k (by omega)
      rw [hget k hk] at this
      rcases Nat.lt_or_ge (k + 1) l.length with hk1 | hk1
      · have e1 : (k + 1) % (l.length + 1) = k + 1 := Nat.mod_eq_of_lt (by omega)
        have e2 : (k + 1 + 1) % (l.length + 1) = k + 1 + 1 := Nat.mod_eq_of_lt (by omega)
        rw [e1, hget (k + 1) hk1] at this
        rw [e2]
        simpa [List.getD_cons_succ] using this
      · have hkl : k + 1 = l.length := by omega
        have e1 : (k + 1) % (l.length + 1) = l.length := by
          rw [hkl]; exact Nat.mod_eq_of_lt (by omega)
        have e2 : (k + 1 + 1) % (l.length + 1) = 0 := by
          rw [hkl]; exact Nat.mod_self _
        rw [e1, hlast] at this
        rw [e2]
        simpa [List.getD_cons_succ] using this

theorem walkUpRoot_ge {g : graph} {Zig Zag : Int} (h : walkUpRoot g Zig Zag ≠ NIL) :
    g.N ≤ walkUpRoot g Zig Zag ∧ (walkUpRoot g Zig Zag = Zig ∨ walkUpRoot g Zig Zag = Zag) := by
  unfold walkUpRoot at h ⊢
  split_ifs at h ⊢ with h1 h2
  · exact ⟨h1, Or.inl rfl⟩
  · exact ⟨h2, Or.inr rfl⟩
  · exact absurd rfl h

theorem walkUpRoot_of_land {g : graph} {Zig Zag : Int} (hN : 0 ≤ g.N)
    (h : g.N ≤ Zig ∨ g.N ≤ Zag) : walkUpRoot g Zig Zag ≠ NIL := by
  unfold walkUpRoot NIL
  split_ifs with h1 h2
  · omega
  · omega
  · omega

/-- C20 (amended): in a step of `_WalkUp(I, J)` that passes the `visited` checks with a
cursor on a root copy (`R` is `Zig` if `Zig ≥ N`, else `Zag`), let `c = R - N` and
`P = DFSParent[c]`.  Both cursors continue from `P` with prev-links `1` (`Zig`) and `0`
(`Zag`).  If `P = I` nothing is inserted: the list collection and every pertinent bicomp list
are as before.  If `P ≠ I`, `c` is inserted into `pertinentBicompList[P]`: at the back if
`Lowpoint[c] < I`, at the front if `Lowpoint[c] ≥ I`. -/
theorem walkUp_root_hop (fuel : Nat) (g : graph) (I Zig Zag ZigPrevLink ZagPrevLink : Int)
    (hN : 0 ≤ g.N) (hpass : walkUpPasses g I Zig Zag) (hland : g.N ≤ Zig ∨ g.N ≤ Zag) :
    let c := walkUpRoot g Zig Zag - g.N
    let P := (g.V c).DFSParent
    let s := walkUpStep g I Zig Zag ZigPrevLink ZagPrevLink
    walkUpRoot g Zig Zag = (if g.N ≤ Zig then Zig else Zag) ∧
    walkUpLoop (fuel + 1) g I Zig Zag ZigPrevLink ZagPrevLink = walkUpLoop fuel s.1 I P P 1 0 ∧
    (P = I → s.1.BicompLists = g.BicompLists ∧
      ∀ Q, (s.1.V Q).pertinentBicompList = (g.V Q).pertinentBicompList) ∧
    (P ≠ I → ∀ l, LCRep g.BicompLists (g.V P).pertinentBicompList l → c ∉ l →
      LCRep s.1.BicompLists (s.1.V P).pertinentBicompList
        (if (g.V c).Lowpoint < I then l ++ [c] else c :: l)) := by
  intro c P s
  have hR : walkUpRoot g Zig Zag ≠ NIL := walkUpRoot_of_land hN hland
  have hc : c ≠ NIL := by
    have := (walkUpRoot_ge hR).1
    show walkUpRoot g Zig Zag - g.N ≠ NIL
    unfold NIL; omega
  have hs : s.1 = walkUpRecord (setGVisited (setGVisited g Zig I) Zag I) I c := by
    show (walkUpStep g I Zig Zag ZigPrevLink ZagPrevLink).1 = _
    rw [walkUpStep_fst, if_pos hR]
  refine ⟨?_, ?_, ?_, ?_⟩
  · unfold walkUpRoot
    by_cases h1 : g.N ≤ Zig
    · simp only [ge_iff_le, h1, if_true]
    · have h2 : g.N ≤ Zag := by omega
      simp only [ge_iff_le, h1, h2, if_true, if_false]
  · rw [walkUpLoop_succ, if_pos hpass, walkUpStep_root g I Zig Zag ZigPrevLink ZagPrevLink hR]
  · intro hP
    have hP2 : ((setGVisited (setGVisited g Zig I) Zag I).V c).DFSParent = I := hP
    have : s.1 = setGVisited (setGVisited g Zig I) Zag I := by
      rw [hs]; unfold walkUpRecord; simp only [hP2, ne_eq, not_true_eq_false, if_false]
    rw [this]
    exact ⟨rfl, fun _ => rfl⟩
  · intro hP l hl hcl
    have hP2 : ((setGVisited (setGVisited g Zig I) Zag I).V c).DFSParent ≠ I := hP
    rw [hs]
    unfold walkUpRecord
    simp only [hP2, ne_eq, not_false_eq_true, if_true]
    show LCRep _ ((setPertinentBicompList _ P _).V P).pertinentBicompList _
    have e : ∀ (g1 : graph) (x : Int), ((setPertinentBicompList g1 P x).V P).pertinentBicompList = x := by
      intro g1 x; simp [setPertinentBicompList, upd]
    rw [e]
    by_cases hlow : (g.V c).Lowpoint < I
    · have hlow2 : ((setGVisited (setGVisited g Zig I) Zag I).V c).Lowpoint < I := hlow
      simp only [hlow2, hlow, if_true]
      exact LCRep_append c hl hcl hc
    · have hlow2 : ¬ ((setGVisited (setGVisited g Zig I) Zag I).V c).Lowpoint < I := hlow
      simp only [hlow2, hlow, if_false]
      exact LCRep_prepend c hl hcl hc

set_option maxRecDepth 100000 in
/-- C20 counterexample: the triangle at the start of the iteration `I = 0`.  The steps of
`_WalkUp(0, 10)` that pass the `visited` checks have the cursors on `2`, on the root copy
`5 = N + 2`, on `1` and on the root copy `4 = N + 1`.  For the root copy `4` the child is
`c = 1` with `DFSParent[1] = 0 = I`, and `1` is not inserted into `pertinentBicompList[0]`,
which is still empty after the call; for the root copy `5` the child `2` is inserted into
`pertinentBicompList[1]`. -/
theorem walkUp_root_of_I_not_recorded :
    triangleAtWalkUp.N = 3 ∧ (triangleAtWalkUp.G 10).v = 2 ∧
    (triangleAtWalkUp.V 1).DFSParent = 0 ∧
    (walkUpSteps 50 (setAdjacentTo triangleAtWalkUp 2 10) 0 2 2 1 0).map
        (fun s => (s.2.1, s.2.2)) = [(2, 2), (5, 5), (1, 1), (4, 4)] ∧
    (triangleAtWalkUp.V 0).pertinentBicompList = NIL ∧
    (_WalkUp 50 triangleAtWalkUp 0 10).map
        (fun g => ((g.V 0).pertinentBicompList, (g.V 1).pertinentBicompList)) =
      some (NIL, 2) := by
  decide!

set_option maxRecDepth 100000 in
/-- Witness for `walkUp_root_hop`: the triangle at the start of the iteration `I = 0`, both
cursors on the root copy `5 = N + 2`; the child `2` has `DFSParent[2] = 1` and
`Lowpoint[2] = 0`, so it is put in front of the empty `pertinentBicompList[1]`. -/
theorem walkUp_root_hop_witness :
    0 ≤ triangleAtWalkUp.N ∧ walkUpPasses triangleAtWalkUp 0 5 5 ∧
    (triangleAtWalkUp.N ≤ 5 ∨ triangleAtWalkUp.N ≤ 5) ∧
    LCRep (walkUpStep triangleAtWalkUp 0 5 5 1 0).1.BicompLists
      (((walkUpStep triangleAtWalkUp 0 5 5 1 0).1.V 1).pertinentBicompList) [2] :=
  ⟨by decide!, by decide!, by decide!,
   (walkUp_root_hop 0 triangleAtWalkUp 0 5 5 1 0 (by decide!) (by decide!) (by decide!)).2.2.2
     (by decide!) [] ((LCRep_nil_iff _ _).2 (by decide!)) (by simp)⟩

theorem walkUps_cons (fuel : Nat) (I : Int) (g : graph) (J : Int) (Js : List Int) :
    walkUps fuel I g (J :: Js) = (_WalkUp fuel g I J).bind fun g1 => walkUps fuel I g1 Js := rfl

theorem walkUp_eq (fuel : Nat) (g : graph) (I J : Int) :
    _WalkUp fuel g I J =
      walkUpLoop fuel (setAdjacentTo g (g.G J).v J) I (g.G J).v (g.G J).v 1 0 := rfl

theorem PertInv_stamp {b : Prop} {g : graph} {I : Int} {ins : List (Int × Int)}
    (h : PertInv b g I ins) (Zig Zag : Int) :
    PertInv b (setGVisited (setGVisited g Zig I) Zag I) I ins := by
  obtain ⟨h1, h2, h3⟩ := h
  refine ⟨?_, h2, h3⟩
  intro p hp
  refine ⟨(h1 p hp).1, ?_⟩
  show ((setGVisited (setGVisited g Zig I) Zag I).G (p.2 + g.N)).visited = I
  rw [stamped_visited]
  split_ifs
  · rfl
  · exact (h1 p hp).2

theorem LCPrepend_pool (lc : listCollection) (h x : Int) :
    (LCPrepend lc h x).1 = (LCAppend lc h x).1 := rfl

theorem PertInv_record {b : Prop} {g : graph} {I : Int} {ins : List (Int × Int)} {c : Int}
    (h : PertInv b g I ins) (hc : c ≠ NIL) (hnew : ∀ P, (P, c) ∉ ins)
    (hvis : (g.G (c + g.N)).visited = I) :
    PertInv b (walkUpRecord g I c) I
      (ins ++ (if (g.V c).DFSParent ≠ I then [((g.V c).DFSParent, c)] else [])) := by
  by_cases hP : (g.V c).DFSParent ≠ I
  swap
  · have e : walkUpRecord g I c = g := by
      unfold walkUpRecord; simp only [hP, if_false]
    rw [e, if_neg hP, List.append_nil]; exact h
  rw [if_pos hP]
  obtain ⟨h1, h2, h3⟩ := h
  refine ⟨?_, ?_, fun hb => ?_⟩
  · intro p hp
    rw [walkUpRecord_DFSParent, walkUpRecord_G, walkUpRecord_N]
    rcases List.mem_append.1 hp with hp | hp
    · exact h1 p hp
    · rw [List.mem_singleton] at hp
      subst hp
      exact ⟨rfl, hvis⟩
  · rw [List.map_append, List.nodup_append]
    refine ⟨h2, by simp, ?_⟩
    intro a ha hb
    simp only [List.map_cons, List.map_nil, List.mem_singleton] at hb
    subst hb
    obtain ⟨q, hq, rfl⟩ := List.mem_map.1 ha
    exact hnew q.1 hq
  · obtain ⟨l, h3⟩ := h3 hb
    set P := (g.V c).DFSParent with hPdef
    have hcP : c ∉ l P := fun hm => hnew P (((h3 P).2 c).1 hm)
    refine ⟨fun Q => if Q = P then
        (if (g.V c).Lowpoint < I then l P ++ [c] else c :: l P) else l Q, ?_⟩
    intro Q
    have hrec : walkUpRecord g I c =
        setPertinentBicompList
          { g with BicompLists := (LCAppend g.BicompLists (g.V P).pertinentBicompList c).1 } P
          (if (g.V c).Lowpoint < I then
            (LCAppend g.BicompLists (g.V P).pertinentBicompList c).2
           else (LCPrepend g.BicompLists (g.V P).pertinentBicompList c).2) := by
      unfold walkUpRecord
      simp only [← hPdef, hP, ne_eq, not_false_eq_true, if_true]
      split_ifs <;> rfl
    rw [hrec]
    by_cases hQ : Q = P
    · subst hQ
      simp only [if_true]
      have e : ∀ (g1 : graph) (x : Int),
          ((setPertinentBicompList g1 P x).V P).pertinentBicompList = x := by
        intro g1 x; simp [setPertinentBicompList, upd]
      rw [e]
      constructor
      · show LCRep (LCAppend g.BicompLists (g.V P).pertinentBicompList c).1 _ _
        split_ifs
        · exact LCRep_append c (h3 P).1 hcP hc
        · exact LCRep_prepend c (h3 P).1 hcP hc
      · intro c1
        have := (h3 P).2 c1
        split_ifs <;> first | (simp [this]; done) | (simp [this]; tauto)
    · simp only [if_neg hQ]
      have e : ∀ (g1 : graph) (x : Int),
          ((setPertinentBicompList g1 P x).V Q).pertinentBicompList =
            (g1.V Q).pertinentBicompList := by
        intro g1 x; simp [setPertinentBicompList, upd, hQ]
      rw [e]
      constructor
      · show LCRep (LCAppend g.BicompLists (g.V P).pertinentBicompList c).1
          (g.V Q).pertinentBicompList (l Q)
        refine LCRep_append_other c (h3 P).1 (h3 Q).1 ?_ ?_
        · intro hm
          exact hnew Q (((h3 Q).2 c).1 hm)
        · intro y hy hy2
          have a1 := (h1 _ (((h3 Q).2 y).1 hy)).1
          have a2 := (h1 _ (((h3 P).2 y).1 hy2)).1
          exact hQ (a1.trans a2.symm)
      · intro c1
        rw [(h3 Q).2 c1, List.mem_append, List.mem_singleton]
        constructor
        · exact Or.inl
        · rintro (hm | hm)
          · exact hm
          · exact absurd (congrArg Prod.fst hm) hQ

theorem insertions_single (I : Int) (g : graph) (Zig Zag : Int) :
    insertions I [(g, Zig, Zag)] =
      if walkUpRoot g Zig Zag ≠ NIL ∧ (g.V (walkUpRoot g Zig Zag - g.N)).DFSParent ≠ I then
        [((g.V (walkUpRoot g Zig Zag - g.N)).DFSParent, walkUpRoot g Zig Zag - g.N)]
      else [] := by
  unfold insertions
  simp only [List.filterMap_cons, List.filterMap_nil]
  split_ifs <;> rfl

theorem insertions_cons (I : Int) (s : graph × Int × Int) (t : List (graph × Int × Int)) :
    insertions I (s :: t) = insertions I [s] ++ insertions I t := by
  unfold insertions
  simp only [List.filterMap_cons, List.filterMap_nil]
  split <;> rfl

theorem insertions_append (I : Int) (a b : List (graph × Int × Int)) :
    insertions I (a ++ b) = insertions I a ++ insertions I b := by
  unfold insertions
  exact List.filterMap_append _ _ _

theorem PertInv_step {b : Prop} {g : graph} {I : Int} {ins : List (Int × Int)}
    (h : PertInv b g I ins) (Zig Zag zp gp : Int) (hp : walkUpPasses g I Zig Zag) :
    PertInv b (walkUpStep g I Zig Zag zp gp).1 I (ins ++ insertions I [(g, Zig, Zag)]) := by
  rw [walkUpStep_fst, insertions_single]
  by_cases hR : walkUpRoot g Zig Zag ≠ NIL
  · rw [if_pos hR]
    obtain ⟨hge, hor⟩ := walkUpRoot_ge hR
    have hc : walkUpRoot g Zig Zag - g.N ≠ NIL := by unfold NIL; omega
    have hRv : (g.G (walkUpRoot g Zig Zag)).visited ≠ I := by
      rcases hor with e | e <;> rw [e]
      · exact hp.2.1
      · exact hp.2.2
    have hnew : ∀ P, (P, walkUpRoot g Zig Zag - g.N) ∉ ins := by
      intro P hm
      have := (h.1 _ hm).2
      simp only [sub_add_cancel] at this
      exact hRv this
    have hvis : ((setGVisited (setGVisited g Zig I) Zag I).G
        (walkUpRoot g Zig Zag - g.N + (setGVisited (setGVisited g Zig I) Zag I).N)).visited
          = I := by
      show ((setGVisited (setGVisited g Zig I) Zag I).G
        (walkUpRoot g Zig Zag - g.N + g.N)).visited = I
      rw [sub_add_cancel, stamped_visited, if_pos hor]
    have := PertInv_record (PertInv_stamp h Zig Zag) hc hnew hvis
    by_cases hP : (g.V (walkUpRoot g Zig Zag - g.N)).DFSParent ≠ I
    · rw [if_pos ⟨hR, hP⟩]
      have hP2 : ((setGVisited (setGVisited g Zig I) Zag I).V
          (walkUpRoot g Zig Zag - g.N)).DFSParent ≠ I := hP
      rw [if_pos hP2] at this
      exact this
    · rw [if_neg (fun hh => hP hh.2)]
      have hP2 : ¬ ((setGVisited (setGVisited g Zig I) Zag I).V
          (walkUpRoot g Zig Zag - g.N)).DFSParent ≠ I := hP
      rw [if_neg hP2] at this
      exact this
  · rw [if_neg hR, if_neg (fun hh => hR hh.1), List.append_nil]
    exact PertInv_stamp h Zig Zag

theorem walkUpLoop_PertInv (b : Prop) (I : Int) (fuel : Nat) :
    ∀ (g : graph) (ins : List (Int × Int)) (Zig Zag zp gp : Int) (g1 : graph),
      PertInv b g I ins → walkUpLoop fuel g I Zig Zag zp gp = some g1 →
      PertInv b g1 I (ins ++ insertions I (walkUpSteps fuel g I Zig Zag zp gp)) := by
  induction fuel with
  | zero => intro g ins Zig Zag zp gp g1 _ h; simp [walkUpLoop] at h
  | succ n ih =>
    intro g ins Zig Zag zp gp g1 hi h
    rw [walkUpLoop_succ] at h
    rw [walkUpSteps]
    by_cases hp : walkUpPasses g I Zig Zag
    · rw [if_pos hp] at h
      rw [if_pos hp]
      have := ih _ _ _ _ _ _ g1 (PertInv_step hi Zig Zag zp gp hp) h
      rw [List.append_assoc, ← insertions_cons] at this
      exact this
    · rw [if_neg hp] at h
      rw [if_neg hp]
      cases h
      simpa [insertions] using hi

theorem PertInv_setAdjacentTo {b : Prop} {g : graph} {I : Int} {ins : List (Int × Int)}
    (h : PertInv b g I ins) (W J : Int) : PertInv b (setAdjacentTo g W J) I ins := by
  have e1 : ∀ x, ((setAdjacentTo g W J).V x).DFSParent = (g.V x).DFSParent := by
    intro x; simp only [setAdjacentTo, upd]; split_ifs with hx
    · subst hx; rfl
    · rfl
  have e2 : ∀ x, ((setAdjacentTo g W J).V x).pertinentBicompList =
      (g.V x).pertinentBicompList := by
    intro x; simp only [setAdjacentTo, upd]; split_ifs with hx
    · subst hx; rfl
    · rfl
  obtain ⟨h1, h2, h3⟩ := h
  refine ⟨?_, h2, fun hb => ?_⟩
  · intro p hp
    rw [e1]
    exact h1 p hp
  · obtain ⟨l, h3⟩ := h3 hb
    refine ⟨l, fun P => ?_⟩
    rw [e2]
    exact h3 P

theorem walkUps_PertInv (b : Prop) (fuel : Nat) (I : Int) (Js : List Int) :
    ∀ (g g1 : graph) (ins : List (Int × Int)), PertInv b g I ins →
      walkUps fuel I g Js = some g1 →
      PertInv b g1 I (ins ++ insertions I (walkUpsSteps fuel I g Js)) := by
  induction Js with
  | nil =>
    intro g g1 ins hi h
    cases h
    simpa [walkUpsSteps, insertions] using hi
  | cons J Js ih =>
    intro g g1 ins hi h
    rw [walkUps_cons] at h
    cases hw : _WalkUp fuel g I J with
    | none => rw [hw] at h; cases h
    | some g2 =>
      rw [hw] at h
      have hw2 := hw
      rw [walkUp_eq] at hw2
      have h1 := walkUpLoop_PertInv b I fuel _ ins _ _ _ _ g2
        (PertInv_setAdjacentTo hi (g.G J).v J) hw2
      have h2 := ih g2 g1 _ h1 h
      simp only [walkUpsSteps, insertions_append]
      rw [hw, ← List.append_assoc]
      exact h2

theorem walkUpLoop_DFSParent (I : Int) (fuel : Nat) :
    ∀ (g : graph) (Zig Zag zp gp : Int) (g1 : graph),
      walkUpLoop fuel g I Zig Zag zp gp = some g1 →
      (∀ x, (g1.V x).DFSParent = (g.V x).DFSParent) ∧ g1.N = g.N := by
  induction fuel with
  | zero => intro g Zig Zag zp gp g1 h; simp [walkUpLoop] at h
  | succ n ih =>
    intro g Zig Zag zp gp g1 h
    rw [walkUpLoop_succ] at h
    by_cases hp : walkUpPasses g I Zig Zag
    · rw [if_pos hp] at h
      obtain ⟨a, b⟩ := ih _ _ _ _ _ g1 h
      refine ⟨fun x => ?_, ?_⟩
      · rw [a, walkUpStep_DFSParent]
      · rw [b, walkUpStep_N]
    · rw [if_neg hp] at h
      cases h
      exact ⟨fun _ => rfl, rfl⟩

theorem walkUp_DFSParent (fuel : Nat) (g : graph) (I J : Int) (g1 : graph)
    (h : _WalkUp fuel g I J = some g1) :
    (∀ x, (g1.V x).DFSParent = (g.V x).DFSParent) ∧ g1.N = g.N := by
  rw [walkUp_eq] at h
  obtain ⟨a, b⟩ := walkUpLoop_DFSParent I fuel _ _ _ _ _ g1 h
  refine ⟨fun x => ?_, b⟩
  rw [a]
  simp only [setAdjacentTo, upd]
  split_ifs with hx
  · subst hx; rfl
  · rfl

/-- The ghost states of the steps of a Walkup carry the `DFSParent` members and `N` of the
state the Walkup started in. -/
theorem walkUpSteps_DFSParent (I : Int) (fuel : Nat) :
    ∀ (g : graph) (Zig Zag zp gp : Int), ∀ s ∈ walkUpSteps fuel g I Zig Zag zp gp,
      (∀ x, (s.1.V x).DFSParent = (g.V x).DFSParent) ∧ s.1.N = g.N := by
  induction fuel with
  | zero => intro g Zig Zag zp gp s hs; simp [walkUpSteps] at hs
  | succ n ih =>
    intro g Zig Zag zp gp s hs
    rw [walkUpSteps] at hs
    by_cases hp : walkUpPasses g I Zig Zag
    · rw [if_pos hp] at hs
      rcases List.mem_cons.1 hs with e | hs
      · subst e; exact ⟨fun _ => rfl, rfl⟩
      · obtain ⟨a, b⟩ := ih _ _ _ _ _ s hs
        refine ⟨fun x => ?_, ?_⟩
        · rw [a, walkUpStep_DFSParent]
        · rw [b, walkUpStep_N]
    · rw [if_neg hp] at hs
      cases hs

theorem walkUpsSteps_DFSParent (fuel : Nat) (I : Int) (Js : List Int) :
    ∀ (g : graph), ∀ s ∈ walkUpsSteps fuel I g Js,
      (∀ x, (s.1.V x).DFSParent = (g.V x).DFSParent) ∧ s.1.N = g.N := by
  induction Js with
  | nil => intro g s hs; simp [walkUpsSteps] at hs
  | cons J Js ih =>
    intro g s hs
    simp only [walkUpsSteps, List.mem_append] at hs
    rcases hs with hs | hs
    · obtain ⟨a, b⟩ := walkUpSteps_DFSParent I fuel _ _ _ _ _ s hs
      refine ⟨fun x => ?_, b⟩
      rw [a]
      simp only [setAdjacentTo, upd]
      split_ifs with hx
      · subst hx; rfl
      · rfl
    · cases hw : _WalkUp fuel g I J with
      | none => rw [hw] at hs; cases hs
      | some g2 =>
        rw [hw] at hs
        obtain ⟨a, b⟩ := ih g2 s hs
        obtain ⟨c, d⟩ := walkUp_DFSParent fuel g I J g2 hw
        exact ⟨fun x => (a x).trans (c x), b.trans d⟩

theorem mem_insertions {I : Int} {steps : List (graph × Int × Int)} {p : Int × Int}
    (h : p ∈ insertions I steps) :
    ∃ s ∈ steps, walkUpRoot s.1 s.2.1 s.2.2 ≠ NIL ∧ p.1 ≠ I ∧
      p.2 = walkUpRoot s.1 s.2.1 s.2.2 - s.1.N ∧ p.1 = (s.1.V p.2).DFSParent := by
  unfold insertions at h
  obtain ⟨s, hs, he⟩ := List.mem_filterMap.1 h
  refine ⟨s, hs, ?_⟩
  dsimp only at he
  split_ifs at he with hc
  cases he
  exact ⟨hc.1, hc.2, rfl, rfl⟩

/-- C18 Insertions into pertinent bicomp lists happen only in steps of `_WalkUp` that passed
the `visited` checks with a cursor on a root copy `R = N + c`, and put `c` into
`pertinentBicompList[DFSParent[c]]`, stamping `R` with `I`.  For any sequence of calls
`_WalkUp(I, J)`: every insertion `(P, c)` of the sequence has `P = DFSParent[c]`; no child
is inserted twice (whatever the stamps at the start); and, the pertinent bicomp lists being empty
before the first call, afterwards the list of every `P` is a valid list (no repetition)
holding exactly the children inserted at `P`, all of them with `DFSParent = P`, so that no
child is in two lists. -/
theorem pertinent_insertions (fuel : Nat) (g : graph) (I : Int) (Js : List Int) (g1 : graph)
    (hrun : walkUps fuel I g Js = some g1) :
    (∀ p ∈ insertions I (walkUpsSteps fuel I g Js), p.1 = (g.V p.2).DFSParent) ∧
    ((insertions I (walkUpsSteps fuel I g Js)).map Prod.snd).Nodup ∧
    ((∀ P, (g.V P).pertinentBicompList = NIL) →
      ∃ l : Int → List Int, ∀ P,
        LCRep g1.BicompLists (g1.V P).pertinentBicompList (l P) ∧
        (∀ c, c ∈ l P ↔ (P, c) ∈ insertions I (walkUpsSteps fuel I g Js)) ∧
        ∀ c ∈ l P, (g.V c).DFSParent = P) := by
  have h0 : PertInv (∀ P, (g.V P).pertinentBicompList = NIL) g I [] := by
    refine ⟨by simp, by simp, fun hb => ⟨fun _ => [], fun P => ?_⟩⟩
    exact ⟨(LCRep_nil_iff _ _).2 (hb P), by simp⟩
  have h1 := walkUps_PertInv _ fuel I Js g g1 [] h0 hrun
  rw [List.nil_append] at h1
  obtain ⟨a, b, c⟩ := h1
  have hpar : ∀ p ∈ insertions I (walkUpsSteps fuel I g Js), p.1 = (g.V p.2).DFSParent := by
    intro p hp
    obtain ⟨s, hs, _, _, _, e⟩ := mem_insertions hp
    rw [e]
    exact (walkUpsSteps_DFSParent fuel I Js g s hs).1 _
  refine ⟨hpar, b, fun hb => ?_⟩
  obtain ⟨l, hl⟩ := c hb
  refine ⟨l, fun P => ⟨(hl P).1, (hl P).2, fun c hc => ?_⟩⟩
  exact (hpar _ (((hl P).2 c).1 hc)).symm

set_option maxRecDepth 100000 in
/-- Witness for `pertinent_insertions`: the call `_WalkUp(0, 10)` on the triangle at the
start of the iteration `I = 0`, which inserts the child `2` at its parent `1`. -/
theorem pertinent_insertions_witness :
    (walkUps 50 0 triangleAtWalkUp [10]).isSome = true ∧
    insertions 0 (walkUpsSteps 50 0 triangleAtWalkUp [10]) = [(1, 2)] ∧
    ∀ p ∈ insertions 0 (walkUpsSteps 50 0 triangleAtWalkUp [10]),
      p.1 = (triangleAtWalkUp.V p.2).DFSParent :=
  ⟨by decide!, by decide!,
    (pertinent_insertions 50 triangleAtWalkUp 0 [10]
      ((walkUps 50 0 triangleAtWalkUp [10]).get (by decide!)) (Option.some_get _).symm).1⟩

/-! ### Rings: valid circular doubly-linked adjacency lists -/

theorem xor_one_zero : Int.xor 1 0 = 1 := by decide

theorem xor_one_one : Int.xor 1 1 = 0 := by decide

theorem xor_one_invol {s : Int} (hs : s = 0 ∨ s = 1) : Int.xor 1 (Int.xor 1 s) = s := by
  rcases hs with rfl | rfl <;> decide

theorem xor_one_ne {s : Int} (hs : s = 0 ∨ s = 1) : Int.xor 1 s ≠ s := by
  rcases hs with rfl | rfl <;> decide

theorem xor_one_bit {s : Int} (hs : s = 0 ∨ s = 1) : Int.xor 1 s = 0 ∨ Int.xor 1 s = 1 := by
  rcases hs with rfl | rfl
  · right; decide
  · left; decide

theorem Linked_flip {g : graph} {s : Int} (hs : s = 0 ∨ s = 1) (x y : Int) :
    Linked g (Int.xor 1 s) y x ↔ Linked g s x y := by
  unfold Linked
  rw [xor_one_invol hs]
  exact and_comm

theorem Ring_reverse {g : graph} {s V : Int} {l : List Int} (hs : s = 0 ∨ s = 1)
    (h : Ring g s V l) : Ring g (Int.xor 1 s) V l.reverse := by
  obtain ⟨h1, h2, h3, h4⟩ := h
  refine ⟨?_, ?_, h3, ?_⟩
  · have e : V :: l.reverse ++ [V] = (V :: l ++ [V]).reverse := by simp
    rw [e, List.chain'_reverse]
    refine List.Chain'.imp ?_ h1
    intro a b hab
    exact (Linked_flip hs a b).2 hab
  · rw [List.nodup_cons] at h2 ⊢
    exact ⟨fun hm => h2.1 (List.mem_reverse.1 hm), List.nodup_reverse.2 h2.2⟩
  · intro a ha
    exact h4 a (List.mem_reverse.1 ha)

/-- A ring only depends on the links of its nodes and on `edgeOffset`. -/
theorem Ring_frame {g g1 : graph} {s V : Int} {l : List Int} (h : Ring g s V l)
    (he : g1.edgeOffset = g.edgeOffset)
    (hf : ∀ x ∈ V :: l, (g1.G x).link = (g.G x).link) : Ring g1 s V l := by
  obtain ⟨h1, h2, h3, h4⟩ := h
  refine ⟨?_, h2, he ▸ h3, fun a ha => he ▸ h4 a ha⟩
  rw [List.Chain'.iff_mem] at h1 ⊢
  refine List.Chain'.imp ?_ h1
  rintro a b ⟨ha, hb, hab⟩
  have ha2 : a ∈ V :: l := by
    simp only [List.cons_append, List.mem_cons, List.mem_append, List.mem_singleton] at ha ⊢
    tauto
  have hb2 : b ∈ V :: l := by
    simp only [List.cons_append, List.mem_cons, List.mem_append, List.mem_singleton] at hb ⊢
    tauto
  refine ⟨ha, hb, ?_⟩
  unfold Linked at hab ⊢
  rw [hf a ha2, hf b hb2]
  exact hab

/-- A chain of neighbours is kept when `link[s]` of its sources and `link[1^s]` of its
targets are kept. -/
theorem chain_frame {g g1 : graph} {s : Int} :
    ∀ (a : Int) (t : List Int), List.Chain (Linked g s) a t →
      (∀ x ∈ (a :: t).dropLast, (g1.G x).link s = (g.G x).link s) →
      (∀ y ∈ t, (g1.G y).link (Int.xor 1 s) = (g.G y).link (Int.xor 1 s)) →
      List.Chain (Linked g1 s) a t := by
  intro a t
  induction t generalizing a with
  | nil => intro _ _ _; exact List.Chain.nil
  | cons y t ih =>
    intro h hs ht
    rw [List.chain_cons] at h ⊢
    refine ⟨?_, ih y h.2 ?_ ?_⟩
    · unfold Linked at h ⊢
      rw [hs a (by simp [List.dropLast]), ht y (List.mem_cons_self _ _)]
      exact h.1
    · intro x hx
      apply hs
      rw [List.dropLast_cons_of_ne_nil (List.cons_ne_nil _ _)]
      exact List.mem_cons_of_mem _ hx
    · intro z hz
      exact ht z (List.mem_cons_of_mem _ hz)

theorem setGLink_link (g : graph) (i s x j t : Int) :
    ((setGLink g i s x).G j).link t = if j = i ∧ t = s then x else (g.G j).link t := by
  simp only [setGLink, upd]
  by_cases hj : j = i
  · subst hj
    by_cases ht : t = s
    · simp [ht, upd]
    · simp [ht, upd]
  · simp [hj]

theorem setGv_link (g : graph) (i x j : Int) : ((setGv g i x).G j).link = (g.G j).link := by
  simp only [setGv, upd]
  split_ifs with h
  · subst h; rfl
  · rfl

theorem setGv_v (g : graph) (i x j : Int) :
    ((setGv g i x).G j).v = if j = i then x else (g.G j).v := by
  simp only [setGv, upd]
  split_ifs <;> rfl

/-- The state after the first loop of `_MergeVertex` on the arcs `c`. -/
theorem redirectArcs_chain (W R : Int) :
    ∀ (c : List Int) (g : graph) (k : Nat),
      List.Chain' (fun x y => (g.G x).link 0 = y) (c ++ [R]) →
      (∀ J ∈ c, g.edgeOffset ≤ J) → R < g.edgeOffset →
      redirectArcs (c.length + 1 + k) g W ((c ++ [R]).headD R) =
        some (c.foldl (fun s J => setGv s (gp_GetTwinArc s J) W) g) := by
  intro c
  induction c with
  | nil =>
    intro g k _ _ hR
    simp only [List.length_nil, List.nil_append, List.headD_cons, List.foldl_nil]
    rw [show 0 + 1 + k = k + 1 by omega, redirectArcs]
    rw [if_neg (by omega)]
  | cons J c ih =>
    intro g k hch hge hR
    simp only [List.length_cons, List.cons_append, List.headD_cons, List.foldl_cons]
    rw [show c.length + 1 + 1 + k = (c.length + 1 + k) + 1 by omega, redirectArcs]
    rw [if_pos (by have := hge J (List.mem_cons_self _ _); omega)]
    have hnext : (g.G J).link 0 = (c ++ [R]).headD R := by
      cases c with
      | nil =>
        simp only [List.nil_append, List.headD_cons]
        simp only [List.cons_append, List.nil_append, List.chain'_cons, List.chain'_singleton,
          and_true] at hch
        exact hch
      | cons J2 c2 =>
        simp only [List.cons_append, List.headD_cons]
        simp only [List.cons_append, List.chain'_cons] at hch
        exact hch.1
    show redirectArcs _ (setGv g (gp_GetTwinArc g J) W) W
      (((setGv g (gp_GetTwinArc g J) W).G J).link 0) = _
    rw [setGv_link, hnext]
    refine ih (setGv g (gp_GetTwinArc g J) W) k ?_ ?_ hR
    · have h2 : List.Chain' (fun x y => (g.G x).link 0 = y) (c ++ [R]) := by
        simp only [List.cons_append] at hch
        exact List.Chain'.tail hch
      refine List.Chain'.imp ?_ h2
      intro x y hxy
      rw [setGv_link]; exact hxy
    · intro J2 hJ2
      exact hge J2 (List.mem_cons_of_mem _ hJ2)

theorem redirected_frame (W : Int) :
    ∀ (c : List Int) (g : graph),
      (∀ j, ((c.foldl (fun s J => setGv s (gp_GetTwinArc s J) W) g).G j).link = (g.G j).link) ∧
      (c.foldl (fun s J => setGv s (gp_GetTwinArc s J) W) g).edgeOffset = g.edgeOffset ∧
      (∀ j, ((c.foldl (fun s J => setGv s (gp_GetTwinArc s J) W) g).G j).v =
        if j ∈ c.map (gp_GetTwinArc g) then W else (g.G j).v) ∧
      (∀ j, ((c.foldl (fun s J => setGv s (gp_GetTwinArc s J) W) g).G j).inverted =
        (g.G j).inverted) := by
  intro c
  induction c with
  | nil => intro g; simp
  | cons J c ih =>
    intro g
    simp only [List.foldl_cons]
    obtain ⟨h1, h2, h3, h4⟩ := ih (setGv g (gp_GetTwinArc g J) W)
    have htw : gp_GetTwinArc (setGv g (gp_GetTwinArc g J) W) = gp_GetTwinArc g := rfl
    refine ⟨fun j => ?_, h2, fun j => ?_, fun j => ?_⟩
    · rw [h1, setGv_link]
    · rw [h3, htw, setGv_v]
      simp only [List.map_cons, List.mem_cons]
      by_cases hj : j ∈ c.map (gp_GetTwinArc g)
      · simp [hj]
      · by_cases hj2 : j = gp_GetTwinArc g J
        · simp [hj2]
        · simp [hj, hj2]
    · rw [h4]
      simp only [setGv, upd]
      split_ifs with h
      · subst h; rfl
      · rfl

theorem chainCheck_iff (g : graph) (s : Int) :
    ∀ (l : List Int) (a : Int), chainCheck g s a l = true ↔ List.Chain (Linked g s) a l := by
  intro l
  induction l with
  | nil => intro a; simp [chainCheck]
  | cons b t ih =>
    intro a
    simp only [chainCheck, Bool.and_eq_true, decide_eq_true_eq, List.chain_cons, ih]

theorem ringCheck_iff (g : graph) (s V : Int) (l : List Int) :
    ringCheck g s V l = true ↔ Ring g s V l := by
  unfold ringCheck Ring
  simp only [Bool.and_eq_true, decide_eq_true_eq, List.all_eq_true, chainCheck_iff]
  constructor
  · rintro ⟨⟨⟨h1, h2⟩, h3⟩, h4⟩
    exact ⟨h1, h2, h3, h4⟩
  · rintro ⟨h1, h2, h3, h4⟩
    exact ⟨⟨⟨h1, h2⟩, h3⟩, h4⟩

/-! ### `_MergeVertex` -/

theorem Ring_first {g : graph} {s V : Int} {l : List Int} (h : Ring g s V l) :
    (g.G V).link s = (l ++ [V]).headD V := by
  obtain ⟨h1, _⟩ := h
  cases l with
  | nil =>
    simp only [List.nil_append, List.cons_append, List.chain'_cons, List.chain'_singleton,
      and_true] at h1
    exact h1.1
  | cons a t =>
    simp only [List.cons_append, List.chain'_cons] at h1
    exact h1.1.1

theorem Ring_last {g : graph} {s V : Int} {l : List Int} (hs : s = 0 ∨ s = 1)
    (h : Ring g s V l) : (g.G V).link (Int.xor 1 s) = (l.reverse ++ [V]).headD V :=
  Ring_first (Ring_reverse hs h)

theorem chain_prefix {α : Type} {R : α → α → Prop} {a : α} {l1 l2 : List α}
    (h : List.Chain R a (l1 ++ l2)) : List.Chain R a l1 := by
  induction l1 generalizing a with
  | nil => exact List.Chain.nil
  | cons x t ih =>
    simp only [List.cons_append, List.chain_cons] at h ⊢
    exact ⟨h.1, ih h.2⟩

/-- The four link assignments of `_MergeVertex` splice the ring of `R` into the ring of `W`
at the side `p` of `W`: in `link[p]` order the arcs of `R` come first. -/
theorem splice_ring {g : graph} {p W R : Int} {a b : List Int} (hp : p = 0 ∨ p = 1)
    (hW : Ring g p W a) (hR : Ring g p R b) (hb : b ≠ [])
    (hd : ∀ x ∈ W :: a, x ∉ R :: b) :
    Ring
      (setGLink
        (setGLink
          (setGLink
            (setGLink g ((g.G W).link p) (Int.xor 1 p) ((g.G R).link (Int.xor 1 p)))
            ((g.G R).link (Int.xor 1 p)) p ((g.G W).link p))
          W p ((g.G R).link p))
        ((g.G R).link p) (Int.xor 1 p) W)
      p W (b ++ a) := by
  have hq : Int.xor 1 p ≠ p := xor_one_ne hp
  have hq2 : p ≠ Int.xor 1 p := fun e => hq e.symm
  -- shape of the two rings
  obtain ⟨b1, tb, rfl⟩ : ∃ b1 tb, b = b1 :: tb := by
    cases b with
    | nil => exact absurd rfl hb
    | cons x t => exact ⟨x, t, rfl⟩
  obtain ⟨bi, bl, hbe⟩ : ∃ bi bl, b1 :: tb = bi ++ [bl] :=
    ⟨(b1 :: tb).dropLast, (b1 :: tb).getLast hb, (List.dropLast_append_getLast hb).symm⟩
  obtain ⟨w1, wt, hwe⟩ : ∃ w1 wt, a ++ [W] = w1 :: wt := by
    cases a with
    | nil => exact ⟨W, [], rfl⟩
    | cons x t => exact ⟨x, t ++ [W], rfl⟩
  have hext : (g.G R).link p = b1 := by
    rw [Ring_first hR]; rfl
  have hr : (g.G R).link (Int.xor 1 p) = bl := by
    rw [Ring_last hp hR, hbe]; simp
  have hw : (g.G W).link p = w1 := by
    rw [Ring_first hW, hwe]; rfl
  rw [hext, hr, hw]
  obtain ⟨cW, nW, oW, geW⟩ := hW
  obtain ⟨cR, nR, oR, geR⟩ := hR
  -- membership facts
  have hbl_mem : bl ∈ b1 :: tb := by rw [hbe]; simp
  have hb1_mem : b1 ∈ b1 :: tb := List.mem_cons_self _ _
  have hw1_mem : w1 ∈ W :: a := by
    have : w1 ∈ a ++ [W] := by rw [hwe]; exact List.mem_cons_self _ _
    simp only [List.mem_append, List.mem_singleton, List.mem_cons] at this ⊢
    tauto
  have hWb : ∀ x ∈ b1 :: tb, x ≠ W := by
    intro x hx e
    exact hd W (List.mem_cons_self _ _) (List.mem_cons_of_mem _ (e ▸ hx))
  have hab : ∀ x ∈ W :: a, ∀ y ∈ b1 :: tb, x ≠ y := by
    intro x hx y hy e
    exact hd x hx (List.mem_cons_of_mem _ (e ▸ hy))
  have hF : ∀ j t,
      ((setGLink (setGLink (setGLink (setGLink g w1 (Int.xor 1 p) bl) bl p w1) W p b1) b1
        (Int.xor 1 p) W).G j).link t =
        if j = b1 ∧ t = Int.xor 1 p then W
        else if j = W ∧ t = p then b1
        else if j = bl ∧ t = p then w1
        else if j = w1 ∧ t = Int.xor 1 p then bl
        else (g.G j).link t := by
    intro j t
    simp only [setGLink_link]
  have hFp : ∀ j, j ≠ W → j ≠ bl →
      ((setGLink (setGLink (setGLink (setGLink g w1 (Int.xor 1 p) bl) bl p w1) W p b1) b1
        (Int.xor 1 p) W).G j).link p = (g.G j).link p := by
    intro j h1 h2
    rw [hF]; simp [h1, h2, hq2]
  have hFq : ∀ j, j ≠ b1 → j ≠ w1 →
      ((setGLink (setGLink (setGLink (setGLink g w1 (Int.xor 1 p) bl) bl p w1) W p b1) b1
        (Int.xor 1 p) W).G j).link (Int.xor 1 p) = (g.G j).link (Int.xor 1 p) := by
    intro j h1 h2
    rw [hF]; simp [h1, h2, hq]
  refine ⟨?_, ?_, oW, ?_⟩
  · -- the chain
    show List.Chain (Linked _ p) W ((b1 :: tb) ++ a ++ [W])
    rw [List.append_assoc, hwe, hbe, List.append_assoc, List.singleton_append,
      List.chain_append_cons_cons]
    refine ⟨?_, ?_, ?_⟩
    · rw [← hbe, List.chain_cons]
      constructor
      · constructor
        · rw [hF]; simp [hq2]
        · rw [hF]; simp
      · have c0 : List.Chain (Linked g p) b1 tb := by
          have : List.Chain (Linked g p) R (b1 :: (tb ++ [R])) := cR
          rw [List.chain_cons] at this
          exact chain_prefix this.2
        refine chain_frame b1 tb c0 ?_ ?_
        · intro x hx
          rw [hbe, List.dropLast_concat] at hx
          have hxm : x ∈ b1 :: tb := by rw [hbe]; exact List.mem_append_left _ hx
          refine hFp x (hWb x hxm) ?_
          intro e
          have hn : (bi ++ [bl]).Nodup := hbe ▸ (List.nodup_cons.1 nR).2
          rw [List.nodup_append] at hn
          exact hn.2.2 hx (by simp [e])
        · intro y hy
          refine hFq y ?_ ?_
          · intro e
            have hn : (b1 :: tb).Nodup := (List.nodup_cons.1 nR).2
            exact (List.nodup_cons.1 hn).1 (e ▸ hy)
          · intro e
            exact hab w1 hw1_mem y (List.mem_cons_of_mem _ hy) e.symm
    · constructor
      · rw [hF]
        have h1 : bl ≠ W := hWb bl hbl_mem
        simp [h1, hq2]
      · rw [hF]
        have h1 : w1 ≠ b1 := hab w1 hw1_mem b1 hb1_mem
        simp [h1, hq]
    · have c0 : List.Chain (Linked g p) w1 wt := by
        have : List.Chain (Linked g p) W (a ++ [W]) := cW
        rw [hwe, List.chain_cons] at this
        exact this.2
      refine chain_frame w1 wt c0 ?_ ?_
      · intro x hx
        rw [← hwe, List.dropLast_concat] at hx
        have hxm : x ∈ W :: a := List.mem_cons_of_mem _ hx
        refine hFp x ?_ (hab x hxm bl hbl_mem)
        intro e
        exact (List.nodup_cons.1 nW).1 (e ▸ hx)
      · intro y hy
        have hn : (w1 :: wt).Nodup := by
          rw [← hwe]
          have : (a ++ [W]).Nodup := by
            rw [List.nodup_append]
            refine ⟨(List.nodup_cons.1 nW).2, List.nodup_singleton _, ?_⟩
            intro z hz hz2
            rw [List.mem_singleton] at hz2
            exact (List.nodup_cons.1 nW).1 (hz2 ▸ hz)
          exact this
        have hym : y ∈ W :: a := by
          have : y ∈ a ++ [W] := by rw [hwe]; exact List.mem_cons_of_mem _ hy
          simp only [List.mem_append, List.mem_singleton, List.mem_cons] at this ⊢
          tauto
        refine hFq y (hab y hym b1 hb1_mem) ?_
        intro e
        exact (List.nodup_cons.1 hn).1 (e ▸ hy)
  · rw [List.nodup_cons] at nW nR ⊢
    refine ⟨?_, ?_⟩
    · intro hm
      rcases List.mem_append.1 hm with h | h
      · exact hWb W h rfl
      · exact nW.1 h
    · rw [List.nodup_append]
      refine ⟨nR.2, nW.2, ?_⟩
      intro z hz hz2
      exact hab z (List.mem_cons_of_mem _ hz2) z hz rfl
  · intro x hx
    rcases List.mem_append.1 hx with h | h
    · exact geR x h
    · exact geW x h

theorem headD_mem_cons (l : List Int) (V : Int) : (l ++ [V]).headD V ∈ V :: l := by
  cases l with
  | nil => simp
  | cons a t => simp

theorem twin_ge (g : graph) (J : Int) (h : g.edgeOffset ≤ J) :
    g.edgeOffset ≤ gp_GetTwinArc g J := by
  unfold gp_GetTwinArc
  rw [int_xor_one _ (by omega)]
  split_ifs <;> omega

theorem redirected_NV (W : Int) :
    ∀ (c : List Int) (g : graph),
      (c.foldl (fun s J => setGv s (gp_GetTwinArc s J) W) g).N = g.N ∧
      (c.foldl (fun s J => setGv s (gp_GetTwinArc s J) W) g).V = g.V := by
  intro c
  induction c with
  | nil => intro g; exact ⟨rfl, rfl⟩
  | cons J c ih =>
    intro g
    simp only [List.foldl_cons]
    exact ih _

theorem mergeVertex_eq (fuel : Nat) (init : graph → Int → graph) (g : graph) (W p R : Int) :
    _MergeVertex fuel init g W p R =
      (redirectArcs fuel g W ((g.G R).link 0)).map fun g =>
        init
          (setGLink
            (setGLink
              (setGLink
                (setGLink g ((g.G W).link p) (Int.xor 1 p) ((g.G R).link (Int.xor 1 p)))
                ((g.G R).link (Int.xor 1 p)) p ((g.G W).link p))
              W p ((g.G R).link p))
            ((g.G R).link p) (Int.xor 1 p) W) R := rfl

theorem setGLink_other (g : graph) (i s x j : Int) (h : j ≠ i) :
    (setGLink g i s x).G j = g.G j := by
  simp [setGLink, upd, h]

theorem setGLink_v (g : graph) (i s x j : Int) : ((setGLink g i s x).G j).v = (g.G j).v := by
  simp only [setGLink, upd]
  split_ifs with h
  · subst h; rfl
  · rfl

theorem setGLink_inverted (g : graph) (i s x j : Int) :
    ((setGLink g i s x).G j).inverted = (g.G j).inverted := by
  simp only [setGLink, upd]
  split_ifs with h
  · subst h; rfl
  · rfl

theorem setGLink_type (g : graph) (i s x j : Int) :
    ((setGLink g i s x).G j).type = (g.G j).type := by
  simp only [setGLink, upd]
  split_ifs with h
  · subst h; rfl
  · rfl

/-- The effect of `_MergeVertex(W, p, R)` on two disjoint valid rings, given in `link[0]`
order: the call returns, the arcs of `R` are spliced into the ring of `W` (in front of the
arcs of `W` for `p = 0`, behind them for `p = 1`, in unchanged order), the twins of the arcs
of `R` point to `W`, `R` is retired, and nothing else changes in the links, the inverted
flags, the vertex records, `N` and `edgeOffset`. -/
theorem mergeVertex_spec (fuel : Nat) (init : graph → Int → graph) (g : graph)
    (W p R : Int) (a b : List Int) (hinit : RetiresNode init) (hp : p = 0 ∨ p = 1)
    (hW : Ring g 0 W a) (hR : Ring g 0 R b) (hb : b ≠ [])
    (hd : ∀ x ∈ W :: a, x ∉ R :: b) (hfuel : b.length < fuel) :
    ∃ g1, _MergeVertex fuel init g W p R = some g1 ∧
      Ring g1 0 W (if p = 0 then b ++ a else a ++ b) ∧
      (∀ t, (g1.G R).link t = NIL) ∧
      (∀ J ∈ b, (g1.G (gp_GetTwinArc g J)).v = W) ∧
      (∀ j, j ∉ W :: a → j ∉ R :: b → (g1.G j).link = (g.G j).link) ∧
      (∀ j, j ≠ R → (g1.G j).inverted = (g.G j).inverted) ∧
      g1.edgeOffset = g.edgeOffset ∧ g1.N = g.N ∧ g1.V = g.V := by
  -- the first loop
  have hch : List.Chain' (fun x y => (g.G x).link 0 = y) (b ++ [R]) := by
    have : List.Chain' (Linked g 0) (R :: b ++ [R]) := hR.1
    have := List.Chain'.tail this
    exact List.Chain'.imp (fun x y h => h.1) this
  obtain ⟨k, hk⟩ : ∃ k, fuel = b.length + 1 + k := ⟨fuel - (b.length + 1), by omega⟩
  have h1 := redirectArcs_chain W R b g k hch hR.2.2.2 hR.2.2.1
  rw [← Ring_first hR, ← hk] at h1
  obtain ⟨f1, f2, f3, f4⟩ := redirected_frame W b g
  obtain ⟨f5, f6⟩ := redirected_NV W b g
  generalize b.foldl (fun s J => setGv s (gp_GetTwinArc s J) W) g = g1 at h1 f1 f2 f3 f4 f5 f6
  have hW1 : Ring g1 0 W a := Ring_frame hW f2 (fun x _ => f1 x)
  have hR1 : Ring g1 0 R b := Ring_frame hR f2 (fun x _ => f1 x)
  rw [mergeVertex_eq, h1, Option.map_some']
  refine ⟨_, rfl, ?_⟩
  obtain ⟨i1, i2, i3, i4, i5⟩ := hinit
    (setGLink
      (setGLink
        (setGLink
          (setGLink g1 ((g1.G W).link p) (Int.xor 1 p) ((g1.G R).link (Int.xor 1 p)))
          ((g1.G R).link (Int.xor 1 p)) p ((g1.G W).link p))
        W p ((g1.G R).link p))
      ((g1.G R).link p) (Int.xor 1 p) W) R
  have hWR : W ≠ R := fun e => hd W (List.mem_cons_self _ _) (e ▸ List.mem_cons_self _ _)
  -- the spliced ring, in `link[p]` order
  have hsp : Ring
      (setGLink
        (setGLink
          (setGLink
            (setGLink g1 ((g1.G W).link p) (Int.xor 1 p) ((g1.G R).link (Int.xor 1 p)))
            ((g1.G R).link (Int.xor 1 p)) p ((g1.G W).link p))
          W p ((g1.G R).link p))
        ((g1.G R).link p) (Int.xor 1 p) W) 0 W (if p = 0 then b ++ a else a ++ b) := by
    rcases hp with rfl | rfl
    · rw [if_pos rfl]
      exact splice_ring (Or.inl rfl) hW1 hR1 hb hd
    · rw [if_neg (by decide)]
      have hW2 : Ring g1 1 W a.reverse := by
        have := Ring_reverse (Or.inl rfl) hW1
        rwa [xor_one_zero] at this
      have hR2 : Ring g1 1 R b.reverse := by
        have := Ring_reverse (Or.inl rfl) hR1
        rwa [xor_one_zero] at this
      have hd2 : ∀ x ∈ W :: a.reverse, x ∉ R :: b.reverse := by
        intro x hx hx2
        simp only [List.mem_cons, List.mem_reverse] at hx hx2
        exact hd x (by simpa using hx) (by simpa using hx2)
      have := splice_ring (Or.inr rfl) hW2 hR2 (by simpa using hb) hd2
      have := Ring_reverse (Or.inr rfl) this
      rw [xor_one_one] at this
      simpa using this
  -- membership of the four nodes written to
  have m1 : ∀ t, t = 0 ∨ t = 1 → (g1.G W).link t ∈ W :: a := by
    intro t ht
    rcases ht with rfl | rfl
    · rw [Ring_first hW1]; exact headD_mem_cons _ _
    · have := Ring_last (Or.inl rfl) hW1
      rw [xor_one_zero] at this
      rw [this]
      have := headD_mem_cons a.reverse W
      simpa using this
  have m2 : ∀ t, t = 0 ∨ t = 1 → (g1.G R).link t ∈ R :: b := by
    intro t ht
    rcases ht with rfl | rfl
    · rw [Ring_first hR1]; exact headD_mem_cons _ _
    · have := Ring_last (Or.inl rfl) hR1
      rw [xor_one_zero] at this
      rw [this]
      have := headD_mem_cons b.reverse R
      simpa using this
  have hq : Int.xor 1 p = 0 ∨ Int.xor 1 p = 1 := xor_one_bit hp
  refine ⟨?_, i5, ?_, ?_, ?_, ?_, i2.trans f5, ?_⟩
  · refine Ring_frame hsp i1 ?_
    intro x hx
    rw [i4 x]
    intro e
    have hx2 : x ∈ W :: a ∨ x ∈ b := by
      split_ifs at hx
      all_goals
        simp only [List.mem_cons, List.mem_append] at hx ⊢
        tauto
    rcases hx2 with h | h
    · exact hd x h (e ▸ List.mem_cons_self _ _)
    · exact (List.nodup_cons.1 hR.2.1).1 (e ▸ h)
  · intro J hJ
    have hge : g.edgeOffset ≤ gp_GetTwinArc g J := twin_ge g J (hR.2.2.2 J hJ)
    have hne : gp_GetTwinArc g J ≠ R := by
      have := hR.2.2.1
      omega
    rw [i4 _ hne]
    simp only [setGLink_v]
    rw [f3, if_pos (List.mem_map_of_mem _ hJ)]
  · intro j hj1 hj2
    have hjR : j ≠ R := fun e => hj2 (e ▸ List.mem_cons_self _ _)
    rw [i4 j hjR]
    have n1 : j ≠ (g1.G R).link p := fun e => hj2 (e ▸ m2 p hp)
    have n2 : j ≠ W := fun e => hj1 (e ▸ List.mem_cons_self _ _)
    have n3 : j ≠ (g1.G R).link (Int.xor 1 p) := fun e => hj2 (e ▸ m2 _ hq)
    have n4 : j ≠ (g1.G W).link p := fun e => hj1 (e ▸ m1 p hp)
    rw [setGLink_other _ _ _ _ _ n1, setGLink_other _ _ _ _ _ n2,
      setGLink_other _ _ _ _ _ n3, setGLink_other _ _ _ _ _ n4]
    exact f1 j
  · intro j hj
    rw [i4 j hj]
    simp only [setGLink_inverted]
    exact f4 j
  · rw [i1]; exact f2
  · rw [i3]
    exact f6

/-- C16 `_MergeVertex(Z, ZPrevLink, R)` on a state in which the rings of `Z` and of the root
copy `R` are valid circular doubly-linked lists (disjoint, `R` holding at least one arc; `a`
and `b` are their arcs in `link[0]` order): the call returns; every arc that was in the ring
of `R` has `twin.v = Z`; the ring of `Z` is again a valid circular doubly-linked list, the
`link[0]` tour and the `link[1]` tour being mutually inverse and returning to `Z`, whose arcs
are the former arcs of `R` and the former arcs of `Z`, each once (those of `R` in front for
`ZPrevLink = 0`, behind for `ZPrevLink = 1`); and `R` is re-initialised, its links being
`NIL`, given that `fpInitGraphNode` re-initialises that node only. -/
theorem mergeVertex_ring (fuel : Nat) (fpInitGraphNode : graph → Int → graph) (g : graph)
    (Z ZPrevLink R : Int) (a b : List Int) (hinit : RetiresNode fpInitGraphNode)
    (hp : ZPrevLink = 0 ∨ ZPrevLink = 1) (hZ : Ring g 0 Z a) (hR : Ring g 0 R b) (hb : b ≠ [])
    (hd : ∀ x ∈ Z :: a, x ∉ R :: b) (hfuel : b.length < fuel) :
    ∃ g1, _MergeVertex fuel fpInitGraphNode g Z ZPrevLink R = some g1 ∧
      (∀ J ∈ b, (g1.G (gp_GetTwinArc g J)).v = Z) ∧
      Ring g1 0 Z (if ZPrevLink = 0 then b ++ a else a ++ b) ∧
      Ring g1 1 Z (if ZPrevLink = 0 then b ++ a else a ++ b).reverse ∧
      (g1.G R).link 0 = NIL ∧ (g1.G R).link 1 = NIL := by
  obtain ⟨g1, h1, h2, h3, h4, _⟩ :=
    mergeVertex_spec fuel fpInitGraphNode g Z ZPrevLink R a b hinit hp hZ hR hb hd hfuel
  refine ⟨g1, h1, h4, h2, ?_, h3 0, h3 1⟩
  have := Ring_reverse (Or.inl rfl) h2
  rwa [xor_one_zero] at this

theorem retiresNode_default : RetiresNode _InitGraphNode := by
  intro s x
  refine ⟨rfl, rfl, rfl, ?_, ?_⟩
  · intro j hj
    simp [_InitGraphNode, upd, hj]
  · intro t
    simp [_InitGraphNode, upd]

set_option maxRecDepth 100000 in
/-- Witness for `mergeVertex_ring`: in the triangle at the start of the iteration `I = 0`
the vertex `1` holds the arc `7` and the root copy `5` the arc `8`; merging `5` into `1`
gives the ring `8, 7`. -/
theorem mergeVertex_ring_witness :
    Ring triangleAtWalkUp 0 1 [7] ∧ Ring triangleAtWalkUp 0 5 [8] ∧
    ∃ g1, _MergeVertex 2 _InitGraphNode triangleAtWalkUp 1 0 5 = some g1 ∧
      Ring g1 0 1 [8, 7] ∧ (g1.G 5).link 0 = NIL := by
  have hZ : Ring triangleAtWalkUp 0 1 [7] := (ringCheck_iff _ _ _ _).1 (by decide!)
  have hR : Ring triangleAtWalkUp 0 5 [8] := (ringCheck_iff _ _ _ _).1 (by decide!)
  obtain ⟨g1, h1, _, h3, _, h5, _⟩ :=
    mergeVertex_ring 2 _InitGraphNode triangleAtWalkUp 1 0 5 [7] [8] retiresNode_default
      (Or.inl rfl) hZ hR (by simp) (by decide) (by decide)
  exact ⟨hZ, hR, g1, h1, by simpa using h3, h5⟩

/-! ### `_JoinBicomps` -/

theorem joinedRing_zero (g : graph) (rl : Int → List Int) (W : Int) :
    joinedRing g rl 0 W = rl W := by
  simp [joinedRing]

theorem joinedRing_succ (g : graph) (rl : Int → List Int) (k : Nat) (W : Int) :
    joinedRing g rl (k + 1) W =
      if liveRoot g k ∧ (g.V (k : Int)).DFSParent = W then
        rl (g.N + (k : Int)) ++ joinedRing g rl k W
      else joinedRing g rl k W := by
  unfold joinedRing
  rw [List.range_succ, List.filter_append]
  by_cases h : liveRoot g k ∧ (g.V (k : Int)).DFSParent = W
  · rw [if_pos h]
    simp [List.filter_cons, h, List.flatMap]
  · rw [if_neg h]
    simp [List.filter_cons, h]

theorem mem_joinedRing (g : graph) (rl : Int → List Int) (W x : Int) :
    ∀ k : Nat, x ∈ joinedRing g rl k W ↔
      (x ∈ rl W ∨ ∃ i : Nat, i < k ∧ liveRoot g i ∧ (g.V (i : Int)).DFSParent = W ∧
        x ∈ rl (g.N + (i : Int))) := by
  intro k
  induction k with
  | zero => simp [joinedRing_zero]
  | succ k ih =>
    rw [joinedRing_succ]
    by_cases h : liveRoot g k ∧ (g.V (k : Int)).DFSParent = W
    · rw [if_pos h, List.mem_append, ih]
      constructor
      · rintro (h1 | h1 | ⟨i, hi, h2⟩)
        · exact Or.inr ⟨k, by omega, h.1, h.2, h1⟩
        · exact Or.inl h1
        · exact Or.inr ⟨i, by omega, h2⟩
      · rintro (h1 | ⟨i, hi, h2, h3, h4⟩)
        · exact Or.inr (Or.inl h1)
        · by_cases e : i = k
          · subst e; exact Or.inl h4
          · exact Or.inr (Or.inr ⟨i, by omega, h2, h3, h4⟩)
    · rw [if_neg h, ih]
      constructor
      · rintro (h1 | ⟨i, hi, h2⟩)
        · exact Or.inl h1
        · exact Or.inr ⟨i, by omega, h2⟩
      · rintro (h1 | ⟨i, hi, h2, h3, h4⟩)
        · exact Or.inl h1
        · by_cases e : i = k
          · subst e; exact absurd ⟨h2, h3⟩ h
          · exact Or.inr ⟨i, by omega, h2, h3, h4⟩

theorem joinBicomps_eq (fuel : Nat) (init : graph → Int → graph) (g : graph) :
    _JoinBicomps fuel init g =
      ((List.range (g.edgeOffset - g.N).toNat).foldl (joinStep fuel init g) (some g)).map
        (fun s => (OK, s)) := rfl

/-- Invariant of the loop of `_JoinBicomps` after the root copies `N + i`, `i < k`. -/
theorem joinLoop_inv (fuel : Nat) (init : graph → Int → graph) (g : graph)
    (rl : Int → List Int) (hinit : RetiresNode init) (hN : 0 ≤ g.N) (hg : JoinReady g rl)
    (hfuel : ∀ i : Nat, g.N + (i : Int) < g.edgeOffset → liveRoot g i →
      (rl (g.N + (i : Int))).length < fuel) :
    ∀ k : Nat, g.N + (k : Int) ≤ g.edgeOffset →
      ∃ s, (List.range k).foldl (joinStep fuel init g) (some g) = some s ∧
        s.edgeOffset = g.edgeOffset ∧ s.N = g.N ∧ s.V = g.V ∧
        (∀ i : Nat, i < k → (s.G (g.N + (i : Int))).link 0 = NIL) ∧
        (∀ i : Nat, k ≤ i → g.N + (i : Int) < g.edgeOffset →
          (s.G (g.N + (i : Int))).link 0 = (g.G (g.N + (i : Int))).link 0 ∧
          (liveRoot g i → Ring s 0 (g.N + (i : Int)) (rl (g.N + (i : Int))))) ∧
        (∀ W, 0 ≤ W → W < g.N → Ring s 0 W (joinedRing g rl k W)) ∧
        (∀ j, g.edgeOffset ≤ j → (s.G j).inverted = (g.G j).inverted) := by
  obtain ⟨hV, hRt, hdj⟩ := hg
  intro k
  induction k with
  | zero =>
    intro _
    refine ⟨g, rfl, rfl, rfl, rfl, ?_, ?_, ?_, fun _ _ => rfl⟩
    · intro i hi; omega
    · intro i _ hi
      exact ⟨rfl, fun hl => (hRt i hi hl).1⟩
    · intro W h0 h1
      rw [joinedRing_zero]; exact hV W h0 h1
  | succ k ih =>
    intro hk
    obtain ⟨s, hs, e1, e2, e3, d1, d2, d3, d4⟩ := ih (by omega)
    have hkR : g.N + (k : Int) < g.edgeOffset := by omega
    rw [List.range_succ, List.foldl_append, hs]
    simp only [List.foldl_cons, List.foldl_nil]
    have hlk := (d2 k (le_refl _) hkR).1
    by_cases hl : liveRoot g k
    · -- a live root copy: merge
      have hl2 : (s.G (g.N + (k : Int))).link 0 ≠ NIL := by rw [hlk]; exact hl
      obtain ⟨r1, r2, r3, r4⟩ := hRt k hkR hl
      have hpar : (s.V (g.N + (k : Int) - g.N)).DFSParent = (g.V (k : Int)).DFSParent := by
        rw [e3, add_sub_cancel_left]
      have hstep : joinStep fuel init g (some s) k =
          _MergeVertex fuel init s (g.V (k : Int)).DFSParent 0 (g.N + (k : Int)) := by
        show (if (s.G (g.N + (k : Int))).link 0 ≠ NIL then
          _MergeVertex fuel init s (s.V (g.N + (k : Int) - g.N)).DFSParent 0 (g.N + (k : Int))
          else some s) = _
        rw [if_pos hl2, hpar]
      rw [hstep]
      set W := (g.V (k : Int)).DFSParent with hW
      set R := g.N + (k : Int) with hR
      have hRW : Ring s 0 W (joinedRing g rl k W) := d3 W r3 r4
      have hRR : Ring s 0 R (rl R) := (d2 k (le_refl _) hkR).2 hl
      have hWlt : W < g.edgeOffset := by omega
      have hdis : ∀ x ∈ W :: joinedRing g rl k W, x ∉ R :: rl R := by
        intro x hx hx2
        rcases List.mem_cons.1 hx with rfl | hx
        · rcases List.mem_cons.1 hx2 with e | hx2
          · omega
          · have := hRR.2.2.2 _ hx2
            rw [e1] at this
            omega
        · have hxge : g.edgeOffset ≤ x := by
            have := hRW.2.2.2 x hx
            rwa [e1] at this
          rcases List.mem_cons.1 hx2 with e | hx2
          · omega
          · rcases (mem_joinedRing g rl W x k).1 hx with h | ⟨i, hi, _, _, h⟩
            · exact hdj W R r3 hWlt (by omega) hkR (by omega) x h hx2
            · exact hdj (g.N + (i : Int)) R (by omega) (by omega) (by omega) hkR (by omega)
                x h hx2
      obtain ⟨s1, m1, m2, m3, _, m5, m6, m7, m8, m9⟩ :=
        mergeVertex_spec fuel init s W 0 R (joinedRing g rl k W) (rl R) hinit (Or.inl rfl)
          hRW hRR r2 hdis (hfuel k hkR hl)
      rw [if_pos rfl] at m2
      refine ⟨s1, m1, m7.trans e1, m8.trans e2, m9.trans e3, ?_, ?_, ?_, ?_⟩
      · intro i hi
        by_cases e : i = k
        · subst e; exact m3 0
        · have hj1 : g.N + (i : Int) ∉ W :: joinedRing g rl k W := by
            intro hm
            rcases List.mem_cons.1 hm with h | h
            · omega
            · have := hRW.2.2.2 _ h
              rw [e1] at this
              omega
          have hj2 : g.N + (i : Int) ∉ R :: rl R := by
            intro hm
            rcases List.mem_cons.1 hm with h | h
            · omega
            · have := hRR.2.2.2 _ h
              rw [e1] at this
              omega
          rw [m5 _ hj1 hj2]
          exact d1 i (by omega)
      · intro i hi hiR
        have hj1 : ∀ x ∈ (g.N + (i : Int)) :: rl (g.N + (i : Int)), liveRoot g i →
            x ∉ W :: joinedRing g rl k W := by
          intro x hx hli hm
          have hRi := (d2 i (by omega) hiR).2 hli
          rcases List.mem_cons.1 hx with rfl | hx
          · rcases List.mem_cons.1 hm with h | h
            · omega
            · have := hRW.2.2.2 _ h
              rw [e1] at this
              omega
          · have hxge : g.edgeOffset ≤ x := by
              have := hRi.2.2.2 x hx
              rwa [e1] at this
            rcases List.mem_cons.1 hm with h | h
            · omega
            · rcases (mem_joinedRing g rl W x k).1 h with h | ⟨i2, hi2, _, _, h⟩
              · exact hdj W (g.N + (i : Int)) r3 hWlt (by omega) hiR (by omega) x h hx
              · exact hdj (g.N + (i2 : Int)) (g.N + (i : Int)) (by omega) (by omega)
                  (by omega) hiR (by omega) x h hx
        have hj2 : ∀ x ∈ (g.N + (i : Int)) :: rl (g.N + (i : Int)), liveRoot g i →
            x ∉ R :: rl R := by
          intro x hx hli hm
          have hRi := (d2 i (by omega) hiR).2 hli
          rcases List.mem_cons.1 hx with rfl | hx
          · rcases List.mem_cons.1 hm with h | h
            · omega
            · have := hRR.2.2.2 _ h
              rw [e1] at this
              omega
          · have hxge : g.edgeOffset ≤ x := by
              have := hRi.2.2.2 x hx
              rwa [e1] at this
            rcases List.mem_cons.1 hm with h | h
            · omega
            · exact hdj R (g.N + (i : Int)) (by omega) hkR (by omega) hiR (by omega) x h hx
        have hhead1 : g.N + (i : Int) ∉ W :: joinedRing g rl k W := by
          intro hm
          rcases List.mem_cons.1 hm with h | h
          · omega
          · have := hRW.2.2.2 _ h
            rw [e1] at this
            omega
        have hhead2 : g.N + (i : Int) ∉ R :: rl R := by
          intro hm
          rcases List.mem_cons.1 hm with h | h
          · omega
          · have := hRR.2.2.2 _ h
            rw [e1] at this
            omega
        refine ⟨?_, fun hli => ?_⟩
        · rw [m5 _ hhead1 hhead2]
          exact (d2 i (by omega) hiR).1
        · refine Ring_frame ((d2 i (by omega) hiR).2 hli) m7 ?_
          intro x hx
          exact m5 x (hj1 x hx hli) (hj2 x hx hli)
      · intro W2 h0 h1
        rw [joinedRing_succ]
        by_cases hW2 : W2 = W
        · subst hW2
          rw [if_pos ⟨hl, rfl⟩]
          exact m2
        · rw [if_neg (fun h => hW2 h.2.symm)]
          refine Ring_frame (d3 W2 h0 h1) m7 ?_
          intro x hx
          have hR2 := d3 W2 h0 h1
          have hx1 : x ∉ W :: joinedRing g rl k W := by
            intro hm
            rcases List.mem_cons.1 hx with rfl | hx
            · rcases List.mem_cons.1 hm with h | h
              · exact hW2 h
              · have := hRW.2.2.2 _ h
                rw [e1] at this
                omega
            · have hxge : g.edgeOffset ≤ x := by
                have := hR2.2.2.2 x hx
                rwa [e1] at this
              rcases List.mem_cons.1 hm with h | h
              · omega
              · have hn := hR2.2.1
                rcases (mem_joinedRing g rl W2 x k).1 hx with a1 | ⟨i1, hi1, _, p1, a1⟩ <;>
                  rcases (mem_joinedRing g rl W x k).1 h with a2 | ⟨i2, hi2, _, p2, a2⟩
                · exact hdj W2 W h0 (by omega) r3 hWlt hW2 x a1 a2
                · exact hdj W2 (g.N + (i2 : Int)) h0 (by omega) (by omega) (by omega)
                    (by omega) x a1 a2
                · exact hdj (g.N + (i1 : Int)) W (by omega) (by omega) r3 hWlt (by omega)
                    x a1 a2
                · have hne : i1 ≠ i2 := by
                    intro e; subst e
                    exact hW2 (p1.symm.trans p2)
                  exact hdj (g.N + (i1 : Int)) (g.N + (i2 : Int)) (by omega) (by omega)
                    (by omega) (by omega) (by omega) x a1 a2
          have hx2 : x ∉ R :: rl R := by
            intro hm
            rcases List.mem_cons.1 hx with rfl | hx
            · rcases List.mem_cons.1 hm with h | h
              · omega
              · have := hRR.2.2.2 _ h
                rw [e1] at this
                omega
            · have hxge : g.edgeOffset ≤ x := by
                have := hR2.2.2.2 x hx
                rwa [e1] at this
              rcases List.mem_cons.1 hm with h | h
              · omega
              · rcases (mem_joinedRing g rl W2 x k).1 hx with a1 | ⟨i1, hi1, _, p1, a1⟩
                · exact hdj W2 R h0 (by omega) (by omega) hkR (by omega) x a1 h
                · exact hdj (g.N + (i1 : Int)) R (by omega) (by omega) (by omega) hkR
                    (by omega) x a1 h
          exact m5 x hx1 hx2
      · intro j hj
        rw [m6 j (by omega)]
        exact d4 j hj
    · -- a defunct root copy: skip
      have hl2 : ¬ (s.G (g.N + (k : Int))).link 0 ≠ NIL := by rw [hlk]; exact hl
      have hstep : joinStep fuel init g (some s) k = some s := by
        show (if (s.G (g.N + (k : Int))).link 0 ≠ NIL then _ else some s) = _
        rw [if_neg hl2]
      rw [hstep]
      refine ⟨s, rfl, e1, e2, e3, ?_, ?_, ?_, d4⟩
      · intro i hi
        by_cases e : i = k
        · subst e
          rw [hlk]
          exact not_not.1 hl
        · exact d1 i (by omega)
      · intro i hi hiR
        exact d2 i (by omega) hiR
      · intro W h0 h1
        rw [joinedRing_succ, if_neg (fun h => hl h.1)]
        exact d3 W h0 h1

theorem infix_joinedRing (g : graph) (rl : Int → List Int) (i : Nat) (hl : liveRoot g i) :
    ∀ k : Nat, i < k →
      rl (g.N + (i : Int)) <:+: joinedRing g rl k (g.V (i : Int)).DFSParent := by
  intro k
  induction k with
  | zero => intro h; omega
  | succ k ih =>
    intro hik
    rw [joinedRing_succ]
    by_cases e : i = k
    · subst e
      rw [if_pos ⟨hl, rfl⟩]
      exact (List.prefix_append _ _).isInfix
    · have h1 := ih (by omega)
      split_ifs
      · exact h1.trans (List.suffix_append _ _).isInfix
      · exact h1

/-- C12 `_JoinBicomps` on a state in which the vertices and the live root copies have valid,
pairwise disjoint rings (`rl` gives their arcs in `link[0]` order), given that
`fpInitGraphNode` re-initialises the node it is called on, resetting its links to `NIL`:
the function returns `OK`; afterwards every root copy `R` in `[N, edgeOffset)` is defunct
(`G[R].link[0] = NIL`); the ring of every vertex `W` is a valid ring holding, in front of
its own arcs, the arcs of the live root copies `N + c` with `DFSParent[c] = W`, each ring
of a root copy as one block in its own `link[0]` order (merged through link 0, not
inverted); and no `edge_flag_inverted` of an arc is changed. -/
theorem joinBicomps_spec (fuel : Nat) (fpInitGraphNode : graph → Int → graph) (g : graph)
    (rl : Int → List Int) (hinit : RetiresNode fpInitGraphNode) (hN : 0 ≤ g.N)
    (hg : JoinReady g rl)
    (hfuel : ∀ i : Nat, g.N + (i : Int) < g.edgeOffset → liveRoot g i →
      (rl (g.N + (i : Int))).length < fuel) :
    ∃ g1, _JoinBicomps fuel fpInitGraphNode g = some (OK, g1) ∧
      (∀ R, g.N ≤ R → R < g.edgeOffset → (g1.G R).link 0 = NIL) ∧
      (∀ W, 0 ≤ W → W < g.N →
        Ring g1 0 W (joinedRing g rl (g.edgeOffset - g.N).toNat W)) ∧
      (∀ i : Nat, g.N + (i : Int) < g.edgeOffset → liveRoot g i →
        rl (g.N + (i : Int)) <:+:
          joinedRing g rl (g.edgeOffset - g.N).toNat (g.V (i : Int)).DFSParent) ∧
      (∀ j, g.edgeOffset ≤ j → (g1.G j).inverted = (g.G j).inverted) := by
  rw [joinBicomps_eq]
  by_cases hE : g.N ≤ g.edgeOffset
  · obtain ⟨s, hs, _, _, _, d1, _, d3, d4⟩ :=
      joinLoop_inv fuel fpInitGraphNode g rl hinit hN hg hfuel (g.edgeOffset - g.N).toNat
        (by omega)
    rw [hs, Option.map_some']
    refine ⟨s, rfl, ?_, d3, ?_, d4⟩
    · intro R h1 h2
      have := d1 (R - g.N).toNat (by omega)
      rwa [show g.N + ((R - g.N).toNat : Int) = R by omega] at this
    · intro i hi hl
      exact infix_joinedRing g rl i hl _ (by omega)
  · have e : (g.edgeOffset - g.N).toNat = 0 := by omega
    rw [e]
    refine ⟨g, rfl, ?_, ?_, ?_, fun _ _ => rfl⟩
    · intro R h1 h2; omega
    · intro W h0 h1
      rw [joinedRing_zero]
      exact hg.1 W h0 h1
    · intro i hi; omega

set_option maxRecDepth 100000 in
theorem twoTriangles_joinReady : JoinReady twoTrianglesAtJoin twoTrianglesRings := by
  have hN : twoTrianglesAtJoin.N = 6 := by decide!
  have hE : twoTrianglesAtJoin.edgeOffset = 12 := by decide!
  refine ⟨?_, ?_, ?_⟩
  · intro W h0 h1
    rw [hN] at h1
    have : W = 0 ∨ W = 1 ∨ W = 2 ∨ W = 3 ∨ W = 4 ∨ W = 5 := by omega
    rcases this with rfl | rfl | rfl | rfl | rfl | rfl <;>
      exact (ringCheck_iff _ _ _ _).1 (by decide!)
  · intro i hi hl
    rw [hN, hE] at hi
    have : i = 0 ∨ i = 1 ∨ i = 2 ∨ i = 3 ∨ i = 4 ∨ i = 5 := by omega
    rcases this with rfl | rfl | rfl | rfl | rfl | rfl
    · exact absurd hl (by decide!)
    · exact ⟨(ringCheck_iff _ _ _ _).1 (by decide!), by decide!, by decide!, by decide!⟩
    · exact absurd hl (by decide!)
    · exact absurd hl (by decide!)
    · exact ⟨(ringCheck_iff _ _ _ _).1 (by decide!), by decide!, by decide!, by decide!⟩
    · exact absurd hl (by decide!)
  · intro X Y hX0 hX1 hY0 hY1 hne x hx hy
    rw [hE] at hX1 hY1
    have key : ∀ X ∈ List.range 12, ∀ Y ∈ List.range 12, X ≠ Y →
        ∀ x ∈ twoTrianglesRings (X : Int), x ∉ twoTrianglesRings (Y : Int) := by decide
    have hX : X = ((X.toNat : Nat) : Int) := by omega
    have hY : Y = ((Y.toNat : Nat) : Int) := by omega
    rw [hX] at hx
    rw [hY] at hy
    exact key X.toNat (List.mem_range.2 (by omega)) Y.toNat (List.mem_range.2 (by omega))
      (by omega) x hx hy

set_option maxRecDepth 100000 in
/-- Witness for `joinBicomps_spec`: the two disjoint triangles before `_JoinBicomps`; the
root copy `7` is joined to the vertex `0` and the root copy `10` to the vertex `3`. -/
theorem joinBicomps_spec_witness :
    JoinReady twoTrianglesAtJoin twoTrianglesRings ∧
    ∃ g1, _JoinBicomps 50 _InitGraphNode twoTrianglesAtJoin = some (OK, g1) ∧
      (∀ R, 6 ≤ R → R < 12 → (g1.G R).link 0 = NIL) ∧
      Ring g1 0 0 [16, 12] ∧ Ring g1 0 3 [22, 18] := by
  have hN : twoTrianglesAtJoin.N = 6 := by decide!
  have hE : twoTrianglesAtJoin.edgeOffset = 12 := by decide!
  obtain ⟨g1, h1, h2, h3, _⟩ :=
    joinBicomps_spec 50 _InitGraphNode twoTrianglesAtJoin twoTrianglesRings
      retiresNode_default (by decide!) twoTriangles_joinReady
      (by
        intro i hi _
        rw [hN, hE] at hi
        have : i = 0 ∨ i = 1 ∨ i = 2 ∨ i = 3 ∨ i = 4 ∨ i = 5 := by omega
        rcases this with rfl | rfl | rfl | rfl | rfl | rfl <;> decide!)
  refine ⟨twoTriangles_joinReady, g1, h1, ?_, ?_, ?_⟩
  · intro R a b
    exact h2 R (by rw [hN]; exact a) (by rw [hE]; exact b)
  · have := h3 0 (by decide) (by rw [hN]; decide)
    rwa [show joinedRing twoTrianglesAtJoin twoTrianglesRings
      (twoTrianglesAtJoin.edgeOffset - twoTrianglesAtJoin.N).toNat 0 = [16, 12] by decide!]
      at this
  · have := h3 3 (by decide) (by rw [hN]; decide)
    rwa [show joinedRing twoTrianglesAtJoin twoTrianglesRings
      (twoTrianglesAtJoin.edgeOffset - twoTrianglesAtJoin.N).toNat 3 = [22, 18] by decide!]
      at this

/-! ### The `visited` stamps in `gp_Embed` -/

theorem stamps_setGLink (g : graph) (i s x : Int) : stamps (setGLink g i s x) = stamps g := by
  funext j
  simp only [stamps, setGLink, upd]
  split_ifs with h
  · subst h; rfl
  · rfl

theorem stamps_setGv (g : graph) (i x : Int) : stamps (setGv g i x) = stamps g := by
  funext j
  simp only [stamps, setGv, upd]
  split_ifs with h
  · subst h; rfl
  · rfl

theorem stamps_setEdgeFlagInverted (g : graph) (i : Int) (b : Bool) :
    stamps (setEdgeFlagInverted g i b) = stamps g := by
  funext j
  simp only [stamps, setEdgeFlagInverted, upd]
  split_ifs with h
  · subst h; rfl
  · rfl

theorem stamps_of_G {g g1 : graph} (h : g1.G = g.G) : stamps g1 = stamps g := by
  unfold stamps; rw [h]

theorem invertRing_stamps (fuel : Nat) :
    ∀ (g : graph) (J : Int) (g1 : graph), invertRing fuel g J = some g1 →
      stamps g1 = stamps g := by
  induction fuel with
  | zero => intro g J g1 h; simp [invertRing] at h
  | succ n ih =>
    intro g J g1 h
    simp only [invertRing] at h
    split_ifs at h
    · rw [ih _ _ _ h, stamps_setGLink, stamps_setGLink]
    · simp only [Option.some.injEq] at h; subst h
      rw [stamps_setGLink, stamps_setGLink]

theorem invertVertex_stamps (fuel : Nat) (g : graph) (V : Int) (g1 : graph)
    (h : _InvertVertex fuel g V = some g1) : stamps g1 = stamps g := by
  unfold _InvertVertex at h
  simp only [Option.map_eq_some'] at h
  obtain ⟨g0, h0, rfl⟩ := h
  rw [← invertRing_stamps fuel g V g0 h0]; rfl

theorem markChildArcInverted_stamps (fuel : Nat) :
    ∀ (g : graph) (J : Int) (g1 : graph), markChildArcInverted fuel g J = some g1 →
      stamps g1 = stamps g := by
  induction fuel with
  | zero => intro g J g1 h; simp [markChildArcInverted] at h
  | succ n ih =>
    intro g J g1 h
    simp only [markChildArcInverted] at h
    split_ifs at h
    · simp only [Option.some.injEq] at h; subst h
      exact stamps_setEdgeFlagInverted _ _ _
    · exact ih _ _ _ h
    · simp only [Option.some.injEq] at h; subst h; rfl

theorem redirectArcs_stamps (fuel : Nat) :
    ∀ (g : graph) (W J : Int) (g1 : graph), redirectArcs fuel g W J = some g1 →
      stamps g1 = stamps g := by
  induction fuel with
  | zero => intro g W J g1 h; simp [redirectArcs] at h
  | succ n ih =>
    intro g W J g1 h
    simp only [redirectArcs] at h
    split_ifs at h
    · rw [ih _ _ _ _ h, stamps_setGv]
    · simp only [Option.some.injEq] at h; subst h; rfl

theorem flipBlock_stamps (fuel : Nat) (c1 c2 : Prop) [Decidable c1] [Decidable c2]
    (g : graph) (R : Int) (g2 : graph)
    (h : (if c1 then
            (if c2 then _InvertVertex fuel g R else some g).bind
              fun g => markChildArcInverted fuel g ((g.G R).link 0)
          else some g) = some g2) : stamps g2 = stamps g := by
  by_cases h1 : c1
  · rw [if_pos h1] at h
    by_cases h2 : c2
    · rw [if_pos h2, Option.bind_eq_some] at h
      obtain ⟨g4, h4, h5⟩ := h
      rw [markChildArcInverted_stamps fuel _ _ _ h5, invertVertex_stamps fuel _ _ _ h4]
    · rw [if_neg h2, Option.some_bind] at h
      exact markChildArcInverted_stamps fuel _ _ _ h
  · rw [if_neg h1] at h
    simp only [Option.some.injEq] at h; subst h; rfl

theorem walkDownDescend_stamps (g : graph) (I W WP : Int) :
    stamps (walkDownDescend g I W WP).1 = stamps g := rfl

theorem createDFSTreeEmbeddingAt_eq (fuel : Nat) (g : graph) (I : Int) :
    createDFSTreeEmbeddingAt fuel g I =
      if (g.V I).DFSParent = NIL then some (setGLink (setGLink g I 1 I) I 0 I)
      else (findParentArc fuel g ((g.G I).link 0)).map (treeStep g I) := rfl

theorem setExtFaceLink_link (g : graph) (i s x j t : Int) :
    ((setExtFaceLink g i s x).extFace j).link t =
      if j = i ∧ t = s then x else (g.extFace j).link t := by
  simp only [setExtFaceLink, upd]
  by_cases hj : j = i
  · subst hj
    by_cases ht : t = s
    · simp [ht, upd]
    · simp [ht, upd]
  · simp [hj]

theorem setGv_other (g : graph) (i x j : Int) (h : j ≠ i) : (setGv g i x).G j = g.G j := by
  simp [setGv, upd, h]

theorem setGv_type (g : graph) (i x j : Int) : ((setGv g i x).G j).type = (g.G j).type := by
  simp only [setGv, upd]
  split_ifs with h
  · subst h; rfl
  · rfl

theorem bothLinks_link (g : graph) (X A j t : Int) (ht : t = 0 ∨ t = 1) :
    ((bothLinks g X A).G j).link t = if j = X then A else (g.G j).link t := by
  unfold bothLinks
  rw [setGLink_link, setGLink_link]
  by_cases hj : j = X
  · rcases ht with rfl | rfl <;> simp [hj]
  · simp [hj]

theorem bothLinks_other (g : graph) (X A j : Int) (h : j ≠ X) :
    (bothLinks g X A).G j = g.G j := by
  unfold bothLinks
  rw [setGLink_other _ _ _ _ _ h, setGLink_other _ _ _ _ _ h]

theorem bothLinks_type (g : graph) (X A j : Int) :
    ((bothLinks g X A).G j).type = (g.G j).type := by
  unfold bothLinks
  rw [setGLink_type, setGLink_type]

theorem bothLinks_v (g : graph) (X A j : Int) :
    ((bothLinks g X A).G j).v = (g.G j).v := by
  unfold bothLinks
  rw [setGLink_v, setGLink_v]

theorem bothExtFaceLinks_link (g : graph) (X A j t : Int) (ht : t = 0 ∨ t = 1) :
    ((bothExtFaceLinks g X A).extFace j).link t = if j = X then A else (g.extFace j).link t := by
  unfold bothExtFaceLinks
  rw [setExtFaceLink_link, setExtFaceLink_link]
  by_cases hj : j = X
  · rcases ht with rfl | rfl <;> simp [hj]
  · simp [hj]

theorem bothExtFaceLinks_other (g : graph) (X A j : Int) (h : j ≠ X) :
    (bothExtFaceLinks g X A).extFace j = g.extFace j := by
  simp [bothExtFaceLinks, setExtFaceLink, upd, h]

theorem twin_setGv (s : graph) (a b J : Int) :
    gp_GetTwinArc (setGv s a b) J = gp_GetTwinArc s J := rfl

theorem twin_bothLinks (s : graph) (a b J : Int) :
    gp_GetTwinArc (bothLinks s a b) J = gp_GetTwinArc s J := rfl

theorem bothExtFaceLinks_G (s : graph) (a b : Int) : (bothExtFaceLinks s a b).G = s.G := rfl

theorem bothLinks_extFace (s : graph) (a b : Int) : (bothLinks s a b).extFace = s.extFace := rfl

theorem setGv_extFace (s : graph) (a b : Int) : (setGv s a b).extFace = s.extFace := rfl

theorem bothLinks_N (s : graph) (a b : Int) : (bothLinks s a b).N = s.N := rfl

theorem setGv_N (s : graph) (a b : Int) : (setGv s a b).N = s.N := rfl

/-- The state after the link assignments of `treeStep`. -/
theorem treeStep_G (g : graph) (I J : Int) :
    (treeStep g I J).G =
      (bothLinks (bothLinks (setGv (bothLinks (bothLinks g I J) J I) J (g.N + I)) (g.N + I)
        (gp_GetTwinArc g J)) (gp_GetTwinArc g J) (g.N + I)).G := by
  unfold treeStep
  simp only [bothExtFaceLinks_G, twin_setGv, twin_bothLinks]

theorem bothExtFaceLinks_extFace_congr (s s1 : graph) (a b : Int)
    (h : s1.extFace = s.extFace) :
    (bothExtFaceLinks s1 a b).extFace = (bothExtFaceLinks s a b).extFace := by
  simp only [bothExtFaceLinks, setExtFaceLink, h]

theorem treeStep_extFace (g : graph) (I J : Int) :
    (treeStep g I J).extFace =
      (bothExtFaceLinks (bothExtFaceLinks g (g.N + I) I) I (g.N + I)).extFace := by
  unfold treeStep
  simp only []
  apply bothExtFaceLinks_extFace_congr
  apply bothExtFaceLinks_extFace_congr
  simp only [bothLinks_extFace, setGv_extFace]

theorem treeStep_frame (g : graph) (I J : Int) :
    (treeStep g I J).N = g.N ∧ (treeStep g I J).edgeOffset = g.edgeOffset ∧
      (treeStep g I J).V = g.V := by
  have a1 : ∀ (s : graph) (a b : Int), (bothExtFaceLinks s a b).N = s.N := fun _ _ _ => rfl
  have a2 : ∀ (s : graph) (a b : Int), (bothExtFaceLinks s a b).edgeOffset = s.edgeOffset :=
    fun _ _ _ => rfl
  have a3 : ∀ (s : graph) (a b : Int), (bothExtFaceLinks s a b).V = s.V := fun _ _ _ => rfl
  have b2 : ∀ (s : graph) (a b : Int), (bothLinks s a b).edgeOffset = s.edgeOffset :=
    fun _ _ _ => rfl
  have b3 : ∀ (s : graph) (a b : Int), (bothLinks s a b).V = s.V := fun _ _ _ => rfl
  have c2 : ∀ (s : graph) (a b : Int), (setGv s a b).edgeOffset = s.edgeOffset :=
    fun _ _ _ => rfl
  have c3 : ∀ (s : graph) (a b : Int), (setGv s a b).V = s.V := fun _ _ _ => rfl
  unfold treeStep
  simp only [a1, a2, a3, b2, b3, c2, c3, bothLinks_N, setGv_N, and_self]

/-- The effect of `treeStep`. -/
theorem treeStep_spec (g : graph) (I J : Int) (h1 : I ≠ J) (h2 : I ≠ g.N + I)
    (h3 : I ≠ gp_GetTwinArc g J) (h4 : J ≠ g.N + I) (h5 : J ≠ gp_GetTwinArc g J)
    (h6 : g.N + I ≠ gp_GetTwinArc g J) :
    (∀ x, ((treeStep g I J).G x).type = (g.G x).type) ∧
    (∀ x, x ≠ I → x ≠ J → x ≠ g.N + I → x ≠ gp_GetTwinArc g J →
      (treeStep g I J).G x = g.G x) ∧
    (∀ x, x ≠ I → x ≠ g.N + I → (treeStep g I J).extFace x = g.extFace x) ∧
    (∀ t, t = 0 ∨ t = 1 →
      ((treeStep g I J).G I).link t = J ∧ ((treeStep g I J).G J).link t = I ∧
      ((treeStep g I J).G (g.N + I)).link t = gp_GetTwinArc g J ∧
      ((treeStep g I J).G (gp_GetTwinArc g J)).link t = g.N + I ∧
      ((treeStep g I J).extFace (g.N + I)).link t = I ∧
      ((treeStep g I J).extFace I).link t = g.N + I) ∧
    ((treeStep g I J).G J).v = g.N + I := by
  have hh1 := h1.symm
  have hh2 := h2.symm
  have hh3 := h3.symm
  have hh4 := h4.symm
  have hh5 := h5.symm
  have hh6 := h6.symm
  refine ⟨?_, ?_, ?_, ?_, ?_⟩
  · intro x
    rw [treeStep_G]
    simp only [bothLinks_type, setGv_type]
  · intro x a b c d
    rw [treeStep_G, bothLinks_other _ _ _ _ d, bothLinks_other _ _ _ _ c, setGv_other _ _ _ _ b,
      bothLinks_other _ _ _ _ b, bothLinks_other _ _ _ _ a]
  · intro x a b
    rw [treeStep_extFace, bothExtFaceLinks_other _ _ _ _ a, bothExtFaceLinks_other _ _ _ _ b]
  · intro t ht
    rw [treeStep_G, treeStep_extFace]
    simp only [bothLinks_link _ _ _ _ _ ht, bothExtFaceLinks_link _ _ _ _ _ ht, setGv_link,
      h1, h2, h3, h4, h5, h6, hh1, hh2, hh3, hh4, hh5, hh6, if_true, if_false, and_self]
  · rw [treeStep_G]
    simp only [bothLinks_v, setGv_v, if_true]

theorem twin_ne (g : graph) (J : Int) (h : g.edgeOffset ≤ J) : gp_GetTwinArc g J ≠ J := by
  unfold gp_GetTwinArc
  rw [int_xor_one _ (by omega)]
  split_ifs <;> omega

theorem twin_inj (g : graph) (J1 J2 : Int) (h1 : g.edgeOffset ≤ J1) (h2 : g.edgeOffset ≤ J2)
    (h : gp_GetTwinArc g J1 = gp_GetTwinArc g J2) : J1 = J2 := by
  unfold gp_GetTwinArc at h
  rw [int_xor_one _ (by omega), int_xor_one _ (by omega)] at h
  split_ifs at h <;> omega

theorem findParentArc_chain (J : Int) :
    ∀ (pre : List Int) (g : graph) (k : Nat),
      List.Chain' (fun x y => (g.G x).link 0 = y) (pre ++ [J]) →
      (∀ x ∈ pre, (g.G x).type ≠ EDGE_DFSPARENT) → (g.G J).type = EDGE_DFSPARENT →
      findParentArc (pre.length + 1 + k) g ((pre ++ [J]).headD J) = some J := by
  intro pre
  induction pre with
  | nil =>
    intro g k _ _ hJ
    simp only [List.length_nil, List.nil_append, List.headD_cons]
    rw [show 0 + 1 + k = k + 1 by omega, findParentArc]
    rw [if_neg (by simp [hJ])]
  | cons x pre ih =>
    intro g k hch hpre hJ
    simp only [List.length_cons, List.cons_append, List.headD_cons]
    rw [show pre.length + 1 + 1 + k = (pre.length + 1 + k) + 1 by omega, findParentArc]
    rw [if_pos (hpre x (List.mem_cons_self _ _))]
    have hnext : (g.G x).link 0 = (pre ++ [J]).headD J := by
      cases pre with
      | nil =>
        simp only [List.nil_append, List.headD_cons]
        simp only [List.cons_append, List.nil_append, List.chain'_cons, List.chain'_singleton,
          and_true] at hch
        exact hch
      | cons y t =>
        simp only [List.cons_append, List.headD_cons]
        simp only [List.cons_append, List.chain'_cons] at hch
        exact hch.1
    rw [hnext]
    refine ih g k ?_ (fun y hy => hpre y (List.mem_cons_of_mem _ hy)) hJ
    simp only [List.cons_append] at hch
    exact List.Chain'.tail hch

theorem treeEmbeddedAt_congr {g0 s s1 : graph} {C J : Int}
    (h : treeEmbeddedAt g0 s C J)
    (hC : s1.G C = s.G C)
    (hrest : (g0.V C).DFSParent ≠ NIL → s1.G J = s.G J ∧ s1.G (g0.N + C) = s.G (g0.N + C) ∧
      s1.G (gp_GetTwinArc g0 J) = s.G (gp_GetTwinArc g0 J) ∧
      s1.extFace (g0.N + C) = s.extFace (g0.N + C) ∧ s1.extFace C = s.extFace C) :
    treeEmbeddedAt g0 s1 C J := by
  unfold treeEmbeddedAt at h ⊢
  by_cases hr : (g0.V C).DFSParent = NIL
  · rw [if_pos hr] at h ⊢
    rw [hC]; exact h
  · rw [if_neg hr] at h ⊢
    obtain ⟨e1, e2, e3, e4, e5⟩ := hrest hr
    rw [hC, e1, e2, e3, e4, e5]
    exact h

theorem twin_congr {s g : graph} (h : s.edgeOffset = g.edgeOffset) (J : Int) :
    gp_GetTwinArc s J = gp_GetTwinArc g J := by
  unfold gp_GetTwinArc; rw [h]

/-- Invariant of the loop of `_CreateDFSTreeEmbedding` after the vertices below `k`. -/
theorem treeLoop_inv (fuel : Nat) (g : graph) (rl pre : Int → List Int) (J : Int → Int)
    (hg : TreeReady fuel g rl pre J) :
    ∀ k : Nat, (k : Int) ≤ g.N →
      ∃ s, (List.range k).foldl
          (fun s (I : Nat) => s.bind (fun s => createDFSTreeEmbeddingAt fuel s (I : Int)))
          (some g) = some s ∧
        s.N = g.N ∧ s.edgeOffset = g.edgeOffset ∧ s.V = g.V ∧
        (∀ x, (s.G x).type = (g.G x).type) ∧
        (∀ C : Nat, C < k → treeEmbeddedAt g s (C : Int) (J (C : Int))) ∧
        (∀ x, (∀ C : Nat, C < k → x ≠ (C : Int) ∧ x ≠ g.N + (C : Int) ∧
            ((g.V (C : Int)).DFSParent ≠ NIL →
              x ≠ J (C : Int) ∧ x ≠ gp_GetTwinArc g (J (C : Int)))) →
          s.G x = g.G x) := by
  obtain ⟨hN, hE, hring, hdisj, hpar⟩ := hg
  -- facts on the DFS_PARENT arcs
  have hJmem : ∀ C, 0 ≤ C → C < g.N → (g.V C).DFSParent ≠ NIL → J C ∈ rl C := by
    intro C h0 h1 h2
    obtain ⟨⟨post, e⟩, _⟩ := hpar C h0 h1 h2
    rw [e]; simp
  have hge : ∀ C, 0 ≤ C → C < g.N → ∀ x ∈ rl C, g.edgeOffset ≤ x :=
    fun C h0 h1 => (hring C h0 h1).2.2.2
  intro k
  induction k with
  | zero =>
    intro _
    exact ⟨g, rfl, rfl, rfl, rfl, fun _ => rfl, fun C hC => by omega, fun _ _ => rfl⟩
  | succ k ih =>
    intro hk
    push_cast at hk
    obtain ⟨s, hs, e1, e2, e3, e4, d1, d2⟩ := ih (by omega)
    rw [List.range_succ, List.foldl_append, hs]
    simp only [List.foldl_cons, List.foldl_nil, Option.some_bind]
    have hk0 : (0 : Int) ≤ (k : Int) := by omega
    have hk1 : (k : Int) < g.N := by omega
    -- the nodes of the ring of `k` are untouched so far
    have hunt : ∀ x, x = (k : Int) ∨ x ∈ rl (k : Int) → s.G x = g.G x := by
      intro x hx
      apply d2
      intro C hC
      have hC0 : (0 : Int) ≤ (C : Int) := by omega
      have hC1 : (C : Int) < g.N := by omega
      rcases hx with rfl | hx
      · refine ⟨by omega, by omega, fun hr => ?_⟩
        have a := hge _ hC0 hC1 _ (hJmem _ hC0 hC1 hr)
        have b := twin_ge g _ a
        constructor <;> omega
      · have hxge := hge _ hk0 hk1 x hx
        refine ⟨by omega, by omega, fun hr => ⟨?_, ?_⟩⟩
        · intro e
          exact hdisj (k : Int) (C : Int) hk0 hk1 hC0 hC1 (by omega) x hx
            (e ▸ hJmem _ hC0 hC1 hr)
        · intro e
          obtain ⟨_, _, _, _, _, P, hP0, hP1, hP2⟩ := hpar _ hC0 hC1 hr
          exact hdisj (k : Int) P hk0 hk1 hP0 (by omega) (by omega) x hx (e ▸ hP2)
    rw [createDFSTreeEmbeddingAt_eq]
    by_cases hr : (g.V (k : Int)).DFSParent = NIL
    · -- a DFS root
      rw [e3, if_pos hr]
      refine ⟨bothLinks s (k : Int) (k : Int), rfl, e1, e2, e3, ?_, ?_, ?_⟩
      · intro x; rw [bothLinks_type, e4]
      · intro C hC
        by_cases hCk : C = k
        · subst hCk
          unfold treeEmbeddedAt
          rw [if_pos hr, bothLinks_link _ _ _ _ _ (Or.inl rfl),
            bothLinks_link _ _ _ _ _ (Or.inr rfl)]
          simp
        · have hC0 : (0 : Int) ≤ (C : Int) := by omega
          have hC1 : (C : Int) < g.N := by omega
          refine treeEmbeddedAt_congr (d1 C (by omega)) (bothLinks_other _ _ _ _ (by omega)) ?_
          intro hrC
          have a := hge _ hC0 hC1 _ (hJmem _ hC0 hC1 hrC)
          have b := twin_ge g _ a
          exact ⟨bothLinks_other _ _ _ _ (by omega), bothLinks_other _ _ _ _ (by omega),
            bothLinks_other _ _ _ _ (by omega), rfl, rfl⟩
      · intro x hx
        rw [bothLinks_other _ _ _ _ (hx k (by omega)).1]
        exact d2 x (fun C hC => hx C (by omega))
    · -- a vertex with a DFS parent
      rw [e3, if_neg hr]
      obtain ⟨⟨post, hrl⟩, hpre, hJ, hfuel, htw, P, hP0, hP1, hP2⟩ := hpar _ hk0 hk1 hr
      have hRk := hring _ hk0 hk1
      have hJk := hJmem _ hk0 hk1 hr
      have hJge := hge _ hk0 hk1 _ hJk
      have hTge := twin_ge g _ hJge
      -- the walk to the DFS_PARENT arc
      have hch : List.Chain' (fun x y => (s.G x).link 0 = y)
          ((k : Int) :: (pre (k : Int) ++ [J (k : Int)])) := by
        have c0 : List.Chain' (Linked g 0) ((k : Int) :: rl (k : Int) ++ [(k : Int)]) := hRk.1
        rw [hrl] at c0
        have c1 : List.Chain' (Linked g 0) ((k : Int) :: (pre (k : Int) ++ [J (k : Int)])) := by
          have : (k : Int) :: (pre (k : Int) ++ J (k : Int) :: post) ++ [(k : Int)] =
              ((k : Int) :: (pre (k : Int) ++ [J (k : Int)])) ++ (post ++ [(k : Int)]) := by
            simp
          rw [this] at c0
          exact List.Chain'.left_of_append c0
        rw [List.Chain'.iff_mem] at c1
        refine List.Chain'.imp ?_ c1
        rintro x y ⟨hx, _, hxy⟩
        have hx2 : x = (k : Int) ∨ x ∈ rl (k : Int) := by
          rw [hrl]
          simp only [List.mem_cons, List.mem_append, List.mem_singleton] at hx ⊢
          tauto
        rw [hunt x hx2]
        exact hxy.1
      have hstart : (s.G (k : Int)).link 0 = (pre (k : Int) ++ [J (k : Int)]).headD (J (k : Int)) := by
        cases hp : pre (k : Int) with
        | nil =>
          rw [hp] at hch
          simp only [List.nil_append, List.chain'_cons, List.chain'_singleton, and_true] at hch
          simpa using hch
        | cons y t =>
          rw [hp] at hch
          simp only [List.cons_append, List.chain'_cons] at hch
          simpa using hch.1
      obtain ⟨k2, hk2⟩ : ∃ k2, fuel = (pre (k : Int)).length + 1 + k2 :=
        ⟨fuel - ((pre (k : Int)).length + 1), by omega⟩
      have hfind : findParentArc fuel s ((s.G (k : Int)).link 0) = some (J (k : Int)) := by
        rw [hstart, hk2]
        refine findParentArc_chain _ _ s k2 (List.Chain'.tail hch) ?_ ?_
        · intro x hx
          rw [e4]; exact hpre x hx
        · rw [e4]; exact hJ
      rw [hfind, Option.map_some']
      have tws : gp_GetTwinArc s (J (k : Int)) = gp_GetTwinArc g (J (k : Int)) :=
        twin_congr e2 _
      obtain ⟨f1, f2, f3⟩ := treeStep_frame s (k : Int) (J (k : Int))
      obtain ⟨t1, t2, t3, t4, t5⟩ := treeStep_spec s (k : Int) (J (k : Int))
        (by omega) (by rw [e1]; omega) (by rw [tws]; omega) (by rw [e1]; omega)
        (by rw [tws]; exact (twin_ne g _ hJge).symm) (by rw [tws, e1]; omega)
      simp only [e1, tws] at t2 t3 t4 t5
      refine ⟨treeStep s (k : Int) (J (k : Int)), rfl, f1.trans e1, f2.trans e2, f3.trans e3,
        ?_, ?_, ?_⟩
      · intro x; rw [t1, e4]
      · intro C hC
        by_cases hCk : C = k
        · subst hCk
          unfold treeEmbeddedAt
          rw [if_neg hr]
          obtain ⟨a0, b0, c0, d0, x0, y0⟩ := t4 0 (Or.inl rfl)
          obtain ⟨a1, b1, c1, d1, x1, y1⟩ := t4 1 (Or.inr rfl)
          exact ⟨a0, a1, b0, b1, t5, c0, c1, d0, d1, x0, x1, y0, y1⟩
        · have hC0 : (0 : Int) ≤ (C : Int) := by omega
          have hC1 : (C : Int) < g.N := by omega
          have hCne : (C : Int) ≠ (k : Int) := by omega
          refine treeEmbeddedAt_congr (d1 C (by omega))
            (t2 _ (by omega) (by omega) (by omega) (by omega)) ?_
          intro hrC
          have hJC := hJmem _ hC0 hC1 hrC
          have a := hge _ hC0 hC1 _ hJC
          have b := twin_ge g _ a
          obtain ⟨_, _, hJCt, _, htwC, _⟩ := hpar _ hC0 hC1 hrC
          have n1 : J (C : Int) ≠ J (k : Int) := by
            intro e
            exact hdisj (C : Int) (k : Int) hC0 hC1 hk0 hk1 hCne _ hJC (e ▸ hJk)
          have n2 : J (C : Int) ≠ gp_GetTwinArc g (J (k : Int)) := by
            intro e
            rw [e] at hJCt
            exact htw hJCt
          have n3 : gp_GetTwinArc g (J (C : Int)) ≠ J (k : Int) := by
            intro e
            rw [e] at htwC
            exact htwC hJ
          have n4 : gp_GetTwinArc g (J (C : Int)) ≠ gp_GetTwinArc g (J (k : Int)) := by
            intro e
            exact n1 (twin_inj g _ _ a hJge e)
          exact ⟨t2 _ (by omega) n1 (by omega) n2,
            t2 _ (by omega) (by omega) (by omega) (by omega),
            t2 _ (by omega) n3 (by omega) n4,
            t3 _ (by omega) (by omega), t3 _ (by omega) (by omega)⟩
      · intro x hx
        obtain ⟨a, b, c⟩ := hx k (by omega)
        obtain ⟨c1, c2⟩ := c hr
        rw [t2 x a c1 b c2]
        exact d2 x (fun C hC => hx C (by omega))

/-- C15 `_CreateDFSTreeEmbedding` on a DFS-numbered arena (valid disjoint rings, `J C` the
DFS_PARENT arc of each vertex `C` with a DFS parent, its twin in the ring of a vertex with
a smaller index, root copies below `edgeOffset`): the function returns and, for every
vertex `C` in `[0, N)` with `DFSParent[C] != NIL`, the ring of `C` holds `J C` only
(`G[C].link[0] = G[C].link[1] = J C` and both links of `J C` are `C`), `G[J C].v = N + C`,
the ring of the root copy `N + C` holds the twin of `J C` only (both links of `N + C` are the
twin and both links of the twin are `N + C`), `extFace[N + C].link[0] =
extFace[N + C].link[1] = C` and `extFace[C].link[0] = extFace[C].link[1] = N + C`; for
every DFS root `V`, `G[V].link[0] = G[V].link[1] = V`. -/
theorem createDFSTreeEmbedding_spec (fuel : Nat) (g : graph) (rl pre : Int → List Int)
    (J : Int → Int) (hg : TreeReady fuel g rl pre J) :
    ∃ g1, _CreateDFSTreeEmbedding fuel g = some g1 ∧
      ∀ C, 0 ≤ C → C < g.N → treeEmbeddedAt g g1 C (J C) := by
  obtain ⟨s, hs, _, _, _, _, d1, _⟩ := treeLoop_inv fuel g rl pre J hg g.N.toNat
    (by have := hg.1; omega)
  refine ⟨s, hs, ?_⟩
  intro C h0 h1
  have := d1 C.toNat (by omega)
  rwa [show ((C.toNat : Nat) : Int) = C by omega] at this

theorem triangle_treeReady : TreeReady 2 triangle triangleRings (fun _ => []) triangleParentArc := by
  have hN : triangle.N = 3 := rfl
  refine ⟨by decide, by decide, ?_, ?_, ?_⟩
  · intro V h0 h1
    rw [hN] at h1
    have : V = 0 ∨ V = 1 ∨ V = 2 := by omega
    rcases this with rfl | rfl | rfl <;> exact (ringCheck_iff _ _ _ _).1 (by decide)
  · intro X Y hX0 hX1 hY0 hY1 hne x hx hy
    rw [hN] at hX1 hY1
    have key : ∀ X ∈ List.range 3, ∀ Y ∈ List.range 3, X ≠ Y →
        ∀ x ∈ triangleRings (X : Int), x ∉ triangleRings (Y : Int) := by decide
    have hX : X = ((X.toNat : Nat) : Int) := by omega
    have hY : Y = ((Y.toNat : Nat) : Int) := by omega
    rw [hX] at hx
    rw [hY] at hy
    exact key X.toNat (List.mem_range.2 (by omega)) Y.toNat (List.mem_range.2 (by omega))
      (by omega) x hx hy
  · intro C h0 h1 hr
    rw [hN] at h1
    have : C = 0 ∨ C = 1 ∨ C = 2 := by omega
    rcases this with rfl | rfl | rfl
    · exact absurd (by decide) hr
    · exact ⟨⟨[8], by decide⟩, by simp, by decide, by decide, by decide, 0, by decide,
        by decide, by decide⟩
    · exact ⟨⟨[11], by decide⟩, by simp, by decide, by decide, by decide, 1, by decide,
        by decide, by decide⟩

/-- Witness for `createDFSTreeEmbedding_spec`: the triangle. -/
theorem createDFSTreeEmbedding_spec_witness :
    TreeReady 2 triangle triangleRings (fun _ => []) triangleParentArc ∧
    ∃ g1, _CreateDFSTreeEmbedding 2 triangle = some g1 ∧
      treeEmbeddedAt triangle g1 0 NIL ∧ treeEmbeddedAt triangle g1 1 7 ∧
      treeEmbeddedAt triangle g1 2 9 := by
  obtain ⟨g1, h1, h2⟩ := createDFSTreeEmbedding_spec 2 triangle triangleRings (fun _ => [])
    triangleParentArc triangle_treeReady
  exact ⟨triangle_treeReady, g1, h1, h2 0 (by decide) (by decide),
    h2 1 (by decide) (by decide), h2 2 (by decide) (by decide)⟩

/-! ### `_CreateFwdArcLists` -/

theorem createFwdArcListAt_eq (fuel : Nat) (g : graph) (I : Int) :
    createFwdArcListAt fuel g I =
      if ¬ ((g.G I).link 1 ≥ g.edgeOffset) then some g
      else if (g.G ((g.G I).link 1)).type = EDGE_FORWARD then
        (fwdArcRunEnd fuel g ((g.G I).link 1)).map (fwdStep g I ((g.G I).link 1))
      else some g := rfl

theorem fwdArcRunEnd_chain (n : Int) :
    ∀ (f : List Int) (g : graph) (k : Nat),
      List.Chain' (fun x y => (g.G x).link 1 = y) (f ++ [n]) →
      (∀ x ∈ f, (g.G x).type = EDGE_FORWARD) → (g.G n).type ≠ EDGE_FORWARD →
      fwdArcRunEnd (f.length + 1 + k) g ((f ++ [n]).headD n) = some n := by
  intro f
  induction f with
  | nil =>
    intro g k _ _ hn
    simp only [List.length_nil, List.nil_append, List.headD_cons]
    rw [show 0 + 1 + k = k + 1 by omega, fwdArcRunEnd]
    rw [if_neg hn]
  | cons x f ih =>
    intro g k hch hf hn
    simp only [List.length_cons, List.cons_append, List.headD_cons]
    rw [show f.length + 1 + 1 + k = (f.length + 1 + k) + 1 by omega, fwdArcRunEnd]
    rw [if_pos (hf x (List.mem_cons_self _ _))]
    have hnext : (g.G x).link 1 = (f ++ [n]).headD n := by
      cases f with
      | nil =>
        simp only [List.nil_append, List.headD_cons]
        simp only [List.cons_append, List.nil_append, List.chain'_cons, List.chain'_singleton,
          and_true] at hch
        exact hch
      | cons y t =>
        simp only [List.cons_append, List.headD_cons]
        simp only [List.cons_append, List.chain'_cons] at hch
        exact hch.1
    rw [hnext]
    refine ih g k ?_ (fun y hy => hf y (List.mem_cons_of_mem _ hy)) hn
    simp only [List.cons_append] at hch
    exact List.Chain'.tail hch

theorem fwdStep_frame (g : graph) (I Jfirst Jnext : Int) :
    (fwdStep g I Jfirst Jnext).N = g.N ∧ (fwdStep g I Jfirst Jnext).edgeOffset = g.edgeOffset ∧
    (∀ x, ((fwdStep g I Jfirst Jnext).G x).type = (g.G x).type) ∧
    (∀ C, C ≠ I → (fwdStep g I Jfirst Jnext).V C = g.V C) ∧
    ((fwdStep g I Jfirst Jnext).V I).fwdArcList = Jfirst ∧
    (∀ x, x ≠ Jnext → x ≠ I → x ≠ Jfirst → x ≠ (g.G Jnext).link 0 →
      (fwdStep g I Jfirst Jnext).G x = g.G x) ∧
    (∀ j t, ((fwdStep g I Jfirst Jnext).G j).link t =
      if j = (g.G Jnext).link 0 ∧ t = 1 then Jfirst
      else if j = Jfirst ∧ t = 0 then (g.G Jnext).link 0
      else if j = I ∧ t = 1 then Jnext
      else if j = Jnext ∧ t = 0 then I
      else (g.G j).link t) := by
  have e0 : ∀ (s : graph) (a b : Int), (setFwdArcList s a b).G = s.G := fun _ _ _ => rfl
  refine ⟨rfl, rfl, ?_, ?_, ?_, ?_, ?_⟩
  · intro x
    simp only [fwdStep, setGLink_type, e0]
  · intro C hC
    simp [fwdStep, setGLink, setFwdArcList, upd, hC]
  · simp [fwdStep, setGLink, setFwdArcList, upd]
  · intro x a b c d
    simp only [fwdStep]
    rw [setGLink_other _ _ _ _ _ d, setGLink_other _ _ _ _ _ c, e0,
      setGLink_other _ _ _ _ _ b, setGLink_other _ _ _ _ _ a]
  · intro j t
    simp only [fwdStep, setGLink_link, e0]

theorem chain_concat {α : Type} {R : α → α → Prop} :
    ∀ (l : List α) (a b : α),
      List.Chain R a (l ++ [b]) ↔ List.Chain R a l ∧ R ((a :: l).getLast (by simp)) b := by
  intro l
  induction l with
  | nil => intro a b; simp
  | cons x t ih =>
    intro a b
    simp only [List.cons_append, List.chain_cons, ih x b, List.getLast_cons_cons]
    tauto

/-- The effect of `fwdStep` on a ring whose arcs in `link[1]` order are the forward arcs
`f` followed by `r`. -/
theorem fwdStep_ring {g : graph} {I : Int} {f r : List Int} (hR : Ring g 1 I (f ++ r))
    (hf : f ≠ []) :
    Ring (fwdStep g I (f.headD NIL) ((r ++ [I]).headD I)) 1 I r ∧
      Cycle (fwdStep g I (f.headD NIL) ((r ++ [I]).headD I)) 1 f := by
  obtain ⟨f1, ft, rfl⟩ : ∃ f1 ft, f = f1 :: ft := by
    cases f with
    | nil => exact absurd rfl hf
    | cons x t => exact ⟨x, t, rfl⟩
  obtain ⟨fi, fl, hfe⟩ : ∃ fi fl, f1 :: ft = fi ++ [fl] :=
    ⟨(f1 :: ft).dropLast, (f1 :: ft).getLast hf, (List.dropLast_append_getLast hf).symm⟩
  obtain ⟨n, ct, hne⟩ : ∃ n ct, r ++ [I] = n :: ct := by
    cases r with
    | nil => exact ⟨I, [], rfl⟩
    | cons x t => exact ⟨x, t ++ [I], rfl⟩
  have hn : (r ++ [I]).headD I = n := by rw [hne]; rfl
  rw [hn]
  simp only [List.headD_cons]
  obtain ⟨c0, nd, oI, ge⟩ := hR
  -- the pieces of the old chain
  have c1 : List.Chain (Linked g 1) I (fi ++ fl :: n :: ct) := by
    have : List.Chain (Linked g 1) I ((f1 :: ft ++ r) ++ [I]) := c0
    rw [List.append_assoc, hne, hfe, List.append_assoc] at this
    exact this
  rw [List.chain_append_cons_cons] at c1
  obtain ⟨c2, c3, c4⟩ := c1
  rw [← hfe, List.chain_cons] at c2
  obtain ⟨c5, c6⟩ := c2
  have hlast : (g.G n).link 0 = fl := by
    have := c3.2
    rwa [xor_one_one] at this
  -- membership and disequalities
  have nd2 : I ∉ f1 :: ft ++ r := (List.nodup_cons.1 nd).1
  have nd3 : (f1 :: ft ++ r).Nodup := (List.nodup_cons.1 nd).2
  have ndf : (f1 :: ft).Nodup := (List.nodup_append.1 nd3).1
  have ndr : r.Nodup := (List.nodup_append.1 nd3).2.1
  have hdis : ∀ x ∈ f1 :: ft, x ∉ r := fun x hx hx2 => (List.nodup_append.1 nd3).2.2 hx hx2
  have hIf : ∀ x ∈ f1 :: ft, x ≠ I := by
    intro x hx e
    exact nd2 (List.mem_append_left _ (e ▸ hx))
  have hIr : ∀ x ∈ r, x ≠ I := by
    intro x hx e
    exact nd2 (List.mem_append_right _ (e ▸ hx))
  have hnmem : n ∈ I :: r := by rw [← hn]; exact headD_mem_cons _ _
  have hflmem : fl ∈ f1 :: ft := by rw [hfe]; simp
  have hf1mem : f1 ∈ f1 :: ft := List.mem_cons_self _ _
  have hnf : ∀ x ∈ f1 :: ft, x ≠ n := by
    intro x hx e
    rcases List.mem_cons.1 hnmem with h | h
    · exact hIf x hx (e.trans h)
    · exact hdis x hx (e ▸ h)
  have ndc : (n :: ct).Nodup := by
    rw [← hne, List.nodup_append]
    refine ⟨ndr, List.nodup_singleton _, ?_⟩
    intro x hx hx2
    rw [List.mem_singleton] at hx2
    exact hIr x hx hx2
  have hctmem : ∀ y ∈ ct, y ∈ I :: r := by
    intro y hy
    have : y ∈ r ++ [I] := by rw [hne]; exact List.mem_cons_of_mem _ hy
    simp only [List.mem_append, List.mem_singleton, List.mem_cons] at this ⊢
    tauto
  obtain ⟨_, _, _, _, _, _, hF⟩ := fwdStep_frame g I f1 n
  rw [hlast] at hF
  have hF1 : ∀ j, j ≠ fl → j ≠ I → ((fwdStep g I f1 n).G j).link 1 = (g.G j).link 1 := by
    intro j a b
    rw [hF]; simp [a, b]
  have hF0 : ∀ j, j ≠ f1 → j ≠ n →
      ((fwdStep g I f1 n).G j).link (Int.xor 1 1) = (g.G j).link (Int.xor 1 1) := by
    intro j a b
    rw [xor_one_one, hF]; simp [a, b]
  constructor
  · -- the ring of `I`
    refine ⟨?_, ?_, oI, fun a ha => ge a (List.mem_append_right _ ha)⟩
    · show List.Chain (Linked _ 1) I (r ++ [I])
      rw [hne, List.chain_cons]
      constructor
      · constructor
        · rw [hF]
          have : I ≠ fl := (hIf fl hflmem).symm
          simp [this]
        · rw [xor_one_one, hF]
          have : n ≠ f1 := (hnf f1 hf1mem).symm
          simp [this]
      · refine chain_frame n ct c4 ?_ ?_
        · intro x hx
          have hxr : x ∈ r := by
            rw [← hne, List.dropLast_concat] at hx; exact hx
          refine hF1 x ?_ (hIr x hxr)
          intro e
          exact hdis fl hflmem (e ▸ hxr)
        · intro y hy
          refine hF0 y ?_ ?_
          · intro e
            rcases List.mem_cons.1 (hctmem y hy) with h | h
            · exact hIf f1 hf1mem (e.symm.trans h)
            · exact hdis f1 hf1mem (e ▸ h)
          · intro e
            exact (List.nodup_cons.1 ndc).1 (e ▸ hy)
    · rw [List.nodup_cons]
      exact ⟨fun h => nd2 (List.mem_append_right _ h), ndr⟩
  · -- the circular list of the forward arcs
    refine ⟨?_, ndf⟩
    show List.Chain (Linked _ 1) f1 (ft ++ [f1])
    rw [chain_concat]
    constructor
    · refine chain_frame f1 ft c6 ?_ ?_
      · intro x hx
        rw [hfe, List.dropLast_concat] at hx
        have hxm : x ∈ f1 :: ft := by rw [hfe]; exact List.mem_append_left _ hx
        refine hF1 x ?_ (hIf x hxm)
        intro e
        have hn2 : (fi ++ [fl]).Nodup := hfe ▸ ndf
        rw [List.nodup_append] at hn2
        exact hn2.2.2 hx (by simp [e])
      · intro y hy
        refine hF0 y ?_ (hnf y (List.mem_cons_of_mem _ hy))
        intro e
        exact (List.nodup_cons.1 ndf).1 (e ▸ hy)
    · have hgl : (f1 :: ft).getLast (by simp) = fl := by
        simp only [hfe]
        simp
      rw [hgl]
      constructor
      · rw [hF]; simp
      · rw [xor_one_one, hF]
        have : f1 = fl → True := fun _ => trivial
        by_cases e : f1 = fl
        · simp [e]
        · simp [e]

theorem Cycle_frame {g g1 : graph} {s : Int} {l : List Int} (h : Cycle g s l)
    (hf : ∀ x ∈ l, (g1.G x).link = (g.G x).link) : Cycle g1 s l := by
  obtain ⟨h1, h2⟩ := h
  refine ⟨?_, h2⟩
  rw [List.Chain'.iff_mem] at h1 ⊢
  refine List.Chain'.imp ?_ h1
  rintro a b ⟨ha, hb, hab⟩
  have ha2 : a ∈ l := by
    rcases List.mem_append.1 ha with h | h
    · exact h
    · exact List.mem_of_mem_take h
  have hb2 : b ∈ l := by
    rcases List.mem_append.1 hb with h | h
    · exact h
    · exact List.mem_of_mem_take h
  refine ⟨ha, hb, ?_⟩
  unfold Linked at hab ⊢
  rw [hf a ha2, hf b hb2]
  exact hab

theorem fwdArcListsAt_congr {g0 s s1 : graph} {V : Int} {fw rest : List Int}
    (h : fwdArcListsAt g0 s V fw rest) (he : s1.edgeOffset = s.edgeOffset)
    (hG : ∀ x ∈ V :: fw ++ rest, s1.G x = s.G x) (hV : s1.V V = s.V V) :
    fwdArcListsAt g0 s1 V fw rest := by
  unfold fwdArcListsAt at h ⊢
  by_cases hf : fw = []
  · rw [if_pos hf] at h ⊢
    subst hf
    refine ⟨?_, ?_, ?_⟩
    · rw [hG V (List.mem_cons_self _ _)]; exact h.1
    · intro x hx
      rw [hG x (List.mem_cons_of_mem _ (by simpa using hx))]
      exact h.2.1 x hx
    · rw [hV]; exact h.2.2
  · rw [if_neg hf] at h ⊢
    refine ⟨?_, ?_, ?_⟩
    · rw [hV]; exact h.1
    · refine Cycle_frame h.2.1 ?_
      intro x hx
      rw [hG x (List.mem_cons_of_mem _ (List.mem_append_left _ hx))]
    · refine Ring_frame h.2.2 he ?_
      intro x hx
      rw [hG x]
      simp only [List.mem_cons, List.cons_append, List.mem_append] at hx ⊢
      tauto

/-- Invariant of the loop of `_CreateFwdArcLists` after the vertices below `k`. -/
theorem fwdLoop_inv (fuel : Nat) (g : graph) (fw rest : Int → List Int)
    (hg : FwdReady fuel g fw rest) :
    ∀ k : Nat, (k : Int) ≤ g.N →
      ∃ s, (List.range k).foldl
          (fun s (I : Nat) => s.bind (fun s => createFwdArcListAt fuel s (I : Int)))
          (some g) = some s ∧
        s.N = g.N ∧ s.edgeOffset = g.edgeOffset ∧
        (∀ x, (s.G x).type = (g.G x).type) ∧
        (∀ C : Nat, C < k → fwdArcListsAt g s (C : Int) (fw (C : Int)) (rest (C : Int))) ∧
        (∀ C : Int, (k : Int) ≤ C → s.V C = g.V C) ∧
        (∀ x, (∀ C : Nat, C < k → x ∉ (C : Int) :: fw (C : Int) ++ rest (C : Int)) →
          s.G x = g.G x) := by
  obtain ⟨hE, hring, hnone, hdisj⟩ := hg
  -- the arcs of the lists lie at or above `edgeOffset`
  have hge : ∀ C, 0 ≤ C → C < g.N → ∀ x ∈ fw C ++ rest C, g.edgeOffset ≤ x := by
    intro C h0 h1 x hx
    by_cases ha : g.edgeOffset ≤ (g.G C).link 1
    · exact (hring C h0 h1 ha).1.2.2.2 x hx
    · obtain ⟨a, b⟩ := hnone C h0 h1 (by omega)
      rw [a, b] at hx
      simp at hx
  have hsep : ∀ (C k : Int), 0 ≤ C → C < g.N → 0 ≤ k → k < g.N → C ≠ k →
      ∀ x ∈ k :: fw k ++ rest k, x ∉ C :: fw C ++ rest C := by
    intro C k hC0 hC1 hk0 hk1 hne x hx hx2
    rcases List.mem_cons.1 hx with rfl | hx
    · rcases List.mem_cons.1 hx2 with e | hx2
      · exact hne e.symm
      · have := hge C hC0 hC1 _ hx2
        omega
    · have hxge := hge k hk0 hk1 x hx
      rcases List.mem_cons.1 hx2 with e | hx2
      · omega
      · exact hdisj k C hk0 hk1 hC0 hC1 (fun e => hne e.symm) x hx hx2
  intro k
  induction k with
  | zero =>
    intro _
    exact ⟨g, rfl, rfl, rfl, fun _ => rfl, fun C hC => by omega, fun _ _ => rfl,
      fun _ _ => rfl⟩
  | succ k ih =>
    intro hk
    push_cast at hk
    obtain ⟨s, hs, e1, e2, e4, d1, d3, d2⟩ := ih (by omega)
    rw [List.range_succ, List.foldl_append, hs]
    simp only [List.foldl_cons, List.foldl_nil, Option.some_bind]
    have hk0 : (0 : Int) ≤ (k : Int) := by omega
    have hk1 : (k : Int) < g.N := by omega
    have hunt : ∀ x ∈ (k : Int) :: fw (k : Int) ++ rest (k : Int), s.G x = g.G x := by
      intro x hx
      apply d2
      intro C hC
      exact hsep (C : Int) (k : Int) (by omega) (by omega) hk0 hk1 (by omega) x hx
    have hVk : s.V (k : Int) = g.V (k : Int) := d3 _ (le_refl _)
    -- what remains to show once the step and its frame are known
    have finish : ∀ s1 : graph, s1.N = s.N → s1.edgeOffset = s.edgeOffset →
        (∀ x, (s1.G x).type = (s.G x).type) → (∀ C, C ≠ (k : Int) → s1.V C = s.V C) →
        (∀ x, x ∉ (k : Int) :: fw (k : Int) ++ rest (k : Int) → s1.G x = s.G x) →
        fwdArcListsAt g s1 (k : Int) (fw (k : Int)) (rest (k : Int)) →
        s1.N = g.N ∧ s1.edgeOffset = g.edgeOffset ∧
        (∀ x, (s1.G x).type = (g.G x).type) ∧
        (∀ C : Nat, C < k + 1 →
          fwdArcListsAt g s1 (C : Int) (fw (C : Int)) (rest (C : Int))) ∧
        (∀ C : Int, ((k + 1 : Nat) : Int) ≤ C → s1.V C = g.V C) ∧
        (∀ x, (∀ C : Nat, C < k + 1 → x ∉ (C : Int) :: fw (C : Int) ++ rest (C : Int)) →
          s1.G x = g.G x) := by
      intro s1 a1 a2 a3 a4 a5 a6
      refine ⟨a1.trans e1, a2.trans e2, fun x => (a3 x).trans (e4 x), ?_, ?_, ?_⟩
      · intro C hC
        by_cases hCk : C = k
        · subst hCk; exact a6
        · refine fwdArcListsAt_congr (d1 C (by omega)) a2 ?_ (a4 _ (by omega))
          intro x hx
          apply a5
          exact hsep (k : Int) (C : Int) hk0 hk1 (by omega) (by omega) (by omega) x hx
      · intro C hC
        push_cast at hC
        rw [a4 C (by omega)]
        exact d3 C (by omega)
      · intro x hx
        rw [a5 x (hx k (by omega))]
        exact d2 x (fun C hC => hx C (by omega))
    rw [createFwdArcListAt_eq, hunt _ (List.mem_cons_self _ _), e2]
    by_cases ha : g.edgeOffset ≤ (g.G (k : Int)).link 1
    swap
    · -- no arcs
      rw [if_pos (by omega)]
      obtain ⟨a, b⟩ := hnone _ hk0 hk1 (by omega)
      refine ⟨s, rfl, finish s rfl rfl (fun _ => rfl) (fun _ _ => rfl) (fun _ _ => rfl) ?_⟩
      unfold fwdArcListsAt
      rw [a, b, if_pos rfl]
      exact ⟨hunt _ (List.mem_cons_self _ _), by simp, hVk⟩
    rw [if_neg (by omega)]
    obtain ⟨r1, r2, r3, r4⟩ := hring _ hk0 hk1 ha
    have hRs : Ring s 1 (k : Int) (fw (k : Int) ++ rest (k : Int)) :=
      Ring_frame r1 e2 (fun x hx => by rw [hunt x hx])
    have hfirst := Ring_first r1
    by_cases hf : fw (k : Int) = []
    · -- the arc at `link[1]` is not a forward arc
      rw [hf, List.nil_append] at hfirst
      rw [e4, hfirst, if_neg r3]
      refine ⟨s, rfl, finish s rfl rfl (fun _ => rfl) (fun _ _ => rfl) (fun _ _ => rfl) ?_⟩
      unfold fwdArcListsAt
      rw [if_pos hf]
      refine ⟨hunt _ (List.mem_cons_self _ _), ?_, hVk⟩
      intro x hx
      exact hunt x (List.mem_cons_of_mem _ (List.mem_append_right _ hx))
    · -- a run of forward arcs
      obtain ⟨f1, ft, hfe⟩ : ∃ f1 ft, fw (k : Int) = f1 :: ft := by
        cases h : fw (k : Int) with
        | nil => exact absurd h hf
        | cons x t => exact ⟨x, t, rfl⟩
      have hf1 : (g.G (k : Int)).link 1 = f1 := by
        rw [hfirst, hfe]; rfl
      have hf1mem : f1 ∈ fw (k : Int) := by rw [hfe]; exact List.mem_cons_self _ _
      rw [e4, hf1, if_pos (r2 f1 hf1mem)]
      -- the end of the run
      have hch : List.Chain' (fun x y => (s.G x).link 1 = y)
          (fw (k : Int) ++ [(rest (k : Int) ++ [(k : Int)]).headD (k : Int)]) := by
        have c0 : List.Chain' (Linked s 1)
            ((k : Int) :: (fw (k : Int) ++ rest (k : Int)) ++ [(k : Int)]) := hRs.1
        have c1 := List.Chain'.tail c0
        simp only [List.cons_append, List.tail_cons, List.append_assoc] at c1
        have c2 : List.Chain' (Linked s 1)
            (fw (k : Int) ++ [(rest (k : Int) ++ [(k : Int)]).headD (k : Int)]) := by
          cases hr : rest (k : Int) with
          | nil =>
            rw [hr] at c1
            simpa using c1
          | cons y t =>
            rw [hr] at c1
            have : fw (k : Int) ++ (y :: t ++ [(k : Int)]) =
                (fw (k : Int) ++ [y]) ++ (t ++ [(k : Int)]) := by simp
            rw [this] at c1
            simpa using List.Chain'.left_of_append c1
        exact List.Chain'.imp (fun x y h => h.1) c2
      obtain ⟨k2, hk2⟩ : ∃ k2, fuel = (fw (k : Int)).length + 1 + k2 :=
        ⟨fuel - ((fw (k : Int)).length + 1), by omega⟩
      have hrun : fwdArcRunEnd fuel s f1 =
          some ((rest (k : Int) ++ [(k : Int)]).headD (k : Int)) := by
        have := fwdArcRunEnd_chain ((rest (k : Int) ++ [(k : Int)]).headD (k : Int))
          (fw (k : Int)) s k2 hch (fun x hx => by rw [e4]; exact r2 x hx)
          (by rw [e4]; exact r3)
        rw [← hk2] at this
        rw [← this, hfe]
        rfl
      rw [hrun, Option.map_some']
      obtain ⟨q1, q2⟩ := fwdStep_ring hRs hf
      have hhd : (fw (k : Int)).headD NIL = f1 := by rw [hfe]; rfl
      rw [hhd] at q1 q2
      obtain ⟨p1, p2, p3, p4, p5, p6, _⟩ := fwdStep_frame s (k : Int) f1
        ((rest (k : Int) ++ [(k : Int)]).headD (k : Int))
      refine ⟨_, rfl, finish _ p1 p2 p3 p4 ?_ ?_⟩
      · intro x hx
        have hnm : (rest (k : Int) ++ [(k : Int)]).headD (k : Int) ∈
            (k : Int) :: fw (k : Int) ++ rest (k : Int) := by
          have := headD_mem_cons (rest (k : Int)) (k : Int)
          simp only [List.mem_cons, List.cons_append, List.mem_append] at this ⊢
          tauto
        have hlm : (s.G ((rest (k : Int) ++ [(k : Int)]).headD (k : Int))).link 0 ∈
            (k : Int) :: fw (k : Int) ++ rest (k : Int) := by
          -- the predecessor of the end of the run is the last forward arc
          have c0 : List.Chain (Linked s 1) (k : Int)
              ((fw (k : Int) ++ rest (k : Int)) ++ [(k : Int)]) := hRs.1
          obtain ⟨fi, fl, hfl⟩ : ∃ fi fl, fw (k : Int) = fi ++ [fl] :=
            ⟨(fw (k : Int)).dropLast, (fw (k : Int)).getLast hf,
              (List.dropLast_append_getLast hf).symm⟩
          obtain ⟨n, ct, hne⟩ : ∃ n ct, rest (k : Int) ++ [(k : Int)] = n :: ct := by
            cases rest (k : Int) with
            | nil => exact ⟨(k : Int), [], rfl⟩
            | cons y t => exact ⟨y, t ++ [(k : Int)], rfl⟩
          rw [List.append_assoc, hne, hfl, List.append_assoc, List.singleton_append,
            List.chain_append_cons_cons] at c0
          have := c0.2.1.2
          rw [xor_one_one] at this
          rw [hne]
          simp only [List.headD_cons]
          rw [this, hfl]
          simp
        refine p6 x ?_ ?_ ?_ ?_
        · intro e; exact hx (e ▸ hnm)
        · intro e; exact hx (e ▸ List.mem_cons_self _ _)
        · intro e
          exact hx (e ▸ List.mem_cons_of_mem _ (List.mem_append_left _ hf1mem))
        · intro e; exact hx (e ▸ hlm)
      · unfold fwdArcListsAt
        rw [if_neg hf, hhd]
        exact ⟨p5, q2, q1⟩

/-- C14 (amended): `_CreateFwdArcLists` never returns a value other than `OK`, and it
returns `OK` on every arena whose vertices have valid disjoint rings with the forward arcs
as a run at the `link[1]` end (`fw V`, followed by the other arcs `rest V`, in `link[1]`
order).  Afterwards, for every vertex `V` in `[0, N)` with forward arcs: `fwdArcList[V]` is
the first arc of the run; the forward arcs are a circular list of their own, the `link[1]`
tour from the first arc visiting the run in its original order and returning to it, the
`link[0]` tour being the reverse; and the ring of `V` is a valid circular doubly-linked list
holding the other arcs in their original order (just `V` if all arcs were forward).  A
vertex whose `link[1]` arc is not a forward arc, or that has no arcs, is unchanged. -/
theorem createFwdArcLists_spec (fuel : Nat) (g : graph) (fw rest : Int → List Int) :
    (∀ r, _CreateFwdArcLists fuel g = some r → r.1 = OK) ∧
    (FwdReady fuel g fw rest →
      ∃ g1, _CreateFwdArcLists fuel g = some (OK, g1) ∧
        ∀ V, 0 ≤ V → V < g.N → fwdArcListsAt g g1 V (fw V) (rest V)) := by
  constructor
  · intro r hr
    unfold _CreateFwdArcLists at hr
    simp only [Option.map_eq_some'] at hr
    obtain ⟨s, _, rfl⟩ := hr
    rfl
  · intro hg
    by_cases hN : 0 ≤ g.N
    · obtain ⟨s, hs, _, _, _, d1, _⟩ := fwdLoop_inv fuel g fw rest hg g.N.toNat (by omega)
      refine ⟨s, ?_, ?_⟩
      · unfold _CreateFwdArcLists
        rw [hs]; rfl
      · intro V h0 h1
        have := d1 V.toNat (by omega)
        rwa [show ((V.toNat : Nat) : Int) = V by omega] at this
    · refine ⟨g, ?_, fun V h0 h1 => by omega⟩
      unfold _CreateFwdArcLists
      rw [show g.N.toNat = 0 by omega]
      rfl

theorem endless_fwdArcRunEnd : ∀ fuel, fwdArcRunEnd fuel endlessForwardRun 2 = none := by
  intro fuel
  induction fuel with
  | zero => rfl
  | succ n ih =>
    rw [fwdArcRunEnd]
    have h1 : (endlessForwardRun.G 2).type = EDGE_FORWARD := by decide
    have h2 : (endlessForwardRun.G 2).link 1 = 2 := by decide
    rw [if_pos h1, h2]
    exact ih

theorem endless_createFwdArcLists :
    ∀ fuel, _CreateFwdArcLists fuel endlessForwardRun = none := by
  intro fuel
  have h1 : createFwdArcListAt fuel endlessForwardRun 0 = none := by
    rw [createFwdArcListAt_eq]
    have a : (endlessForwardRun.G 0).link 1 = 2 := by decide
    have b : endlessForwardRun.edgeOffset = 2 := rfl
    have c : (endlessForwardRun.G 2).type = EDGE_FORWARD := by decide
    rw [a, b, if_neg (by decide), if_pos c, endless_fwdArcRunEnd]
    rfl
  unfold _CreateFwdArcLists
  have hN : endlessForwardRun.N.toNat = 1 := by decide
  rw [hN]
  simp only [List.range_succ, List.range_zero, List.nil_append, List.foldl_cons,
    List.foldl_nil, Option.some_bind]
  have : createFwdArcListAt fuel endlessForwardRun ((0 : Nat) : Int) = none := h1
  rw [this]
  rfl

/-- C14 counterexample: `_CreateFwdArcLists` does not return `OK` for every input.  In
the arena `endlessForwardRun` (`N = 1`, `edgeOffset = 2`) the `link[1]` arc `2` of the vertex
`0` is a forward arc whose `link[1]` is `2` again, so the loop
`while (G[Jnext].type == EDGE_FORWARD)` never ends: whatever the fuel, the function does not
return. -/
theorem createFwdArcLists_endless :
    endlessForwardRun.N = 1 ∧ endlessForwardRun.edgeOffset = 2 ∧
    (endlessForwardRun.G 0).link 1 = 2 ∧ (endlessForwardRun.G 2).type = EDGE_FORWARD ∧
    (endlessForwardRun.G 2).link 1 = 2 ∧
    (fun fuel => _CreateFwdArcLists fuel endlessForwardRun) = fun _ => none :=
  ⟨rfl, rfl, by decide, by decide, by decide, funext endless_createFwdArcLists⟩

theorem triangle_fwdReady : FwdReady 2 triangle triangleForward triangleOthers := by
  have hN : triangle.N = 3 := rfl
  refine ⟨by decide, ?_, ?_, ?_⟩
  · intro V h0 h1 _
    rw [hN] at h1
    have : V = 0 ∨ V = 1 ∨ V = 2 := by omega
    rcases this with rfl | rfl | rfl <;>
      exact ⟨(ringCheck_iff _ _ _ _).1 (by decide), by decide, by decide, by decide⟩
  · intro V h0 h1 h2
    rw [hN] at h1
    have : V = 0 ∨ V = 1 ∨ V = 2 := by omega
    rcases this with rfl | rfl | rfl <;> exact absurd h2 (by decide)
  · intro X Y hX0 hX1 hY0 hY1 hne x hx hy
    rw [hN] at hX1 hY1
    have key : ∀ X ∈ List.range 3, ∀ Y ∈ List.range 3, X ≠ Y →
        ∀ x ∈ triangleForward (X : Int) ++ triangleOthers (X : Int),
          x ∉ triangleForward (Y : Int) ++ triangleOthers (Y : Int) := by decide
    have hX : X = ((X.toNat : Nat) : Int) := by omega
    have hY : Y = ((Y.toNat : Nat) : Int) := by omega
    rw [hX] at hx
    rw [hY] at hy
    exact key X.toNat (List.mem_range.2 (by omega)) Y.toNat (List.mem_range.2 (by omega))
      (by omega) x hx hy

/-- Witness for `createFwdArcLists_spec`: the triangle, where the forward arc `10` of the
vertex `0` becomes a forward-arc list of its own. -/
theorem createFwdArcLists_spec_witness :
    FwdReady 2 triangle triangleForward triangleOthers ∧
    ∃ g1, _CreateFwdArcLists 2 triangle = some (OK, g1) ∧
      fwdArcListsAt triangle g1 0 [10] [6] ∧ fwdArcListsAt triangle g1 1 [] [8, 7] := by
  obtain ⟨g1, h1, h2⟩ :=
    (createFwdArcLists_spec 2 triangle triangleForward triangleOthers).2 triangle_fwdReady
  exact ⟨triangle_fwdReady, g1, h1, h2 0 (by decide) (by decide), h2 1 (by decide) (by decide)⟩

/-! ### `_OrientVerticesInEmbedding`: the inverted flags are cleared -/

theorem orientArc_frame (flag : Int) (g : graph) (J : Int) :
    (orientArc flag g J).N = g.N ∧ (orientArc flag g J).edgeOffset = g.edgeOffset ∧
    (∀ x, ((orientArc flag g J).G x).link = (g.G x).link) ∧
    (∀ x, ((orientArc flag g J).G x).type = (g.G x).type) ∧
    (∀ x, ((orientArc flag g J).G x).v = (g.G x).v) ∧
    (∀ x, x ≠ J → (orientArc flag g J).G x = g.G x) ∧
    (∀ x, ((orientArc flag g J).G x).inverted =
      if x = J ∧ (g.G J).type = EDGE_DFSCHILD then false else (g.G x).inverted) ∧
    (orientArc flag g J).theStack =
      (if (g.G J).type = EDGE_DFSCHILD then
        [Int.xor flag (if (g.G J).inverted then 1 else 0), (g.G J).v]
      else []) ++ g.theStack := by
  by_cases h : (g.G J).type = EDGE_DFSCHILD
  · have e : orientArc flag g J = setEdgeFlagInverted
        (sp_Push2 g (g.G J).v (Int.xor flag (if (g.G J).inverted then 1 else 0))) J false := by
      unfold orientArc; rw [if_pos h]
    rw [e]
    refine ⟨rfl, rfl, ?_, ?_, ?_, ?_, ?_, ?_⟩
    · intro x
      simp only [setEdgeFlagInverted, sp_Push2, upd]
      split_ifs with e
      · subst e; rfl
      · rfl
    · intro x
      simp only [setEdgeFlagInverted, sp_Push2, upd]
      split_ifs with e
      · subst e; rfl
      · rfl
    · intro x
      simp only [setEdgeFlagInverted, sp_Push2, upd]
      split_ifs with e
      · subst e; rfl
      · rfl
    · intro x hx
      simp [setEdgeFlagInverted, sp_Push2, upd, hx]
    · intro x
      simp only [setEdgeFlagInverted, sp_Push2, upd]
      by_cases e : x = J
      · simp [e, h]
      · simp [e]
    · rw [if_pos h]; rfl
  · have e : orientArc flag g J = g := by
      unfold orientArc; rw [if_neg h]
    rw [e]
    refine ⟨rfl, rfl, fun _ => rfl, fun _ => rfl, fun _ => rfl, fun _ _ => rfl, ?_, ?_⟩
    · intro x; simp [h]
    · rw [if_neg h]; rfl

theorem pushedBy_congr (g g1 : graph) (flag : Int) :
    ∀ l : List Int, (∀ x ∈ l, g1.G x = g.G x) → pushedBy g1 flag l = pushedBy g flag l := by
  intro l
  induction l with
  | nil => intro _; rfl
  | cons J t ih =>
    intro h
    simp only [pushedBy]
    rw [ih (fun x hx => h x (List.mem_cons_of_mem _ hx)), h J (List.mem_cons_self _ _)]

/-- The state after the inner loop of `_OrientVerticesInBicomp` has visited the arcs `l`. -/
theorem orientArcs_spec (flag : Int) :
    ∀ (l : List Int) (g : graph), l.Nodup →
      (l.foldl (orientArc flag) g).N = g.N ∧
      (l.foldl (orientArc flag) g).edgeOffset = g.edgeOffset ∧
      (∀ x, ((l.foldl (orientArc flag) g).G x).link = (g.G x).link) ∧
      (∀ x, ((l.foldl (orientArc flag) g).G x).type = (g.G x).type) ∧
      (∀ x, ((l.foldl (orientArc flag) g).G x).v = (g.G x).v) ∧
      (∀ x, x ∉ l → (l.foldl (orientArc flag) g).G x = g.G x) ∧
      (∀ x, ((l.foldl (orientArc flag) g).G x).inverted =
        if x ∈ l ∧ (g.G x).type = EDGE_DFSCHILD then false else (g.G x).inverted) ∧
      (l.foldl (orientArc flag) g).theStack = pushedBy g flag l ++ g.theStack := by
  intro l
  induction l with
  | nil =>
    intro g _
    simp [pushedBy]
  | cons J t ih =>
    intro g hn
    rw [List.nodup_cons] at hn
    simp only [List.foldl_cons]
    obtain ⟨a1, a2, a3, a4, a5, a6, a7, a8⟩ := ih (orientArc flag g J) hn.2
    obtain ⟨b1, b2, b3, b4, b5, b6, b7, b8⟩ := orientArc_frame flag g J
    refine ⟨a1.trans b1, a2.trans b2, fun x => (a3 x).trans (b3 x),
      fun x => (a4 x).trans (b4 x), fun x => (a5 x).trans (b5 x), ?_, ?_, ?_⟩
    · intro x hx
      rw [List.mem_cons, not_or] at hx
      rw [a6 x hx.2, b6 x hx.1]
    · intro x
      rw [a7, b4, b7]
      by_cases h1 : x ∈ t
      · have hxJ : x ≠ J := fun e => hn.1 (e ▸ h1)
        by_cases h2 : (g.G x).type = EDGE_DFSCHILD
        · simp [h1, h2]
        · simp [h1, h2, hxJ]
      · by_cases h3 : x = J
        · subst h3
          by_cases h2 : (g.G x).type = EDGE_DFSCHILD
          · simp [h1, h2]
          · simp [h1, h2]
        · simp [h1, h3]
    · rw [a8, b8, pushedBy_congr g (orientArc flag g J) flag t]
      · simp only [pushedBy, List.append_assoc]
      · intro x hx
        exact b6 x (fun e => hn.1 (e ▸ hx))

theorem pushDFSChildren_succ (fuel : Nat) (g : graph) (J flag : Int) :
    pushDFSChildren (fuel + 1) g J flag 0 =
      if J ≥ g.edgeOffset then
        pushDFSChildren fuel (orientArc flag g J) (((orientArc flag g J).G J).link 0) flag 0
      else some g := by
  rw [pushDFSChildren]
  by_cases h1 : J ≥ g.edgeOffset
  · rw [if_pos h1, if_pos h1]
    by_cases h2 : (g.G J).type = EDGE_DFSCHILD
    · have e : orientArc flag g J = setEdgeFlagInverted
          (sp_Push2 g (g.G J).v (Int.xor flag (if (g.G J).inverted then 1 else 0))) J false := by
        unfold orientArc; rw [if_pos h2]
      rw [e]
      simp only [if_pos h2, if_true]
    · have e : orientArc flag g J = g := by
        unfold orientArc; rw [if_neg h2]
      rw [e]
      simp only [if_neg h2]
  · rw [if_neg h1, if_neg h1]

theorem pushDFSChildren_chain (flag V : Int) :
    ∀ (l : List Int) (g : graph) (k : Nat),
      List.Chain' (fun x y => (g.G x).link 0 = y) (l ++ [V]) →
      (∀ x ∈ l, g.edgeOffset ≤ x) → V < g.edgeOffset →
      pushDFSChildren (l.length + 1 + k) g ((l ++ [V]).headD V) flag 0 =
        some (l.foldl (orientArc flag) g) := by
  intro l
  induction l with
  | nil =>
    intro g k _ _ hV
    simp only [List.length_nil, List.nil_append, List.headD_cons, List.foldl_nil]
    rw [show 0 + 1 + k = k + 1 by omega, pushDFSChildren_succ, if_neg (by omega)]
  | cons J l ih =>
    intro g k hch hge hV
    simp only [List.length_cons, List.cons_append, List.headD_cons, List.foldl_cons]
    rw [show l.length + 1 + 1 + k = (l.length + 1 + k) + 1 by omega, pushDFSChildren_succ,
      if_pos (by have := hge J (List.mem_cons_self _ _); omega)]
    obtain ⟨b1, b2, b3, _⟩ := orientArc_frame flag g J
    have hnext : (g.G J).link 0 = (l ++ [V]).headD V := by
      cases l with
      | nil =>
        simp only [List.nil_append, List.headD_cons]
        simp only [List.cons_append, List.nil_append, List.chain'_cons, List.chain'_singleton,
          and_true] at hch
        exact hch
      | cons y t =>
        simp only [List.cons_append, List.headD_cons]
        simp only [List.cons_append, List.chain'_cons] at hch
        exact hch.1
    rw [b3, hnext]
    refine ih (orientArc flag g J) k ?_ ?_ (by rw [b2]; exact hV)
    · have h2 : List.Chain' (fun x y => (g.G x).link 0 = y) (l ++ [V]) := by
        simp only [List.cons_append] at hch
        exact List.Chain'.tail hch
      refine List.Chain'.imp ?_ h2
      intro x y hxy
      rw [b3]; exact hxy
    · intro x hx
      rw [b2]
      exact hge x (List.mem_cons_of_mem _ hx)

theorem swapLinks_frame (g : graph) (J : Int) :
    (swapLinks g J).N = g.N ∧ (swapLinks g J).edgeOffset = g.edgeOffset ∧
    (swapLinks g J).theStack = g.theStack ∧
    (∀ x, ((swapLinks g J).G x).type = (g.G x).type) ∧
    (∀ x, ((swapLinks g J).G x).v = (g.G x).v) ∧
    (∀ x, ((swapLinks g J).G x).inverted = (g.G x).inverted) ∧
    (∀ x, x ≠ J → (swapLinks g J).G x = g.G x) ∧
    ((swapLinks g J).G J).link 0 = (g.G J).link 1 ∧
    ((swapLinks g J).G J).link 1 = (g.G J).link 0 := by
  unfold swapLinks
  refine ⟨rfl, rfl, rfl, ?_, ?_, ?_, ?_, ?_, ?_⟩
  · intro x; rw [setGLink_type, setGLink_type]
  · intro x; rw [setGLink_v, setGLink_v]
  · intro x; rw [setGLink_inverted, setGLink_inverted]
  · intro x hx; rw [setGLink_other _ _ _ _ _ hx, setGLink_other _ _ _ _ _ hx]
  · rw [setGLink_link, setGLink_link]; simp
  · rw [setGLink_link]; simp

theorem invertRing_succ (fuel : Nat) (g : graph) (J : Int) :
    invertRing (fuel + 1) g J =
      if ((swapLinks g J).G J).link 0 ≥ (swapLinks g J).edgeOffset then
        invertRing fuel (swapLinks g J) (((swapLinks g J).G J).link 0)
      else some (swapLinks g J) := rfl

theorem chain_imp_sources {α : Type} {R R1 : α → α → Prop} :
    ∀ (a : α) (l : List α), List.Chain R a l →
      (∀ x ∈ (a :: l).dropLast, ∀ y, R x y → R1 x y) → List.Chain R1 a l := by
  intro a l
  induction l generalizing a with
  | nil => intro _ _; exact List.Chain.nil
  | cons y t ih =>
    intro h hs
    rw [List.chain_cons] at h ⊢
    refine ⟨hs a (by simp [List.dropLast]) y h.1, ih y h.2 ?_⟩
    intro x hx
    apply hs
    rw [List.dropLast_cons_of_ne_nil (List.cons_ne_nil _ _)]
    exact List.mem_cons_of_mem _ hx

theorem invertRing_chain (e : Int) :
    ∀ (c : List Int) (g : graph) (a : Int) (k : Nat),
      List.Chain (fun x y => (g.G x).link 1 = y) a (c ++ [e]) → (a :: c).Nodup →
      (∀ x ∈ c, g.edgeOffset ≤ x) → e < g.edgeOffset →
      invertRing (c.length + 1 + k) g a = some ((a :: c).foldl swapLinks g) := by
  intro c
  induction c with
  | nil =>
    intro g a k hch _ _ he
    obtain ⟨_, b2, _, _, _, _, _, b8, _⟩ := swapLinks_frame g a
    simp only [List.nil_append, List.chain_cons, List.Chain.nil, and_true] at hch
    rw [show ([] : List Int).length + 1 + k = k + 1 by simp; omega, invertRing_succ, b8, hch,
      b2, if_neg (by omega)]
    rfl
  | cons x c ih =>
    intro g a k hch hn hge he
    obtain ⟨_, b2, _, _, _, _, b7, b8, _⟩ := swapLinks_frame g a
    simp only [List.cons_append, List.chain_cons] at hch
    obtain ⟨h1, h2⟩ := hch
    rw [show (x :: c).length + 1 + k = (c.length + 1 + k) + 1 by simp; omega, invertRing_succ,
      b8, h1, b2, if_pos (by have := hge x (List.mem_cons_self _ _); omega)]
    have hn2 : (x :: c).Nodup := (List.nodup_cons.1 hn).2
    have hax : ∀ y ∈ x :: c, y ≠ a := by
      intro y hy e
      exact (List.nodup_cons.1 hn).1 (e ▸ hy)
    refine ih (swapLinks g a) x k ?_ hn2 ?_ (by rw [b2]; exact he)
    · refine chain_imp_sources x (c ++ [e]) h2 ?_
      intro u hu v huv
      have hu2 : u ∈ x :: c := by
        have : (x :: (c ++ [e])).dropLast = x :: c := by
          rw [← List.cons_append, List.dropLast_concat]
        rwa [this] at hu
      rw [b7 u (hax u hu2)]
      exact huv
    · intro y hy
      rw [b2]
      exact hge y (List.mem_cons_of_mem _ hy)

theorem swapped_spec :
    ∀ (c : List Int) (g : graph), c.Nodup →
      (c.foldl swapLinks g).N = g.N ∧ (c.foldl swapLinks g).edgeOffset = g.edgeOffset ∧
      (c.foldl swapLinks g).theStack = g.theStack ∧
      (∀ x, ((c.foldl swapLinks g).G x).type = (g.G x).type) ∧
      (∀ x, ((c.foldl swapLinks g).G x).v = (g.G x).v) ∧
      (∀ x, ((c.foldl swapLinks g).G x).inverted = (g.G x).inverted) ∧
      (∀ x, x ∉ c → (c.foldl swapLinks g).G x = g.G x) ∧
      (∀ x ∈ c, ((c.foldl swapLinks g).G x).link 0 = (g.G x).link 1 ∧
        ((c.foldl swapLinks g).G x).link 1 = (g.G x).link 0) := by
  intro c
  induction c with
  | nil => intro g _; simp
  | cons J t ih =>
    intro g hn
    rw [List.nodup_cons] at hn
    simp only [List.foldl_cons]
    obtain ⟨a1, a2, a3, a4, a5, a6, a7, a8⟩ := ih (swapLinks g J) hn.2
    obtain ⟨b1, b2, b3, b4, b5, b6, b7, b8, b9⟩ := swapLinks_frame g J
    refine ⟨a1.trans b1, a2.trans b2, a3.trans b3, fun x => (a4 x).trans (b4 x),
      fun x => (a5 x).trans (b5 x), fun x => (a6 x).trans (b6 x), ?_, ?_⟩
    · intro x hx
      rw [List.mem_cons, not_or] at hx
      rw [a7 x hx.2, b7 x hx.1]
    · intro x hx
      rcases List.mem_cons.1 hx with rfl | hx
      · rw [a7 x hn.1]
        exact ⟨b8, b9⟩
      · have hxJ : x ≠ J := fun e => hn.1 (e ▸ hx)
        rw [(a8 x hx).1, (a8 x hx).2, b7 x hxJ]
        exact ⟨rfl, rfl⟩

/-- The function `_InvertVertex` reverses a valid ring and changes nothing else in the
arena but the external-face links of the vertex. -/
theorem invertVertex_ring (fuel : Nat) (g : graph) (V : Int) (l : List Int)
    (hR : Ring g 0 V l) (hfuel : l.length < fuel) :
    ∃ g1, _InvertVertex fuel g V = some g1 ∧ Ring g1 0 V l.reverse ∧
      g1.N = g.N ∧ g1.edgeOffset = g.edgeOffset ∧ g1.theStack = g.theStack ∧
      (∀ x, (g1.G x).type = (g.G x).type) ∧ (∀ x, (g1.G x).v = (g.G x).v) ∧
      (∀ x, (g1.G x).inverted = (g.G x).inverted) ∧
      (∀ x, x ∉ V :: l → g1.G x = g.G x) := by
  have hR1 : Ring g 1 V l.reverse := by
    have := Ring_reverse (Or.inl rfl) hR
    rwa [xor_one_zero] at this
  obtain ⟨c1, n1, o1, ge1⟩ := hR1
  have hch : List.Chain (fun x y => (g.G x).link 1 = y) V (l.reverse ++ [V]) :=
    List.Chain.imp (fun x y h => h.1) c1
  obtain ⟨k, hk⟩ : ∃ k, fuel = l.reverse.length + 1 + k :=
    ⟨fuel - (l.length + 1), by simp; omega⟩
  have hrun := invertRing_chain V l.reverse g V k hch n1 ge1 o1
  rw [← hk] at hrun
  obtain ⟨a1, a2, a3, a4, a5, a6, a7, a8⟩ := swapped_spec (V :: l.reverse) g n1
  have hring : Ring ((V :: l.reverse).foldl swapLinks g) 0 V l.reverse := by
    refine ⟨?_, n1, a2 ▸ o1, fun x hx => a2 ▸ ge1 x hx⟩
    have c2 : List.Chain' (Linked g 1) (V :: l.reverse ++ [V]) := c1
    rw [List.Chain'.iff_mem] at c2 ⊢
    refine List.Chain'.imp ?_ c2
    rintro x y ⟨hx, hy, hxy⟩
    have hx2 : x ∈ V :: l.reverse := by
      simp only [List.cons_append, List.mem_cons, List.mem_append, List.mem_singleton] at hx ⊢
      tauto
    have hy2 : y ∈ V :: l.reverse := by
      simp only [List.cons_append, List.mem_cons, List.mem_append, List.mem_singleton] at hy ⊢
      tauto
    refine ⟨hx, hy, ?_⟩
    unfold Linked at hxy ⊢
    rw [xor_one_one] at hxy
    rw [xor_one_zero, (a8 x hx2).1, (a8 y hy2).2]
    exact hxy
  unfold _InvertVertex
  rw [hrun, Option.map_some']
  refine ⟨_, rfl, Ring_frame hring rfl (fun _ _ => rfl), a1, a2, a3, a4, a5, a6, ?_⟩
  intro x hx
  show ((V :: l.reverse).foldl swapLinks g).G x = g.G x
  apply a7
  simpa using hx

theorem pushedBy_eq (g : graph) (flag : Int) :
    ∀ l : List Int, pushedBy g flag l = stackOf (childPairs g flag l) := by
  intro l
  induction l with
  | nil => rfl
  | cons J t ih =>
    simp only [pushedBy, childPairs, stackOf, List.flatMap_append] at ih ⊢
    rw [ih]
    split_ifs <;> simp

theorem mem_childPairs (g : graph) (flag : Int) :
    ∀ (l : List Int) (p : Int × Int), p ∈ childPairs g flag l →
      ∃ J ∈ l, (g.G J).type = EDGE_DFSCHILD ∧ p.1 = (g.G J).v := by
  intro l
  induction l with
  | nil => intro p hp; simp [childPairs] at hp
  | cons J t ih =>
    intro p hp
    simp only [childPairs, List.mem_append] at hp
    rcases hp with hp | hp
    · obtain ⟨J2, h1, h2⟩ := ih p hp
      exact ⟨J2, List.mem_cons_of_mem _ h1, h2⟩
    · by_cases hc : (g.G J).type = EDGE_DFSCHILD
      · rw [if_pos hc, List.mem_singleton] at hp
        subst hp
        exact ⟨J, List.mem_cons_self _ _, hc, rfl⟩
      · rw [if_neg hc] at hp
        simp at hp

theorem childPairs_mem (g : graph) (flag : Int) :
    ∀ (l : List Int) (J : Int), J ∈ l → (g.G J).type = EDGE_DFSCHILD →
      ∃ p ∈ childPairs g flag l, p.1 = (g.G J).v := by
  intro l
  induction l with
  | nil => intro J hJ; simp at hJ
  | cons J0 t ih =>
    intro J hJ hc
    simp only [childPairs, List.mem_append]
    rcases List.mem_cons.1 hJ with rfl | hJ
    · refine ⟨((g.G J).v, Int.xor flag (if (g.G J).inverted then 1 else 0)), Or.inr ?_, rfl⟩
      rw [if_pos hc]
      exact List.mem_singleton_self _
    · obtain ⟨p, hp, e⟩ := ih J hJ hc
      exact ⟨p, Or.inl hp, e⟩

theorem childPairs_weight (g : graph) (flag : Int) (wt : Int → Nat) :
    ∀ l : List Int,
      ((childPairs g flag l).map fun p => wt p.1).sum = childWeight g wt l := by
  intro l
  induction l with
  | nil => rfl
  | cons J t ih =>
    simp only [childPairs, List.map_append, List.sum_append, ih]
    unfold childWeight
    by_cases hc : (g.G J).type = EDGE_DFSCHILD
    · simp [hc, List.filter_cons]
      omega
    · simp [hc, List.filter_cons]

theorem childWeight_congr (g s : graph) (wt : Int → Nat)
    (h : ∀ x, (s.G x).type = (g.G x).type ∧ (s.G x).v = (g.G x).v) (l : List Int) :
    childWeight s wt l = childWeight g wt l := by
  unfold childWeight
  have e1 : (fun J => decide ((s.G J).type = EDGE_DFSCHILD)) =
      (fun J => decide ((g.G J).type = EDGE_DFSCHILD)) := by
    funext J; rw [(h J).1]
  have e2 : (fun J => wt (s.G J).v) = (fun J => wt (g.G J).v) := by
    funext J; rw [(h J).2]
  rw [e1, e2]

theorem childWeight_reverse (g : graph) (wt : Int → Nat) (l : List Int) :
    childWeight g wt l.reverse = childWeight g wt l := by
  unfold childWeight
  rw [List.filter_reverse, List.map_reverse, List.sum_reverse]

theorem childWeight_mem (g : graph) (wt : Int → Nat) (l : List Int) (J : Int) (hJ : J ∈ l)
    (hc : (g.G J).type = EDGE_DFSCHILD) : wt (g.G J).v ≤ childWeight g wt l := by
  unfold childWeight
  apply List.single_le_sum (fun _ _ => Nat.zero_le _)
  refine List.mem_map.2 ⟨J, List.mem_filter.2 ⟨hJ, by simp [hc]⟩, rfl⟩

theorem orientLoop_pop (fuel n : Nat) (s : graph) (flag U : Int) (rest : List Int) :
    orientLoop fuel (n + 1) { s with theStack := flag :: U :: rest } 0 =
      ((if flag ≠ 0 then _InvertVertex fuel { s with theStack := rest } U
        else some { s with theStack := rest }).bind fun g =>
          pushDFSChildren fuel g ((g.G U).link 0) flag 0).bind fun g =>
            orientLoop fuel n g 0 := by
  rw [orientLoop]
  rfl

theorem orientLoop_empty (fuel n : Nat) (s : graph) (h : s.theStack = []) :
    orientLoop fuel (n + 1) s 0 = some s := by
  rw [orientLoop]
  simp [sp_NonEmpty, h]

theorem orientInv_stack {g : graph} {rl : Int → List Int} {s : graph} (h : OrientInv g rl s)
    (st : List Int) : OrientInv g rl { s with theStack := st } := h

theorem reach_lt {fuel : Nat} {g : graph} {rl : Int → List Int} {wt : Int → Nat}
    (hg : OrientReady fuel g rl wt) {U : Int} (hU : Reach g rl U) :
    U < g.edgeOffset ∧ ∀ x ∈ rl U, g.edgeOffset ≤ x :=
  ⟨(hg.2.2.1 U hU).1.2.2.1, (hg.2.2.1 U hU).1.2.2.2⟩

theorem reach_apart {fuel : Nat} {g : graph} {rl : Int → List Int} {wt : Int → Nat}
    (hg : OrientReady fuel g rl wt) {U W : Int} (hU : Reach g rl U) (hW : Reach g rl W)
    (hne : W ≠ U) : ∀ x ∈ W :: rl W, x ∉ U :: rl U := by
  intro x hx hx2
  have hU2 := reach_lt hg hU
  have hW2 := reach_lt hg hW
  rcases List.mem_cons.1 hx with rfl | hx
  · rcases List.mem_cons.1 hx2 with h | h
    · exact hne h
    · have := hU2.2 _ h
      omega
  · rcases List.mem_cons.1 hx2 with h | h
    · have := hW2.2 _ hx
      omega
    · exact hg.2.2.2 W U hW hU hne x hx h

/-- One pass of the `while` loop of `_OrientVerticesInBicomp` that pops a reachable vertex
`U`: the loop continues from a state whose stack holds one pair for every child arc of `U`
and in which those arcs have a clear inverted flag. -/
theorem orientVisit {fuel : Nat} {g : graph} {rl : Int → List Int} {wt : Int → Nat}
    (hg : OrientReady fuel g rl wt) {U : Int} (hU : Reach g rl U) {s : graph}
    (hs : OrientInv g rl s) (flag : Int) (rest : List Int) :
    ∃ (ps : List (Int × Int)) (s2 : graph),
      (∀ n, orientLoop fuel (n + 1) { s with theStack := flag :: U :: rest } 0 =
        orientLoop fuel n s2 0) ∧
      s2.theStack = stackOf ps ++ rest ∧ OrientInv g rl s2 ∧
      (∀ x, (s2.G x).inverted = true → (s.G x).inverted = true) ∧
      (∀ J ∈ rl U, (g.G J).type = EDGE_DFSCHILD → (s2.G J).inverted = false) ∧
      (∀ p ∈ ps, ∃ J ∈ rl U, (g.G J).type = EDGE_DFSCHILD ∧ p.1 = (g.G J).v) ∧
      (∀ J ∈ rl U, (g.G J).type = EDGE_DFSCHILD → ∃ p ∈ ps, p.1 = (g.G J).v) ∧
      (ps.map fun p => wt p.1).sum = childWeight g wt (rl U) := by
  obtain ⟨hN, heo, htv, hinv, hrings, hfr⟩ := hs
  obtain ⟨hgR, hglen, -, -⟩ := hg.2.2.1 U hU
  -- the ring of U after the optional inversion
  have hA : ∃ (l : List Int) (s1 : graph),
      (if flag ≠ 0 then _InvertVertex fuel { s with theStack := rest } U
        else some { s with theStack := rest }) = some s1 ∧
      Ring s1 0 U l ∧ (l = rl U ∨ l = (rl U).reverse) ∧
      s1.N = s.N ∧ s1.edgeOffset = s.edgeOffset ∧ s1.theStack = rest ∧
      (∀ x, (s1.G x).type = (s.G x).type) ∧ (∀ x, (s1.G x).v = (s.G x).v) ∧
      (∀ x, (s1.G x).inverted = (s.G x).inverted) ∧
      (∀ x, x ∉ U :: rl U → s1.G x = s.G x) := by
    have h0 : ∃ l0, Ring { s with theStack := rest } 0 U l0 ∧
        (l0 = rl U ∨ l0 = (rl U).reverse) := by
      rcases hrings U hU with h | h
      · exact ⟨_, Ring_frame h rfl (fun _ _ => rfl), Or.inl rfl⟩
      · exact ⟨_, Ring_frame h rfl (fun _ _ => rfl), Or.inr rfl⟩
    obtain ⟨l0, hl0, hl0e⟩ := h0
    by_cases hf : flag ≠ 0
    · have hlen : l0.length < fuel := by
        rcases hl0e with rfl | rfl
        · exact hglen
        · simpa using hglen
      obtain ⟨s1, e1, r1, n1, o1, t1, ty1, v1, i1, f1⟩ :=
        invertVertex_ring fuel { s with theStack := rest } U l0 hl0 hlen
      refine ⟨l0.reverse, s1, ?_, r1, ?_, n1, o1, t1, ty1, v1, i1, ?_⟩
      · rw [if_pos hf, e1]
      · rcases hl0e with rfl | rfl
        · exact Or.inr rfl
        · exact Or.inl (List.reverse_reverse _)
      · intro x hx
        apply f1
        rcases hl0e with rfl | rfl
        · exact hx
        · simpa using hx
    · refine ⟨l0, _, if_neg hf, hl0, hl0e, rfl, rfl, rfl, fun _ => rfl, fun _ => rfl,
        fun _ => rfl, fun _ _ => rfl⟩
  obtain ⟨l, s1, e1, r1, hl, n1, o1, t1, ty1, v1, i1, f1⟩ := hA
  have hmem : ∀ x, x ∈ l ↔ x ∈ rl U := by
    intro x
    rcases hl with rfl | rfl <;> simp
  have hlen : l.length < fuel := by
    rcases hl with rfl | rfl
    · exact hglen
    · simpa using hglen
  -- the inner loop over the ring
  have hB : pushDFSChildren fuel s1 ((s1.G U).link 0) flag 0 =
      some (l.foldl (orientArc flag) s1) := by
    have hch : List.Chain' (fun x y => (s1.G x).link 0 = y) (l ++ [U]) :=
      List.Chain'.imp (fun a b h => h.1) r1.1.tail
    have := pushDFSChildren_chain flag U l s1 (fuel - (l.length + 1)) hch r1.2.2.2 r1.2.2.1
    rw [Ring_first r1]
    have e : l.length + 1 + (fuel - (l.length + 1)) = fuel := by omega
    rw [e] at this
    exact this
  obtain ⟨a1, a2, a3, a4, a5, a6, a7, a8⟩ := orientArcs_spec flag l s1 (List.nodup_cons.1 r1.2.1).2
  refine ⟨childPairs s1 flag l, l.foldl (orientArc flag) s1, ?_, ?_, ?_, ?_, ?_, ?_, ?_, ?_⟩
  · intro n
    rw [orientLoop_pop, e1, Option.some_bind, hB, Option.some_bind]
  · rw [a8, pushedBy_eq, t1]
  · refine ⟨by rw [a1, n1, hN], by rw [a2, o1, heo], ?_, ?_, ?_, ?_⟩
    · intro x
      rw [a4, a5, ty1, v1]
      exact htv x
    · intro x hx
      rw [a7] at hx
      split_ifs at hx
      rw [i1] at hx
      exact hinv x hx
    · intro W hW
      by_cases hWU : W = U
      · subst hWU
        have : Ring (l.foldl (orientArc flag) s1) 0 W l :=
          Ring_frame r1 a2 (fun x _ => a3 x)
        rcases hl with rfl | rfl
        · exact Or.inl this
        · exact Or.inr this
      · have hap := reach_apart hg hU hW hWU
        rcases hrings W hW with h | h
        · refine Or.inl (Ring_frame h (by rw [a2, o1]) ?_)
          intro x hx
          rw [a3, f1 x (hap x hx)]
        · refine Or.inr (Ring_frame h (by rw [a2, o1]) ?_)
          intro x hx
          rw [a3, f1 x (hap x (by simpa using hx))]
    · intro x hx hnr
      have hU2 := reach_lt hg hU
      have h1 : x ∉ l := by
        intro h
        have := hU2.2 x ((hmem x).1 h)
        omega
      have h2 : x ∉ U :: rl U := by
        intro h
        rcases List.mem_cons.1 h with rfl | h
        · exact hnr hU
        · exact h1 ((hmem x).2 h)
      rw [a6 x h1, f1 x h2]
      exact hfr x hx hnr
  · intro x hx
    rw [a7] at hx
    split_ifs at hx
    rw [i1] at hx
    exact hx
  · intro J hJ hc
    rw [a7, if_pos ⟨(hmem J).2 hJ, by rw [ty1, (htv J).1]; exact hc⟩]
  · intro p hp
    obtain ⟨J, hJ, hc, e⟩ := mem_childPairs s1 flag l p hp
    refine ⟨J, (hmem J).1 hJ, ?_, ?_⟩
    · rw [← (htv J).1, ← ty1]; exact hc
    · rw [e, v1, (htv J).2]
  · intro J hJ hc
    obtain ⟨p, hp, e⟩ := childPairs_mem s1 flag l J ((hmem J).2 hJ)
      (by rw [ty1, (htv J).1]; exact hc)
    exact ⟨p, hp, by rw [e, v1, (htv J).2]⟩
  · rw [childPairs_weight, childWeight_congr g s1 wt (fun x => by rw [ty1, v1]; exact htv x)]
    rcases hl with rfl | rfl
    · rfl
    · exact childWeight_reverse g wt _

theorem graph_stack_eta (s : graph) (st : List Int) (h : s.theStack = st) :
    { s with theStack := st } = s := by
  subst h
  rfl

/-- The loop of `_OrientVerticesInBicomp` works off the pair of a reachable vertex `U` together
with the whole DFS subtree below it in at most `wt U` passes, leaving the rest of the stack,
and clears the inverted flag of every child arc in that subtree. -/
theorem orientSubtree {fuel : Nat} {g : graph} {rl : Int → List Int} {wt : Int → Nat}
    (hg : OrientReady fuel g rl wt) :
    ∀ (r : Nat) (U : Int), Reach g rl U → wt U < r → ∀ (s : graph), OrientInv g rl s →
      ∀ (flag : Int) (rest : List Int), ∃ (n : Nat) (s1 : graph), n ≤ wt U ∧
        (∀ m, orientLoop fuel (n + m) { s with theStack := flag :: U :: rest } 0 =
          orientLoop fuel m s1 0) ∧
        s1.theStack = rest ∧ OrientInv g rl s1 ∧
        (∀ x, (s1.G x).inverted = true → (s.G x).inverted = true) ∧
        ∀ W, Desc g rl U W → ∀ J ∈ rl W, (g.G J).type = EDGE_DFSCHILD →
          (s1.G J).inverted = false := by
  intro r
  induction r with
  | zero => intro U _ h; omega
  | succ r ih =>
    intro U hU hwt s hs flag rest
    -- a list of pushed pairs is worked off one subtree after the other
    have L : ∀ (ps : List (Int × Int)), (∀ p ∈ ps, Reach g rl p.1 ∧ wt p.1 < r) →
        ∀ (s : graph), OrientInv g rl s → ∃ (n : Nat) (s1 : graph),
          n ≤ (ps.map fun p => wt p.1).sum ∧
          (∀ m, orientLoop fuel (n + m) { s with theStack := stackOf ps ++ rest } 0 =
            orientLoop fuel m s1 0) ∧
          s1.theStack = rest ∧ OrientInv g rl s1 ∧
          (∀ x, (s1.G x).inverted = true → (s.G x).inverted = true) ∧
          ∀ p ∈ ps, ∀ W, Desc g rl p.1 W → ∀ J ∈ rl W, (g.G J).type = EDGE_DFSCHILD →
            (s1.G J).inverted = false := by
      intro ps
      induction ps with
      | nil =>
        intro _ s hs
        refine ⟨0, { s with theStack := rest }, Nat.le_refl _, ?_, rfl, orientInv_stack hs _,
          fun _ h => h, ?_⟩
        · intro m
          rw [Nat.zero_add]
          rfl
        · intro p hp
          simp at hp
      | cons p t iht =>
        intro hps s hs
        obtain ⟨hp1, hp2⟩ := hps p (List.mem_cons_self _ _)
        obtain ⟨n1, s1, b1, b2, b3, b4, b5, b6⟩ :=
          ih p.1 hp1 hp2 s hs p.2 (stackOf t ++ rest)
        obtain ⟨n2, s2, c1, c2, c3, c4, c5, c6⟩ :=
          iht (fun q hq => hps q (List.mem_cons_of_mem _ hq)) s1 b4
        rw [graph_stack_eta s1 _ b3] at c2
        refine ⟨n1 + n2, s2, ?_, ?_, c3, c4, fun x hx => b5 x (c5 x hx), ?_⟩
        · simp only [List.map_cons, List.sum_cons]
          omega
        · intro m
          have e : stackOf (p :: t) ++ rest = p.2 :: p.1 :: (stackOf t ++ rest) := by
            simp [stackOf]
          rw [e, Nat.add_assoc, b2, c2]
        · intro q hq W hW J hJ hc
          rcases List.mem_cons.1 hq with rfl | hq
          · by_contra hne
            have h1 : (s2.G J).inverted = true := by
              cases h : (s2.G J).inverted
              · exact absurd h hne
              · rfl
            have h2 := c5 J h1
            rw [b6 W hW J hJ hc] at h2
            exact Bool.noConfusion h2
          · exact c6 q hq W hW J hJ hc
    obtain ⟨ps, s2, d1, d2, d3, d4, d5, d6, d7, d8⟩ := orientVisit hg hU hs flag rest
    obtain ⟨-, -, -, hw⟩ := hg.2.2.1 U hU
    have hps : ∀ p ∈ ps, Reach g rl p.1 ∧ wt p.1 < r := by
      intro p hp
      obtain ⟨J, hJ, hc, e⟩ := d6 p hp
      rw [e]
      refine ⟨Reach.child U J hU hJ hc, ?_⟩
      have := childWeight_mem g wt (rl U) J hJ hc
      omega
    obtain ⟨n2, s3, c1, c2, c3, c4, c5, c6⟩ := L ps hps s2 d3
    rw [← d2, graph_stack_eta s2 _ rfl] at c2
    refine ⟨n2 + 1, s3, by omega, ?_, c3, c4, fun x hx => d4 x (c5 x hx), ?_⟩
    · intro m
      have e : n2 + 1 + m = (n2 + m) + 1 := by omega
      rw [e, d1, c2]
    · intro W hW J hJ hc
      cases hW with
      | refl =>
        by_contra hne
        have h1 : (s3.G J).inverted = true := by
          cases h : (s3.G J).inverted
          · exact absurd h hne
          · rfl
        have h2 := c5 J h1
        rw [d5 J hJ hc] at h2
        exact Bool.noConfusion h2
      | step _ J0 _ hJ0 hc0 hd =>
        obtain ⟨p, hp, e⟩ := d7 J0 hJ0 hc0
        rw [← e] at hd
        exact c6 p hp W hd J hJ hc

theorem orientBicomp {fuel : Nat} {g : graph} {rl : Int → List Int} {wt : Int → Nat}
    (hg : OrientReady fuel g rl wt) {R : Int} (hR : Reach g rl R) {s : graph}
    (hs : OrientInv g rl s) :
    ∃ s1, _OrientVerticesInBicomp fuel s R 0 = some s1 ∧ OrientInv g rl s1 ∧
      (∀ x, (s1.G x).inverted = true → (s.G x).inverted = true) ∧
      ∀ W, Desc g rl R W → ∀ J ∈ rl W, (g.G J).type = EDGE_DFSCHILD →
        (s1.G J).inverted = false := by
  obtain ⟨n, s1, h1, h2, h3, h4, h5, h6⟩ :=
    orientSubtree hg (wt R + 1) R hR (Nat.lt_succ_self _) s hs 0 []
  obtain ⟨-, -, hw, -⟩ := hg.2.2.1 R hR
  refine ⟨s1, ?_, h4, h5, h6⟩
  have e : _OrientVerticesInBicomp fuel s R 0 =
      orientLoop fuel fuel { s with theStack := [0, R] } 0 := rfl
  have e2 : fuel = n + ((fuel - n - 1) + 1) := by omega
  rw [e]
  nth_rewrite 2 [e2]
  rw [h2, orientLoop_empty _ _ _ h3]

theorem desc_snoc {g : graph} {rl : Int → List Int} {R U : Int} (h : Desc g rl R U) :
    ∀ J, J ∈ rl U → (g.G J).type = EDGE_DFSCHILD → Desc g rl R (g.G J).v := by
  induction h with
  | refl U =>
    intro J hJ hc
    exact Desc.step U J _ hJ hc (Desc.refl _)
  | step U J0 W hJ0 hc0 _ ih =>
    intro J hJ hc
    exact Desc.step U J0 _ hJ0 hc0 (ih J hJ hc)

theorem reach_desc {g : graph} {rl : Int → List Int} {U : Int} (h : Reach g rl U) :
    ∃ k : Nat, g.N + (k : Int) < g.edgeOffset ∧ (g.G (g.N + (k : Int))).link 0 ≠ NIL ∧
      Desc g rl (g.N + (k : Int)) U := by
  induction h with
  | root k h1 h2 => exact ⟨k, h1, h2, Desc.refl _⟩
  | child U J _ hJ hc ih =>
    obtain ⟨k, h1, h2, h3⟩ := ih
    exact ⟨k, h1, h2, desc_snoc h3 J hJ hc⟩

theorem reach_live {fuel : Nat} {g : graph} {rl : Int → List Int} {wt : Int → Nat}
    (hg : OrientReady fuel g rl wt) {U : Int} (hU : Reach g rl U) (h0 : 0 ≤ U) {s : graph}
    (hs : OrientInv g rl s) : (s.G U).link 0 ≠ NIL := by
  have hlt := reach_lt hg hU
  have key : ∀ l : List Int, (∀ x ∈ l, g.edgeOffset ≤ x) → Ring s 0 U l →
      (s.G U).link 0 ≠ NIL := by
    intro l hl hr
    rw [Ring_first hr]
    cases l with
    | nil =>
      simp only [List.nil_append, List.headD_cons, NIL]
      omega
    | cons a t =>
      have := hl a (List.mem_cons_self _ _)
      have := hg.2.1
      simp only [List.cons_append, List.headD_cons, NIL]
      omega
  rcases hs.2.2.2.2.1 U hU with h | h
  · exact key _ hlt.2 h
  · exact key _ (fun x hx => hlt.2 x (by simpa using hx)) h

theorem orientInv_start {fuel : Nat} {g : graph} {rl : Int → List Int} {wt : Int → Nat}
    (hg : OrientReady fuel g rl wt) : OrientInv g rl (sp_ClearStack g) :=
  ⟨rfl, rfl, fun _ => ⟨rfl, rfl⟩, fun _ h => h,
    fun U hU => Or.inl (Ring_frame (hg.2.2.1 U hU).1 rfl (fun _ _ => rfl)), fun _ _ _ => rfl⟩

theorem orientFold_inv {fuel : Nat} {g : graph} {rl : Int → List Int} {wt : Int → Nat}
    (hg : OrientReady fuel g rl wt) :
    ∀ k : Nat, (k : Int) ≤ g.edgeOffset - g.N →
      ∃ s, (List.range k).foldl
          (fun s (k : Nat) => s.bind fun s =>
            let R := g.N + (k : Int)
            if (s.G R).link 0 ≠ NIL then _OrientVerticesInBicomp fuel s R 0 else some s)
          (some (sp_ClearStack g)) = some s ∧
        OrientInv g rl s ∧
        ∀ i : Nat, i < k → (g.G (g.N + (i : Int))).link 0 ≠ NIL →
          ∀ W, Desc g rl (g.N + (i : Int)) W → ∀ J ∈ rl W, (g.G J).type = EDGE_DFSCHILD →
            (s.G J).inverted = false := by
  intro k
  induction k with
  | zero =>
    intro _
    exact ⟨_, rfl, orientInv_start hg, fun i hi => absurd hi (Nat.not_lt_zero _)⟩
  | succ k ih =>
    intro hk
    obtain ⟨s, e, hs, hc⟩ := ih (by push_cast at hk; omega)
    rw [List.range_succ, List.foldl_append, e]
    simp only [List.foldl_cons, List.foldl_nil, Option.some_bind]
    have hlt : g.N + (k : Int) < g.edgeOffset := by push_cast at hk; omega
    by_cases hlive : (g.G (g.N + (k : Int))).link 0 ≠ NIL
    · have hR : Reach g rl (g.N + (k : Int)) := Reach.root k hlt hlive
      have h0 : 0 ≤ g.N + (k : Int) := by have := hg.1; omega
      rw [if_pos (reach_live hg hR h0 hs)]
      obtain ⟨s1, e1, hs1, hm, hd⟩ := orientBicomp hg hR hs
      refine ⟨s1, e1, hs1, ?_⟩
      intro i hi hli W hW J hJ hcJ
      rcases Nat.lt_succ_iff_lt_or_eq.1 hi with hi | rfl
      · by_contra hne
        have h1 : (s1.G J).inverted = true := by
          cases h : (s1.G J).inverted
          · exact absurd h hne
          · rfl
        have h2 := hm J h1
        rw [hc i hi hli W hW J hJ hcJ] at h2
        exact Bool.noConfusion h2
      · exact hd W hW J hJ hcJ
    · have hnr : ¬ Reach g rl (g.N + (k : Int)) := by
        intro hR
        have h0 : 0 ≤ g.N + (k : Int) := by have := hg.1; omega
        exact hlive (reach_live hg hR h0 (orientInv_start hg))
      have e2 : (s.G (g.N + (k : Int))).link 0 = NIL := by
        rw [hs.2.2.2.2.2 _ hlt hnr]
        exact not_not.1 hlive
      rw [if_neg (not_not.2 e2)]
      refine ⟨s, rfl, hs, ?_⟩
      intro i hi hli W hW J hJ hcJ
      rcases Nat.lt_succ_iff_lt_or_eq.1 hi with hi | rfl
      · exact hc i hi hli W hW J hJ hcJ
      · exact absurd hli hlive

/-- C11: on a state whose adjacency rings are valid and pairwise disjoint and whose DFS_CHILD
arcs form trees below the live root copies (`OrientReady`), `_OrientVerticesInEmbedding`
with `PreserveSigns = 0` returns, and in the state it returns every DFS_CHILD arc in the ring
of a live root copy, or of a vertex reachable from a live root copy through DFS_CHILD arcs,
has its inverted flag cleared. -/
theorem orientVerticesInEmbedding_clears (fuel : Nat) (g : graph) (rl : Int → List Int)
    (wt : Int → Nat) (hg : OrientReady fuel g rl wt) :
    ∃ g1, _OrientVerticesInEmbedding fuel g = some g1 ∧
      ∀ U, Reach g rl U → ∀ J ∈ rl U, (g.G J).type = EDGE_DFSCHILD →
        (g1.G J).inverted = false := by
  have hk : (((g.edgeOffset - g.N).toNat : Nat) : Int) ≤ g.edgeOffset - g.N ∨
      g.edgeOffset - g.N < 0 := by omega
  by_cases hneg : g.edgeOffset - g.N < 0
  · refine ⟨sp_ClearStack g, ?_, ?_⟩
    · unfold _OrientVerticesInEmbedding
      have : (g.edgeOffset - g.N).toNat = 0 := by omega
      rw [this]
      rfl
    · intro U hU
      obtain ⟨k, h1, -, -⟩ := reach_desc hU
      omega
  · obtain ⟨s, e, hs, hc⟩ := orientFold_inv hg (g.edgeOffset - g.N).toNat (by omega)
    refine ⟨s, e, ?_⟩
    intro U hU J hJ hcJ
    obtain ⟨k, h1, h2, h3⟩ := reach_desc hU
    exact hc k (by omega) h2 U h3 J hJ hcJ

set_option maxRecDepth 100000 in
theorem chordedPath_reach :
    ∀ U, Reach chordedPathAtOrient chordedPathRings U → U ∈ [(6 : Int), 1, 2, 3, 4] := by
  have hN : chordedPathAtOrient.N = 5 := by decide!
  have hE : chordedPathAtOrient.edgeOffset = 10 := by decide!
  have hstep : ∀ U ∈ [(6 : Int), 1, 2, 3, 4], ∀ J ∈ chordedPathRings U,
      (chordedPathAtOrient.G J).type = EDGE_DFSCHILD →
        (chordedPathAtOrient.G J).v ∈ [(6 : Int), 1, 2, 3, 4] := by decide!
  intro U hU
  induction hU with
  | root k h1 h2 =>
    rw [hN, hE] at h1
    rw [hN] at h2 ⊢
    have : k = 0 ∨ k = 1 ∨ k = 2 ∨ k = 3 ∨ k = 4 := by omega
    rcases this with rfl | rfl | rfl | rfl | rfl
    · exact absurd h2 (by decide!)
    · decide
    · exact absurd h2 (by decide!)
    · exact absurd h2 (by decide!)
    · exact absurd h2 (by decide!)
  | child U J _ hJ hc ih => exact hstep U ih J hJ hc

set_option maxRecDepth 100000 in
theorem chordedPath_orientReady :
    OrientReady 50 chordedPathAtOrient chordedPathRings chordedPathWeight := by
  have h3 : ∀ U ∈ [(6 : Int), 1, 2, 3, 4],
      ringCheck chordedPathAtOrient 0 U (chordedPathRings U) = true ∧
      (chordedPathRings U).length < 50 ∧ chordedPathWeight U < 50 ∧
      childWeight chordedPathAtOrient chordedPathWeight (chordedPathRings U) <
        chordedPathWeight U := by decide!
  have h4 : ∀ U ∈ [(6 : Int), 1, 2, 3, 4], ∀ W ∈ [(6 : Int), 1, 2, 3, 4], U ≠ W →
      ∀ x ∈ chordedPathRings U, x ∉ chordedPathRings W := by decide
  refine ⟨by decide!, by decide!, ?_, ?_⟩
  · intro U hU
    obtain ⟨a, b, c, d⟩ := h3 U (chordedPath_reach U hU)
    exact ⟨(ringCheck_iff _ _ _ _).1 a, b, c, d⟩
  · intro U W hU hW
    exact h4 U (chordedPath_reach U hU) W (chordedPath_reach W hW)

set_option maxRecDepth 100000 in
theorem orientVerticesInEmbedding_clears_witness :
    OrientReady 50 chordedPathAtOrient chordedPathRings chordedPathWeight ∧
    (chordedPathAtOrient.G 14).type = EDGE_DFSCHILD ∧
    (chordedPathAtOrient.G 14).inverted = true ∧
    ∃ g1, _OrientVerticesInEmbedding 50 chordedPathAtOrient = some g1 ∧
      (g1.G 14).inverted = false := by
  obtain ⟨g1, h1, h2⟩ :=
    orientVerticesInEmbedding_clears 50 chordedPathAtOrient chordedPathRings chordedPathWeight
      chordedPath_orientReady
  have r6 : Reach chordedPathAtOrient chordedPathRings 6 := by
    have := @Reach.root chordedPathAtOrient chordedPathRings 1 (by decide!) (by decide!)
    rwa [show chordedPathAtOrient.N + ((1 : Nat) : Int) = 6 by decide!] at this
  have r1 : Reach chordedPathAtOrient chordedPathRings 1 := by
    have := Reach.child 6 10 r6 (by decide) (by decide!)
    rwa [show (chordedPathAtOrient.G 10).v = 1 by decide!] at this
  have r2 : Reach chordedPathAtOrient chordedPathRings 2 := by
    have := Reach.child 1 12 r1 (by decide) (by decide!)
    rwa [show (chordedPathAtOrient.G 12).v = 2 by decide!] at this
  exact ⟨chordedPath_orientReady, by decide!, by decide!, g1, h1,
    h2 2 r2 14 (by decide) (by decide!)⟩

/-! ### `_HandleInactiveVertex`, the descend step and the short-circuit of `_WalkDown` -/

/-- C30: `_HandleInactiveVertex` returns `OK` for every input and leaves the graph as it is;
the new `W` is `extFace[W].link[1 ^ WPrevLink]`, which for the link indices `0` and `1` is
`extFace[W].link[1 - WPrevLink]`; the new `WPrevLink` is `0` if `extFace[W'].link[0] == W`
and `1` otherwise; and the result is the same for any two values of `BicompRoot`. -/
theorem handleInactiveVertex_spec (g : graph) (BicompRoot W WPrevLink : Int) :
    (_HandleInactiveVertex g BicompRoot W WPrevLink).1 = OK ∧
    (_HandleInactiveVertex g BicompRoot W WPrevLink).2.1 = g ∧
    (_HandleInactiveVertex g BicompRoot W WPrevLink).2.2.1 =
      (g.extFace W).link (Int.xor 1 WPrevLink) ∧
    (_HandleInactiveVertex g BicompRoot W 0).2.2.1 = (g.extFace W).link (1 - 0) ∧
    (_HandleInactiveVertex g BicompRoot W 1).2.2.1 = (g.extFace W).link (1 - 1) ∧
    (_HandleInactiveVertex g BicompRoot W WPrevLink).2.2.2 =
      (if (g.extFace (_HandleInactiveVertex g BicompRoot W WPrevLink).2.2.1).link 0 = W
        then 0 else 1) ∧
    ∀ BicompRoot2 : Int,
      _HandleInactiveVertex g BicompRoot2 W WPrevLink =
        _HandleInactiveVertex g BicompRoot W WPrevLink :=
  ⟨rfl, rfl, rfl, rfl, rfl, rfl, fun _ => rfl⟩

/-- C28: the descend step of `_WalkDown` at a vertex `W` with a pertinent child bicomp, with
`R = _GetPertinentChildBicomp(W)`, `X = extFace[R].link[0]` and `Y = extFace[R].link[1]`.
The loop goes on from the state and the `W` that the step yields.  The next `W` is `X` if `X`
is internally active; otherwise `Y` if `Y` is internally active; otherwise `X` if `X` is
pertinent; otherwise `Y`, whether pertinent or not.  The step pushes `(W, WPrevLink)` and
then `(R, Rout)` with `Rout = 0` if the next `W` is `X` and `Rout = 1` if it is not (it is
then `Y`), and changes nothing else. -/
theorem walkDownDescend_choice (fns : graphFunctionTable)
    (loop : graph → Int → Int → Run WalkDownExit) (g : graph) (I RootVertex W WPrevLink : Int)
    (hp : (g.V W).pertinentBicompList ≠ NIL) :
    let R := _GetPertinentChildBicomp g W
    let X := (g.extFace R).link 0
    let Y := (g.extFace R).link 1
    let r := walkDownDescend g I W WPrevLink
    walkDownRest fns loop g I RootVertex W WPrevLink = loop r.1 r.2.1 r.2.2 ∧
    r.2.1 =
      (if _VertexActiveStatus g X I = VAS_INTERNAL then X
       else if _VertexActiveStatus g Y I = VAS_INTERNAL then Y
       else if PERTINENT g X then X
       else Y) ∧
    (r.2.1 = X ∨ r.2.1 = Y) ∧
    r.1 = { g with
      theStack := (if r.2.1 = X then 0 else 1) :: R :: WPrevLink :: W :: g.theStack } := by
  intro R X Y r
  have hr : r.2.1 =
      (if _VertexActiveStatus g X I = VAS_INTERNAL then X
       else if _VertexActiveStatus g Y I = VAS_INTERNAL then Y
       else if PERTINENT g X then X
       else Y) := rfl
  refine ⟨?_, hr, ?_, rfl⟩
  · unfold walkDownRest
    rw [if_pos hp]
  · rw [hr]
    split_ifs
    · exact Or.inl rfl
    · exact Or.inr rfl
    · exact Or.inl rfl
    · exact Or.inr rfl

set_option maxRecDepth 100000 in
theorem walkDownDescend_choice_witness :
    (chordedPathAtWalkDown.V 2).pertinentBicompList ≠ NIL ∧
    (walkDownDescend chordedPathAtWalkDown 1 2 1).2.1 = 3 ∧
    (walkDownDescend chordedPathAtWalkDown 1 2 1).1.theStack = [1, 8, 1, 2] := by
  have h := walkDownDescend_choice stdFunctions (fun g _ _ => ⟨g, none⟩)
    chordedPathAtWalkDown 1 7 2 1 (by decide!)
  refine ⟨by decide!, ?_, ?_⟩
  · rw [h.2.1]
    decide!
  · rw [h.2.2.2]
    decide!

theorem setInversionFlag_link (g : graph) (i x j : Int) :
    ((setInversionFlag g i x).extFace j).link = (g.extFace j).link := by
  simp only [setInversionFlag, upd]
  split_ifs with h
  · subst h; rfl
  · rfl

theorem setInversionFlag_flag (g : graph) (i x : Int) :
    ((setInversionFlag g i x).extFace i).inversionFlag = x := by
  simp [setInversionFlag, upd]

theorem shortCircuit_extFace (g : graph) (R RootSide W WPrevLink : Int) :
    ((walkDownShortCircuit g R RootSide W WPrevLink).extFace R).link RootSide = W ∧
    ((walkDownShortCircuit g R RootSide W WPrevLink).extFace W).link WPrevLink = R ∧
    ((walkDownShortCircuit g R RootSide W WPrevLink).extFace W).inversionFlag =
      (if ((walkDownShortCircuit g R RootSide W WPrevLink).extFace W).link 0 =
          ((walkDownShortCircuit g R RootSide W WPrevLink).extFace W).link 1 ∧
          WPrevLink = RootSide then 1 else 0) := by
  have e : walkDownShortCircuit g R RootSide W WPrevLink =
      setInversionFlag (setExtFaceLink (setExtFaceLink g R RootSide W) W WPrevLink R) W
        (if ((setExtFaceLink (setExtFaceLink g R RootSide W) W WPrevLink R).extFace W).link 0 =
            ((setExtFaceLink (setExtFaceLink g R RootSide W) W WPrevLink R).extFace W).link 1 ∧
            WPrevLink = RootSide then 1 else 0) := by
    unfold walkDownShortCircuit
    dsimp only
    split_ifs <;> rfl
  rw [e]
  refine ⟨?_, ?_, ?_⟩
  · rw [setInversionFlag_link, setExtFaceLink_link, setExtFaceLink_link]
    by_cases h : R = W ∧ RootSide = WPrevLink
    · rw [if_pos h]; exact h.1
    · rw [if_neg h, if_pos ⟨rfl, rfl⟩]
  · rw [setInversionFlag_link, setExtFaceLink_link, if_pos ⟨rfl, rfl⟩]
  · rw [setInversionFlag_flag, setInversionFlag_link]

/-- C27: when the inner loop of a `RootSide` pass of `_WalkDown` on the root `R` ends at the
vertex `W` with prev-link `WPrevLink` and the stack is empty, the pass goes on with the
short-circuit: in the state it leaves `extFace[R].link[RootSide] = W` and
`extFace[W].link[WPrevLink] = R`, and `extFace[W].inversionFlag` is `1` if
`extFace[W].link[0] == extFace[W].link[1]` (read after the two assignments) and
`WPrevLink == RootSide`, and `0` in every other case. -/
theorem walkDown_short_circuit (fuel : Nat) (fns : graphFunctionTable) (g : graph)
    (I R RootSide : Int) (g1 : graph) (W WPrevLink : Int)
    (hloop : walkDownPassLoop fuel fns g I R RootSide = ⟨g1, some (.ended W WPrevLink)⟩)
    (hst : sp_NonEmpty g1 = false) :
    (walkDownPass fuel fns g I R RootSide).g = walkDownShortCircuit g1 R RootSide W WPrevLink ∧
    (((walkDownPass fuel fns g I R RootSide).g).extFace R).link RootSide = W ∧
    (((walkDownPass fuel fns g I R RootSide).g).extFace W).link WPrevLink = R ∧
    ((((walkDownPass fuel fns g I R RootSide).g).extFace W).inversionFlag = 1 ↔
      ((((walkDownPass fuel fns g I R RootSide).g).extFace W).link 0 =
        (((walkDownPass fuel fns g I R RootSide).g).extFace W).link 1 ∧
        WPrevLink = RootSide)) ∧
    (¬ ((((walkDownPass fuel fns g I R RootSide).g).extFace W).link 0 =
        (((walkDownPass fuel fns g I R RootSide).g).extFace W).link 1 ∧
        WPrevLink = RootSide) →
      (((walkDownPass fuel fns g I R RootSide).g).extFace W).inversionFlag = 0) := by
  have e : (walkDownPass fuel fns g I R RootSide).g =
      walkDownShortCircuit g1 R RootSide W WPrevLink := by
    unfold walkDownPass
    rw [hloop]
    simp only [hst]
    by_cases hW : W = R
    · simp [hW]
    · simp [hW]
  obtain ⟨h1, h2, h3⟩ := shortCircuit_extFace g1 R RootSide W WPrevLink
  rw [e]
  refine ⟨rfl, h1, h2, ?_, ?_⟩
  · rw [h3]
    by_cases h : ((walkDownShortCircuit g1 R RootSide W WPrevLink).extFace W).link 0 =
        ((walkDownShortCircuit g1 R RootSide W WPrevLink).extFace W).link 1 ∧
        WPrevLink = RootSide
    · rw [if_pos h]
      exact ⟨fun _ => h, fun _ => rfl⟩
    · rw [if_neg h]
      exact ⟨fun h0 => absurd h0 (by decide), fun h1 => absurd h1 h⟩
  · intro h
    rw [h3, if_neg h]

set_option maxRecDepth 100000 in
theorem walkDown_short_circuit_witness :
    walkDownPassLoop 50 stdFunctions (sp_ClearStack chordedPathAtWalkDown) 1 7 0 =
      ⟨(walkDownPassLoop 50 stdFunctions (sp_ClearStack chordedPathAtWalkDown) 1 7 0).g,
        some (.ended 4 0)⟩ ∧
    sp_NonEmpty
      (walkDownPassLoop 50 stdFunctions (sp_ClearStack chordedPathAtWalkDown) 1 7 0).g = false ∧
    (((walkDownPass 50 stdFunctions (sp_ClearStack chordedPathAtWalkDown) 1 7 0).g).extFace
      7).link 0 = 4 ∧
    (((walkDownPass 50 stdFunctions (sp_ClearStack chordedPathAtWalkDown) 1 7 0).g).extFace
      4).inversionFlag = 0 := by
  have hl : walkDownPassLoop 50 stdFunctions (sp_ClearStack chordedPathAtWalkDown) 1 7 0 =
      ⟨(walkDownPassLoop 50 stdFunctions (sp_ClearStack chordedPathAtWalkDown) 1 7 0).g,
        some (.ended 4 0)⟩ := by
    have hv : (walkDownPassLoop 50 stdFunctions (sp_ClearStack chordedPathAtWalkDown)
        1 7 0).val = some (.ended 4 0) := by decide!
    cases h : walkDownPassLoop 50 stdFunctions (sp_ClearStack chordedPathAtWalkDown) 1 7 0
    rw [h] at hv
    simp only at hv
    rw [hv]
  have hs : sp_NonEmpty
      (walkDownPassLoop 50 stdFunctions (sp_ClearStack chordedPathAtWalkDown) 1 7 0).g =
        false := by decide!
  have h := walkDown_short_circuit 50 stdFunctions (sp_ClearStack chordedPathAtWalkDown) 1 7 0
    _ 4 0 hl hs
  refine ⟨hl, hs, h.2.1, h.2.2.2.2 ?_⟩
  rw [h.1]
  decide!

/-! ### `_EmbedBackEdgeToDescendant` -/

theorem chain_keep {α : Type} {R R1 : α → α → Prop} {l : List α} (S : List α)
    (h : List.Chain' R l) (hl : ∀ x ∈ l, x ∈ S)
    (hkeep : ∀ a b, a ∈ S → b ∈ S → R a b → R1 a b) : List.Chain' R1 l := by
  rw [List.Chain'.iff_mem] at h
  refine List.Chain'.imp ?_ h
  rintro a b ⟨ha, hb, hab⟩
  exact hkeep a b (hl a ha) (hl b hb) hab

/-- Removal of the element `c` from a circular chain: the neighbours of `c` become
neighbours, the other pairs stay as they are. -/
theorem cyc_delete {α : Type} {R R1 : α → α → Prop} (pre post : List α) (c : α)
    (h : List.Chain' R ((pre ++ c :: post) ++ (pre ++ c :: post).take 1))
    (hkeep : ∀ a b, a ∈ pre ++ post → b ∈ pre ++ post → R a b → R1 a b)
    (hnew : ∀ p s, p ∈ pre ++ post → s ∈ pre ++ post → R p c → R c s → R1 p s) :
    List.Chain' R1 ((pre ++ post) ++ (pre ++ post).take 1) := by
  cases pre with
  | nil =>
    cases post with
    | nil => simp
    | cons s q =>
      simp only [List.nil_append, List.take_succ_cons, List.take_zero, List.cons_append] at h ⊢
      have h1 : R c s := (List.chain'_cons.1 h).1
      have h2 : List.Chain' R ((s :: q) ++ [c]) := (List.chain'_cons.1 h).2
      rw [List.chain'_append] at h2
      obtain ⟨h3, -, h4⟩ := h2
      have e : s :: (q ++ [s]) = (s :: q) ++ [s] := rfl
      rw [e, List.chain'_append]
      refine ⟨chain_keep (s :: q) h3 (fun x hx => hx) hkeep, List.chain'_singleton _, ?_⟩
      intro x hx y hy
      simp only [List.head?_cons, Option.mem_def, Option.some.injEq] at hy
      subst hy
      have hx2 : x ∈ s :: q := List.mem_of_mem_getLast? hx
      exact hnew x s hx2 (List.mem_cons_self _ _) (h4 x hx c (by simp)) h1
  | cons f pr =>
    have e1 : (f :: pr ++ c :: post) ++ (f :: pr ++ c :: post).take 1 =
        (f :: pr) ++ (c :: (post ++ [f])) := by simp
    have e2 : (f :: pr ++ post) ++ (f :: pr ++ post).take 1 = (f :: pr) ++ (post ++ [f]) := by
      simp
    rw [e1, List.chain'_append] at h
    obtain ⟨h1, h2, h3⟩ := h
    rw [e2, List.chain'_append]
    have hm : ∀ x ∈ post ++ [f], x ∈ f :: pr ++ post := by
      intro x hx
      rcases List.mem_append.1 hx with hx | hx
      · exact List.mem_append_right _ hx
      · rw [List.mem_singleton.1 hx]; exact List.mem_cons_self _ _
    refine ⟨chain_keep (f :: pr ++ post) h1 (fun x hx => List.mem_append_left _ hx) hkeep,
      chain_keep (f :: pr ++ post) (List.chain'_cons'.1 h2).2 hm hkeep, ?_⟩
    intro x hx y hy
    have hx2 : x ∈ f :: pr ++ post := List.mem_append_left _ (List.mem_of_mem_getLast? hx)
    have hxc : R x c := h3 x hx c (by simp)
    have hy2 : y ∈ f :: pr ++ post := hm y (List.mem_of_mem_head? hy)
    have hcy : R c y := (List.chain'_cons'.1 h2).1 y hy
    exact hnew x y hx2 hy2 hxc hcy

theorem attachArc_link (g : graph) (arc side X j t : Int) (hs : side = 0 ∨ side = 1)
    (h1 : arc ≠ X) (h2 : arc ≠ (g.G X).link side) :
    ((attachArc g arc side X).G j).link t =
      if j = X ∧ t = side then arc
      else if j = (g.G X).link side ∧ t = Int.xor 1 side then arc
      else if j = arc ∧ t = side then (g.G X).link side
      else if j = arc ∧ t = Int.xor 1 side then X
      else (g.G j).link t := by
  have hq : Int.xor 1 side ≠ side := xor_one_ne hs
  have hX : X ≠ arc := fun e => h1 e.symm
  have e1 : ((setGLink g arc (Int.xor 1 side) X).G X).link side = (g.G X).link side := by
    rw [setGLink_link, if_neg (fun h => hX h.1)]
  have e2 : ((setGLink (setGLink g arc (Int.xor 1 side) X) arc side ((g.G X).link side)).G
      X).link side = (g.G X).link side := by
    rw [setGLink_link, if_neg (fun h => hX h.1), e1]
  unfold attachArc
  simp only [e1, e2]
  rw [setGLink_link, setGLink_link, setGLink_link, setGLink_link]

theorem attachArc_fields (g : graph) (arc side X : Int) :
    (attachArc g arc side X).N = g.N ∧ (attachArc g arc side X).edgeOffset = g.edgeOffset ∧
    (attachArc g arc side X).V = g.V ∧ (attachArc g arc side X).extFace = g.extFace ∧
    (∀ j, ((attachArc g arc side X).G j).v = (g.G j).v) ∧
    (∀ j, ((attachArc g arc side X).G j).type = (g.G j).type) ∧
    (∀ j, ((attachArc g arc side X).G j).inverted = (g.G j).inverted) := by
  refine ⟨rfl, rfl, rfl, rfl, ?_, ?_, ?_⟩
  · intro j
    unfold attachArc
    simp only [setGLink_v]
  · intro j
    unfold attachArc
    simp only [setGLink_type]
  · intro j
    unfold attachArc
    simp only [setGLink_inverted]

/-- The four statements that add `arc` on the side `s` of `X` put it in front of the ring of
`X` in `link[s]` order. -/
theorem attachArc_ring {g : graph} {s X arc : Int} {l : List Int} (hs : s = 0 ∨ s = 1)
    (hR : Ring g s X l) (ha : arc ∉ X :: l) (hge : g.edgeOffset ≤ arc) :
    Ring (attachArc g arc s X) s X (arc :: l) := by
  have hq : Int.xor 1 s ≠ s := xor_one_ne hs
  have hq2 : s ≠ Int.xor 1 s := fun e => hq e.symm
  obtain ⟨h1, h2, h3, h4⟩ := hR
  have haX : arc ≠ X := fun e => ha (e ▸ List.mem_cons_self _ _)
  obtain ⟨n, tl, hne⟩ : ∃ n tl, l ++ [X] = n :: tl := by
    cases l with
    | nil => exact ⟨X, [], rfl⟩
    | cons x t => exact ⟨x, t ++ [X], rfl⟩
  have hn : (g.G X).link s = n := by
    rw [Ring_first ⟨h1, h2, h3, h4⟩, hne]; rfl
  have hnd : (n :: tl).Nodup := by
    rw [← hne]
    have := h2
    rw [List.nodup_cons] at this
    rw [List.nodup_append]
    refine ⟨this.2, List.nodup_singleton _, ?_⟩
    intro x hx hx2
    rw [List.mem_singleton] at hx2
    subst hx2
    exact this.1 hx
  have hmem : ∀ x, x ∈ n :: tl ↔ x ∈ X :: l := by
    intro x
    rw [← hne]
    simp only [List.mem_append, List.mem_singleton, List.mem_cons]
    tauto
  have han : arc ≠ n := fun e => ha ((hmem arc).1 (e ▸ List.mem_cons_self _ _))
  have hl := attachArc_link g arc s X
  have c0 : List.Chain (Linked g s) n tl := by
    have : List.Chain' (Linked g s) (l ++ [X]) := h1.tail
    rw [hne] at this
    exact this
  refine ⟨?_, ?_, h3, ?_⟩
  · have e : X :: (arc :: l) ++ [X] = X :: arc :: n :: tl := by
      simp only [List.cons_append, hne]
    rw [e, List.chain'_cons, List.chain'_cons]
    refine ⟨?_, ?_, ?_⟩
    · constructor
      · rw [hl X s hs haX (hn ▸ han), if_pos ⟨rfl, rfl⟩]
      · rw [hl arc (Int.xor 1 s) hs haX (hn ▸ han), if_neg (fun h => haX h.1),
          if_neg (fun h => (hn ▸ han) h.1), if_neg (fun h => hq h.2), if_pos ⟨rfl, rfl⟩]
    · constructor
      · rw [hl arc s hs haX (hn ▸ han), if_neg (fun h => haX h.1),
          if_neg (fun h => hq2 h.2), if_pos ⟨rfl, rfl⟩, hn]
      · rw [hl n (Int.xor 1 s) hs haX (hn ▸ han), if_neg (fun h => hq h.2),
          if_pos ⟨hn.symm, rfl⟩]
    · refine chain_frame n tl c0 ?_ ?_
      · intro x hx
        have hx1 : x ∈ l := by
          have : (n :: tl).dropLast = l := by rw [← hne]; simp
          rw [this] at hx
          exact hx
        have hxX : x ≠ X := by
          intro e
          rw [List.nodup_cons] at h2
          exact h2.1 (e ▸ hx1)
        have hxa : x ≠ arc := fun e => ha (e ▸ List.mem_cons_of_mem _ hx1)
        rw [hl x s hs haX (hn ▸ han), if_neg (fun h => hxX h.1), if_neg (fun h => hq2 h.2),
          if_neg (fun h => hxa h.1), if_neg (fun h => hxa h.1)]
      · intro y hy
        have hyn : y ≠ n := by
          intro e
          rw [List.nodup_cons] at hnd
          exact hnd.1 (e ▸ hy)
        have hya : y ≠ arc :=
          fun e => ha ((hmem y).1 (List.mem_cons_of_mem _ hy) |> fun h => e ▸ h)
        rw [hl y (Int.xor 1 s) hs haX (hn ▸ han), if_neg (fun h => hq h.2),
          if_neg (fun h => hyn (hn ▸ h.1)), if_neg (fun h => hya h.1),
          if_neg (fun h => hya h.1)]
  · rw [List.nodup_cons] at h2 ⊢
    refine ⟨?_, List.nodup_cons.2 ⟨fun h => ha (List.mem_cons_of_mem _ h), h2.2⟩⟩
    intro h
    rcases List.mem_cons.1 h with h | h
    · exact haX h.symm
    · exact h2.1 h
  · intro x hx
    rcases List.mem_cons.1 hx with rfl | hx
    · exact hge
    · exact h4 x hx

/-- In `link[0]` order the arc added on the side `s` of `X` comes first for `s = 0` and last
for `s = 1`. -/
theorem attachArc_ring0 {g : graph} {s X arc : Int} {l : List Int} (hs : s = 0 ∨ s = 1)
    (hR : Ring g 0 X l) (ha : arc ∉ X :: l) (hge : g.edgeOffset ≤ arc) :
    Ring (attachArc g arc s X) 0 X (if s = 0 then arc :: l else l ++ [arc]) := by
  rcases hs with rfl | rfl
  · rw [if_pos rfl]
    exact attachArc_ring (Or.inl rfl) hR ha hge
  · rw [if_neg (by decide)]
    have h1 : Ring g 1 X l.reverse := by
      have := Ring_reverse (Or.inl rfl) hR
      rwa [xor_one_zero] at this
    have h2 := attachArc_ring (Or.inr rfl) h1 (by simpa using ha) hge
    have h3 := Ring_reverse (Or.inr rfl) h2
    rw [xor_one_one] at h3
    simpa using h3

theorem attachArc_frame (g : graph) (arc side X j : Int) (hs : side = 0 ∨ side = 1)
    (h1 : arc ≠ X) (h2 : arc ≠ (g.G X).link side)
    (hj : j ≠ X ∧ j ≠ arc ∧ j ≠ (g.G X).link side) :
    ((attachArc g arc side X).G j).link = (g.G j).link := by
  funext t
  rw [attachArc_link g arc side X j t hs h1 h2, if_neg (fun h => hj.1 h.1),
    if_neg (fun h => hj.2.2 h.1), if_neg (fun h => hj.2.1 h.1), if_neg (fun h => hj.2.1 h.1)]

theorem detachForwardArc_G (g : graph) (P f : Int) :
    ∃ g0 : graph, g0.G = g.G ∧ g0.N = g.N ∧ g0.edgeOffset = g.edgeOffset ∧
      g0.extFace = g.extFace ∧
      g0.V = (detachForwardArc g P f).V ∧
      detachForwardArc g P f =
        setGLink (setGLink g0 ((g.G f).link 0) 1 ((g.G f).link 1)) ((g.G f).link 1) 0
          ((g.G f).link 0) := by
  have key : ∀ g0 : graph, g0.G = g.G →
      setGLink (setGLink g0 ((g0.G f).link 0) 1 ((g0.G f).link 1))
          (((setGLink g0 ((g0.G f).link 0) 1 ((g0.G f).link 1)).G f).link 1) 0
          (((setGLink g0 ((g0.G f).link 0) 1 ((g0.G f).link 1)).G f).link 0) =
        setGLink (setGLink g0 ((g.G f).link 0) 1 ((g.G f).link 1)) ((g.G f).link 1) 0
          ((g.G f).link 0) := by
    intro g0 h0
    have a1 : ((setGLink g0 ((g0.G f).link 0) 1 ((g0.G f).link 1)).G f).link 1 =
        (g0.G f).link 1 := by
      rw [setGLink_link]
      split_ifs <;> rfl
    have a0 : ((setGLink g0 ((g0.G f).link 0) 1 ((g0.G f).link 1)).G f).link 0 =
        (g0.G f).link 0 := by
      rw [setGLink_link, if_neg (fun h => absurd h.2 (by decide))]
    rw [a1, a0, h0]
  unfold detachForwardArc
  by_cases h1 : (g.V P).fwdArcList = f
  · by_cases h2 : (g.G f).link 0 = f
    · simp only [if_pos h1, if_pos h2]
      exact ⟨setFwdArcList g P NIL, rfl, rfl, rfl, rfl, rfl, key _ rfl⟩
    · simp only [if_pos h1, if_neg h2]
      exact ⟨setFwdArcList g P ((g.G f).link 0), rfl, rfl, rfl, rfl, rfl, key _ rfl⟩
  · simp only [if_neg h1]
    exact ⟨g, rfl, rfl, rfl, rfl, rfl, key _ rfl⟩

theorem detachForwardArc_link (g : graph) (P f j t : Int) :
    ((detachForwardArc g P f).G j).link t =
      if j = (g.G f).link 1 ∧ t = 0 then (g.G f).link 0
      else if j = (g.G f).link 0 ∧ t = 1 then (g.G f).link 1
      else (g.G j).link t := by
  obtain ⟨g0, h0, -, -, -, -, e⟩ := detachForwardArc_G g P f
  rw [e, setGLink_link, setGLink_link, h0]

theorem detachForwardArc_fields (g : graph) (P f : Int) :
    (detachForwardArc g P f).N = g.N ∧ (detachForwardArc g P f).edgeOffset = g.edgeOffset ∧
    (detachForwardArc g P f).extFace = g.extFace ∧
    (∀ j, ((detachForwardArc g P f).G j).v = (g.G j).v) ∧
    (∀ j, ((detachForwardArc g P f).G j).type = (g.G j).type) ∧
    (∀ j, ((detachForwardArc g P f).G j).inverted = (g.G j).inverted) := by
  obtain ⟨g0, h0, h1, h2, h3, -, e⟩ := detachForwardArc_G g P f
  rw [e]
  refine ⟨h1, h2, h3, ?_, ?_, ?_⟩
  · intro j; rw [setGLink_v, setGLink_v, h0]
  · intro j; rw [setGLink_type, setGLink_type, h0]
  · intro j; rw [setGLink_inverted, setGLink_inverted, h0]

theorem detachForwardArc_V (g : graph) (P f Q : Int) :
    (detachForwardArc g P f).V Q =
      if Q = P ∧ (g.V P).fwdArcList = f then
        { g.V P with fwdArcList := if (g.G f).link 0 = f then NIL else (g.G f).link 0 }
      else g.V Q := by
  have e : (detachForwardArc g P f).V =
      (if (g.V P).fwdArcList = f then
        if (g.G f).link 0 = f then setFwdArcList g P NIL
        else setFwdArcList g P ((g.G f).link 0)
      else g).V := rfl
  rw [e]
  by_cases h1 : (g.V P).fwdArcList = f
  · by_cases hQ : Q = P
    · subst hQ
      by_cases h2 : (g.G f).link 0 = f
      · simp [h1, h2, setFwdArcList, upd]
      · simp [h1, h2, setFwdArcList, upd]
    · by_cases h2 : (g.G f).link 0 = f
      · simp [h1, h2, hQ, setFwdArcList, upd]
      · simp [h1, h2, hQ, setFwdArcList, upd]
  · simp [h1]

/-- Shape of a circular list around one of its elements `f`: its `link[s]` neighbour and
its `link[1^s]` neighbour are both `f` when `f` is alone, and are elements other than `f`
otherwise. -/
theorem Cycle_around {g : graph} {s f : Int} {pre post : List Int}
    (h : Cycle g s (pre ++ f :: post)) :
    (pre ++ post = [] → (g.G f).link s = f ∧ (g.G f).link (Int.xor 1 s) = f) ∧
    (pre ++ post ≠ [] → (g.G f).link s ∈ pre ++ post ∧
      (g.G f).link (Int.xor 1 s) ∈ pre ++ post ∧
      Linked g s ((g.G f).link (Int.xor 1 s)) f ∧ Linked g s f ((g.G f).link s)) := by
  obtain ⟨h1, h2⟩ := h
  cases pre with
  | nil =>
    cases post with
    | nil =>
      simp only [List.nil_append, List.take_succ_cons, List.take_zero, List.singleton_append,
        List.chain'_cons, List.chain'_singleton, and_true] at h1
      exact ⟨fun _ => ⟨h1.1, h1.2⟩, fun h => absurd rfl h⟩
    | cons x q =>
      refine ⟨fun h => absurd h (by simp), fun _ => ?_⟩
      simp only [List.nil_append, List.take_succ_cons, List.take_zero, List.cons_append] at h1 ⊢
      have a1 : Linked g s f x := (List.chain'_cons.1 h1).1
      have a2 : List.Chain' (Linked g s) ((x :: q) ++ [f]) := (List.chain'_cons.1 h1).2
      rw [List.chain'_append] at a2
      obtain ⟨y, hy⟩ : ∃ y, (x :: q).getLast? = some y := by
        cases h : (x :: q).getLast? with
        | none => simp at h
        | some y => exact ⟨y, rfl⟩
      have a3 : Linked g s y f := a2.2.2 y hy f (by simp)
      have hy2 : y ∈ x :: q := List.mem_of_mem_getLast? hy
      rw [a1.1, a3.2]
      exact ⟨List.mem_cons_self _ _, hy2, a3, a1⟩
  | cons p0 pr =>
    refine ⟨fun h => absurd h (by simp), fun _ => ?_⟩
    have e1 : (p0 :: pr ++ f :: post) ++ (p0 :: pr ++ f :: post).take 1 =
        (p0 :: pr) ++ (f :: (post ++ [p0])) := by simp
    rw [e1, List.chain'_append] at h1
    obtain ⟨-, b2, b3⟩ := h1
    obtain ⟨y, hy⟩ : ∃ y, (p0 :: pr).getLast? = some y := by
      cases h : (p0 :: pr).getLast? with
      | none => simp at h
      | some y => exact ⟨y, rfl⟩
    have a3 : Linked g s y f := b3 y hy f (by simp)
    have hy2 : y ∈ p0 :: pr := List.mem_of_mem_getLast? hy
    obtain ⟨z, hz⟩ : ∃ z, (post ++ [p0]).head? = some z := by
      cases post with
      | nil => exact ⟨p0, rfl⟩
      | cons x q => exact ⟨x, rfl⟩
    have a1 : Linked g s f z := (List.chain'_cons'.1 b2).1 z hz
    have hz2 : z ∈ p0 :: pr ++ post := by
      have := List.mem_of_mem_head? hz
      rcases List.mem_append.1 this with h | h
      · exact List.mem_append_right _ h
      · rw [List.mem_singleton.1 h]; exact List.mem_cons_self _ _
    rw [a1.1, a3.2]
    exact ⟨hz2, List.mem_append_left _ hy2, a3, a1⟩

/-- The statements of `_EmbedBackEdgeToDescendant` that take `f` out of its circular list
leave a valid circular list of the other arcs, in unchanged order. -/
theorem detachForwardArc_cycle {g : graph} {P f : Int} {pre post : List Int}
    (h : Cycle g 1 (pre ++ f :: post)) : Cycle (detachForwardArc g P f) 1 (pre ++ post) := by
  have hnd := h.2
  have hf : f ∉ pre ++ post := by
    intro hm
    rw [List.nodup_append] at hnd
    rcases List.mem_append.1 hm with hm | hm
    · exact hnd.2.2 hm (List.mem_cons_self _ _)
    · exact (List.nodup_cons.1 hnd.2.1).1 hm
  have hnd2 : (pre ++ post).Nodup := by
    rw [List.nodup_append] at hnd ⊢
    exact ⟨hnd.1, (List.nodup_cons.1 hnd.2.1).2,
      fun x hx hy => hnd.2.2 hx (List.mem_cons_of_mem _ hy)⟩
  refine ⟨cyc_delete pre post f h.1 ?_ ?_, hnd2⟩
  · intro a b ha hb hab
    unfold Linked at hab ⊢
    have h10 : Int.xor 1 1 = 0 := by decide
    rw [h10] at hab ⊢
    constructor
    · rw [detachForwardArc_link, if_neg (fun h => absurd h.2 (by decide))]
      by_cases ha0 : a = (g.G f).link 0
      · rw [if_pos ⟨ha0, rfl⟩]
        by_cases hne : pre ++ post = []
        · rw [hne] at ha; simp at ha
        · have := ((Cycle_around h).2 hne).2.2.1
          rw [h10] at this
          rw [← ha0] at this
          exact absurd (this.1.symm.trans hab.1) (fun e => hf (e ▸ hb))
      · rw [if_neg (fun h => ha0 h.1)]
        exact hab.1
    · rw [detachForwardArc_link]
      by_cases hb1 : b = (g.G f).link 1
      · rw [if_pos ⟨hb1, rfl⟩]
        by_cases hne : pre ++ post = []
        · rw [hne] at ha; simp at ha
        · have := ((Cycle_around h).2 hne).2.2.2
          unfold Linked at this
          rw [h10, ← hb1] at this
          exact absurd (this.2.symm.trans hab.2) (fun e => hf (e ▸ ha))
      · rw [if_neg (fun h => hb1 h.1), if_neg (fun h => absurd h.2 (by decide))]
        exact hab.2
  · intro p s hp hs hpf hfs
    unfold Linked at hpf hfs ⊢
    have h10 : Int.xor 1 1 = 0 := by decide
    rw [h10] at hpf hfs ⊢
    constructor
    · rw [detachForwardArc_link, if_neg (fun h => absurd h.2 (by decide)),
        if_pos ⟨hpf.2.symm, rfl⟩, hfs.1]
    · rw [detachForwardArc_link, if_pos ⟨hfs.1.symm, rfl⟩, hpf.2]

theorem ring_link_mem {g : graph} {X s : Int} {l : List Int} (hs : s = 0 ∨ s = 1)
    (h : Ring g 0 X l) : (g.G X).link s ∈ X :: l := by
  rcases hs with rfl | rfl
  · rw [Ring_first h]
    exact headD_mem_cons l X
  · have := Ring_last (Or.inl rfl) h
    rw [xor_one_zero] at this
    rw [this]
    have := headD_mem_cons l.reverse X
    simpa using this

theorem embedBackEdge_eq (g : graph) (RootSide R W WPrevLink : Int) :
    _EmbedBackEdgeToDescendant g RootSide R W WPrevLink =
      setExtFaceLink
        (setExtFaceLink
          (attachArc
            (setGv
              (attachArc (detachForwardArc g (g.V (R - g.N)).DFSParent (g.V W).adjacentTo)
                (g.V W).adjacentTo RootSide R)
              (gp_GetTwinArc g (g.V W).adjacentTo) R)
            (gp_GetTwinArc g (g.V W).adjacentTo) WPrevLink W)
          R RootSide W)
        W WPrevLink R := rfl

/-- The effect of `_EmbedBackEdgeToDescendant` on the two rings and on the list of forward
arcs, written as `pre ++ fwdArc :: post`. -/
theorem embedBackEdge_spec {g : graph} {RootSide R W WPrevLink : Int} {a c pre post : List Int}
    (h : EmbedReady g RootSide R W WPrevLink a c (pre ++ (g.V W).adjacentTo :: post)) :
    Ring (_EmbedBackEdgeToDescendant g RootSide R W WPrevLink) 0 R
      (if RootSide = 0 then (g.V W).adjacentTo :: a else a ++ [(g.V W).adjacentTo]) ∧
    Ring (_EmbedBackEdgeToDescendant g RootSide R W WPrevLink) 0 W
      (if WPrevLink = 0 then gp_GetTwinArc g (g.V W).adjacentTo :: c
        else c ++ [gp_GetTwinArc g (g.V W).adjacentTo]) ∧
    Cycle (_EmbedBackEdgeToDescendant g RootSide R W WPrevLink) 1 (pre ++ post) ∧
    (∀ j, ((_EmbedBackEdgeToDescendant g RootSide R W WPrevLink).G j).v =
      if j = gp_GetTwinArc g (g.V W).adjacentTo then R else (g.G j).v) ∧
    (_EmbedBackEdgeToDescendant g RootSide R W WPrevLink).V =
      (detachForwardArc g (g.V (R - g.N)).DFSParent (g.V W).adjacentTo).V ∧
    (_EmbedBackEdgeToDescendant g RootSide R W WPrevLink).extFace =
      (setExtFaceLink (setExtFaceLink g R RootSide W) W WPrevLink R).extFace := by
  obtain ⟨h0, hs, hp, hRa, hWc, hRW, hac, hcy, hf, hfw, hba, hbc, hbf⟩ := h
  rw [embedBackEdge_eq]
  generalize (g.V W).adjacentTo = f at *
  generalize hbdef : gp_GetTwinArc g f = b at *
  generalize (g.V (R - g.N)).DFSParent = P at *
  have hfge : g.edgeOffset ≤ f := (hfw f hf).1
  have hbge : g.edgeOffset ≤ b := hbdef ▸ twin_ge g f hfge
  have hRlt : R < g.edgeOffset := hRa.2.2.1
  have hWlt : W < g.edgeOffset := hWc.2.2.1
  have hbf2 : b ≠ f := fun e => hbf (e ▸ hf)
  -- the neighbours of the forward arc in its list
  have hnb : (g.G f).link 0 ∈ pre ++ f :: post ∧ (g.G f).link 1 ∈ pre ++ f :: post := by
    have h10 : Int.xor 1 1 = 0 := by decide
    by_cases hne : pre ++ post = []
    · have := (Cycle_around hcy).1 hne
      rw [h10] at this
      rw [this.1, this.2]
      exact ⟨hf, hf⟩
    · have := (Cycle_around hcy).2 hne
      rw [h10] at this
      have hsub : ∀ x, x ∈ pre ++ post → x ∈ pre ++ f :: post := by
        intro x hx
        rcases List.mem_append.1 hx with hx | hx
        · exact List.mem_append_left _ hx
        · exact List.mem_append_right _ (List.mem_cons_of_mem _ hx)
      exact ⟨hsub _ this.2.1, hsub _ this.1⟩
  -- nodes of the rings are not in the forward arc list
  have hnotfw : ∀ x, x ∈ R :: a ∨ x ∈ W :: c → x ∉ pre ++ f :: post := by
    intro x hx hm
    have := hfw x hm
    rcases hx with hx | hx
    · rcases List.mem_cons.1 hx with rfl | hx
      · omega
      · exact this.2.1 hx
    · rcases List.mem_cons.1 hx with rfl | hx
      · omega
      · exact this.2.2 hx
  have hfRa : f ∉ R :: a := fun hm => hnotfw f (Or.inl hm) hf
  have hfWc : f ∉ W :: c := fun hm => hnotfw f (Or.inr hm) hf
  have hbWc : b ∉ W :: c := by
    intro hm
    rcases List.mem_cons.1 hm with e | hm
    · omega
    · exact hbc hm
  have hdis : ∀ x, x ∈ W :: c → x ∉ R :: a := by
    intro x hx hx2
    rcases List.mem_cons.1 hx with rfl | hx
    · rcases List.mem_cons.1 hx2 with e | hx2
      · exact hRW e.symm
      · have := hRa.2.2.2 _ hx2
        omega
    · rcases List.mem_cons.1 hx2 with rfl | hx2
      · have := hWc.2.2.2 _ hx
        omega
      · exact hac x hx2 hx
  have hfpp : f ∉ pre ++ post := by
    intro hm
    have hnd := hcy.2
    rw [List.nodup_append] at hnd
    rcases List.mem_append.1 hm with hm | hm
    · exact hnd.2.2 hm (List.mem_cons_self _ _)
    · exact (List.nodup_cons.1 hnd.2.1).1 hm
  have hsub : ∀ x, x ∈ pre ++ post → x ∈ pre ++ f :: post := by
    intro x hx
    rcases List.mem_append.1 hx with hx | hx
    · exact List.mem_append_left _ hx
    · exact List.mem_append_right _ (List.mem_cons_of_mem _ hx)
  have hmemR : ∀ x, x ∈ R :: (if RootSide = 0 then f :: a else a ++ [f]) →
      x ∈ R :: a ∨ x = f := by
    intro x hx
    rcases hs with rfl | rfl
    · simp only [if_true, List.mem_cons] at hx ⊢
      tauto
    · simp only [show ¬ ((1 : Int) = 0) by decide, if_false, List.mem_cons, List.mem_append,
        List.mem_singleton] at hx ⊢
      tauto
  -- stage 1: the removal from the forward arc list
  obtain ⟨gd, hgd, dE, r1, w1, c1, dv⟩ : ∃ gd, detachForwardArc g P f = gd ∧
      gd.edgeOffset = g.edgeOffset ∧ Ring gd 0 R a ∧ Ring gd 0 W c ∧
      Cycle gd 1 (pre ++ post) ∧ ∀ j, (gd.G j).v = (g.G j).v := by
    have dl := detachForwardArc_link g P f
    obtain ⟨dN, dE, dX, dv, -, -⟩ := detachForwardArc_fields g P f
    have dkeep : ∀ x, x ∈ R :: a ∨ x ∈ W :: c →
        ((detachForwardArc g P f).G x).link = (g.G x).link := by
      intro x hx
      funext t
      have hx2 := hnotfw x hx
      have n1 : x ≠ (g.G f).link 1 := fun e => hx2 (e ▸ hnb.2)
      have n0 : x ≠ (g.G f).link 0 := fun e => hx2 (e ▸ hnb.1)
      rw [dl, if_neg (fun h => n1 h.1), if_neg (fun h => n0 h.1)]
    exact ⟨_, rfl, dE, Ring_frame hRa dE (fun x hx => dkeep x (Or.inl hx)),
      Ring_frame hWc dE (fun x hx => dkeep x (Or.inr hx)), detachForwardArc_cycle hcy, dv⟩
  rw [hgd]
  -- stage 2: the forward arc is added at R
  obtain ⟨ga, hga, aE, r2, w2, c2, av⟩ : ∃ ga, attachArc gd f RootSide R = ga ∧
      ga.edgeOffset = g.edgeOffset ∧
      Ring ga 0 R (if RootSide = 0 then f :: a else a ++ [f]) ∧ Ring ga 0 W c ∧
      Cycle ga 1 (pre ++ post) ∧ ∀ j, (ga.G j).v = (g.G j).v := by
    obtain ⟨aN, aE, aV, aX, av, -, -⟩ := attachArc_fields gd f RootSide R
    have hnR := ring_link_mem hs r1
    have akeep : ∀ x, x ∉ R :: a → x ≠ f →
        ((attachArc gd f RootSide R).G x).link = (gd.G x).link := by
      intro x hx hxf
      exact attachArc_frame _ f RootSide R x hs (fun e => hfRa (e ▸ List.mem_cons_self _ _))
        (fun e => hfRa (e ▸ hnR)) ⟨fun e => hx (e ▸ List.mem_cons_self _ _), hxf,
          fun e => hx (e ▸ hnR)⟩
    refine ⟨_, rfl, aE.trans dE, attachArc_ring0 hs r1 hfRa (by rw [dE]; exact hfge),
      Ring_frame w1 aE (fun x hx => akeep x (hdis x hx) (fun e => hfWc (e ▸ hx))),
      Cycle_frame c1 (fun x hx => akeep x (fun hm => hnotfw x (Or.inl hm) (hsub x hx))
        (fun e => hfpp (e ▸ hx))), ?_⟩
    intro j
    rw [av, dv]
  rw [hga]
  -- stage 3: the back arc gets its `v`
  obtain ⟨gv, hgv, vE, r3, w3, c3, vv⟩ : ∃ gv, setGv ga b R = gv ∧
      gv.edgeOffset = g.edgeOffset ∧
      Ring gv 0 R (if RootSide = 0 then f :: a else a ++ [f]) ∧ Ring gv 0 W c ∧
      Cycle gv 1 (pre ++ post) ∧ ∀ j, (gv.G j).v = if j = b then R else (g.G j).v := by
    refine ⟨_, rfl, aE, Ring_frame r2 rfl (fun x _ => setGv_link _ _ _ _),
      Ring_frame w2 rfl (fun x _ => setGv_link _ _ _ _),
      Cycle_frame c2 (fun x _ => setGv_link _ _ _ _), ?_⟩
    intro j
    rw [setGv_v, av]
  rw [hgv]
  -- stage 4: the back arc is added at W
  obtain ⟨gb, hgb, bE, r4, w4, c4, bv⟩ : ∃ gb, attachArc gv b WPrevLink W = gb ∧
      gb.edgeOffset = g.edgeOffset ∧
      Ring gb 0 R (if RootSide = 0 then f :: a else a ++ [f]) ∧
      Ring gb 0 W (if WPrevLink = 0 then b :: c else c ++ [b]) ∧
      Cycle gb 1 (pre ++ post) ∧ ∀ j, (gb.G j).v = if j = b then R else (g.G j).v := by
    obtain ⟨bN, bE, bV, bX, bv, -, -⟩ := attachArc_fields gv b WPrevLink W
    have hnW := ring_link_mem hp w3
    have bkeep : ∀ x, x ∉ W :: c → x ≠ b →
        ((attachArc gv b WPrevLink W).G x).link = (gv.G x).link := by
      intro x hx hxb
      exact attachArc_frame _ b WPrevLink W x hp (fun e => hbWc (e ▸ List.mem_cons_self _ _))
        (fun e => hbWc (e ▸ hnW)) ⟨fun e => hx (e ▸ List.mem_cons_self _ _), hxb,
          fun e => hx (e ▸ hnW)⟩
    refine ⟨_, rfl, bE.trans vE, ?_, attachArc_ring0 hp w3 hbWc (by rw [vE]; exact hbge),
      Cycle_frame c3 (fun x hx => bkeep x (fun hm => hnotfw x (Or.inr hm) (hsub x hx))
        (fun e => hbf (e ▸ hsub x hx))), ?_⟩
    · refine Ring_frame r3 bE ?_
      intro x hx
      rcases hmemR x hx with hx | rfl
      · refine bkeep x (fun hm => hdis x hm hx) ?_
        intro e
        rcases List.mem_cons.1 hx with e2 | hx
        · omega
        · exact hba (e ▸ hx)
      · exact bkeep _ hfWc (fun e => hbf2 e.symm)
    · intro j
      rw [bv, vv]
  rw [hgb]
  have hV : gb.V = (detachForwardArc g P f).V := by
    rw [← hgb, ← hgv, ← hga, hgd]
    rfl
  have hX : gb.extFace = g.extFace := by
    rw [← hgb, ← hgv, ← hga, ← hgd]
    exact (detachForwardArc_fields g P f).2.2.1
  refine ⟨Ring_frame r4 rfl (fun _ _ => rfl), Ring_frame w4 rfl (fun _ _ => rfl),
    Cycle_frame c4 (fun _ _ => rfl), bv, ?_, ?_⟩
  · rw [← hgd]
    exact (hgd ▸ hV)
  · show (setExtFaceLink (setExtFaceLink gb R RootSide W) W WPrevLink R).extFace = _
    simp only [setExtFaceLink, hX]

/-- C21: `_EmbedBackEdgeToDescendant(RootSide, R, W, WPrevLink)` with
`fwdArc = adjacentTo[W]` on a state with valid rings at `R` and `W` (`EmbedReady`, arcs `a`
and `c` in `link[0]` order).  Afterwards `G[R].link[RootSide] = fwdArc` and
`G[W].link[WPrevLink] = twin(fwdArc)`; the rings of `R` and `W` are valid circular
doubly-linked lists with exactly one arc more, the new arc being first in `link[0]` order for
the side `0` and last for the side `1`, the previous arcs keeping their order;
`twin(fwdArc).v = R` while `fwdArc.v` is unchanged; `extFace[R].link[RootSide] = W` and
`extFace[W].link[WPrevLink] = R`. -/
theorem embedBackEdgeToDescendant_rings (g : graph) (RootSide R W WPrevLink : Int)
    (a c fw : List Int) (h : EmbedReady g RootSide R W WPrevLink a c fw) :
    ((_EmbedBackEdgeToDescendant g RootSide R W WPrevLink).G R).link RootSide =
      (g.V W).adjacentTo ∧
    ((_EmbedBackEdgeToDescendant g RootSide R W WPrevLink).G W).link WPrevLink =
      gp_GetTwinArc g (g.V W).adjacentTo ∧
    Ring (_EmbedBackEdgeToDescendant g RootSide R W WPrevLink) 0 R
      (if RootSide = 0 then (g.V W).adjacentTo :: a else a ++ [(g.V W).adjacentTo]) ∧
    Ring (_EmbedBackEdgeToDescendant g RootSide R W WPrevLink) 0 W
      (if WPrevLink = 0 then gp_GetTwinArc g (g.V W).adjacentTo :: c
        else c ++ [gp_GetTwinArc g (g.V W).adjacentTo]) ∧
    ((_EmbedBackEdgeToDescendant g RootSide R W WPrevLink).G
      (gp_GetTwinArc g (g.V W).adjacentTo)).v = R ∧
    ((_EmbedBackEdgeToDescendant g RootSide R W WPrevLink).G (g.V W).adjacentTo).v =
      (g.G (g.V W).adjacentTo).v ∧
    ((_EmbedBackEdgeToDescendant g RootSide R W WPrevLink).extFace R).link RootSide = W ∧
    ((_EmbedBackEdgeToDescendant g RootSide R W WPrevLink).extFace W).link WPrevLink = R := by
  obtain ⟨pre, post, rfl⟩ := List.append_of_mem h.2.2.2.2.2.2.2.2.1
  obtain ⟨r, w, -, hv, -, hx⟩ := embedBackEdge_spec h
  obtain ⟨h0, hs, hp, hRa, hWc, hRW, hac, hcy, hf, hfw, hba, hbc, hbf⟩ := h
  have hbf2 : gp_GetTwinArc g (g.V W).adjacentTo ≠ (g.V W).adjacentTo := by
    intro e
    rw [e] at hbf
    exact hbf hf
  refine ⟨?_, ?_, r, w, ?_, ?_, ?_, ?_⟩
  · rcases hs with rfl | rfl
    · rw [Ring_first r]; rfl
    · have := Ring_last (Or.inl rfl) r
      rw [xor_one_zero] at this
      rw [this]
      simp
  · rcases hp with rfl | rfl
    · rw [Ring_first w]; rfl
    · have := Ring_last (Or.inl rfl) w
      rw [xor_one_zero] at this
      rw [this]
      simp
  · rw [hv, if_pos rfl]
  · rw [hv, if_neg (fun e => hbf2 e.symm)]
  · rw [hx, setExtFaceLink_link, if_neg (fun e => hRW e.1), setExtFaceLink_link,
      if_pos ⟨rfl, rfl⟩]
  · rw [hx, setExtFaceLink_link, if_pos ⟨rfl, rfl⟩]

/-- C22: `_EmbedBackEdgeToDescendant` on a state as for `EmbedReady`, the forward arcs of
the parent copy `P = DFSParent[R - N]` being `pre ++ fwdArc :: post` in `link[1]` order and
`fwdArcList[P]` one of them.  Exactly the embedded forward arc is removed: the other arcs
form a valid circular list in unchanged order; `fwdArcList[P]` becomes `NIL` if and only if
the arc was the only element, and otherwise refers to an arc still in the list; nothing else
changes in the vertex records. -/
theorem embedBackEdgeToDescendant_fwdArcList (g : graph) (RootSide R W WPrevLink : Int)
    (a c pre post : List Int)
    (h : EmbedReady g RootSide R W WPrevLink a c (pre ++ (g.V W).adjacentTo :: post))
    (hhead : (g.V (g.V (R - g.N)).DFSParent).fwdArcList ∈
      pre ++ (g.V W).adjacentTo :: post) :
    Cycle (_EmbedBackEdgeToDescendant g RootSide R W WPrevLink) 1 (pre ++ post) ∧
    (g.V W).adjacentTo ∉ pre ++ post ∧
    (((_EmbedBackEdgeToDescendant g RootSide R W WPrevLink).V
      (g.V (R - g.N)).DFSParent).fwdArcList = NIL ↔ pre ++ post = []) ∧
    (pre ++ post ≠ [] →
      ((_EmbedBackEdgeToDescendant g RootSide R W WPrevLink).V
        (g.V (R - g.N)).DFSParent).fwdArcList ∈ pre ++ post) ∧
    (∀ Q, (_EmbedBackEdgeToDescendant g RootSide R W WPrevLink).V Q =
      if Q = (g.V (R - g.N)).DFSParent then
        { g.V Q with fwdArcList :=
            ((_EmbedBackEdgeToDescendant g RootSide R W WPrevLink).V Q).fwdArcList }
      else g.V Q) := by
  obtain ⟨-, -, cy, -, hV, -⟩ := embedBackEdge_spec h
  obtain ⟨h0, hs, hp, hRa, hWc, hRW, hac, hcy, hf, hfw, hba, hbc, hbf⟩ := h
  rw [hV]
  generalize (g.V W).adjacentTo = f at *
  generalize (g.V (R - g.N)).DFSParent = P at *
  have h10 : Int.xor 1 1 = 0 := by decide
  have hfpp : f ∉ pre ++ post := by
    intro hm
    have hnd := hcy.2
    rw [List.nodup_append] at hnd
    rcases List.mem_append.1 hm with hm | hm
    · exact hnd.2.2 hm (List.mem_cons_self _ _)
    · exact (List.nodup_cons.1 hnd.2.1).1 hm
  have hnil : ∀ x, x ∈ pre ++ f :: post → x ≠ NIL := by
    intro x hx e
    have := (hfw x hx).1
    rw [e] at this
    simp only [NIL] at this
    omega
  have hsplit : ∀ x, x ∈ pre ++ f :: post → x = f ∨ x ∈ pre ++ post := by
    intro x hx
    simp only [List.mem_append, List.mem_cons] at hx ⊢
    tauto
  have hsub : ∀ x, x ∈ pre ++ post → x ∈ pre ++ f :: post := by
    intro x hx
    simp only [List.mem_append, List.mem_cons] at hx ⊢
    tauto
  have hval : ((detachForwardArc g P f).V P).fwdArcList =
      if (g.V P).fwdArcList = f then (if (g.G f).link 0 = f then NIL else (g.G f).link 0)
      else (g.V P).fwdArcList := by
    rw [detachForwardArc_V]
    by_cases h1 : (g.V P).fwdArcList = f
    · rw [if_pos ⟨rfl, h1⟩, if_pos h1]
    · rw [if_neg (fun h => h1 h.2), if_neg h1]
  have haround := Cycle_around hcy
  rw [h10] at haround
  have hl0 : pre ++ post ≠ [] → (g.G f).link 0 ≠ f := by
    intro hne e2
    have := (haround.2 hne).2.1
    rw [e2] at this
    exact hfpp this
  refine ⟨cy, hfpp, ?_, ?_, ?_⟩
  · rw [hval]
    by_cases hne : pre ++ post = []
    · have := haround.1 hne
      have h1 : (g.V P).fwdArcList = f := by
        rcases hsplit _ hhead with h | h
        · exact h
        · rw [hne] at h; simp at h
      rw [if_pos h1, if_pos this.2]
      exact ⟨fun _ => hne, fun _ => rfl⟩
    · have := haround.2 hne
      refine ⟨fun e => ?_, fun e => absurd e hne⟩
      exfalso
      by_cases h1 : (g.V P).fwdArcList = f
      · rw [if_pos h1, if_neg (hl0 hne)] at e
        exact hnil _ (hsub _ this.2.1) e
      · rw [if_neg h1] at e
        exact hnil _ hhead e
  · intro hne
    rw [hval]
    have := haround.2 hne
    by_cases h1 : (g.V P).fwdArcList = f
    · rw [if_pos h1, if_neg (hl0 hne)]
      exact this.2.1
    · rw [if_neg h1]
      rcases hsplit _ hhead with h | h
      · exact absurd h h1
      · exact h
  · intro Q
    rw [detachForwardArc_V]
    by_cases hQ : Q = P
    · subst hQ
      rw [if_pos rfl]
      by_cases h1 : (g.V Q).fwdArcList = f
      · rw [if_pos ⟨rfl, h1⟩]
      · rw [if_neg (fun h => h1 h.2)]
    · rw [if_neg (fun h => hQ h.1), if_neg hQ]

set_option maxRecDepth 100000 in
theorem K5_embedReady : EmbedReady K5AtEmbed 0 7 4 1 [12] [17, 29] [26, 24] := by
  refine ⟨by decide!, Or.inl rfl, Or.inr rfl, (ringCheck_iff _ _ _ _).1 (by decide!),
    (ringCheck_iff _ _ _ _).1 (by decide!), by decide, by decide, ?_, by decide!, by decide!,
    by decide!, by decide!, by decide!⟩
  refine ⟨?_, by decide⟩
  simp only [List.cons_append, List.nil_append, List.take_succ_cons, List.take_zero,
    List.chain'_cons, List.chain'_singleton, and_true]
  exact ⟨by decide!, by decide!⟩

set_option maxRecDepth 100000 in
theorem embedBackEdgeToDescendant_rings_witness :
    EmbedReady K5AtEmbed 0 7 4 1 [12] [17, 29] [26, 24] ∧
    Ring (_EmbedBackEdgeToDescendant K5AtEmbed 0 7 4 1) 0 7 [26, 12] ∧
    Ring (_EmbedBackEdgeToDescendant K5AtEmbed 0 7 4 1) 0 4 [17, 29, 27] := by
  have h := embedBackEdgeToDescendant_rings K5AtEmbed 0 7 4 1 [12] [17, 29] [26, 24]
    K5_embedReady
  have e1 : (K5AtEmbed.V 4).adjacentTo = 26 := by decide!
  have e2 : gp_GetTwinArc K5AtEmbed 26 = 27 := by decide!
  rw [e1, e2] at h
  exact ⟨K5_embedReady, h.2.2.1, h.2.2.2.1⟩

set_option maxRecDepth 100000 in
theorem embedBackEdgeToDescendant_fwdArcList_witness :
    EmbedReady K5AtEmbed 0 7 4 1 [12] [17, 29] [26, 24] ∧
    (K5AtEmbed.V 1).fwdArcList = 26 ∧
    Cycle (_EmbedBackEdgeToDescendant K5AtEmbed 0 7 4 1) 1 [24] ∧
    ((_EmbedBackEdgeToDescendant K5AtEmbed 0 7 4 1).V 1).fwdArcList ∈ [(24 : Int)] := by
  have e1 : (K5AtEmbed.V 4).adjacentTo = 26 := by decide!
  have e3 : (K5AtEmbed.V (7 - K5AtEmbed.N)).DFSParent = 1 := by decide!
  have h := embedBackEdgeToDescendant_fwdArcList K5AtEmbed 0 7 4 1 [12] [17, 29] [] [24]
    (by rw [e1]; exact K5_embedReady) (by rw [e1, e3]; decide!)
  rw [e3] at h
  exact ⟨K5_embedReady, by decide!, h.1, h.2.2.2.1 (by decide)⟩

/-! ### One iteration of the loop of `_MergeBicomps` -/

theorem mergeBicompsStep_eq (fuel : Nat) (init : graph → Int → graph) (g : graph)
    (R Rout Z ZPrevLink : Int) (rest : List Int)
    (hst : g.theStack = Rout :: R :: ZPrevLink :: Z :: rest) :
    mergeBicompsStep fuel init g =
      (flipRoot fuel (stitchExtFace { g with theStack := rest } R Rout Z ZPrevLink)
        R Rout ZPrevLink).bind fun s =>
          _MergeVertex fuel init (dropFromLists s R Z) Z ZPrevLink R := by
  cases g
  simp only at hst
  subst hst
  rfl

theorem stitchExtFace_G (g : graph) (R Rout Z ZPrevLink : Int) :
    (stitchExtFace g R Rout Z ZPrevLink).G = g.G ∧
    vertexData (stitchExtFace g R Rout Z ZPrevLink) = vertexData g ∧
    (stitchExtFace g R Rout Z ZPrevLink).theStack = g.theStack := by
  unfold stitchExtFace
  dsimp only
  split_ifs <;> exact ⟨rfl, rfl, rfl⟩

theorem dropFromLists_G (g : graph) (R Z : Int) :
    (dropFromLists g R Z).G = g.G ∧ (dropFromLists g R Z).extFace = g.extFace ∧
    (dropFromLists g R Z).N = g.N ∧ (dropFromLists g R Z).edgeOffset = g.edgeOffset ∧
    (dropFromLists g R Z).theStack = g.theStack :=
  ⟨rfl, rfl, rfl, rfl, rfl⟩

theorem invertRing_side (fuel : Nat) :
    ∀ (g : graph) (J : Int) (g1 : graph), invertRing fuel g J = some g1 →
      vertexData g1 = vertexData g ∧ g1.extFace = g.extFace := by
  induction fuel with
  | zero => intro g J g1 h; simp [invertRing] at h
  | succ n ih =>
    intro g J g1 h
    simp only [invertRing] at h
    split_ifs at h
    · have h2 := ih _ _ _ h
      exact h2
    · simp only [Option.some.injEq] at h; subst h
      exact ⟨rfl, rfl⟩

theorem markChildArcInverted_side (fuel : Nat) :
    ∀ (g : graph) (J : Int) (g1 : graph), markChildArcInverted fuel g J = some g1 →
      vertexData g1 = vertexData g ∧ g1.extFace = g.extFace ∧
      (∀ x, (g1.G x).link = (g.G x).link) := by
  induction fuel with
  | zero => intro g J g1 h; simp [markChildArcInverted] at h
  | succ n ih =>
    intro g J g1 h
    simp only [markChildArcInverted] at h
    split_ifs at h
    · simp only [Option.some.injEq] at h; subst h
      refine ⟨rfl, rfl, ?_⟩
      intro x
      simp only [setEdgeFlagInverted, upd]
      split_ifs with hx
      · subst hx; rfl
      · rfl
    · exact ih _ _ _ h
    · simp only [Option.some.injEq] at h; subst h
      exact ⟨rfl, rfl, fun _ => rfl⟩

theorem redirectArcs_side (fuel : Nat) :
    ∀ (g : graph) (W J : Int) (g1 : graph), redirectArcs fuel g W J = some g1 →
      vertexData g1 = vertexData g ∧ g1.extFace = g.extFace := by
  induction fuel with
  | zero => intro g W J g1 h; simp [redirectArcs] at h
  | succ n ih =>
    intro g W J g1 h
    simp only [redirectArcs] at h
    split_ifs at h
    · have h2 := ih _ _ _ _ h
      exact h2
    · simp only [Option.some.injEq] at h; subst h
      exact ⟨rfl, rfl⟩

theorem mergeVertex_side (fuel : Nat) (init : graph → Int → graph) (hinit : KeepsSideTables init)
    (g : graph) (W WPrevLink R : Int) (g1 : graph)
    (h : _MergeVertex fuel init g W WPrevLink R = some g1) :
    vertexData g1 = vertexData g ∧ g1.extFace = g.extFace := by
  rw [mergeVertex_eq, Option.map_eq_some'] at h
  obtain ⟨g0, h0, rfl⟩ := h
  obtain ⟨a, b⟩ := redirectArcs_side fuel g W _ g0 h0
  obtain ⟨c, d⟩ := hinit
    (setGLink
      (setGLink
        (setGLink
          (setGLink g0 ((g0.G W).link WPrevLink) (Int.xor 1 WPrevLink)
            ((g0.G R).link (Int.xor 1 WPrevLink)))
          ((g0.G R).link (Int.xor 1 WPrevLink)) WPrevLink ((g0.G W).link WPrevLink))
        W WPrevLink ((g0.G R).link WPrevLink))
      ((g0.G R).link WPrevLink) (Int.xor 1 WPrevLink) W) R
  rw [c, d]
  exact ⟨a, b⟩

theorem keepsSideTables_default : KeepsSideTables _InitGraphNode :=
  fun _ _ => ⟨rfl, rfl⟩

/-- The effect of `_InvertVertex(V)` on a valid ring: it returns; the two links of `V` and
of every arc of the ring are swapped, so that the ring is traversed in the reverse order;
the two external-face links of `V` are swapped; nothing else changes. -/
theorem invertVertex_full (fuel : Nat) (g : graph) (V : Int) (l : List Int)
    (hR : Ring g 0 V l) (hfuel : l.length < fuel) :
    ∃ g1, _InvertVertex fuel g V = some g1 ∧ Ring g1 0 V l.reverse ∧
      (∀ x ∈ V :: l, (g1.G x).link 0 = (g.G x).link 1 ∧ (g1.G x).link 1 = (g.G x).link 0) ∧
      (∀ x, x ∉ V :: l → g1.G x = g.G x) ∧
      (∀ x, (g1.G x).type = (g.G x).type) ∧ (∀ x, (g1.G x).v = (g.G x).v) ∧
      (∀ x, (g1.G x).inverted = (g.G x).inverted) ∧
      vertexData g1 = vertexData g ∧ g1.theStack = g.theStack ∧
      (g1.extFace V).link 0 = (g.extFace V).link 1 ∧
      (g1.extFace V).link 1 = (g.extFace V).link 0 ∧
      (g1.extFace V).inversionFlag = (g.extFace V).inversionFlag ∧
      ∀ j, j ≠ V → g1.extFace j = g.extFace j := by
  have hR1 : Ring g 1 V l.reverse := by
    have := Ring_reverse (Or.inl rfl) hR
    rwa [xor_one_zero] at this
  obtain ⟨c1, n1, o1, ge1⟩ := hR1
  have hch : List.Chain (fun x y => (g.G x).link 1 = y) V (l.reverse ++ [V]) :=
    List.Chain.imp (fun x y h => h.1) c1
  obtain ⟨k, hk⟩ : ∃ k, fuel = l.reverse.length + 1 + k :=
    ⟨fuel - (l.length + 1), by simp; omega⟩
  have hrun := invertRing_chain V l.reverse g V k hch n1 ge1 o1
  rw [← hk] at hrun
  obtain ⟨a1, a2, a3, a4, a5, a6, a7, a8⟩ := swapped_spec (V :: l.reverse) g n1
  obtain ⟨s1, s2⟩ := invertRing_side fuel g V _ hrun
  obtain ⟨g0, -, r0, -, -, -, -, -, -, -⟩ := invertVertex_ring fuel g V l hR hfuel
  generalize (V :: l.reverse).foldl swapLinks g = s at *
  have e : _InvertVertex fuel g V =
      some (setExtFaceLink (setExtFaceLink s V 0 ((s.extFace V).link 1)) V 1
        ((s.extFace V).link 0)) := by
    unfold _InvertVertex
    rw [hrun, Option.map_some']
  have hring : Ring s 0 V l.reverse := by
    refine ⟨?_, n1, a2 ▸ o1, fun x hx => a2 ▸ ge1 x hx⟩
    have c2 : List.Chain' (Linked g 1) (V :: l.reverse ++ [V]) := c1
    rw [List.Chain'.iff_mem] at c2 ⊢
    refine List.Chain'.imp ?_ c2
    rintro x y ⟨hx, hy, hxy⟩
    have hx2 : x ∈ V :: l.reverse := by
      simp only [List.cons_append, List.mem_cons, List.mem_append, List.mem_singleton] at hx ⊢
      tauto
    have hy2 : y ∈ V :: l.reverse := by
      simp only [List.cons_append, List.mem_cons, List.mem_append, List.mem_singleton] at hy ⊢
      tauto
    refine ⟨hx, hy, ?_⟩
    unfold Linked at hxy ⊢
    rw [xor_one_one] at hxy
    rw [xor_one_zero, (a8 x hx2).1, (a8 y hy2).2]
    exact hxy
  refine ⟨_, e, Ring_frame hring rfl (fun _ _ => rfl), ?_, ?_, a4, a5, a6, s1, a3, ?_, ?_, ?_,
    ?_⟩
  · intro x hx
    exact a8 x (by simpa using hx)
  · intro x hx
    exact a7 x (by simpa using hx)
  · rw [setExtFaceLink_link, if_neg (fun h => absurd h.2 (by decide)), setExtFaceLink_link,
      if_pos ⟨rfl, rfl⟩, s2]
  · rw [setExtFaceLink_link, if_pos ⟨rfl, rfl⟩, s2]
  · simp only [setExtFaceLink, upd, if_true]
    rw [s2]
  · intro j hj
    simp only [setExtFaceLink, upd, if_neg hj]
    rw [s2]

theorem markChild_chain (R : Int) :
    ∀ (l : List Int) (g : graph) (k : Nat),
      List.Chain' (fun x y => (g.G x).link 0 = y) (l ++ [R]) →
      (∀ x ∈ l, g.edgeOffset ≤ x) → R < g.edgeOffset →
      markChildArcInverted (l.length + 1 + k) g ((l ++ [R]).headD R) =
        some (markArc g (firstChildArc g l)) := by
  intro l
  induction l with
  | nil =>
    intro g k _ _ hR
    simp only [List.nil_append, List.headD_cons, List.length_nil, Nat.zero_add]
    rw [show 1 + k = k + 1 by omega, markChildArcInverted, if_neg (by omega)]
    rfl
  | cons x t ih =>
    intro g k hch hge hR
    have hx := hge x (List.mem_cons_self _ _)
    simp only [List.cons_append, List.headD_cons, List.length_cons]
    rw [show t.length + 1 + 1 + k = (t.length + 1 + k) + 1 by omega, markChildArcInverted,
      if_pos hx]
    by_cases hc : (g.G x).type = EDGE_DFSCHILD
    · rw [if_pos hc]
      have : firstChildArc g (x :: t) = some x := by
        simp [firstChildArc, List.find?_cons, hc]
      rw [this]
      rfl
    · rw [if_neg hc]
      have : firstChildArc g (x :: t) = firstChildArc g t := by
        simp [firstChildArc, List.find?_cons, hc]
      rw [this]
      have hch2 : List.Chain' (fun x y => (g.G x).link 0 = y) (t ++ [R]) := by
        have := List.Chain'.tail hch
        exact this
      have hl : (g.G x).link 0 = (t ++ [R]).headD R := by
        cases t with
        | nil =>
          simp only [List.nil_append, List.cons_append, List.chain'_cons,
            List.chain'_singleton, and_true] at hch
          exact hch
        | cons y u =>
          simp only [List.cons_append, List.chain'_cons] at hch
          exact hch.1
      rw [hl]
      exact ih g k hch2 (fun y hy => hge y (List.mem_cons_of_mem _ hy)) hR

theorem firstChildArc_unique (g : graph) (l : List Int) (J : Int) (hJ : J ∈ l)
    (hc : (g.G J).type = EDGE_DFSCHILD)
    (hu : ∀ x ∈ l, (g.G x).type = EDGE_DFSCHILD → x = J) : firstChildArc g l = some J := by
  unfold firstChildArc
  cases hf : l.find? fun J => decide ((g.G J).type = EDGE_DFSCHILD) with
  | none =>
    rw [List.find?_eq_none] at hf
    have := hf J hJ
    simp [hc] at this
  | some x =>
    have h1 := List.mem_of_find?_eq_some hf
    have h2 := List.find?_some hf
    rw [hu x h1 (by simpa using h2)]

theorem firstChildArc_congr (g g1 : graph) (h : ∀ x, (g1.G x).type = (g.G x).type)
    (l : List Int) : firstChildArc g1 l = firstChildArc g l := by
  unfold firstChildArc
  have : (fun J => decide ((g1.G J).type = EDGE_DFSCHILD)) =
      (fun J => decide ((g.G J).type = EDGE_DFSCHILD)) := by
    funext J; rw [h]
  rw [this]

theorem markArc_spec (g : graph) (o : Option Int) :
    (∀ x, ((markArc g o).G x).link = (g.G x).link) ∧
    (∀ x, ((markArc g o).G x).type = (g.G x).type) ∧
    (∀ x, ((markArc g o).G x).v = (g.G x).v) ∧
    (∀ x, ((markArc g o).G x).inverted = if o = some x then true else (g.G x).inverted) ∧
    vertexData (markArc g o) = vertexData g ∧ (markArc g o).theStack = g.theStack ∧
    (markArc g o).extFace = g.extFace ∧ (markArc g o).edgeOffset = g.edgeOffset := by
  cases o with
  | none =>
    exact ⟨fun _ => rfl, fun _ => rfl, fun _ => rfl, fun _ => by simp [markArc], rfl, rfl, rfl,
      rfl⟩
  | some J =>
    refine ⟨?_, ?_, ?_, ?_, rfl, rfl, rfl, rfl⟩
    · intro x
      simp only [markArc, setEdgeFlagInverted, upd]
      split_ifs with h
      · subst h; rfl
      · rfl
    · intro x
      simp only [markArc, setEdgeFlagInverted, upd]
      split_ifs with h
      · subst h; rfl
      · rfl
    · intro x
      simp only [markArc, setEdgeFlagInverted, upd]
      split_ifs with h
      · subst h; rfl
      · rfl
    · intro x
      simp only [markArc, setEdgeFlagInverted, upd, Option.some.injEq]
      by_cases h : x = J
      · subst h; simp
      · rw [if_neg h, if_neg (fun e => h e.symm)]

/-- A valid ring whose two end links are equal holds at most one arc, and the two links of
each of its nodes are equal. -/
theorem ring_equal_links {g : graph} {R : Int} {b : List Int} (hR : Ring g 0 R b)
    (he : (g.G R).link 0 = (g.G R).link 1) :
    b.reverse = b ∧ ∀ x ∈ R :: b, (g.G x).link 0 = (g.G x).link 1 := by
  have h0 := Ring_first hR
  have h1 := Ring_last (Or.inl rfl) hR
  rw [xor_one_zero] at h1
  obtain ⟨c, nd, lt, ge⟩ := hR
  cases b with
  | nil =>
    refine ⟨rfl, ?_⟩
    intro x hx
    rw [List.mem_singleton.1 hx]
    exact he
  | cons J t =>
    have hJ : (g.G R).link 0 = J := h0
    have ht : t = [] := by
      rcases List.eq_nil_or_concat t with h | ⟨u, z, h⟩
      · exact h
      · exfalso
        subst h
        have hl : ((J :: u.concat z).reverse ++ [R]).headD R = z := by simp
        rw [hl] at h1
        have : J = z := by rw [← hJ, he, h1]
        subst this
        exact (List.nodup_cons.1 (List.nodup_cons.1 nd).2).1 (by simp)
    subst ht
    refine ⟨rfl, ?_⟩
    simp only [List.cons_append, List.nil_append, List.chain'_cons, List.chain'_singleton,
      and_true] at c
    obtain ⟨c1, c2⟩ := c
    unfold Linked at c1 c2
    rw [xor_one_zero] at c1 c2
    intro x hx
    rcases List.mem_cons.1 hx with rfl | hx
    · exact he
    · rw [List.mem_singleton.1 hx, c2.1, c1.2]

/-- The effect of the flip decision of `_MergeBicomps` on a root copy `R` with a valid ring
(arcs `b` in `link[0]` order). -/
theorem flipRoot_spec (fuel : Nat) (g : graph) (R Rout ZPrevLink : Int) (b : List Int)
    (hR : Ring g 0 R b) (hfuel : b.length < fuel) :
    ∃ g1, flipRoot fuel g R Rout ZPrevLink = some g1 ∧
      (ZPrevLink ≠ Rout → g1 = g) ∧
      Ring g1 0 R (if ZPrevLink = Rout then b.reverse else b) ∧
      (ZPrevLink = Rout → ∀ x ∈ R :: b,
        (g1.G x).link 0 = (g.G x).link 1 ∧ (g1.G x).link 1 = (g.G x).link 0) ∧
      (∀ x, x ∉ R :: b → (g1.G x).link = (g.G x).link) ∧
      (∀ x, (g1.G x).type = (g.G x).type) ∧ (∀ x, (g1.G x).v = (g.G x).v) ∧
      (∀ x, (g1.G x).inverted =
        if ZPrevLink = Rout ∧ firstChildArc g b.reverse = some x then true
        else (g.G x).inverted) ∧
      vertexData g1 = vertexData g ∧ g1.theStack = g.theStack ∧
      (∀ j, j ≠ R → g1.extFace j = g.extFace j) ∧
      (ZPrevLink = Rout → (g.G R).link 0 ≠ (g.G R).link 1 →
        (g1.extFace R).link 0 = (g.extFace R).link 1 ∧
        (g1.extFace R).link 1 = (g.extFace R).link 0 ∧
        (g1.extFace R).inversionFlag = (g.extFace R).inversionFlag) ∧
      (¬ (ZPrevLink = Rout ∧ (g.G R).link 0 ≠ (g.G R).link 1) →
        g1.extFace R = g.extFace R) := by
  unfold flipRoot
  by_cases hz : ZPrevLink = Rout
  · simp only [if_pos hz]
    -- the marking loop on a state s with ring c
    have mark : ∀ (s : graph) (c : List Int), Ring s 0 R c → c.length < fuel →
        markChildArcInverted fuel s ((s.G R).link 0) = some (markArc s (firstChildArc s c)) := by
      intro s c hs hc
      have hch : List.Chain' (fun x y => (s.G x).link 0 = y) (c ++ [R]) :=
        List.Chain'.imp (fun a b h => h.1) hs.1.tail
      have := markChild_chain R c s (fuel - (c.length + 1)) hch hs.2.2.2 hs.2.2.1
      rw [Ring_first hs]
      have e : c.length + 1 + (fuel - (c.length + 1)) = fuel := by omega
      rw [e] at this
      exact this
    by_cases hl : (g.G R).link 0 ≠ (g.G R).link 1
    · rw [if_pos hl]
      obtain ⟨s, e1, r1, sw, fr, ty, vv, iv, vd, st, x0, x1, xf, xo⟩ :=
        invertVertex_full fuel g R b hR hfuel
      rw [e1, Option.some_bind, mark s b.reverse r1 (by simpa using hfuel)]
      obtain ⟨m1, m2, m3, m4, m5, m6, m7, m8⟩ := markArc_spec s (firstChildArc s b.reverse)
      refine ⟨_, rfl, fun h => absurd hz h, Ring_frame r1 ?_ (fun x _ => m1 x), ?_, ?_, ?_, ?_,
        ?_, m5.trans vd, m6.trans st, ?_, ?_, ?_⟩
      · exact m8
      · intro _ x hx
        rw [m1]
        exact sw x hx
      · intro x hx
        rw [m1, fr x hx]
      · intro x; rw [m2, ty]
      · intro x; rw [m3, vv]
      · intro x
        rw [m4, iv, firstChildArc_congr g s ty]
        by_cases hx : firstChildArc g b.reverse = some x
        · rw [if_pos hx, if_pos ⟨hz, hx⟩]
        · rw [if_neg hx, if_neg (fun h => hx h.2)]
      · intro j hj
        rw [m7, xo j hj]
      · intro _ _
        rw [m7]
        exact ⟨x0, x1, xf⟩
      · intro h
        exact absurd ⟨hz, hl⟩ h
    · rw [if_neg hl, Option.some_bind]
      have hl2 : (g.G R).link 0 = (g.G R).link 1 := not_not.1 hl
      obtain ⟨hrev, hsym⟩ := ring_equal_links hR hl2
      rw [mark g b hR hfuel]
      obtain ⟨m1, m2, m3, m4, m5, m6, m7, m8⟩ := markArc_spec g (firstChildArc g b)
      refine ⟨_, rfl, fun h => absurd hz h, ?_, ?_, ?_, m2, m3, ?_, m5, m6, ?_, ?_, ?_⟩
      · rw [hrev]
        exact Ring_frame hR m8 (fun x _ => m1 x)
      · intro _ x hx
        rw [m1, hsym x hx]
        exact ⟨rfl, rfl⟩
      · intro x _
        exact m1 x
      · intro x
        rw [m4, hrev]
        by_cases hx : firstChildArc g b = some x
        · rw [if_pos hx, if_pos ⟨hz, hx⟩]
        · rw [if_neg hx, if_neg (fun h => hx h.2)]
      · intro j _
        rw [m7]
      · intro _ h
        exact absurd hl2 h
      · intro _
        rw [m7]
  · simp only [if_neg hz]
    refine ⟨g, rfl, fun _ => rfl, hR, fun h => absurd h hz, fun _ _ => rfl, fun _ => rfl,
      fun _ => rfl, ?_, rfl, rfl, fun _ _ => rfl, fun h => absurd h hz, fun _ => rfl⟩
    intro x
    rw [if_neg (fun h => hz h.1)]

/-- In a valid ring the last node of `V :: l1` and the first node of `l2 ++ [V]` are
neighbours. -/
theorem ring_joint {g : graph} {V : Int} {l1 l2 : List Int} (h : Ring g 0 V (l1 ++ l2)) :
    Linked g 0 ((l1.reverse ++ [V]).headD V) ((l2 ++ [V]).headD V) := by
  have c : List.Chain' (Linked g 0) ((V :: l1) ++ (l2 ++ [V])) := by
    have := h.1
    simpa using this
  rw [List.chain'_append] at c
  apply c.2.2
  · rcases List.eq_nil_or_concat l1 with h1 | ⟨u, z, h1⟩
    · subst h1; simp
    · subst h1
      simp only [List.concat_eq_append, Option.mem_def]
      rw [← List.cons_append, List.getLast?_concat]
      simp
  · cases l2 with
    | nil => simp
    | cons y t => simp

theorem headD_append_ne (l : List Int) (x y : Int) (h : l ≠ []) :
    (l ++ [x]).headD x = (l ++ [y]).headD y := by
  cases l with
  | nil => exact absurd rfl h
  | cons a t => rfl

/-- The effect of one iteration of the loop of `_MergeBicomps` on the rings of `Z` and `R`
(arcs `a` and `b` in `link[0]` order): `R` is inverted if `ZPrevLink == Rout`, and its ring
is then spliced into the ring of `Z` on the side `ZPrevLink`. -/
theorem mergeBicompsStep_rings (fuel : Nat) (init : graph → Int → graph) (g : graph)
    (R Rout Z ZPrevLink : Int) (rest a b : List Int) (hinit : RetiresNode init)
    (hst : g.theStack = Rout :: R :: ZPrevLink :: Z :: rest)
    (hp : ZPrevLink = 0 ∨ ZPrevLink = 1) (hZ : Ring g 0 Z a) (hR : Ring g 0 R b)
    (hb : b ≠ []) (hd : ∀ x ∈ Z :: a, x ∉ R :: b) (hfuel : b.length < fuel) :
    ∃ g1, mergeBicompsStep fuel init g = some g1 ∧
      Ring g1 0 Z
        (if ZPrevLink = 0 then (if ZPrevLink = Rout then b.reverse else b) ++ a
          else a ++ (if ZPrevLink = Rout then b.reverse else b)) ∧
      (∀ t, (g1.G R).link t = NIL) ∧
      (∀ j, j ≠ R → (g1.G j).inverted =
        if ZPrevLink = Rout ∧ firstChildArc g b.reverse = some j then true
        else (g.G j).inverted) ∧
      (∀ j, j ∉ Z :: a → j ∉ R :: b → (g1.G j).link = (g.G j).link) := by
  rw [mergeBicompsStep_eq fuel init g R Rout Z ZPrevLink rest hst]
  obtain ⟨s0, hs0, e0, z0, r0⟩ : ∃ s0,
      stitchExtFace { g with theStack := rest } R Rout Z ZPrevLink = s0 ∧ s0.G = g.G ∧
      Ring s0 0 Z a ∧ Ring s0 0 R b := by
    obtain ⟨k1, k2, -⟩ := stitchExtFace_G { g with theStack := rest } R Rout Z ZPrevLink
    have ke : (stitchExtFace { g with theStack := rest } R Rout Z ZPrevLink).edgeOffset =
        g.edgeOffset := congrArg (fun q => q.2.2.1) k2
    exact ⟨_, rfl, k1, Ring_frame hZ ke (fun x _ => by rw [k1]),
      Ring_frame hR ke (fun x _ => by rw [k1])⟩
  rw [hs0]
  obtain ⟨s1, e1, -, r1, -, f1, t1, -, i1, d1, -, -, -, -⟩ :=
    flipRoot_spec fuel s0 R Rout ZPrevLink b r0 hfuel
  rw [e1, Option.some_bind]
  have ke1 : s1.edgeOffset = s0.edgeOffset := congrArg (fun q => q.2.2.1) d1
  have z1 : Ring s1 0 Z a := Ring_frame z0 ke1 (fun x hx => f1 x (hd x hx))
  set b1 := (if ZPrevLink = Rout then b.reverse else b) with hb1
  have hmem : ∀ x, x ∈ b1 ↔ x ∈ b := by
    intro x
    rw [hb1]
    split_ifs <;> simp
  have hlen : b1.length = b.length := by
    rw [hb1]
    split_ifs <;> simp
  have hb1ne : b1 ≠ [] := by
    intro e
    rw [e] at hlen
    exact hb (List.length_eq_zero.1 hlen.symm)
  obtain ⟨k1, k2, k3, k4, -⟩ := dropFromLists_G s1 R Z
  have z2 : Ring (dropFromLists s1 R Z) 0 Z a := Ring_frame z1 k4 (fun x _ => by rw [k1])
  have r2 : Ring (dropFromLists s1 R Z) 0 R b1 := Ring_frame r1 k4 (fun x _ => by rw [k1])
  have hd2 : ∀ x ∈ Z :: a, x ∉ R :: b1 := by
    intro x hx hx2
    apply hd x hx
    rcases List.mem_cons.1 hx2 with h | h
    · exact h ▸ List.mem_cons_self _ _
    · exact List.mem_cons_of_mem _ ((hmem x).1 h)
  obtain ⟨g1, m1, m2, m3, -, m5, m6, -, -, -⟩ :=
    mergeVertex_spec fuel init (dropFromLists s1 R Z) Z ZPrevLink R a b1 hinit hp z2 r2 hb1ne
      hd2 (by rw [hlen]; exact hfuel)
  refine ⟨g1, m1, m2, m3, ?_, ?_⟩
  · intro j hj
    rw [m6 j hj, k1, i1, e0]
    have : firstChildArc s0 b.reverse = firstChildArc g b.reverse :=
      firstChildArc_congr g s0 (fun x => by rw [e0]) _
    rw [this]
  · intro j hj1 hj2
    have hj3 : j ∉ R :: b1 := by
      intro h
      apply hj2
      rcases List.mem_cons.1 h with h | h
      · exact h ▸ List.mem_cons_self _ _
      · exact List.mem_cons_of_mem _ ((hmem j).1 h)
    rw [m5 j hj1 hj3, k1, f1 j hj2, e0]

theorem headD_prefix (l m : List Int) (x y : Int) (h : l ≠ []) :
    (l ++ m).headD x = (l ++ [y]).headD y := by
  cases l with
  | nil => exact absurd rfl h
  | cons a t => rfl

/-- C25 (amended): one iteration of the loop of `_MergeBicomps`, popping `(R, Rout)` and
`(Z, ZPrevLink)` on a state in which `Z` and `R` have valid disjoint rings (`R` holding an
arc) and for a hook `fpInitGraphNode` that re-initialises that node only.  The iteration
returns; the ring of `Z` is a valid ring holding the arcs of `R` (in reverse order if
`ZPrevLink == Rout`) on the side `ZPrevLink` of the arcs of `Z`; the arc that was
`G[R].link[1 ^ Rout]` before the merge is now `G[Z].link[ZPrevLink]`; and the two other end
arcs, the old `G[Z].link[ZPrevLink]` and the old `G[R].link[Rout]`, are neighbours in the
ring of `Z`. -/
theorem mergeBicomps_splice (fuel : Nat) (init : graph → Int → graph) (g : graph)
    (R Rout Z ZPrevLink : Int) (rest a b : List Int) (hinit : RetiresNode init)
    (hst : g.theStack = Rout :: R :: ZPrevLink :: Z :: rest)
    (hp : ZPrevLink = 0 ∨ ZPrevLink = 1) (hq : Rout = 0 ∨ Rout = 1) (hZ : Ring g 0 Z a)
    (hR : Ring g 0 R b) (hb : b ≠ []) (hd : ∀ x ∈ Z :: a, x ∉ R :: b)
    (hfuel : b.length < fuel) :
    ∃ g1, mergeBicompsStep fuel init g = some g1 ∧
      Ring g1 0 Z
        (if ZPrevLink = 0 then (if ZPrevLink = Rout then b.reverse else b) ++ a
          else a ++ (if ZPrevLink = Rout then b.reverse else b)) ∧
      (g1.G Z).link ZPrevLink = (g.G R).link (Int.xor 1 Rout) ∧
      (g1.G ((g.G Z).link ZPrevLink)).link (Int.xor 1 ZPrevLink) = (g.G R).link Rout ∧
      (g1.G ((g.G R).link Rout)).link ZPrevLink = (g.G Z).link ZPrevLink := by
  obtain ⟨g1, h1, h2, -, -, -⟩ :=
    mergeBicompsStep_rings fuel init g R Rout Z ZPrevLink rest a b hinit hst hp hZ hR hb hd
      hfuel
  refine ⟨g1, h1, h2, ?_⟩
  have R0 := Ring_first hR
  have R1 := Ring_last (Or.inl rfl) hR
  have Z0 := Ring_first hZ
  have Z1 := Ring_last (Or.inl rfl) hZ
  rw [xor_one_zero] at R1 Z1
  have hbr : b.reverse ≠ [] := by simpa using hb
  rcases hp with rfl | rfl <;> rcases hq with rfl | rfl
  · -- ZPrevLink = 0, Rout = 0: the ring of R is inverted
    simp only [if_true] at h2
    have n0 := Ring_first h2
    have j := ring_joint h2
    rw [List.reverse_reverse] at j
    rw [List.append_assoc, headD_prefix b.reverse (a ++ [Z]) Z R hbr] at n0
    rw [headD_append_ne b Z R hb, ← R0, ← Z0] at j
    unfold Linked at j
    rw [xor_one_zero] at j ⊢
    exact ⟨n0.trans R1.symm, j.2, j.1⟩
  · -- ZPrevLink = 0, Rout = 1
    simp only [if_true, show ¬ ((0 : Int) = 1) by decide, if_false] at h2
    have n0 := Ring_first h2
    have j := ring_joint h2
    rw [List.append_assoc, headD_prefix b (a ++ [Z]) Z R hb] at n0
    rw [headD_append_ne b.reverse Z R hbr, ← R1, ← Z0] at j
    unfold Linked at j
    rw [xor_one_zero] at j
    rw [xor_one_one, xor_one_zero]
    exact ⟨n0.trans R0.symm, j.2, j.1⟩
  · -- ZPrevLink = 1, Rout = 0
    simp only [show ¬ ((1 : Int) = 0) by decide, if_false] at h2
    have n1 := Ring_last (Or.inl rfl) h2
    rw [xor_one_zero] at n1
    have j := ring_joint h2
    rw [List.reverse_append, List.append_assoc,
      headD_prefix b.reverse (a.reverse ++ [Z]) Z R hbr] at n1
    rw [headD_append_ne b Z R hb, ← R0, ← Z1] at j
    unfold Linked at j
    rw [xor_one_zero] at j ⊢
    rw [xor_one_one]
    exact ⟨n1.trans R1.symm, j.1, j.2⟩
  · -- ZPrevLink = 1, Rout = 1: the ring of R is inverted
    simp only [show ¬ ((1 : Int) = 0) by decide, if_false, if_true] at h2
    have n1 := Ring_last (Or.inl rfl) h2
    rw [xor_one_zero] at n1
    have j := ring_joint h2
    rw [List.reverse_append, List.reverse_reverse, List.append_assoc,
      headD_prefix b (a.reverse ++ [Z]) Z R hb] at n1
    rw [headD_append_ne b.reverse Z R hbr, ← R1, ← Z1] at j
    unfold Linked at j
    rw [xor_one_zero] at j
    rw [xor_one_one]
    exact ⟨n1.trans R0.symm, j.1, j.2⟩

theorem lc_getD_step (a : Int) (t : List Int) (i : Nat) (hi : i < t.length + 1) :
    ((a :: t) ++ [a]).getD i NIL = (a :: t).getD i NIL ∧
    ((a :: t) ++ [a]).getD (i + 1) NIL = (a :: t).getD ((i + 1) % (t.length + 1)) NIL := by
  constructor
  · exact List.getD_append _ _ _ _ (by simpa using hi)
  · by_cases h : i + 1 < t.length + 1
    · rw [Nat.mod_eq_of_lt h]
      exact List.getD_append _ _ _ _ (by simpa using h)
    · have e : i + 1 = t.length + 1 := by omega
      rw [e, Nat.mod_self]
      rw [List.getD_append_right _ _ _ _ (by simp)]
      simp

/-- The index form of the links of a circular list, as in `LCRep`, is a circular chain. -/
theorem lc_chain_iff (lc : listCollection) (l : List Int) :
    (∀ i, i < l.length →
      (lc.List (l.getD i NIL)).next = l.getD ((i + 1) % l.length) NIL ∧
      (lc.List (l.getD ((i + 1) % l.length) NIL)).prev = l.getD i NIL) ↔
    List.Chain' (fun a b => (lc.List a).next = b ∧ (lc.List b).prev = a) (l ++ l.take 1) := by
  cases l with
  | nil => simp
  | cons a t =>
    have eL : (a :: t) ++ (a :: t).take 1 = (a :: t) ++ [a] := rfl
    rw [eL, List.chain'_iff_get]
    have hlen : ((a :: t) ++ [a]).length - 1 = t.length + 1 := by simp
    have key : ∀ i (hi : i < t.length + 1),
        ((a :: t) ++ [a]).get ⟨i, by simp; omega⟩ = (a :: t).getD i NIL ∧
        ((a :: t) ++ [a]).get ⟨i + 1, by simp; omega⟩ =
          (a :: t).getD ((i + 1) % (t.length + 1)) NIL := by
      intro i hi
      obtain ⟨f1, f2⟩ := lc_getD_step a t i hi
      rw [← f1, ← f2, List.get_eq_getElem, List.get_eq_getElem,
        List.getD_eq_getElem _ NIL (show i < ((a :: t) ++ [a]).length by simp; omega),
        List.getD_eq_getElem _ NIL (show i + 1 < ((a :: t) ++ [a]).length by simp; omega)]
      exact ⟨rfl, rfl⟩
    constructor
    · intro h i hi
      have hi2 : i < t.length + 1 := by rw [hlen] at hi; exact hi
      obtain ⟨k1, k2⟩ := key i hi2
      rw [k1, k2]
      exact h i (by simpa using hi2)
    · intro h i hi
      simp only [List.length_cons] at hi ⊢
      obtain ⟨k1, k2⟩ := key i hi
      rw [← k1, ← k2]
      exact h i (by rw [hlen]; exact hi)

theorem LCRep_iff_chain (lc : listCollection) (head : Int) (l : List Int) :
    LCRep lc head l ↔ NIL ∉ l ∧ l.Nodup ∧ head = l.headD NIL ∧
      List.Chain' (fun a b => (lc.List a).next = b ∧ (lc.List b).prev = a) (l ++ l.take 1) := by
  unfold LCRep
  rw [lc_chain_iff]

/-- The neighbours of an element `c` of a circular chain with further elements. -/
theorem cyc_around {α : Type} {R : α → α → Prop} (pre post : List α) (c : α)
    (h : List.Chain' R ((pre ++ c :: post) ++ (pre ++ c :: post).take 1))
    (hne : pre ++ post ≠ []) :
    ∃ p s, p ∈ pre ++ post ∧ s ∈ pre ++ post ∧ R p c ∧ R c s ∧
      (post ++ pre).head? = some s := by
  cases pre with
  | nil =>
    cases post with
    | nil => exact absurd rfl hne
    | cons x q =>
      simp only [List.nil_append, List.take_succ_cons, List.take_zero, List.cons_append] at h ⊢
      have a1 : R c x := (List.chain'_cons.1 h).1
      have a2 : List.Chain' R ((x :: q) ++ [c]) := (List.chain'_cons.1 h).2
      rw [List.chain'_append] at a2
      obtain ⟨y, hy⟩ : ∃ y, (x :: q).getLast? = some y := by
        cases h : (x :: q).getLast? with
        | none => simp at h
        | some y => exact ⟨y, rfl⟩
      exact ⟨y, x, List.mem_of_mem_getLast? hy, List.mem_cons_self _ _,
        a2.2.2 y hy c (by simp), a1, by simp⟩
  | cons p0 pr =>
    have e1 : (p0 :: pr ++ c :: post) ++ (p0 :: pr ++ c :: post).take 1 =
        (p0 :: pr) ++ (c :: (post ++ [p0])) := by simp
    rw [e1, List.chain'_append] at h
    obtain ⟨-, b2, b3⟩ := h
    obtain ⟨y, hy⟩ : ∃ y, (p0 :: pr).getLast? = some y := by
      cases h : (p0 :: pr).getLast? with
      | none => simp at h
      | some y => exact ⟨y, rfl⟩
    obtain ⟨z, hz, hz3⟩ : ∃ z, (post ++ [p0]).head? = some z ∧
        (post ++ p0 :: pr).head? = some z := by
      cases post with
      | nil => exact ⟨p0, rfl, rfl⟩
      | cons x q => exact ⟨x, rfl, rfl⟩
    have hz2 : z ∈ p0 :: pr ++ post := by
      have := List.mem_of_mem_head? hz
      rcases List.mem_append.1 this with h | h
      · exact List.mem_append_right _ h
      · rw [List.mem_singleton.1 h]; exact List.mem_cons_self _ _
    exact ⟨y, z, List.mem_append_left _ (List.mem_of_mem_getLast? hy), hz2,
      b3 y hy c (by simp), (List.chain'_cons'.1 b2).1 z hz, hz3⟩

/-- Modelled `LCDelete` on a valid list that holds `c`: the list that remains is valid and
holds the other ids in unchanged order. -/
theorem LCRep_delete {lc : listCollection} {head c : Int} {l : List Int}
    (hr : LCRep lc head l) (hc : c ∈ l) :
    LCRep (LCDelete lc head c).1 (LCDelete lc head c).2 (l.erase c) := by
  rw [LCRep_iff_chain] at hr ⊢
  obtain ⟨hnil, hnd, hhead, hch⟩ := hr
  obtain ⟨pre, post, rfl⟩ := List.append_of_mem hc
  have hcpre : c ∉ pre := by
    intro hm
    rw [List.nodup_append] at hnd
    exact hnd.2.2 hm (List.mem_cons_self _ _)
  have hcpost : c ∉ post := by
    rw [List.nodup_append] at hnd
    exact (List.nodup_cons.1 hnd.2.1).1
  have hcpp : c ∉ pre ++ post := by
    intro hm
    rcases List.mem_append.1 hm with h | h
    · exact hcpre h
    · exact hcpost h
  have her : (pre ++ c :: post).erase c = pre ++ post := by
    rw [List.erase_append_right _ hcpre, List.erase_cons_head]
  rw [her]
  have hnil2 : NIL ∉ pre ++ post := by
    intro hm
    apply hnil
    simp only [List.mem_append, List.mem_cons] at hm ⊢
    tauto
  have hnd2 : (pre ++ post).Nodup := by
    rw [List.nodup_append] at hnd ⊢
    exact ⟨hnd.1, (List.nodup_cons.1 hnd.2.1).2,
      fun x hx hy => hnd.2.2 hx (List.mem_cons_of_mem _ hy)⟩
  by_cases hne : pre ++ post = []
  · -- `c` is alone in its list
    have hpre : pre = [] := (List.append_eq_nil.1 hne).1
    have hpost : post = [] := (List.append_eq_nil.1 hne).2
    subst hpre hpost
    simp only [List.nil_append, List.headD_cons] at hhead
    simp only [List.nil_append, List.take_succ_cons, List.take_zero, List.singleton_append,
      List.chain'_cons, List.chain'_singleton, and_true] at hch
    subst hhead
    have : LCDelete lc head head = (⟨upd lc.List head ⟨NIL, NIL⟩⟩, NIL) := by
      unfold LCDelete
      rw [if_pos hch.1]
    rw [this]
    exact ⟨by simp, List.nodup_nil, rfl, by simp⟩
  · obtain ⟨p, s, hp, hs, hpc, hcs, hsh⟩ := cyc_around pre post c hch hne
    have hpne : p ≠ c := fun e => hcpp (e ▸ hp)
    have hsne : s ≠ c := fun e => hcpp (e ▸ hs)
    -- the head is not alone
    have hnext : (lc.List head).next ≠ head := by
      cases pre with
      | nil =>
        simp only [List.nil_append, List.headD_cons] at hhead
        rw [hhead, hcs.1]
        exact hsne
      | cons f pr =>
        simp only [List.cons_append, List.headD_cons] at hhead
        have hch2 : List.Chain' (fun a b => (lc.List a).next = b ∧ (lc.List b).prev = a)
            (f :: (pr ++ c :: post ++ [f])) := by
          simpa using hch
        have hfm : ∀ y, (pr ++ c :: post ++ [f]).head? = some y → y ∈ pr ++ c :: post := by
          intro y hy
          cases pr with
          | nil =>
            simp only [List.nil_append, List.cons_append, List.head?_cons,
              Option.some.injEq] at hy
            rw [← hy]; simp
          | cons z u =>
            simp only [List.cons_append, List.head?_cons, Option.some.injEq] at hy
            rw [← hy]; simp
        obtain ⟨y, hy⟩ : ∃ y, (pr ++ c :: post ++ [f]).head? = some y := by
          cases pr with
          | nil => exact ⟨c, rfl⟩
          | cons z u => exact ⟨z, rfl⟩
        have hfy := (List.chain'_cons'.1 hch2).1 y hy
        rw [hhead, hfy.1]
        intro e
        have := hfm y hy
        rw [e] at this
        exact (List.nodup_cons.1 hnd).1 this
    have hdel : LCDelete lc head c =
        (⟨upd (upd (upd lc.List p ⟨(lc.List p).prev, s⟩) s
            ⟨p, ((upd lc.List p ⟨(lc.List p).prev, s⟩) s).next⟩) c ⟨NIL, NIL⟩⟩,
          if head = c then s else head) := by
      unfold LCDelete
      rw [if_neg hnext, hpc.2, hcs.1]
    rw [hdel]
    have hnx : ∀ a, a ≠ c →
        ((upd (upd (upd lc.List p ⟨(lc.List p).prev, s⟩) s
            ⟨p, ((upd lc.List p ⟨(lc.List p).prev, s⟩) s).next⟩) c ⟨NIL, NIL⟩) a).next =
          if a = p then s else (lc.List a).next := by
      intro a ha
      simp only [upd, if_neg ha]
      by_cases h1 : a = s
      · by_cases h2 : a = p
        · subst h1; simp [h2]
        · subst h1
          have h3 : ¬ p = a := fun e => h2 e.symm
          simp [h2, h3]
      · by_cases h2 : a = p
        · subst h2; simp [h1]
        · simp [h1, h2]
    have hpv : ∀ b, b ≠ c →
        ((upd (upd (upd lc.List p ⟨(lc.List p).prev, s⟩) s
            ⟨p, ((upd lc.List p ⟨(lc.List p).prev, s⟩) s).next⟩) c ⟨NIL, NIL⟩) b).prev =
          if b = s then p else (lc.List b).prev := by
      intro b hb
      simp only [upd, if_neg hb]
      by_cases h1 : b = s
      · simp [h1]
      · by_cases h2 : b = p
        · subst h2; simp [h1]
        · simp [h1, h2]
    refine ⟨hnil2, hnd2, ?_, ?_⟩
    · cases pre with
      | nil =>
        simp only [List.nil_append, List.headD_cons] at hhead hsh ⊢
        rw [if_pos hhead]
        cases post with
        | nil => exact absurd rfl hne
        | cons x q =>
          simp only [List.append_nil, List.head?_cons, Option.some.injEq] at hsh
          rw [← hsh]; rfl
      | cons f pr =>
        simp only [List.cons_append, List.headD_cons] at hhead ⊢
        rw [if_neg]
        · exact hhead
        · rw [hhead]
          intro e
          exact hcpre (e ▸ List.mem_cons_self _ _)
    · refine cyc_delete pre post c hch ?_ ?_
      · intro a b ha hb hab
        have hac : a ≠ c := fun e => hcpp (e ▸ ha)
        have hbc : b ≠ c := fun e => hcpp (e ▸ hb)
        show _ ∧ _
        rw [hnx a hac, hpv b hbc]
        constructor
        · rw [if_neg]
          · exact hab.1
          · intro e
            rw [e, hpc.1] at hab
            exact hbc hab.1.symm
        · rw [if_neg]
          · exact hab.2
          · intro e
            rw [e, hcs.2] at hab
            exact hac hab.2.symm
      · intro p2 s2 hp2 hs2 hp2c hcs2
        have e1 : p2 = p := by rw [← hp2c.2, hpc.2]
        have e2 : s2 = s := by rw [← hcs2.1, hcs.1]
        subst e1 e2
        show _ ∧ _
        rw [hnx p2 hpne, hpv s2 hsne, if_pos rfl, if_pos rfl]
        exact ⟨rfl, rfl⟩

theorem flipRoot_side (fuel : Nat) (g : graph) (R Rout ZPrevLink : Int) (g1 : graph)
    (h : flipRoot fuel g R Rout ZPrevLink = some g1) :
    vertexData g1 = vertexData g ∧ ∀ j, j ≠ R → g1.extFace j = g.extFace j := by
  unfold flipRoot at h
  by_cases hz : ZPrevLink = Rout
  · rw [if_pos hz] at h
    by_cases hl : (g.G R).link 0 ≠ (g.G R).link 1
    · rw [if_pos hl, Option.bind_eq_some] at h
      obtain ⟨s, h1, h2⟩ := h
      unfold _InvertVertex at h1
      rw [Option.map_eq_some'] at h1
      obtain ⟨s0, h3, rfl⟩ := h1
      obtain ⟨a1, a2⟩ := invertRing_side fuel g R s0 h3
      obtain ⟨b1, b2, -⟩ := markChildArcInverted_side fuel _ _ g1 h2
      refine ⟨b1.trans a1, ?_⟩
      intro j hj
      rw [b2]
      simp only [setExtFaceLink, upd, if_neg hj]
      rw [a2]
    · rw [if_neg hl, Option.some_bind] at h
      obtain ⟨b1, b2, -⟩ := markChildArcInverted_side fuel _ _ g1 h
      exact ⟨b1, fun j _ => by rw [b2]⟩
  · rw [if_neg hz] at h
    simp only [Option.some.injEq] at h
    subst h
    exact ⟨rfl, fun _ _ => rfl⟩

theorem stitchExtFace_eq (g : graph) (R Rout Z ZPrevLink : Int)
    (hPZ : (g.extFace R).link (Int.xor 1 Rout) ≠ Z) :
    stitchExtFace g R Rout Z ZPrevLink =
      setExtFaceLink (setExtFaceLink g Z ZPrevLink ((g.extFace R).link (Int.xor 1 Rout)))
        ((g.extFace R).link (Int.xor 1 Rout))
        (if (g.extFace ((g.extFace R).link (Int.xor 1 Rout))).link 0 =
            (g.extFace ((g.extFace R).link (Int.xor 1 Rout))).link 1 then
          Int.xor Rout (g.extFace ((g.extFace R).link (Int.xor 1 Rout))).inversionFlag
        else if (g.extFace ((g.extFace R).link (Int.xor 1 Rout))).link 0 = R then 0 else 1)
        Z := by
  have e : (setExtFaceLink g Z ZPrevLink ((g.extFace R).link (Int.xor 1 Rout))).extFace
      ((g.extFace R).link (Int.xor 1 Rout)) =
        g.extFace ((g.extFace R).link (Int.xor 1 Rout)) := by
    simp only [setExtFaceLink, upd, if_neg hPZ]
  unfold stitchExtFace
  simp only [e]
  split_ifs <;> rfl

theorem setExtFaceLink_flag (g : graph) (i s x j : Int) :
    ((setExtFaceLink g i s x).extFace j).inversionFlag = (g.extFace j).inversionFlag := by
  simp only [setExtFaceLink, upd]
  split_ifs with h
  · subst h; rfl
  · rfl

/-- C23: one iteration of the loop of `_MergeBicomps` that pops `(R, Rout)` and
`(Z, ZPrevLink)` and returns, with `P = extFace[R].link[1 ^ Rout]` read before the merge, a
vertex other than `Z` and `R` that has `R` as one of its external-face neighbours, and for a
hook `fpInitGraphNode` that leaves the external-face table as it is.  Afterwards
`extFace[Z].link[ZPrevLink] = P`, the other links of `Z` being as before; exactly one
external-face link of `P` is rewritten to `Z`, the others being as before: with the two links
of `P` different it is `link[0]` if that pointed to `R` and `link[1]` otherwise, which is the
link that pointed to `R`; with the two links equal it is
`link[Rout ^ extFace[P].inversionFlag]`. -/
theorem mergeBicomps_stitch (fuel : Nat) (init : graph → Int → graph) (g : graph)
    (R Rout Z ZPrevLink : Int) (rest : List Int) (g1 : graph) (hinit : KeepsSideTables init)
    (hst : g.theStack = Rout :: R :: ZPrevLink :: Z :: rest)
    (hrun : mergeBicompsStep fuel init g = some g1) (hZR : Z ≠ R)
    (hPZ : (g.extFace R).link (Int.xor 1 Rout) ≠ Z)
    (hPR : (g.extFace R).link (Int.xor 1 Rout) ≠ R)
    (hnb : (g.extFace ((g.extFace R).link (Int.xor 1 Rout))).link 0 = R ∨
      (g.extFace ((g.extFace R).link (Int.xor 1 Rout))).link 1 = R) :
    let P := (g.extFace R).link (Int.xor 1 Rout)
    let k := if (g.extFace P).link 0 = (g.extFace P).link 1 then
        Int.xor Rout (g.extFace P).inversionFlag
      else if (g.extFace P).link 0 = R then 0 else 1
    (g1.extFace Z).link ZPrevLink = P ∧
    (∀ t, t ≠ ZPrevLink → (g1.extFace Z).link t = (g.extFace Z).link t) ∧
    (g1.extFace P).link k = Z ∧
    (∀ t, t ≠ k → (g1.extFace P).link t = (g.extFace P).link t) ∧
    ((g.extFace P).link 0 ≠ (g.extFace P).link 1 → (g.extFace P).link k = R) ∧
    (∀ j, (g1.extFace j).inversionFlag = (g.extFace j).inversionFlag ∨ j = R) ∧
    ∀ j, j ≠ Z → j ≠ P → j ≠ R → g1.extFace j = g.extFace j := by
  intro P k
  rw [mergeBicompsStep_eq fuel init g R Rout Z ZPrevLink rest hst, Option.bind_eq_some] at hrun
  obtain ⟨s1, h1, h2⟩ := hrun
  obtain ⟨-, f1⟩ := flipRoot_side fuel _ R Rout ZPrevLink s1 h1
  obtain ⟨-, m1⟩ := mergeVertex_side fuel init hinit _ Z ZPrevLink R g1 h2
  have d1 : (dropFromLists s1 R Z).extFace = s1.extFace := rfl
  have hz : ∀ j, j ≠ R → g1.extFace j =
      (stitchExtFace { g with theStack := rest } R Rout Z ZPrevLink).extFace j := by
    intro j hj
    rw [m1, d1, f1 j hj]
  have hse := stitchExtFace_eq { g with theStack := rest } R Rout Z ZPrevLink hPZ
  have hPZ2 : P ≠ Z := hPZ
  have hZP : Z ≠ P := fun e => hPZ2 e.symm
  refine ⟨?_, ?_, ?_, ?_, ?_, ?_, ?_⟩
  · rw [hz Z hZR, hse, setExtFaceLink_link, if_neg (fun h => hZP h.1), setExtFaceLink_link,
      if_pos ⟨rfl, rfl⟩]
  · intro t ht
    rw [hz Z hZR, hse, setExtFaceLink_link, if_neg (fun h => hZP h.1), setExtFaceLink_link,
      if_neg (fun h => ht h.2)]
  · rw [hz P hPR, hse, setExtFaceLink_link, if_pos ⟨rfl, rfl⟩]
  · intro t ht
    rw [hz P hPR, hse, setExtFaceLink_link, if_neg (fun h => ht h.2), setExtFaceLink_link,
      if_neg (fun h => hPZ2 h.1)]
  · intro hne
    show (g.extFace P).link (if (g.extFace P).link 0 = (g.extFace P).link 1 then _ else _) = R
    rw [if_neg hne]
    by_cases h0 : (g.extFace P).link 0 = R
    · rw [if_pos h0]; exact h0
    · rw [if_neg h0]
      rcases hnb with h | h
      · exact absurd h h0
      · exact h
  · intro j
    by_cases hj : j = R
    · exact Or.inr hj
    · left
      rw [hz j hj, hse, setExtFaceLink_flag, setExtFaceLink_flag]
  · intro j hjZ hjP hjR
    rw [hz j hjR, hse]
    simp only [setExtFaceLink, upd, if_neg hjZ, if_neg hjP]

/-- C24: the flip decision of an iteration of the loop of `_MergeBicomps` that pops
`(R, Rout)` and `(Z, ZPrevLink)`, for a root copy `R` other than `Z` and
`extFace[R].link[1 ^ Rout]`, with a valid ring `b` that holds exactly one DFS_CHILD arc `J`
and whose external-face links are equal if its two end links are (a root copy with a single
arc).  The iteration goes on to the list maintenance and the merge from a state `s1` such
that: if `ZPrevLink == Rout`, the links `link[0]` and `link[1]` of `R` and of every arc of
its ring are swapped, so that the ring is valid in the reverse order, the two external-face
links of `R` are swapped, `J` has its inverted flag set and no other inverted flag is
changed; if `ZPrevLink != Rout`, no link and no inverted flag is changed and the
external-face links of `R` are as before. -/
theorem mergeBicomps_flip (fuel : Nat) (init : graph → Int → graph) (g : graph)
    (R Rout Z ZPrevLink : Int) (rest b : List Int) (J : Int)
    (hst : g.theStack = Rout :: R :: ZPrevLink :: Z :: rest)
    (hR : Ring g 0 R b) (hfuel : b.length < fuel) (hJ : J ∈ b)
    (hJc : (g.G J).type = EDGE_DFSCHILD)
    (hu : ∀ x ∈ b, (g.G x).type = EDGE_DFSCHILD → x = J)
    (hext : (g.G R).link 0 = (g.G R).link 1 → (g.extFace R).link 0 = (g.extFace R).link 1)
    (hZR : Z ≠ R) (hPZ : (g.extFace R).link (Int.xor 1 Rout) ≠ Z)
    (hPR : (g.extFace R).link (Int.xor 1 Rout) ≠ R) :
    ∃ s1, mergeBicompsStep fuel init g =
        _MergeVertex fuel init (dropFromLists s1 R Z) Z ZPrevLink R ∧
      (ZPrevLink = Rout →
        (∀ x ∈ R :: b,
          (s1.G x).link 0 = (g.G x).link 1 ∧ (s1.G x).link 1 = (g.G x).link 0) ∧
        Ring s1 0 R b.reverse ∧
        (s1.extFace R).link 0 = (g.extFace R).link 1 ∧
        (s1.extFace R).link 1 = (g.extFace R).link 0 ∧
        (s1.G J).inverted = true ∧
        ∀ x, x ≠ J → (s1.G x).inverted = (g.G x).inverted) ∧
      (ZPrevLink ≠ Rout →
        s1.G = g.G ∧ s1.extFace R = g.extFace R) := by
  rw [mergeBicompsStep_eq fuel init g R Rout Z ZPrevLink rest hst]
  have hse := stitchExtFace_eq { g with theStack := rest } R Rout Z ZPrevLink hPZ
  obtain ⟨k1, k2, -⟩ := stitchExtFace_G { g with theStack := rest } R Rout Z ZPrevLink
  have hxR : (stitchExtFace { g with theStack := rest } R Rout Z ZPrevLink).extFace R =
      g.extFace R := by
    rw [hse]
    have h1 : R ≠ Z := fun e => hZR e.symm
    have h2 : R ≠ (g.extFace R).link (Int.xor 1 Rout) := fun e => hPR e.symm
    simp only [setExtFaceLink, upd]
    rw [if_neg h2, if_neg h1]
  have ke : (stitchExtFace { g with theStack := rest } R Rout Z ZPrevLink).edgeOffset =
      g.edgeOffset := congrArg (fun q => q.2.2.1) k2
  have r0 : Ring (stitchExtFace { g with theStack := rest } R Rout Z ZPrevLink) 0 R b :=
    Ring_frame hR ke (fun x _ => by rw [k1])
  generalize stitchExtFace { g with theStack := rest } R Rout Z ZPrevLink = s0 at *
  have k1g : s0.G = g.G := k1
  obtain ⟨s1, e1, n1, r1, sw, fr, ty, vv, iv, vd, st, xo, xs, xn⟩ :=
    flipRoot_spec fuel s0 R Rout ZPrevLink b r0 hfuel
  refine ⟨s1, by rw [e1, Option.some_bind], ?_, ?_⟩
  · intro hz
    have hfc : firstChildArc s0 b.reverse = some J :=
      firstChildArc_unique s0 b.reverse J (by simpa using hJ) (by rw [k1g]; exact hJc)
        (fun x hx hc => hu x (by simpa using hx) (by rw [← k1g]; exact hc))
    rw [if_pos hz] at r1
    refine ⟨?_, r1, ?_, ?_, ?_, ?_⟩
    · intro x hx
      have := sw hz x hx
      rw [k1g] at this
      exact this
    · by_cases hl : (s0.G R).link 0 ≠ (s0.G R).link 1
      · rw [(xs hz hl).1, hxR]
      · rw [xn (fun h => hl h.2), hxR]
        rw [k1g] at hl
        exact hext (not_not.1 hl)
    · by_cases hl : (s0.G R).link 0 ≠ (s0.G R).link 1
      · rw [(xs hz hl).2.1, hxR]
      · rw [xn (fun h => hl h.2), hxR]
        rw [k1g] at hl
        exact (hext (not_not.1 hl)).symm
    · rw [iv, if_pos ⟨hz, hfc⟩]
    · intro x hx
      rw [iv, hfc, if_neg (fun h => hx (Option.some.inj h.2).symm), k1g]
  · intro hz
    rw [n1 hz]
    exact ⟨k1g, hxR⟩

theorem dropFromLists_lists (g : graph) (R Z : Int) :
    (dropFromLists g R Z).BicompLists =
      (LCDelete g.BicompLists (g.V Z).pertinentBicompList (R - g.N)).1 ∧
    ((dropFromLists g R Z).V Z).pertinentBicompList =
      (LCDelete g.BicompLists (g.V Z).pertinentBicompList (R - g.N)).2 ∧
    (dropFromLists g R Z).DFSChildLists =
      (LCDelete g.DFSChildLists (g.V Z).separatedDFSChildList (R - g.N)).1 ∧
    ((dropFromLists g R Z).V Z).separatedDFSChildList =
      (LCDelete g.DFSChildLists (g.V Z).separatedDFSChildList (R - g.N)).2 ∧
    (∀ v, ((dropFromLists g R Z).V v).Lowpoint = (g.V v).Lowpoint) := by
  refine ⟨rfl, ?_, ?_, ?_, ?_⟩
  · simp [dropFromLists, setSeparatedDFSChildList, setPertinentBicompList, upd]
  · simp [dropFromLists, setSeparatedDFSChildList, setPertinentBicompList, upd]
  · simp [dropFromLists, setSeparatedDFSChildList, setPertinentBicompList, upd]
  · intro v
    simp only [dropFromLists, setSeparatedDFSChildList, setPertinentBicompList, upd]
    by_cases h : v = Z
    · subst h; simp
    · simp [h]

/-- C26: one iteration of the loop of `_MergeBicomps` that pops `(R, Rout)` and
`(Z, ZPrevLink)` and returns, with `c = R - N` a member of the valid lists
`pertinentBicompList[Z]` (ids `lp`) and `separatedDFSChildList[Z]` (ids `ls`), for a hook
`fpInitGraphNode` that leaves the vertex records and the list collections as they are.
Afterwards both lists are valid lists that hold the former members other than `c` in
unchanged order, so `c` is a member of neither; the Lowpoint values are as before; and a
`separatedDFSChildList` that was non-decreasing by Lowpoint stays so, its head having the
least Lowpoint of the members that remain. -/
theorem mergeBicomps_lists (fuel : Nat) (init : graph → Int → graph) (g : graph)
    (R Rout Z ZPrevLink : Int) (rest : List Int) (g1 : graph) (lp ls : List Int)
    (hinit : KeepsSideTables init)
    (hst : g.theStack = Rout :: R :: ZPrevLink :: Z :: rest)
    (hrun : mergeBicompsStep fuel init g = some g1)
    (hlp : LCRep g.BicompLists (g.V Z).pertinentBicompList lp) (hcp : R - g.N ∈ lp)
    (hls : LCRep g.DFSChildLists (g.V Z).separatedDFSChildList ls) (hcs : R - g.N ∈ ls) :
    LCRep g1.BicompLists (g1.V Z).pertinentBicompList (lp.erase (R - g.N)) ∧
    LCRep g1.DFSChildLists (g1.V Z).separatedDFSChildList (ls.erase (R - g.N)) ∧
    R - g.N ∉ lp.erase (R - g.N) ∧ R - g.N ∉ ls.erase (R - g.N) ∧
    (lp.erase (R - g.N)).Sublist lp ∧ (ls.erase (R - g.N)).Sublist ls ∧
    (∀ x, x ∈ lp → x ≠ R - g.N → x ∈ lp.erase (R - g.N)) ∧
    (∀ x, x ∈ ls → x ≠ R - g.N → x ∈ ls.erase (R - g.N)) ∧
    (∀ v, (g1.V v).Lowpoint = (g.V v).Lowpoint) ∧
    (ls.Pairwise (fun x y => (g.V x).Lowpoint ≤ (g.V y).Lowpoint) →
      (ls.erase (R - g.N)).Pairwise (fun x y => (g1.V x).Lowpoint ≤ (g1.V y).Lowpoint) ∧
      ∀ x ∈ ls.erase (R - g.N),
        (g1.V (g1.V Z).separatedDFSChildList).Lowpoint ≤ (g1.V x).Lowpoint) := by
  rw [mergeBicompsStep_eq fuel init g R Rout Z ZPrevLink rest hst, Option.bind_eq_some] at hrun
  obtain ⟨s1, h1, h2⟩ := hrun
  obtain ⟨f1, -⟩ := flipRoot_side fuel _ R Rout ZPrevLink s1 h1
  obtain ⟨-, k2, -⟩ := stitchExtFace_G { g with theStack := rest } R Rout Z ZPrevLink
  obtain ⟨m1, -⟩ := mergeVertex_side fuel init hinit _ Z ZPrevLink R g1 h2
  have hv : vertexData s1 = vertexData g := f1.trans k2
  have hV : s1.V = g.V := congrArg (fun q => q.1) hv
  have hN : s1.N = g.N := congrArg (fun q => q.2.1) hv
  have hB : s1.BicompLists = g.BicompLists := congrArg (fun q => q.2.2.2.1) hv
  have hD : s1.DFSChildLists = g.DFSChildLists := congrArg (fun q => q.2.2.2.2) hv
  have gV : g1.V = (dropFromLists s1 R Z).V := congrArg (fun q => q.1) m1
  have gB : g1.BicompLists = (dropFromLists s1 R Z).BicompLists :=
    congrArg (fun q => q.2.2.2.1) m1
  have gD : g1.DFSChildLists = (dropFromLists s1 R Z).DFSChildLists :=
    congrArg (fun q => q.2.2.2.2) m1
  obtain ⟨d1, d2, d3, d4, d5⟩ := dropFromLists_lists s1 R Z
  rw [hV, hN, hB] at d1 d2
  rw [hV, hN, hD] at d3 d4
  have hlow : ∀ v, (g1.V v).Lowpoint = (g.V v).Lowpoint := by
    intro v
    rw [gV, d5, hV]
  have r1 := LCRep_delete hlp hcp
  have r2 := LCRep_delete hls hcs
  rw [← d1, ← d2, ← gB, ← gV] at r1
  rw [← d3, ← d4, ← gD, ← gV] at r2
  refine ⟨r1, r2, List.Nodup.not_mem_erase hlp.2.1, List.Nodup.not_mem_erase hls.2.1,
    List.erase_sublist _ _, List.erase_sublist _ _, ?_, ?_, hlow, ?_⟩
  · intro x hx hne
    exact (List.mem_erase_of_ne hne).2 hx
  · intro x hx hne
    exact (List.mem_erase_of_ne hne).2 hx
  · intro hs
    have hs2 : (ls.erase (R - g.N)).Pairwise
        (fun x y => (g1.V x).Lowpoint ≤ (g1.V y).Lowpoint) := by
      have := List.Pairwise.sublist (List.erase_sublist (R - g.N) ls) hs
      refine List.Pairwise.imp ?_ this
      intro x y hxy
      rw [hlow, hlow]
      exact hxy
    refine ⟨hs2, ?_⟩
    intro x hx
    have hh := r2.2.2.1
    cases hl : ls.erase (R - g.N) with
    | nil => rw [hl] at hx; simp at hx
    | cons y t =>
      rw [hl] at hh hs2 hx
      simp only [List.headD_cons] at hh
      rw [hh]
      rcases List.mem_cons.1 hx with rfl | hx
      · exact le_refl _
      · exact (List.pairwise_cons.1 hs2).1 x hx

set_option maxRecDepth 100000 in
theorem chordedPathAtMerge_runs :
    ∃ g1, mergeBicompsStep 50 _InitGraphNode chordedPathAtMerge = some g1 :=
  Option.isSome_iff_exists.1 (by decide!)

set_option maxRecDepth 100000 in
theorem mergeBicomps_stitch_witness :
    chordedPathAtMerge.theStack = [1, 8, 1, 2] ∧
    (chordedPathAtMerge.extFace 8).link (Int.xor 1 1) = 4 ∧
    (chordedPathAtMerge.extFace 4).link 1 = 8 ∧
    ∃ g1, mergeBicompsStep 50 _InitGraphNode chordedPathAtMerge = some g1 ∧
      (g1.extFace 2).link 1 = 4 ∧ (g1.extFace 4).link 1 = 2 := by
  obtain ⟨g1, hrun⟩ := chordedPathAtMerge_runs
  have eP : (chordedPathAtMerge.extFace 8).link (Int.xor 1 1) = 4 := by decide!
  have h := mergeBicomps_stitch 50 _InitGraphNode chordedPathAtMerge 8 1 2 1 [] g1
    keepsSideTables_default (by decide!) hrun (by decide) (by rw [eP]; decide)
    (by rw [eP]; decide) (by rw [eP]; exact Or.inr (by decide!))
  dsimp only at h
  rw [eP] at h
  have ek : (if (chordedPathAtMerge.extFace 4).link 0 = (chordedPathAtMerge.extFace 4).link 1
      then Int.xor 1 (chordedPathAtMerge.extFace 4).inversionFlag
      else if (chordedPathAtMerge.extFace 4).link 0 = 8 then 0 else 1) = 1 := by decide!
  rw [ek] at h
  exact ⟨by decide!, eP, by decide!, g1, hrun, h.1, h.2.2.1⟩

set_option maxRecDepth 100000 in
theorem mergeBicomps_flip_witness :
    chordedPathAtMerge.theStack = [1, 8, 1, 2] ∧ Ring chordedPathAtMerge 0 8 [18, 14] ∧
    (chordedPathAtMerge.G 14).inverted = false ∧
    ∃ s1, mergeBicompsStep 50 _InitGraphNode chordedPathAtMerge =
        _MergeVertex 50 _InitGraphNode (dropFromLists s1 8 2) 2 1 8 ∧
      Ring s1 0 8 [14, 18] ∧ (s1.G 14).inverted = true := by
  have hR : Ring chordedPathAtMerge 0 8 [18, 14] := (ringCheck_iff _ _ _ _).1 (by decide!)
  have eP : (chordedPathAtMerge.extFace 8).link (Int.xor 1 1) = 4 := by decide!
  obtain ⟨s1, h1, h2, -⟩ := mergeBicomps_flip 50 _InitGraphNode chordedPathAtMerge 8 1 2 1 []
    [18, 14] 14 (by decide!) hR (by decide) (by decide) (by decide!) (by decide!)
    (fun h => absurd h (by decide!)) (by decide) (by rw [eP]; decide) (by rw [eP]; decide)
  obtain ⟨-, r, -, -, i, -⟩ := h2 rfl
  exact ⟨by decide!, hR, by decide!, s1, h1, r, i⟩

set_option maxRecDepth 100000 in
theorem mergeBicomps_splice_witness :
    chordedPathAtMerge.theStack = [1, 8, 1, 2] ∧ Ring chordedPathAtMerge 0 2 [13] ∧
    Ring chordedPathAtMerge 0 8 [18, 14] ∧
    ∃ g1, mergeBicompsStep 50 _InitGraphNode chordedPathAtMerge = some g1 ∧
      Ring g1 0 2 [13, 14, 18] ∧
      (g1.G 2).link 1 = (chordedPathAtMerge.G 8).link (Int.xor 1 1) := by
  have hZ : Ring chordedPathAtMerge 0 2 [13] := (ringCheck_iff _ _ _ _).1 (by decide!)
  have hR : Ring chordedPathAtMerge 0 8 [18, 14] := (ringCheck_iff _ _ _ _).1 (by decide!)
  obtain ⟨g1, h1, h2, h3, -⟩ := mergeBicomps_splice 50 _InitGraphNode chordedPathAtMerge 8 1 2
    1 [] [13] [18, 14] retiresNode_default (by decide!) (Or.inr rfl) (Or.inr rfl) hZ hR
    (by decide) (by decide) (by decide)
  refine ⟨by decide!, hZ, hR, g1, h1, ?_, h3⟩
  simpa using h2

set_option maxRecDepth 100000 in
/-- C25 counterexample: the chorded path when `_WalkDown(1, 7)` calls `_MergeBicomps` with
`(Z, ZPrevLink) = (2, 1)` and `(R, Rout) = (8, 1)` on the stack.  Before the merge
`G[R].link[Rout] = 14`, `G[R].link[1 ^ Rout] = 18` and `G[Z].link[ZPrevLink] = 13`.  After
the merge `G[Z].link[ZPrevLink]` is `18`, not `14`; the neighbours of `13` are `14` and `2`
and those of `18` are `2` and `14`, so `13` and `18` are not neighbours, while `13` and `14`
are. -/
theorem mergeBicomps_splice_other_end :
    chordedPathAtMerge.theStack = [1, 8, 1, 2] ∧
    (chordedPathAtMerge.G 8).link 1 = 14 ∧ (chordedPathAtMerge.G 8).link 0 = 18 ∧
    (chordedPathAtMerge.G 2).link 1 = 13 ∧
    (mergeBicompsStep 50 _InitGraphNode chordedPathAtMerge).map
      (fun g1 => ((g1.G 2).link 1, (g1.G 13).link 0, (g1.G 13).link 1, (g1.G 18).link 0,
        (g1.G 18).link 1)) = some (18, 14, 2, 2, 14) := by
  decide!

set_option maxRecDepth 100000 in
theorem mergeBicomps_lists_witness :
    chordedPathAtMerge.theStack = [1, 8, 1, 2] ∧
    LCRep chordedPathAtMerge.BicompLists (chordedPathAtMerge.V 2).pertinentBicompList [3] ∧
    LCRep chordedPathAtMerge.DFSChildLists (chordedPathAtMerge.V 2).separatedDFSChildList
      [3] ∧
    ∃ g1, mergeBicompsStep 50 _InitGraphNode chordedPathAtMerge = some g1 ∧
      (g1.V 2).pertinentBicompList = NIL ∧ (g1.V 2).separatedDFSChildList = NIL := by
  obtain ⟨g1, hrun⟩ := chordedPathAtMerge_runs
  have hN : chordedPathAtMerge.N = 5 := by decide!
  have hlp : LCRep chordedPathAtMerge.BicompLists
      (chordedPathAtMerge.V 2).pertinentBicompList [3] := by
    rw [LCRep_iff_chain]
    refine ⟨by decide, by decide, by decide!, ?_⟩
    simp only [List.cons_append, List.nil_append, List.take_succ_cons, List.take_zero,
      List.chain'_cons, List.chain'_singleton, and_true]
    decide!
  have hls : LCRep chordedPathAtMerge.DFSChildLists
      (chordedPathAtMerge.V 2).separatedDFSChildList [3] := by
    rw [LCRep_iff_chain]
    refine ⟨by decide, by decide, by decide!, ?_⟩
    simp only [List.cons_append, List.nil_append, List.take_succ_cons, List.take_zero,
      List.chain'_cons, List.chain'_singleton, and_true]
    decide!
  obtain ⟨r1, r2, -⟩ := mergeBicomps_lists 50 _InitGraphNode chordedPathAtMerge 8 1 2 1 [] g1
    [3] [3] keepsSideTables_default (by decide!) hrun hlp (by rw [hN]; decide) hls
    (by rw [hN]; decide)
  rw [hN] at r1 r2
  have e : ([3] : List Int).erase (8 - 5) = [] := by decide
  rw [e] at r1 r2
  exact ⟨by decide!, hlp, hls, g1, hrun, (LCRep_nil_iff _ _).1 r1, (LCRep_nil_iff _ _).1 r2⟩

/-! ### The frame of `_WalkUp` and the descend step into a bicomp with two external-face vertices -/

theorem walkUpKeeps_refl (I : Int) (g : graph) : walkUpKeeps I g g :=
  ⟨fun _ => ⟨rfl, rfl, rfl, rfl⟩, rfl, fun _ => ⟨rfl, rfl, rfl, rfl, rfl, rfl⟩, rfl, rfl, rfl, rfl,
    rfl⟩

theorem walkUpKeeps_trans {I : Int} {g g1 g2 : graph} (h1 : walkUpKeeps I g g1)
    (h2 : walkUpKeeps I g1 g2) : walkUpKeeps I g g2 := by
  obtain ⟨a1, a2, a3, a4, a5, a6, a7, a8⟩ := h1
  obtain ⟨b1, b2, b3, b4, b5, b6, b7, b8⟩ := h2
  refine ⟨fun x => ?_, b2.trans a2, fun x => ?_, b4.trans a4, b5.trans a5, b6.trans a6,
    b7.trans a7, b8.trans a8⟩
  · obtain ⟨c1, c2, c3, c4⟩ := a1 x
    obtain ⟨d1, d2, d3, d4⟩ := b1 x
    exact ⟨d1.trans c1, d2.trans c2, d3.trans c3, d4.trans c4⟩
  · obtain ⟨c1, c2, c3, c4, c5, c6⟩ := a3 x
    obtain ⟨d1, d2, d3, d4, d5, d6⟩ := b3 x
    exact ⟨d1.trans c1, d2.trans c2, d3.trans c3, d4.trans c4, d5.trans c5, d6.trans c6⟩

theorem setGVisited_keeps (I : Int) (g : graph) (j x : Int) :
    walkUpKeeps I g (setGVisited g j x) := by
  refine ⟨fun y => ?_, rfl, fun _ => ⟨rfl, rfl, rfl, rfl, rfl, rfl⟩, rfl, rfl, rfl, rfl, rfl⟩
  simp only [setGVisited, upd]
  split_ifs with h
  · subst h; exact ⟨rfl, rfl, rfl, rfl⟩
  · exact ⟨rfl, rfl, rfl, rfl⟩

theorem walkUpRecord_keeps (I : Int) (g : graph) (c : Int) :
    walkUpKeeps I g (walkUpRecord g I c) := by
  unfold walkUpRecord
  dsimp only
  by_cases hP : (g.V c).DFSParent ≠ I
  · rw [if_pos hP]
    generalize (if (g.V c).Lowpoint < I then
      LCAppend g.BicompLists (g.V (g.V c).DFSParent).pertinentBicompList c
      else LCPrepend g.BicompLists (g.V (g.V c).DFSParent).pertinentBicompList c) = r
    refine ⟨fun _ => ⟨rfl, rfl, rfl, rfl⟩, rfl, fun x => ?_, rfl, rfl, rfl, rfl, ?_⟩
    · simp only [setPertinentBicompList, upd]
      by_cases hx : x = (g.V c).DFSParent
      · rw [if_pos hx, hx]
        exact ⟨rfl, rfl, rfl, rfl, rfl, rfl⟩
      · rw [if_neg hx]
        exact ⟨rfl, rfl, rfl, rfl, rfl, rfl⟩
    · simp only [setPertinentBicompList, upd]
      rw [if_neg (fun h => hP h.symm)]
  · rw [if_neg hP]
    exact walkUpKeeps_refl I g

theorem walkUpStep_keeps (I : Int) (g : graph) (Zig Zag zp gp : Int) :
    walkUpKeeps I g (walkUpStep g I Zig Zag zp gp).1 := by
  rw [walkUpStep_fst]
  have h2 : walkUpKeeps I g (setGVisited (setGVisited g Zig I) Zag I) :=
    walkUpKeeps_trans (setGVisited_keeps I g Zig I) (setGVisited_keeps I _ Zag I)
  split_ifs
  · exact walkUpKeeps_trans h2 (walkUpRecord_keeps I _ _)
  · exact h2

theorem walkUpLoop_keeps (I : Int) :
    ∀ (fuel : Nat) (g : graph) (Zig Zag zp gp : Int) (g1 : graph),
      walkUpLoop fuel g I Zig Zag zp gp = some g1 → walkUpKeeps I g g1 := by
  intro fuel
  induction fuel with
  | zero => intro g Zig Zag zp gp g1 h; simp [walkUpLoop] at h
  | succ n ih =>
    intro g Zig Zag zp gp g1 h
    rw [walkUpLoop_succ] at h
    split_ifs at h with hp
    · exact walkUpKeeps_trans (walkUpStep_keeps I g Zig Zag zp gp) (ih _ _ _ _ _ _ h)
    · cases h
      exact walkUpKeeps_refl I g

/-- C34: a call `_WalkUp(I, J)` that returns has set `adjacentTo[W] = J` for `W = G[J].v`;
no other `adjacentTo` is changed, and no `link[0]`/`link[1]`, `v`, type or inverted flag of
any node, no external-face entry, no `fwdArcList`, no `separatedDFSChildList` (head or
pool), no DFS parent, least ancestor or Lowpoint, and neither the bounds nor the stack are
changed.  What remains are the `visited` stamps and the pertinent bicomp lists. -/
theorem walkUp_frame (fuel : Nat) (g : graph) (I J : Int) (g1 : graph)
    (h : _WalkUp fuel g I J = some g1) :
    (g1.V (g.G J).v).adjacentTo = J ∧
    (∀ x, x ≠ (g.G J).v → (g1.V x).adjacentTo = (g.V x).adjacentTo) ∧
    (∀ x, (g1.G x).link = (g.G x).link ∧ (g1.G x).v = (g.G x).v ∧
      (g1.G x).type = (g.G x).type ∧ (g1.G x).inverted = (g.G x).inverted) ∧
    g1.extFace = g.extFace ∧
    (∀ x, (g1.V x).fwdArcList = (g.V x).fwdArcList ∧
      (g1.V x).separatedDFSChildList = (g.V x).separatedDFSChildList ∧
      (g1.V x).DFSParent = (g.V x).DFSParent ∧
      (g1.V x).leastAncestor = (g.V x).leastAncestor ∧
      (g1.V x).Lowpoint = (g.V x).Lowpoint) ∧
    g1.DFSChildLists = g.DFSChildLists ∧ g1.N = g.N ∧ g1.edgeOffset = g.edgeOffset ∧
    g1.theStack = g.theStack := by
  have h1 : walkUpLoop fuel (setAdjacentTo g (g.G J).v J) I (g.G J).v (g.G J).v 1 0 =
      some g1 := h
  obtain ⟨a1, a2, a3, a4, a5, a6, a7, _⟩ := walkUpLoop_keeps I fuel _ _ _ _ _ _ h1
  have e : ∀ x, ((setAdjacentTo g (g.G J).v J).V x) =
      if x = (g.G J).v then { g.V x with adjacentTo := J } else g.V x := by
    intro x
    simp only [setAdjacentTo, upd]
    split_ifs with hx
    · subst hx; rfl
    · rfl
  refine ⟨?_, ?_, a1, a2, ?_, a4, a5, a6, a7⟩
  · rw [(a3 _).2.2.2.2.2, e, if_pos rfl]
  · intro x hx
    rw [(a3 x).2.2.2.2.2, e, if_neg hx]
  · intro x
    obtain ⟨b1, b2, b3, b4, b5, _⟩ := a3 x
    rw [b1, b2, b3, b4, b5, e]
    split_ifs <;> exact ⟨rfl, rfl, rfl, rfl, rfl⟩

set_option maxRecDepth 100000 in
theorem walkUp_frame_witness :
    ∃ g1, _WalkUp 50 triangleAtWalkUp 0 10 = some g1 ∧ (g1.V 2).adjacentTo = 10 ∧
      g1.extFace = triangleAtWalkUp.extFace := by
  have h : (_WalkUp 50 triangleAtWalkUp 0 10).isSome = true := by decide!
  obtain ⟨g1, e⟩ := Option.isSome_iff_exists.1 h
  have hv : (triangleAtWalkUp.G 10).v = 2 := by decide!
  have := walkUp_frame 50 triangleAtWalkUp 0 10 g1 e
  rw [hv] at this
  exact ⟨g1, e, this.1, this.2.2.2.1⟩

/-- C36: a call `_WalkUp(I, J)` that returns leaves `pertinentBicompList[I]` as it was.  In
a loop step that passes the `visited` checks with a cursor on a root copy `R` whose parent
copy `DFSParent[R - N]` is `I`, only the two stamps are written (no child is recorded), both
cursors become `I`, and the loop ends there. -/
theorem walkUp_keeps_list_of_I (fuel : Nat) (g : graph) (I J : Int) (g1 : graph)
    (h : _WalkUp fuel g I J = some g1) :
    (g1.V I).pertinentBicompList = (g.V I).pertinentBicompList ∧
    ∀ (s : graph) (Zig Zag zp gp : Int), walkUpPasses s I Zig Zag →
      walkUpRoot s Zig Zag ≠ NIL → (s.V (walkUpRoot s Zig Zag - s.N)).DFSParent = I →
      (walkUpStep s I Zig Zag zp gp).1 = setGVisited (setGVisited s Zig I) Zag I ∧
      (walkUpStep s I Zig Zag zp gp).2.1 = I ∧ (walkUpStep s I Zig Zag zp gp).2.2.1 = I ∧
      ∀ n, walkUpLoop (n + 2) s I Zig Zag zp gp =
        some (setGVisited (setGVisited s Zig I) Zag I) := by
  have h1 : walkUpLoop fuel (setAdjacentTo g (g.G J).v J) I (g.G J).v (g.G J).v 1 0 =
      some g1 := h
  refine ⟨?_, ?_⟩
  · rw [(walkUpLoop_keeps I fuel _ _ _ _ _ _ h1).2.2.2.2.2.2.2]
    simp only [setAdjacentTo, upd]
    split_ifs with hx
    · rw [hx]
    · rfl
  · intro s Zig Zag zp gp hpass hR hP
    have e1 : (walkUpStep s I Zig Zag zp gp).1 = setGVisited (setGVisited s Zig I) Zag I := by
      rw [walkUpStep_fst, if_pos hR]
      unfold walkUpRecord
      have hP2 : ((setGVisited (setGVisited s Zig I) Zag I).V
          (walkUpRoot s Zig Zag - s.N)).DFSParent = I := hP
      dsimp only
      rw [if_neg (not_not.2 hP2)]
    have e2 := walkUpStep_root s I Zig Zag zp gp hR
    rw [hP] at e2
    refine ⟨e1, by rw [e2], by rw [e2], ?_⟩
    intro n
    rw [show n + 2 = (n + 1) + 1 by omega, walkUpLoop_succ, if_pos hpass, e1, e2]
    rw [walkUpLoop_succ, if_neg (fun hp => hp.1 rfl)]

set_option maxRecDepth 100000 in
theorem walkUp_keeps_list_of_I_witness :
    ∃ g1, _WalkUp 50 triangleAtWalkUp 0 10 = some g1 ∧
      (g1.V 0).pertinentBicompList = (triangleAtWalkUp.V 0).pertinentBicompList := by
  have h : (_WalkUp 50 triangleAtWalkUp 0 10).isSome = true := by decide!
  obtain ⟨g1, e⟩ := Option.isSome_iff_exists.1 h
  exact ⟨g1, e, (walkUp_keeps_list_of_I 50 triangleAtWalkUp 0 10 g1 e).1⟩

/-- C38: the descend step of `_WalkDown` at a vertex `W` whose pertinent child bicomp, with
the root copy `R = _GetPertinentChildBicomp(W)`, has only two external-face vertices
(`X == Y` for `X = extFace[R].link[0]`, `Y = extFace[R].link[1]`).  Whatever the activity
of `X` (whichever branch of the selection rule applies), the next `W` is `X`, the pair
pushed for the root is `(R, 0)` on top of `(W, WPrevLink)`, nothing else changes in the
arena, and the new `WPrevLink` is `XPrevLink`: `0` if `extFace[X].inversionFlag` is set,
otherwise `1` if `extFace[X].link[1] == R` and `0` if not. -/
theorem walkDownDescend_two_vertex (g : graph) (I W WPrevLink : Int)
    (hxy : (g.extFace (_GetPertinentChildBicomp g W)).link 0 =
      (g.extFace (_GetPertinentChildBicomp g W)).link 1) :
    let R := _GetPertinentChildBicomp g W
    let X := (g.extFace R).link 0
    let r := walkDownDescend g I W WPrevLink
    r.2.1 = X ∧
    r.1 = { g with theStack := 0 :: R :: WPrevLink :: W :: g.theStack } ∧
    r.2.2 =
      (if (g.extFace X).inversionFlag ≠ 0 then 0
       else if (g.extFace X).link 1 = R then 1 else 0) := by
  intro R X r
  have hY : (g.extFace R).link 1 = X := hxy.symm
  have hW : r.2.1 = X := by
    show (if _VertexActiveStatus (sp_Push2 g W WPrevLink) X I = VAS_INTERNAL then X
      else if _VertexActiveStatus (sp_Push2 g W WPrevLink) ((g.extFace R).link 1) I =
        VAS_INTERNAL then (g.extFace R).link 1
      else if PERTINENT (sp_Push2 g W WPrevLink) X then X
      else (g.extFace R).link 1) = X
    rw [hY]
    split_ifs <;> rfl
  refine ⟨hW, ?_, ?_⟩
  · show sp_Push2 (sp_Push2 g W WPrevLink) R (if r.2.1 = X then 0 else 1) = _
    rw [if_pos hW]
    rfl
  · show (if r.2.1 = X then
        (if (decide (X = (g.extFace R).link 1) && decide ((g.extFace X).inversionFlag ≠ 0)) = true
          then (0 : Int) else if (g.extFace X).link 1 = R then 1 else 0)
      else
        (if (decide (X = (g.extFace R).link 1) && decide ((g.extFace X).inversionFlag ≠ 0)) = true
          then (1 : Int) else if (g.extFace ((g.extFace R).link 1)).link 0 = R then 0 else 1)) = _
    rw [if_pos hW, hY]
    by_cases hf : (g.extFace X).inversionFlag ≠ 0
    · simp [hf]
    · simp [hf]

set_option maxRecDepth 100000 in
theorem walkDownDescend_two_vertex_witness :
    _GetPertinentChildBicomp (sp_ClearStack triangleAtWalkDown) 1 = 5 ∧
    ((sp_ClearStack triangleAtWalkDown).extFace 5).link 0 = 2 ∧
    ((sp_ClearStack triangleAtWalkDown).extFace 5).link 1 = 2 ∧
    (walkDownDescend (sp_ClearStack triangleAtWalkDown) 0 1 1).2.1 = 2 ∧
    (walkDownDescend (sp_ClearStack triangleAtWalkDown) 0 1 1).1.theStack = [0, 5, 1, 1] := by
  have h := walkDownDescend_two_vertex (sp_ClearStack triangleAtWalkDown) 0 1 1 (by decide!)
  refine ⟨by decide!, by decide!, by decide!, ?_, ?_⟩
  · rw [h.1]
    decide!
  · rw [h.2.1]
    decide!

/-! ### The members of the separated DFS child lists -/

theorem isSeparatedChild_congr {g g1 : graph} (h : g1.V = g.V) :
    isSeparatedChild g1 = isSeparatedChild g := by
  funext P J
  simp [isSeparatedChild, h]

theorem bucketOrder_congr {g g1 : graph} (h : g1.V = g.V) (n : Nat) :
    bucketOrder g1 n = bucketOrder g n := by
  unfold bucketOrder
  congr 1
  funext b
  exact bucketOf_congr h n b

/-- The run of `_CreateSortedSeparatedDFSChildLists` on an arena whose Lowpoints lie in
`[0, N)` and whose separated-child lists are empty: it returns a state in which the list of
every `P` holds the vertices appended to it, in bucket order. -/
theorem createSortedSeparatedDFSChildLists_run (fuel : Nat) (g : graph)
    (hlow : ∀ I : Int, 0 ≤ I → I < g.N → 0 ≤ (g.V I).Lowpoint ∧ (g.V I).Lowpoint < g.N)
    (hnil : ∀ P : Int, (g.V P).separatedDFSChildList = NIL)
    (hf : g.N.toNat < fuel) :
    ∃ g', _CreateSortedSeparatedDFSChildLists fuel g = some g' ∧
      SepInv g g' (bucketOrder g g.N.toNat) := by
  unfold _CreateSortedSeparatedDFSChildLists
  simp only
  obtain ⟨⟨hV1, hD1, hN1⟩, hb1⟩ := resetBuckets_spec { g with bin := LCReset g.bin } g.N.toNat
  generalize (List.range g.N.toNat).foldl
    (fun s (I : Nat) => { s with buckets := upd s.buckets (I : Int) NIL })
    { g with bin := LCReset g.bin } = g1 at hV1 hD1 hN1 hb1
  simp only at hV1 hD1 hN1
  have hlow1 : ∀ I : Int, 0 ≤ I → I < g.N.toNat →
      0 ≤ (g1.V I).Lowpoint ∧ (g1.V I).Lowpoint < g.N.toNat := by
    intro I h0 h1
    rw [hV1]
    have := hlow I h0 (by omega)
    omega
  obtain ⟨⟨hV2, hD2, hN2⟩, hb2⟩ := fillBuckets_inv g1 g.N.toNat hlow1 hb1 g.N.toNat (le_refl _)
  generalize (List.range g.N.toNat).foldl (fun s (I : Nat) => fillBucket s (I : Int)) g1 = g2
    at hV2 hD2 hN2 hb2
  rw [drainBuckets_eq fuel g.N.toNat g1 g2 hf hb2 g.N.toNat (le_refl _)]
  have hinit : SepInv g1 g2 [] := by
    refine ⟨fun v => by rw [hV2]; exact ⟨rfl, rfl⟩, ?_⟩
    intro P
    simp only [List.filter_nil]
    rw [LCRep_nil_iff, hV2, hV1]
    exact hnil P
  have hfin := SepInv_foldl (bucketOrder g1 g.N.toNat) g2 [] hinit
    (by simpa using bucketOrder_nodup g1 g.N.toNat)
    (fun hm => by
      have := (mem_bucketOrder hm).1
      unfold NIL at this
      omega)
  simp only [List.nil_append] at hfin
  refine ⟨(bucketOrder g1 g.N.toNat).foldl addToParentList g2, rfl, ?_⟩
  rw [bucketOrder_congr hV1] at hfin ⊢
  unfold SepInv at hfin ⊢
  rw [isSeparatedChild_congr hV1, hV1] at hfin
  exact hfin

theorem mem_bucketOrder_iff {g : graph} {n : Nat} {x : Int} :
    x ∈ bucketOrder g n ↔
      (0 ≤ x ∧ x < n) ∧ 0 ≤ (g.V x).Lowpoint ∧ (g.V x).Lowpoint < n := by
  unfold bucketOrder
  rw [List.mem_flatMap]
  constructor
  · rintro ⟨b, hb, hx⟩
    have h1 := mem_vertexIds.1 hb
    have h2 := mem_bucketOf.1 hx
    exact ⟨h2.1, by omega, by omega⟩
  · rintro ⟨h1, h2, h3⟩
    exact ⟨(g.V x).Lowpoint, mem_vertexIds.2 ⟨h2, h3⟩, mem_bucketOf.2 ⟨h1, rfl⟩⟩

theorem bucketOrder_ties (g : graph) (n : Nat) :
    (bucketOrder g n).Pairwise (fun a b => (g.V a).Lowpoint = (g.V b).Lowpoint → a < b) := by
  unfold bucketOrder
  rw [List.pairwise_flatMap]
  refine ⟨?_, ?_⟩
  · intro b _
    unfold bucketOf
    refine List.Pairwise.imp ?_ ((vertexIds_pairwise n).filter _)
    intro x y h _
    exact h
  · refine (vertexIds_pairwise n).imp ?_
    intro b1 b2 hlt x hx y hy e
    rw [(mem_bucketOf.1 hx).2, (mem_bucketOf.1 hy).2] at e
    omega

/-- C35: for every arena in which the Lowpoint of every vertex lies in `[0, N)` and every
`separatedDFSChildList` is empty, `_CreateSortedSeparatedDFSChildLists` returns (with fuel
above `N`) and keeps the DFS parents and the Lowpoints; afterwards the list of every `P` is a
valid list `l P` (which the iteration from its head yields) that holds exactly the vertices
`C` of `[0, N)` with `DFSParent[C] = P`, `P != NIL` and `C != P`, each once, so that a vertex
with `DFSParent = NIL` is in no list; and members of equal Lowpoint are in increasing order
of their index (DFI). -/
theorem createSortedSeparatedDFSChildLists_members (fuel : Nat) (g : graph)
    (hlow : ∀ I : Int, 0 ≤ I → I < g.N → 0 ≤ (g.V I).Lowpoint ∧ (g.V I).Lowpoint < g.N)
    (hnil : ∀ P : Int, (g.V P).separatedDFSChildList = NIL)
    (hf : g.N.toNat < fuel) :
    ∃ (g1 : graph) (l : Int → List Int),
      _CreateSortedSeparatedDFSChildLists fuel g = some g1 ∧
      (∀ v, (g1.V v).DFSParent = (g.V v).DFSParent ∧ (g1.V v).Lowpoint = (g.V v).Lowpoint) ∧
      ∀ P : Int,
        LCRep g1.DFSChildLists (g1.V P).separatedDFSChildList (l P) ∧
        LCIterate fuel g1.DFSChildLists (g1.V P).separatedDFSChildList
          (g1.V P).separatedDFSChildList = some (l P) ∧
        (∀ C, C ∈ l P ↔
          0 ≤ C ∧ C < g.N ∧ (g.V C).DFSParent = P ∧ P ≠ NIL ∧ C ≠ P) ∧
        (∀ C, (g.V C).DFSParent = NIL → C ∉ l P) ∧
        (l P).Nodup ∧
        (l P).Pairwise (fun a b => (g.V a).Lowpoint = (g.V b).Lowpoint → a < b) := by
  obtain ⟨g1, hrun, hinv⟩ := createSortedSeparatedDFSChildLists_run fuel g hlow hnil hf
  have hmem : ∀ P C, C ∈ (bucketOrder g g.N.toNat).filter (isSeparatedChild g P) ↔
      0 ≤ C ∧ C < g.N ∧ (g.V C).DFSParent = P ∧ P ≠ NIL ∧ C ≠ P := by
    intro P C
    rw [List.mem_filter, mem_bucketOrder_iff]
    simp only [isSeparatedChild, decide_eq_true_eq]
    constructor
    · rintro ⟨⟨⟨h1, h2⟩, _⟩, h3, h4, h5⟩
      exact ⟨h1, by omega, h3, h4, fun e => h5 e.symm⟩
    · rintro ⟨h1, h2, h3, h4, h5⟩
      have := hlow C h1 h2
      exact ⟨⟨⟨h1, by omega⟩, this.1, by omega⟩, h3, h4, fun e => h5 e.symm⟩
  refine ⟨g1, fun P => (bucketOrder g g.N.toNat).filter (isSeparatedChild g P), hrun, hinv.1,
    ?_⟩
  intro P
  refine ⟨hinv.2 P, ?_, hmem P, ?_, (bucketOrder_nodup g _).filter _,
    (bucketOrder_ties g _).filter _⟩
  · refine LCIterate_head (hinv.2 P) (lt_of_le_of_lt ?_ hf)
    have hsub : (bucketOrder g g.N.toNat).filter (isSeparatedChild g P) ⊆
        vertexIds g.N.toNat := by
      intro x hx
      exact mem_vertexIds.2 (mem_bucketOrder (List.mem_filter.1 hx).1)
    have := (List.subperm_of_subset ((bucketOrder_nodup g g.N.toNat).filter _) hsub).length_le
    simpa [vertexIds] using this
  · intro C hC hm
    have := (hmem P C).1 hm
    exact this.2.2.2.1 (this.2.2.1 ▸ hC)

theorem createSortedSeparatedDFSChildLists_members_witness :
    (∀ I : Int, 0 ≤ I → I < triangle.N →
      0 ≤ (triangle.V I).Lowpoint ∧ (triangle.V I).Lowpoint < triangle.N) ∧
    (∀ P : Int, (triangle.V P).separatedDFSChildList = NIL) ∧
    triangle.N.toNat < 4 ∧
    ∃ (g1 : graph) (l : Int → List Int),
      _CreateSortedSeparatedDFSChildLists 4 triangle = some g1 ∧
      ∀ P : Int, LCRep g1.DFSChildLists (g1.V P).separatedDFSChildList (l P) ∧
        ∀ C, C ∈ l P ↔
          0 ≤ C ∧ C < triangle.N ∧ (triangle.V C).DFSParent = P ∧ P ≠ NIL ∧ C ≠ P := by
  refine ⟨triangle_lowpoints, triangle_heads, by decide, ?_⟩
  obtain ⟨g1, l, h1, _, h3⟩ :=
    createSortedSeparatedDFSChildLists_members 4 triangle triangle_lowpoints triangle_heads
      (by decide)
  exact ⟨g1, l, h1, fun P => ⟨(h3 P).1, (h3 P).2.2.1⟩⟩

/-! ### `_InvertVertex` in full, and `_MergeVertex` into an empty ring -/

theorem swapPair_swapPair (f : Int → Int) : swapPair (swapPair f) = f := by
  funext i
  simp only [swapPair, upd]
  by_cases h1 : i = 1
  · subst h1; simp
  · by_cases h0 : i = 0
    · subst h0; simp
    · simp [h0, h1]

theorem swapPair_zero (f : Int → Int) : swapPair f 0 = f 1 := by
  simp [swapPair, upd]

theorem swapPair_one (f : Int → Int) : swapPair f 1 = f 0 := by
  simp [swapPair, upd]

theorem swapLinks_eq (g : graph) (J : Int) :
    swapLinks g J =
      { g with G := upd g.G J { g.G J with link := swapPair (g.G J).link } } := by
  unfold swapLinks setGLink
  congr 1
  funext x
  simp only [upd, swapPair]
  by_cases h : x = J
  · simp [h]
  · simp [h]

theorem foldl_swapLinks_eq :
    ∀ (c : List Int) (g : graph), c.Nodup →
      c.foldl swapLinks g =
        { g with G := fun x =>
            if x ∈ c then { g.G x with link := swapPair (g.G x).link } else g.G x } := by
  intro c
  induction c with
  | nil => intro g _; simp
  | cons J t ih =>
    intro g hn
    rw [List.nodup_cons] at hn
    rw [List.foldl_cons, ih _ hn.2, swapLinks_eq]
    congr 1
    funext x
    simp only [upd, List.mem_cons]
    by_cases hxt : x ∈ t
    · have hxJ : x ≠ J := fun e => hn.1 (e ▸ hxt)
      simp [hxt, hxJ]
    · by_cases hxJ : x = J
      · simp [hxt, hxJ, hn.1]
      · simp [hxt, hxJ]

theorem swapExt_eq (s : graph) (V : Int) :
    setExtFaceLink (setExtFaceLink s V 0 ((s.extFace V).link 1)) V 1 ((s.extFace V).link 0) =
      { s with
        extFace := upd s.extFace V { s.extFace V with link := swapPair (s.extFace V).link } } := by
  unfold setExtFaceLink
  congr 1
  funext x
  simp only [upd, swapPair]
  by_cases h : x = V
  · simp [h]
  · simp [h]

/-- The run of `_InvertVertex(V)` on a valid ring: it returns the state `invertedState`. -/
theorem invertVertex_eq (fuel : Nat) (g : graph) (V : Int) (l : List Int)
    (hR : Ring g 0 V l) (hfuel : l.length < fuel) :
    _InvertVertex fuel g V = some (invertedState g V l) := by
  have hR1 : Ring g 1 V l.reverse := by
    have := Ring_reverse (Or.inl rfl) hR
    rwa [xor_one_zero] at this
  obtain ⟨c1, n1, o1, ge1⟩ := hR1
  have hch : List.Chain (fun x y => (g.G x).link 1 = y) V (l.reverse ++ [V]) :=
    List.Chain.imp (fun x y h => h.1) c1
  obtain ⟨k, hk⟩ : ∃ k, fuel = l.reverse.length + 1 + k :=
    ⟨fuel - (l.length + 1), by simp; omega⟩
  have hrun := invertRing_chain V l.reverse g V k hch n1 ge1 o1
  rw [← hk, foldl_swapLinks_eq _ g n1] at hrun
  have e : _InvertVertex fuel g V =
      (invertRing fuel g V).map fun s =>
        setExtFaceLink (setExtFaceLink s V 0 ((s.extFace V).link 1)) V 1
          ((s.extFace V).link 0) := rfl
  rw [e, hrun, Option.map_some', swapExt_eq]
  unfold invertedState
  simp only [Option.some.injEq, graph.mk.injEq, true_and, and_true]
  funext x
  simp only [List.mem_cons, List.mem_reverse]

theorem invertedState_twice (g : graph) (V : Int) (l : List Int) :
    invertedState (invertedState g V l) V l.reverse = g := by
  unfold invertedState
  cases g with
  | mk trace G Vv N eo st ifl efl bl dl bu bin ef =>
    simp only [graph.mk.injEq, true_and, and_true]
    refine ⟨?_, ?_⟩
    · funext x
      simp only [List.mem_cons, List.mem_reverse]
      by_cases h : x = V ∨ x ∈ l
      · simp only [h, if_true, swapPair_swapPair]
      · simp only [h, if_false]
    · funext x
      simp only [upd]
      by_cases h : x = V
      · simp only [h, if_true, swapPair_swapPair]
      · simp only [h, if_false]

/-- C32: `_InvertVertex(V)` on a vertex whose ring is a valid circular doubly-linked list
with the arcs `l`.  The call returns; in the state it returns `link[0]` and `link[1]` are
exchanged in `V` and in every arc of the ring, the other members of these nodes and all
other nodes being as before; `extFace[V].link[0]` and `extFace[V].link[1]` are exchanged,
the other external-face entries being as before; nothing else in the arena changes
(`invertedState`); the ring is a valid ring with the same arcs in reverse order; and a
second call gives back the original arena. -/
theorem invertVertex_spec (fuel : Nat) (g : graph) (V : Int) (l : List Int)
    (hR : Ring g 0 V l) (hfuel : l.length < fuel) :
    _InvertVertex fuel g V = some (invertedState g V l) ∧
    (∀ x ∈ V :: l,
      ((invertedState g V l).G x).link 0 = (g.G x).link 1 ∧
      ((invertedState g V l).G x).link 1 = (g.G x).link 0 ∧
      (invertedState g V l).G x = { g.G x with link := ((invertedState g V l).G x).link }) ∧
    (∀ x, x ∉ V :: l → (invertedState g V l).G x = g.G x) ∧
    ((invertedState g V l).extFace V).link 0 = (g.extFace V).link 1 ∧
    ((invertedState g V l).extFace V).link 1 = (g.extFace V).link 0 ∧
    ((invertedState g V l).extFace V).inversionFlag = (g.extFace V).inversionFlag ∧
    (∀ j, j ≠ V → (invertedState g V l).extFace j = g.extFace j) ∧
    { invertedState g V l with G := g.G, extFace := g.extFace } = g ∧
    Ring (invertedState g V l) 0 V l.reverse ∧
    _InvertVertex fuel (invertedState g V l) V = some g := by
  have e := invertVertex_eq fuel g V l hR hfuel
  obtain ⟨g1, e1, r1, -⟩ := invertVertex_ring fuel g V l hR hfuel
  rw [e] at e1
  cases e1
  refine ⟨e, ?_, ?_, ?_, ?_, ?_, ?_, rfl, r1, ?_⟩
  · intro x hx
    simp only [invertedState, if_pos hx, swapPair_zero, swapPair_one, and_self]
  · intro x hx
    simp only [invertedState, if_neg hx]
  · simp only [invertedState, upd, if_true, swapPair_zero]
  · simp only [invertedState, upd, if_true, swapPair_one]
  · simp only [invertedState, upd, if_true]
  · intro j hj
    simp only [invertedState, upd, if_neg hj]
  · have := invertVertex_eq fuel (invertedState g V l) V l.reverse r1 (by simpa using hfuel)
    rw [this, invertedState_twice]

set_option maxRecDepth 100000 in
theorem invertVertex_spec_witness :
    Ring chordedPathAtOrient 0 2 [13, 14, 18] ∧
    _InvertVertex 4 chordedPathAtOrient 2 =
      some (invertedState chordedPathAtOrient 2 [13, 14, 18]) ∧
    Ring (invertedState chordedPathAtOrient 2 [13, 14, 18]) 0 2 [18, 14, 13] ∧
    _InvertVertex 4 (invertedState chordedPathAtOrient 2 [13, 14, 18]) 2 =
      some chordedPathAtOrient := by
  have hR : Ring chordedPathAtOrient 0 2 [13, 14, 18] := (ringCheck_iff _ _ _ _).1 (by decide!)
  have h := invertVertex_spec 4 chordedPathAtOrient 2 [13, 14, 18] hR (by decide)
  exact ⟨hR, h.1, h.2.2.2.2.2.2.2.2.1, h.2.2.2.2.2.2.2.2.2⟩

/-- C39: `_MergeVertex(W, 0, R)` for a vertex `W` whose ring is empty
(`G[W].link[0] = G[W].link[1] = W`) and a root copy `R` with a valid ring holding the arcs
`b` (at least one), for a hook `fpInitGraphNode` that re-initialises that node only.  The
call returns; the ring of `W` is a valid ring with the arcs `b` in the same order (and in
the reverse order along `link[1]`); `G[W].link[0]` and `G[W].link[1]` are the former
`G[R].link[0]` and `G[R].link[1]`; and these two end arcs point back to `W`. -/
theorem mergeVertex_into_empty_ring (fuel : Nat) (init : graph → Int → graph) (g : graph)
    (W R : Int) (b : List Int) (hinit : RetiresNode init)
    (hW0 : (g.G W).link 0 = W) (hW1 : (g.G W).link 1 = W) (hWlt : W < g.edgeOffset)
    (hR : Ring g 0 R b) (hb : b ≠ []) (hWR : W ≠ R) (hfuel : b.length < fuel) :
    ∃ g1, _MergeVertex fuel init g W 0 R = some g1 ∧
      Ring g1 0 W b ∧ Ring g1 1 W b.reverse ∧
      (g1.G W).link 0 = (g.G R).link 0 ∧ (g1.G W).link 1 = (g.G R).link 1 ∧
      (g1.G ((g.G R).link 0)).link 1 = W ∧ (g1.G ((g.G R).link 1)).link 0 = W ∧
      (∀ t, (g1.G R).link t = NIL) := by
  have hW : Ring g 0 W [] := by
    refine ⟨?_, by simp, hWlt, by simp⟩
    simp only [List.nil_append, List.cons_append, List.chain'_cons, List.chain'_singleton,
      and_true]
    exact ⟨hW0, by rw [xor_one_zero]; exact hW1⟩
  have hd : ∀ x ∈ W :: ([] : List Int), x ∉ R :: b := by
    intro x hx hx2
    rw [List.mem_singleton] at hx
    subst hx
    rcases List.mem_cons.1 hx2 with h | h
    · exact hWR h
    · have := hR.2.2.2 x h
      omega
  obtain ⟨g1, h1, h2, h3, -⟩ :=
    mergeVertex_spec fuel init g W 0 R [] b hinit (Or.inl rfl) hW hR hb hd hfuel
  rw [if_pos rfl, List.append_nil] at h2
  have h2r : Ring g1 1 W b.reverse := by
    have := Ring_reverse (Or.inl rfl) h2
    rwa [xor_one_zero] at this
  have f0 : (g1.G W).link 0 = (g.G R).link 0 := by
    rw [Ring_first h2, Ring_first hR]
    exact headD_append_ne b W R hb
  have f1 : (g1.G W).link 1 = (g.G R).link 1 := by
    have a1 := Ring_last (Or.inl rfl) h2
    have a2 := Ring_last (Or.inl rfl) hR
    rw [xor_one_zero] at a1 a2
    rw [a1, a2]
    exact headD_append_ne b.reverse W R (by simpa using hb)
  refine ⟨g1, h1, h2, h2r, f0, f1, ?_, ?_, h3⟩
  · have := @ring_joint g1 W [] b (by simpa using h2)
    simp only [List.reverse_nil, List.nil_append, List.headD_cons] at this
    have h := this.2
    rw [xor_one_zero, ← Ring_first h2, f0] at h
    exact h
  · have := @ring_joint g1 W b [] (by simpa using h2)
    simp only [List.nil_append, List.headD_cons] at this
    have h := this.1
    have a1 := Ring_last (Or.inl rfl) h2
    rw [xor_one_zero] at a1
    rw [← a1, f1] at h
    exact h

set_option maxRecDepth 100000 in
theorem mergeVertex_into_empty_ring_witness :
    (twoTrianglesAtJoin.G 0).link 0 = 0 ∧ (twoTrianglesAtJoin.G 0).link 1 = 0 ∧
    Ring twoTrianglesAtJoin 0 7 [16, 12] ∧
    ∃ g1, _MergeVertex 50 _InitGraphNode twoTrianglesAtJoin 0 0 7 = some g1 ∧
      Ring g1 0 0 [16, 12] ∧ (g1.G 0).link 0 = 16 ∧ (g1.G 0).link 1 = 12 ∧
      (g1.G 16).link 1 = 0 ∧ (g1.G 12).link 0 = 0 := by
  have hR : Ring twoTrianglesAtJoin 0 7 [16, 12] := (ringCheck_iff _ _ _ _).1 (by decide!)
  have e0 : (twoTrianglesAtJoin.G 7).link 0 = 16 := by decide!
  have e1 : (twoTrianglesAtJoin.G 7).link 1 = 12 := by decide!
  obtain ⟨g1, h1, h2, -, h4, h5, h6, h7, -⟩ :=
    mergeVertex_into_empty_ring 50 _InitGraphNode twoTrianglesAtJoin 0 7 [16, 12]
      retiresNode_default (by decide!) (by decide!) (by decide!) hR (by simp) (by decide)
      (by decide)
  rw [e0] at h4 h6
  rw [e1] at h5 h7
  exact ⟨by decide!, by decide!, hR, g1, h1, h2, h4, h5, h6, h7⟩

/-! ### The outcomes of `_WalkDown` with the default hooks; `_MergeBicomps` returns -/

theorem invertRing_bounds (fuel : Nat) :
    ∀ (g : graph) (J : Int) (g1 : graph), invertRing fuel g J = some g1 →
      g1.edgeOffset = g.edgeOffset ∧ g1.theStack = g.theStack := by
  induction fuel with
  | zero => intro g J g1 h; simp [invertRing] at h
  | succ n ih =>
    intro g J g1 h
    simp only [invertRing] at h
    split_ifs at h
    · have h2 := ih _ _ _ h
      exact h2
    · simp only [Option.some.injEq] at h; subst h
      exact ⟨rfl, rfl⟩

theorem markChildArcInverted_bounds (fuel : Nat) :
    ∀ (g : graph) (J : Int) (g1 : graph), markChildArcInverted fuel g J = some g1 →
      g1.edgeOffset = g.edgeOffset ∧ g1.theStack = g.theStack := by
  induction fuel with
  | zero => intro g J g1 h; simp [markChildArcInverted] at h
  | succ n ih =>
    intro g J g1 h
    simp only [markChildArcInverted] at h
    split_ifs at h
    · simp only [Option.some.injEq] at h; subst h
      exact ⟨rfl, rfl⟩
    · exact ih _ _ _ h
    · simp only [Option.some.injEq] at h; subst h
      exact ⟨rfl, rfl⟩

theorem redirectArcs_bounds (fuel : Nat) :
    ∀ (g : graph) (W J : Int) (g1 : graph), redirectArcs fuel g W J = some g1 →
      g1.edgeOffset = g.edgeOffset ∧ g1.theStack = g.theStack := by
  induction fuel with
  | zero => intro g W J g1 h; simp [redirectArcs] at h
  | succ n ih =>
    intro g W J g1 h
    simp only [redirectArcs] at h
    split_ifs at h
    · have h2 := ih _ _ _ _ h
      exact h2
    · simp only [Option.some.injEq] at h; subst h
      exact ⟨rfl, rfl⟩

theorem flipRoot_bounds (fuel : Nat) (g : graph) (R Rout ZPrevLink : Int) (g1 : graph)
    (h : flipRoot fuel g R Rout ZPrevLink = some g1) :
    g1.edgeOffset = g.edgeOffset ∧ g1.theStack = g.theStack := by
  unfold flipRoot at h
  by_cases hz : ZPrevLink = Rout
  · rw [if_pos hz] at h
    by_cases hl : (g.G R).link 0 ≠ (g.G R).link 1
    · rw [if_pos hl, Option.bind_eq_some] at h
      obtain ⟨s, h1, h2⟩ := h
      unfold _InvertVertex at h1
      rw [Option.map_eq_some'] at h1
      obtain ⟨s0, h3, rfl⟩ := h1
      obtain ⟨a1, a2⟩ := invertRing_bounds fuel g R s0 h3
      obtain ⟨b1, b2⟩ := markChildArcInverted_bounds fuel _ _ g1 h2
      exact ⟨b1.trans a1, b2.trans a2⟩
    · rw [if_neg hl, Option.some_bind] at h
      exact markChildArcInverted_bounds fuel _ _ g1 h
  · rw [if_neg hz] at h
    simp only [Option.some.injEq] at h
    subst h
    exact ⟨rfl, rfl⟩

theorem stitchExtFace_bounds (g : graph) (R Rout Z ZPrevLink : Int) :
    (stitchExtFace g R Rout Z ZPrevLink).edgeOffset = g.edgeOffset ∧
    (stitchExtFace g R Rout Z ZPrevLink).theStack = g.theStack := by
  unfold stitchExtFace
  dsimp only
  split_ifs <;> exact ⟨rfl, rfl⟩

/-- An iteration of the loop of `_MergeBicomps` that returns has popped two pairs and
leaves the rest of the stack, for a hook `fpInitGraphNode` that keeps the stack. -/
theorem mergeBicompsStep_bounds (fuel : Nat) (init : graph → Int → graph)
    (hinit : ∀ s x, (init s x).edgeOffset = s.edgeOffset ∧ (init s x).theStack = s.theStack)
    (g : graph) (R Rout Z ZPrevLink : Int) (rest : List Int)
    (hst : g.theStack = Rout :: R :: ZPrevLink :: Z :: rest) (g1 : graph)
    (h : mergeBicompsStep fuel init g = some g1) :
    g1.edgeOffset = g.edgeOffset ∧ g1.theStack = rest := by
  rw [mergeBicompsStep_eq fuel init g R Rout Z ZPrevLink rest hst, Option.bind_eq_some] at h
  obtain ⟨s, h1, h2⟩ := h
  obtain ⟨a1, a2⟩ := flipRoot_bounds fuel _ R Rout ZPrevLink s h1
  obtain ⟨b1, b2⟩ := stitchExtFace_bounds { g with theStack := rest } R Rout Z ZPrevLink
  rw [b1] at a1
  rw [b2] at a2
  rw [mergeVertex_eq, Option.map_eq_some'] at h2
  obtain ⟨s0, h3, rfl⟩ := h2
  obtain ⟨c1, c2⟩ := redirectArcs_bounds fuel _ Z _ s0 h3
  obtain ⟨d1, d2⟩ := hinit
    (setGLink
      (setGLink
        (setGLink
          (setGLink s0 ((s0.G Z).link ZPrevLink) (Int.xor 1 ZPrevLink)
            ((s0.G R).link (Int.xor 1 ZPrevLink)))
          ((s0.G R).link (Int.xor 1 ZPrevLink)) ZPrevLink ((s0.G Z).link ZPrevLink))
        Z ZPrevLink ((s0.G R).link ZPrevLink))
      ((s0.G R).link ZPrevLink) (Int.xor 1 ZPrevLink) Z) R
  refine ⟨d1.trans (c1.trans a1), d2.trans (c2.trans a2)⟩

theorem mergeBicompsLoop_empties (fuel : Nat) (init : graph → Int → graph) :
    ∀ (n : Nat) (g g1 : graph), mergeBicompsLoop fuel init n g = some g1 →
      g1.theStack = [] := by
  intro n
  induction n with
  | zero => intro g g1 h; simp [mergeBicompsLoop] at h
  | succ n ih =>
    intro g g1 h
    rw [mergeBicompsLoop] at h
    split_ifs at h with hs
    · rw [Option.bind_eq_some] at h
      obtain ⟨s, _, h2⟩ := h
      exact ih s g1 h2
    · simp only [Option.some.injEq] at h
      subst h
      exact theStack_of_not_nonEmpty hs

theorem mergeNodes_cons (p : Int × Int × Int × Int) (t : List (Int × Int × Int × Int)) :
    mergeNodes (p :: t) = p.2.2.1 :: p.1 :: mergeNodes t := by
  simp [mergeNodes]

theorem mergeStack_cons (p : Int × Int × Int × Int) (t : List (Int × Int × Int × Int)) :
    mergeStack (p :: t) = p.2.1 :: p.1 :: p.2.2.2 :: p.2.2.1 :: mergeStack t := by
  simp [mergeStack]

/-- The loop of `_MergeBicomps` returns, with an empty stack, when the entries of the stack
refer to valid, pairwise disjoint rings. -/
theorem mergeBicompsLoop_returns (fuel : Nat) (init : graph → Int → graph)
    (hinit : RetiresNode init) (hkeep : ∀ s x, (init s x).theStack = s.theStack)
    (rl : Int → List Int) :
    ∀ (ps : List (Int × Int × Int × Int)) (g : graph), g.theStack = mergeStack ps →
      MergeReady fuel g rl ps →
      ∀ k, ∃ g1, mergeBicompsLoop fuel init (ps.length + 1 + k) g = some g1 ∧
        g1.theStack = [] := by
  intro ps
  induction ps with
  | nil =>
    intro g hst _ k
    refine ⟨g, ?_, hst⟩
    rw [show ([] : List (Int × Int × Int × Int)).length + 1 + k = k + 1 by simp; omega,
      mergeBicompsLoop]
    have : sp_NonEmpty g = false := by
      unfold sp_NonEmpty
      rw [hst]
      rfl
    rw [this]
    rfl
  | cons p t ih =>
    intro g hst hr k
    obtain ⟨R, Rout, Z, ZP⟩ := p
    rw [mergeStack_cons] at hst
    simp only at hst
    obtain ⟨h1, h2, h3, h4⟩ := hr
    rw [mergeNodes_cons] at h2 h3 h4
    simp only at h2 h3 h4
    obtain ⟨hp, hb, hlen⟩ := h1 (R, Rout, Z, ZP) (List.mem_cons_self _ _)
    simp only at hp hb hlen
    have hZm : Z ∈ Z :: R :: mergeNodes t := List.mem_cons_self _ _
    have hRm : R ∈ Z :: R :: mergeNodes t := List.mem_cons_of_mem _ (List.mem_cons_self _ _)
    have hZ := h3 Z hZm
    have hR := h3 R hRm
    have hZR : Z ≠ R := by
      intro e
      have := (List.nodup_cons.1 h2).1
      exact this (e ▸ List.mem_cons_self _ _)
    have hd : ∀ x ∈ Z :: rl Z, x ∉ R :: rl R := by
      intro x hx hx2
      rcases List.mem_cons.1 hx with rfl | hx
      · rcases List.mem_cons.1 hx2 with h | h
        · exact hZR h
        · have := hR.2.2.2 _ h
          have := hZ.2.2.1
          omega
      · rcases List.mem_cons.1 hx2 with h | h
        · have := hZ.2.2.2 _ hx
          have := hR.2.2.1
          omega
        · exact h4 Z hZm R hRm hZR x hx h
    obtain ⟨g1, e1, -, -, -, f1⟩ :=
      mergeBicompsStep_rings fuel init g R Rout Z ZP (mergeStack t) (rl Z) (rl R) hinit hst hp
        hZ hR hb hd hlen
    obtain ⟨b1, b2⟩ := mergeBicompsStep_bounds fuel init
      (fun s x => ⟨(hinit s x).1, hkeep s x⟩) g R Rout Z ZP (mergeStack t) hst g1 e1
    have hr1 : MergeReady fuel g1 rl t := by
      refine ⟨fun q hq => h1 q (List.mem_cons_of_mem _ hq), ?_, ?_, ?_⟩
      · exact (List.nodup_cons.1 (List.nodup_cons.1 h2).2).2
      · intro X hX
        have hXm : X ∈ Z :: R :: mergeNodes t :=
          List.mem_cons_of_mem _ (List.mem_cons_of_mem _ hX)
        have hXZ : X ≠ Z := fun e => (List.nodup_cons.1 h2).1
          (e ▸ List.mem_cons_of_mem _ hX)
        have hXR : X ≠ R := fun e => (List.nodup_cons.1 (List.nodup_cons.1 h2).2).1 (e ▸ hX)
        have hXr := h3 X hXm
        refine Ring_frame hXr b1 ?_
        intro x hx
        apply f1
        · intro hx2
          rcases List.mem_cons.1 hx with rfl | hx
          · rcases List.mem_cons.1 hx2 with h | h
            · exact hXZ h
            · have := hZ.2.2.2 _ h
              have := hXr.2.2.1
              omega
          · rcases List.mem_cons.1 hx2 with h | h
            · have := hXr.2.2.2 _ hx
              have := hZ.2.2.1
              omega
            · exact h4 X hXm Z hZm hXZ x hx h
        · intro hx2
          rcases List.mem_cons.1 hx with rfl | hx
          · rcases List.mem_cons.1 hx2 with h | h
            · exact hXR h
            · have := hR.2.2.2 _ h
              have := hXr.2.2.1
              omega
          · rcases List.mem_cons.1 hx2 with h | h
            · have := hXr.2.2.2 _ hx
              have := hR.2.2.1
              omega
            · exact h4 X hXm R hRm hXR x hx h
      · intro X hX Y hY
        exact h4 X (List.mem_cons_of_mem _ (List.mem_cons_of_mem _ hX)) Y
          (List.mem_cons_of_mem _ (List.mem_cons_of_mem _ hY))
    obtain ⟨g2, e2, s2⟩ := ih g1 b2 hr1 k
    refine ⟨g2, ?_, s2⟩
    rw [show ((R, Rout, Z, ZP) :: t).length + 1 + k = (t.length + 1 + k) + 1 by simp; omega,
      mergeBicompsLoop]
    have : sp_NonEmpty g = true := by
      unfold sp_NonEmpty
      rw [hst]
      rfl
    rw [this, if_pos rfl, e1, Option.some_bind, e2]

/-- C37: with the default hooks `_WalkDown` never returns `NOTOK`: whenever it returns, the
value is `OK` or `NONEMBEDDABLE`.  The reasons are that `_MergeBicomps` returns no other
value than `OK`, leaving the stack empty, and that `_HandleInactiveVertex` returns `OK` for
every input.  `_MergeBicomps` does return when the entries on the stack refer to pairwise
different cut vertices and root copies with valid rings that share no arc (`MergeReady`,
with enough fuel), for a hook `fpInitGraphNode` that re-initialises that node only and
keeps the stack. -/
theorem walkDown_never_fails (fuel fuel1 : Nat) (init : graph → Int → graph) (ext : externals)
    (g : graph) (I R : Int) :
    (_WalkDown fuel (defaultFunctions fuel1 init ext) g I R).val ≠ some NOTOK ∧
    (∀ r, (_WalkDown fuel (defaultFunctions fuel1 init ext) g I R).val = some r →
      r = OK ∨ r = NONEMBEDDABLE) ∧
    (∀ (s : graph) (a b c d r : Int) (s1 : graph),
      _MergeBicomps fuel1 init s a b c d = some (r, s1) → r = OK ∧ s1.theStack = []) ∧
    (∀ (s : graph) (a b c : Int), (_HandleInactiveVertex s a b c).1 = OK) ∧
    (RetiresNode init → (∀ s x, (init s x).theStack = s.theStack) →
      ∀ (s : graph) (rl : Int → List Int) (ps : List (Int × Int × Int × Int)),
        s.theStack = mergeStack ps → MergeReady fuel1 s rl ps → ps.length < fuel1 →
        ∀ a b c d : Int, ∃ s1, _MergeBicomps fuel1 init s a b c d = some (OK, s1) ∧
          s1.theStack = []) := by
  have hval : ∀ r, (_WalkDown fuel (defaultFunctions fuel1 init ext) g I R).val = some r →
      r = OK ∨ r = NONEMBEDDABLE := by
    intro r hr
    rcases walkDown_outcome fuel (defaultFunctions fuel1 init ext) g I R with
      ⟨_, h⟩ | ⟨x, hx, _⟩ | ⟨W, WP, _, h⟩
    · rw [h] at hr
      exact absurd hr (by simp)
    · exact absurd hx (walkDownLoop_default fuel1 init ext fuel _ I R 0 _ _ x)
    · rcases h with ⟨_, h⟩ | ⟨_, _, h⟩ | ⟨_, _, h⟩
      · rw [h] at hr
        simp only [Option.some.injEq] at hr
        exact Or.inr hr.symm
      · rw [h] at hr
        simp only [Option.some.injEq] at hr
        exact Or.inl hr.symm
      · rcases h with ⟨_, h⟩ | ⟨x, hx, _⟩ | ⟨W1, WP1, _, h⟩
        · rw [h] at hr
          exact absurd hr (by simp)
        · exact absurd hx (walkDownLoop_default fuel1 init ext fuel _ I R 1 _ _ x)
        · rcases h with ⟨_, h⟩ | ⟨_, h⟩
          · rw [h] at hr
            simp only [Option.some.injEq] at hr
            exact Or.inr hr.symm
          · rw [h] at hr
            simp only [Option.some.injEq] at hr
            exact Or.inl hr.symm
  refine ⟨?_, hval, ?_, fun _ _ _ _ => rfl, ?_⟩
  · intro h
    rcases hval NOTOK h with e | e
    · exact NOTOK_ne_OK e
    · exact NONEMBEDDABLE_ne_NOTOK e.symm
  · intro s a b c d r s1 h
    unfold _MergeBicomps at h
    rw [Option.map_eq_some'] at h
    obtain ⟨s2, h1, h2⟩ := h
    simp only [Prod.mk.injEq] at h2
    obtain ⟨rfl, rfl⟩ := h2
    exact ⟨rfl, mergeBicompsLoop_empties fuel1 init fuel1 s s2 h1⟩
  · intro hinit hkeep s rl ps hst hr hlen a b c d
    obtain ⟨s1, e1, t1⟩ :=
      mergeBicompsLoop_returns fuel1 init hinit hkeep rl ps s hst hr (fuel1 - (ps.length + 1))
    rw [show ps.length + 1 + (fuel1 - (ps.length + 1)) = fuel1 by omega] at e1
    refine ⟨s1, ?_, t1⟩
    unfold _MergeBicomps
    rw [e1]
    rfl

set_option maxRecDepth 100000 in
theorem walkDown_never_fails_witness :
    (_WalkDown 50 stdFunctions K5AtWalkDown 1 7).val = some OK ∧
    (_WalkDown 50 stdFunctions K5AtWalkDown 1 7).val ≠ some NOTOK ∧
    chordedPathAtMerge.theStack = mergeStack [(8, 1, 2, 1)] ∧
    MergeReady 50 chordedPathAtMerge (lookupD [(2, [13]), (8, [18, 14])] []) [(8, 1, 2, 1)] ∧
    ∃ s1, _MergeBicomps 50 _InitGraphNode chordedPathAtMerge 1 7 3 1 = some (OK, s1) ∧
      s1.theStack = [] := by
  have h := walkDown_never_fails 50 50 _InitGraphNode readyExternals K5AtWalkDown 1 7
  have hZ : Ring chordedPathAtMerge 0 2 [13] := (ringCheck_iff _ _ _ _).1 (by decide!)
  have hR : Ring chordedPathAtMerge 0 8 [18, 14] := (ringCheck_iff _ _ _ _).1 (by decide!)
  have hr : MergeReady 50 chordedPathAtMerge (lookupD [(2, [13]), (8, [18, 14])] [])
      [(8, 1, 2, 1)] := by
    refine ⟨?_, by decide, ?_, ?_⟩
    · intro p hp
      rw [List.mem_singleton] at hp
      subst hp
      decide
    · intro X hX
      have hX2 : X = 2 ∨ X = 8 := by simpa [mergeNodes] using hX
      rcases hX2 with rfl | rfl
      · exact hZ
      · exact hR
    · intro X hX Y hY
      have hX2 : X = 2 ∨ X = 8 := by simpa [mergeNodes] using hX
      have hY2 : Y = 2 ∨ Y = 8 := by simpa [mergeNodes] using hY
      rcases hX2 with rfl | rfl <;> rcases hY2 with rfl | rfl <;> decide
  exact ⟨by decide!, h.1, by decide!, hr,
    h.2.2.2.2 retiresNode_default (fun _ _ => rfl) chordedPathAtMerge _ [(8, 1, 2, 1)]
      (by decide!) hr (by decide) 1 7 3 1⟩

/-! ### The order of the pertinent bicomp lists -/

theorem pertOrdered_same {g : graph} {I : Int} {l : Int → List Int} {s : graph}
    (h : PertOrdered g I l) (hs : SamePertinent g s) : PertOrdered s I l := by
  obtain ⟨e1, e2, e3, e4⟩ := hs
  intro P
  obtain ⟨a1, a2, a3⟩ := h P
  refine ⟨?_, ?_, ?_⟩
  · rw [e1, (e3 P).1]
    exact a1
  · refine List.Pairwise.imp ?_ a2
    intro x y hxy
    rw [(e3 x).2.1, (e3 y).2.1]
    exact hxy
  · intro c hc
    rw [(e3 c).2.2, e4, e2]
    exact a3 c hc

theorem samePertinent_stamp (g : graph) (Zig Zag I : Int) (l : Int → List Int)
    (h : PertOrdered g I l) : PertOrdered (setGVisited (setGVisited g Zig I) Zag I) I l := by
  intro P
  obtain ⟨a1, a2, a3⟩ := h P
  refine ⟨a1, a2, ?_⟩
  intro c hc
  refine ⟨(a3 c hc).1, ?_⟩
  show ((setGVisited (setGVisited g Zig I) Zag I).G (c + g.N)).visited = I
  rw [stamped_visited]
  split_ifs
  · rfl
  · exact (a3 c hc).2

theorem pertOrdered_record {g : graph} {I : Int} {l : Int → List Int} {c : Int}
    (h : PertOrdered g I l) (hc : c ≠ NIL) (hnew : ∀ P, c ∉ l P)
    (hvis : (g.G (c + g.N)).visited = I) :
    ∃ l1, PertOrdered (walkUpRecord g I c) I l1 := by
  by_cases hP : (g.V c).DFSParent ≠ I
  swap
  · have e : walkUpRecord g I c = g := by
      unfold walkUpRecord; simp only [hP, if_false]
    rw [e]
    exact ⟨l, h⟩
  set P := (g.V c).DFSParent with hPdef
  refine ⟨fun Q => if Q = P then
      (if (g.V c).Lowpoint < I then l P ++ [c] else c :: l P) else l Q, ?_⟩
  intro Q
  have hrec : walkUpRecord g I c =
      setPertinentBicompList
        { g with BicompLists := (LCAppend g.BicompLists (g.V P).pertinentBicompList c).1 } P
        (if (g.V c).Lowpoint < I then
          (LCAppend g.BicompLists (g.V P).pertinentBicompList c).2
         else (LCPrepend g.BicompLists (g.V P).pertinentBicompList c).2) := by
    unfold walkUpRecord
    simp only [← hPdef, hP, ne_eq, not_false_eq_true, if_true]
    split_ifs <;> rfl
  have hlow : ∀ x, ((walkUpRecord g I c).V x).Lowpoint = (g.V x).Lowpoint :=
    walkUpRecord_Lowpoint g I c
  have hpar : ∀ x, ((walkUpRecord g I c).V x).DFSParent = (g.V x).DFSParent :=
    walkUpRecord_DFSParent g I c
  have hmem : ∀ x, ((walkUpRecord g I c).V x).DFSParent =
      (g.V x).DFSParent ∧ ((walkUpRecord g I c).G (x + (walkUpRecord g I c).N)).visited =
        (g.G (x + g.N)).visited := by
    intro x
    rw [walkUpRecord_G, walkUpRecord_N]
    exact ⟨hpar x, rfl⟩
  by_cases hQ : Q = P
  · subst hQ
    simp only [if_true]
    refine ⟨?_, ?_, ?_⟩
    · rw [hrec]
      have e : ∀ (g1 : graph) (x : Int),
          ((setPertinentBicompList g1 P x).V P).pertinentBicompList = x := by
        intro g1 x; simp [setPertinentBicompList, upd]
      rw [e]
      show LCRep (LCAppend g.BicompLists (g.V P).pertinentBicompList c).1 _ _
      split_ifs
      · exact LCRep_append c (h P).1 (hnew P) hc
      · exact LCRep_prepend c (h P).1 (hnew P) hc
    · unfold ActiveFirst
      have a2 : (l P).Pairwise fun x y =>
          ((walkUpRecord g I c).V x).Lowpoint < I → ((walkUpRecord g I c).V y).Lowpoint < I := by
        refine List.Pairwise.imp ?_ (h P).2.1
        intro x y hxy
        rw [hlow, hlow]
        exact hxy
      by_cases hl : (g.V c).Lowpoint < I
      · rw [if_pos hl, List.pairwise_append]
        refine ⟨a2, List.pairwise_singleton _ _, ?_⟩
        intro x _ y hy _
        rw [List.mem_singleton.1 hy, hlow]
        exact hl
      · rw [if_neg hl, List.pairwise_cons]
        refine ⟨?_, a2⟩
        intro y _ hc2
        rw [hlow] at hc2
        exact absurd hc2 hl
    · intro x hx
      rw [(hmem x).1, (hmem x).2]
      have hx2 : x = c ∨ x ∈ l P := by
        split_ifs at hx
        · rcases List.mem_append.1 hx with h1 | h1
          · exact Or.inr h1
          · exact Or.inl (List.mem_singleton.1 h1)
        · rcases List.mem_cons.1 hx with h1 | h1
          · exact Or.inl h1
          · exact Or.inr h1
      rcases hx2 with rfl | hx2
      · exact ⟨rfl, hvis⟩
      · exact (h P).2.2 x hx2
  · simp only [if_neg hQ]
    refine ⟨?_, ?_, ?_⟩
    · rw [hrec]
      have e : ∀ (g1 : graph) (x : Int),
          ((setPertinentBicompList g1 P x).V Q).pertinentBicompList =
            (g1.V Q).pertinentBicompList := by
        intro g1 x; simp [setPertinentBicompList, upd, hQ]
      rw [e]
      show LCRep (LCAppend g.BicompLists (g.V P).pertinentBicompList c).1
        (g.V Q).pertinentBicompList (l Q)
      refine LCRep_append_other c (h P).1 (h Q).1 (hnew Q) ?_
      intro y hy hy2
      have a1 := ((h Q).2.2 y hy).1
      have a2 := ((h P).2.2 y hy2).1
      exact hQ (a1.symm.trans a2)
    · refine List.Pairwise.imp ?_ (h Q).2.1
      intro x y hxy
      rw [hlow, hlow]
      exact hxy
    · intro x hx
      rw [(hmem x).1, (hmem x).2]
      exact (h Q).2.2 x hx

theorem pertOrdered_step {g : graph} {I : Int} {l : Int → List Int}
    (h : PertOrdered g I l) (Zig Zag zp gp : Int) (hp : walkUpPasses g I Zig Zag) :
    ∃ l1, PertOrdered (walkUpStep g I Zig Zag zp gp).1 I l1 := by
  rw [walkUpStep_fst]
  by_cases hR : walkUpRoot g Zig Zag ≠ NIL
  · rw [if_pos hR]
    obtain ⟨hge, hor⟩ := walkUpRoot_ge hR
    have hc : walkUpRoot g Zig Zag - g.N ≠ NIL := by unfold NIL; omega
    have hRv : (g.G (walkUpRoot g Zig Zag)).visited ≠ I := by
      rcases hor with e | e <;> rw [e]
      · exact hp.2.1
      · exact hp.2.2
    have hnew : ∀ P, walkUpRoot g Zig Zag - g.N ∉ l P := by
      intro P hm
      have := ((h P).2.2 _ hm).2
      simp only [sub_add_cancel] at this
      exact hRv this
    have hvis : ((setGVisited (setGVisited g Zig I) Zag I).G
        (walkUpRoot g Zig Zag - g.N + (setGVisited (setGVisited g Zig I) Zag I).N)).visited
          = I := by
      show ((setGVisited (setGVisited g Zig I) Zag I).G
        (walkUpRoot g Zig Zag - g.N + g.N)).visited = I
      rw [sub_add_cancel, stamped_visited, if_pos hor]
    exact pertOrdered_record (samePertinent_stamp g Zig Zag I l h) hc hnew hvis
  · rw [if_neg hR]
    exact ⟨l, samePertinent_stamp g Zig Zag I l h⟩

theorem walkUpLoop_pertOrdered (I : Int) (fuel : Nat) :
    ∀ (g : graph) (l : Int → List Int) (Zig Zag zp gp : Int) (g1 : graph),
      PertOrdered g I l → walkUpLoop fuel g I Zig Zag zp gp = some g1 →
      ∃ l1, PertOrdered g1 I l1 := by
  induction fuel with
  | zero => intro g l Zig Zag zp gp g1 _ h; simp [walkUpLoop] at h
  | succ n ih =>
    intro g l Zig Zag zp gp g1 hi h
    rw [walkUpLoop_succ] at h
    by_cases hp : walkUpPasses g I Zig Zag
    · rw [if_pos hp] at h
      obtain ⟨l1, h1⟩ := pertOrdered_step hi Zig Zag zp gp hp
      exact ih _ l1 _ _ _ _ g1 h1 h
    · rw [if_neg hp] at h
      cases h
      exact ⟨l, hi⟩

theorem walkUp_pertOrdered (fuel : Nat) (g : graph) (I J : Int) (l : Int → List Int)
    (g1 : graph) (hi : PertOrdered g I l) (h : _WalkUp fuel g I J = some g1) :
    ∃ l1, PertOrdered g1 I l1 := by
  have h1 : walkUpLoop fuel (setAdjacentTo g (g.G J).v J) I (g.G J).v (g.G J).v 1 0 =
      some g1 := h
  refine walkUpLoop_pertOrdered I fuel _ l _ _ _ _ g1 ?_ h1
  refine pertOrdered_same hi ⟨rfl, rfl, fun v => ?_, fun _ => rfl⟩
  simp only [setAdjacentTo, upd]
  split_ifs with hv
  · subst hv; exact ⟨rfl, rfl, rfl⟩
  · exact ⟨rfl, rfl, rfl⟩

theorem LCRep_neighbours {lc : listCollection} {head c : Int} {l : List Int}
    (hr : LCRep lc head l) (hc : c ∈ l) : (lc.List c).next ∈ l ∧ (lc.List c).prev ∈ l := by
  obtain ⟨_, _, _, h4⟩ := hr
  obtain ⟨i, hi, e⟩ := List.getElem_of_mem hc
  have ei : l.getD i NIL = c := by rw [List.getD_eq_getElem l NIL hi]; exact e
  have hpos : 0 < l.length := by omega
  constructor
  · have := (h4 i hi).1
    rw [ei] at this
    rw [this]
    exact getD_mem (Nat.mod_lt _ hpos)
  · by_cases h0 : i = 0
    · have hj : l.length - 1 < l.length := by omega
      have := (h4 (l.length - 1) hj).2
      rw [show l.length - 1 + 1 = l.length by omega, Nat.mod_self, ← h0, ei] at this
      rw [this]
      exact getD_mem hj
    · have hj : i - 1 < l.length := by omega
      have := (h4 (i - 1) hj).2
      rw [show i - 1 + 1 = i by omega, Nat.mod_eq_of_lt hi, ei] at this
      rw [this]
      exact getD_mem hj

/-- Modelled `LCDelete` on a valid list that holds `c` writes only nodes of that list. -/
theorem LCDelete_frame {lc : listCollection} {head c : Int} {l : List Int}
    (hr : LCRep lc head l) (hc : c ∈ l) (y : Int) (hy : y ∉ l) :
    (LCDelete lc head c).1.List y = lc.List y := by
  obtain ⟨n1, n2⟩ := LCRep_neighbours hr hc
  have hl : l ≠ [] := List.ne_nil_of_mem hc
  obtain ⟨_, hh, _⟩ := LCRep_head hr hl
  have y1 : y ≠ head := fun e => hy (e ▸ hh)
  have y2 : y ≠ c := fun e => hy (e ▸ hc)
  have y3 : y ≠ (lc.List c).next := fun e => hy (e ▸ n1)
  have y4 : y ≠ (lc.List c).prev := fun e => hy (e ▸ n2)
  unfold LCDelete
  by_cases h : (lc.List head).next = head
  · rw [if_pos h]
    simp only [upd, if_neg y1]
  · rw [if_neg h]
    simp only [upd, if_neg y2, if_neg y3, if_neg y4]

theorem dropFromLists_V (g : graph) (R Z : Int) :
    (∀ v, v ≠ Z → (dropFromLists g R Z).V v = g.V v) ∧
    (∀ v, ((dropFromLists g R Z).V v).DFSParent = (g.V v).DFSParent) := by
  refine ⟨?_, ?_⟩
  · intro v hv
    simp [dropFromLists, setSeparatedDFSChildList, setPertinentBicompList, upd, hv]
  · intro v
    simp only [dropFromLists, setSeparatedDFSChildList, setPertinentBicompList, upd]
    by_cases h : v = Z
    · subst h; simp
    · simp [h]

/-- An iteration of the loop of `_MergeBicomps` that returns leaves the `visited` stamps of
all nodes other than `R` as they are, for a hook that re-initialises that node only. -/
theorem mergeBicompsStep_stamps_but (fuel : Nat) (init : graph → Int → graph)
    (hinit : RetiresNode init) (g : graph) (R Rout Z ZPrevLink : Int) (rest : List Int)
    (hst : g.theStack = Rout :: R :: ZPrevLink :: Z :: rest) (g1 : graph)
    (h : mergeBicompsStep fuel init g = some g1) :
    ∀ j, j ≠ R → (g1.G j).visited = (g.G j).visited := by
  rw [mergeBicompsStep_eq fuel init g R Rout Z ZPrevLink rest hst, Option.bind_eq_some] at h
  obtain ⟨s, h1, h2⟩ := h
  have e1 : stamps s = stamps g := by
    have := flipBlock_stamps fuel _ _ _ R s h1
    rw [this]
    exact stamps_of_G (stitchExtFace_G { g with theStack := rest } R Rout Z ZPrevLink).1
  rw [mergeVertex_eq, Option.map_eq_some'] at h2
  obtain ⟨s0, h3, rfl⟩ := h2
  have e2 : stamps s0 = stamps (dropFromLists s R Z) := redirectArcs_stamps fuel _ Z _ s0 h3
  intro j hj
  rw [(hinit _ R).2.2.2.1 j hj]
  have e3 : stamps (setGLink
      (setGLink
        (setGLink
          (setGLink s0 ((s0.G Z).link ZPrevLink) (Int.xor 1 ZPrevLink)
            ((s0.G R).link (Int.xor 1 ZPrevLink)))
          ((s0.G R).link (Int.xor 1 ZPrevLink)) ZPrevLink ((s0.G Z).link ZPrevLink))
        Z ZPrevLink ((s0.G R).link ZPrevLink))
      ((s0.G R).link ZPrevLink) (Int.xor 1 ZPrevLink) Z) = stamps g := by
    rw [stamps_setGLink, stamps_setGLink, stamps_setGLink, stamps_setGLink, e2, ← e1]
    exact stamps_of_G (dropFromLists_G s R Z).1
  exact congrFun e3 j

theorem pertOrdered_merge (fuel : Nat) (init : graph → Int → graph)
    (hinit : RetiresNode init) (hside : KeepsSideTables init) {g : graph} {I : Int}
    {l : Int → List Int} (h : PertOrdered g I l) (R Rout Z ZPrevLink : Int) (rest : List Int)
    (hst : g.theStack = Rout :: R :: ZPrevLink :: Z :: rest)
    (hne : (g.V Z).pertinentBicompList ≠ NIL) (hR : R = _GetPertinentChildBicomp g Z)
    (g1 : graph) (hrun : mergeBicompsStep fuel init g = some g1) :
    ∃ l1, PertOrdered g1 I l1 := by
  have hc0 : R - g.N = (g.V Z).pertinentBicompList := by
    rw [hR]
    unfold _GetPertinentChildBicomp
    rw [if_neg hne]
    omega
  have hlZ : l Z ≠ [] := by
    intro e
    have := (h Z).1.2.2.1
    rw [e] at this
    exact hne this
  have hcZ : R - g.N ∈ l Z := by
    rw [hc0]
    exact (LCRep_head (h Z).1 hlZ).2.1
  have hstamp := mergeBicompsStep_stamps_but fuel init hinit g R Rout Z ZPrevLink rest hst g1
    hrun
  rw [mergeBicompsStep_eq fuel init g R Rout Z ZPrevLink rest hst, Option.bind_eq_some] at hrun
  obtain ⟨s1, h1, h2⟩ := hrun
  obtain ⟨f1, -⟩ := flipRoot_side fuel _ R Rout ZPrevLink s1 h1
  obtain ⟨-, k2, -⟩ := stitchExtFace_G { g with theStack := rest } R Rout Z ZPrevLink
  obtain ⟨m1, -⟩ := mergeVertex_side fuel init hside _ Z ZPrevLink R g1 h2
  have hv : vertexData s1 = vertexData g := f1.trans k2
  have hV : s1.V = g.V := congrArg (fun q => q.1) hv
  have hN : s1.N = g.N := congrArg (fun q => q.2.1) hv
  have hB : s1.BicompLists = g.BicompLists := congrArg (fun q => q.2.2.2.1) hv
  have gV : g1.V = (dropFromLists s1 R Z).V := congrArg (fun q => q.1) m1
  have gN : g1.N = g.N := by
    have : g1.N = (dropFromLists s1 R Z).N := congrArg (fun q => q.2.1) m1
    rw [this, (dropFromLists_G s1 R Z).2.2.1, hN]
  have gB : g1.BicompLists = (dropFromLists s1 R Z).BicompLists :=
    congrArg (fun q => q.2.2.2.1) m1
  obtain ⟨d1, d2, -, -, d5⟩ := dropFromLists_lists s1 R Z
  obtain ⟨d6, d7⟩ := dropFromLists_V s1 R Z
  rw [hV, hN, hB] at d1 d2
  have hlow : ∀ v, (g1.V v).Lowpoint = (g.V v).Lowpoint := by
    intro v
    rw [gV, d5, hV]
  have hpar : ∀ v, (g1.V v).DFSParent = (g.V v).DFSParent := by
    intro v
    rw [gV, d7, hV]
  have hcpar : (g.V (R - g.N)).DFSParent = Z := ((h Z).2.2 _ hcZ).1
  have hmem : ∀ x, x ≠ R - g.N → (g1.G (x + g1.N)).visited = (g.G (x + g.N)).visited := by
    intro x hx
    rw [gN]
    apply hstamp
    intro e
    apply hx
    omega
  have hact : ∀ t : List Int, ActiveFirst g I t → ActiveFirst g1 I t := by
    intro t ht
    refine List.Pairwise.imp ?_ ht
    intro x y hxy
    rw [hlow, hlow]
    exact hxy
  refine ⟨fun Q => if Q = Z then (l Z).erase (R - g.N) else l Q, ?_⟩
  intro Q
  by_cases hQ : Q = Z
  · rw [hQ]
    simp only [if_true]
    refine ⟨?_, ?_, ?_⟩
    · have r1 := LCRep_delete (h Z).1 hcZ
      rw [← d1, ← d2, ← gB, ← gV] at r1
      exact r1
    · exact hact _ (List.Pairwise.sublist (List.erase_sublist _ _) (h Z).2.1)
    · intro x hx
      have hx1 : x ∈ l Z := List.mem_of_mem_erase hx
      have hx2 : x ≠ R - g.N := by
        intro e
        rw [e] at hx
        exact List.Nodup.not_mem_erase (h Z).1.2.1 hx
      rw [hpar, hmem x hx2]
      exact (h Z).2.2 x hx1
  · simp only [if_neg hQ]
    have hdis : ∀ y ∈ l Q, y ∉ l Z := by
      intro y hy hy2
      exact hQ (((h Q).2.2 y hy).1.symm.trans ((h Z).2.2 y hy2).1)
    refine ⟨?_, hact _ (h Q).2.1, ?_⟩
    · have e : (g1.V Q).pertinentBicompList = (g.V Q).pertinentBicompList := by
        rw [gV, d6 Q hQ, hV]
      rw [e]
      refine LCRep_frame (h Q).1 ?_
      intro y hy
      rw [gB, d1]
      exact LCDelete_frame (h Z).1 hcZ y (hdis y hy)
    · intro x hx
      have hx2 : x ≠ R - g.N := fun e => hdis x hx (e ▸ hcZ)
      rw [hpar, hmem x hx2]
      exact (h Q).2.2 x hx

/-- C33: in the iteration for `I`, starting from a state `g` in which all pertinent bicomp
lists are empty, after any sequence of calls `_WalkUp(I, .)`, of iterations of the loop of
`_MergeBicomps` (each merging the root copy at the head of the list of its cut vertex) and
of steps that leave the lists alone, the pertinent bicomp list of every `P` is a valid list
`l P` in which no child with `Lowpoint >= I` comes after a child with `Lowpoint < I`: the
internally active bicomps precede the externally active ones.  Hence, if the head of the
list (the bicomp that the Walkdown takes) is externally active, every member is.  The hook
`fpInitGraphNode` is assumed to re-initialise only the node it is called on and to keep the
vertex records and the list collections. -/
theorem pertinent_lists_active_first (fuel : Nat) (init : graph → Int → graph) (I : Int)
    (g s : graph) (hinit : RetiresNode init) (hside : KeepsSideTables init)
    (hempty : ∀ P, (g.V P).pertinentBicompList = NIL) (hrun : PertRun fuel init I g s) :
    ∃ l : Int → List Int, ∀ P,
      LCRep s.BicompLists (s.V P).pertinentBicompList (l P) ∧
      (l P).Pairwise (fun x y => (s.V x).Lowpoint < I → (s.V y).Lowpoint < I) ∧
      ((s.V P).pertinentBicompList ≠ NIL →
        (s.V (s.V P).pertinentBicompList).Lowpoint < I →
        ∀ c ∈ l P, (s.V c).Lowpoint < I) := by
  have hinv : ∃ l, PertOrdered s I l := by
    induction hrun with
    | start =>
      refine ⟨fun _ => [], fun P => ⟨(LCRep_nil_iff _ _).2 (hempty P), ?_, ?_⟩⟩
      · exact List.Pairwise.nil
      · intro c hc
        simp at hc
    | walkUp s s1 J _ hw ih =>
      obtain ⟨l, hl⟩ := ih
      exact walkUp_pertOrdered fuel s I J l s1 hl hw
    | merge s s1 R Rout Z ZPrevLink rest _ hst hne hR hm ih =>
      obtain ⟨l, hl⟩ := ih
      exact pertOrdered_merge fuel init hinit hside hl R Rout Z ZPrevLink rest hst hne hR s1 hm
    | other s s1 _ hs ih =>
      obtain ⟨l, hl⟩ := ih
      exact ⟨l, pertOrdered_same hl hs⟩
  obtain ⟨l, hl⟩ := hinv
  refine ⟨l, fun P => ⟨(hl P).1, (hl P).2.1, ?_⟩⟩
  intro hne hlow c hc
  have hh := (hl P).1.2.2.1
  cases hlp : l P with
  | nil =>
    rw [hlp] at hc
    simp at hc
  | cons a t =>
    rw [hlp] at hh hc
    simp only [List.headD_cons] at hh
    rw [hh] at hlow
    have hp := (hl P).2.1
    unfold ActiveFirst at hp
    rw [hlp] at hp
    rcases List.mem_cons.1 hc with rfl | hc
    · exact hlow
    · exact (List.pairwise_cons.1 hp).1 c hc hlow

theorem some_getD_of_isSome {α : Type} (o : Option α) (d : α) (h : o.isSome = true) :
    o = some (o.getD d) := by
  cases o with
  | none => exact absurd h (by simp)
  | some a => rfl

theorem samePertinent_descend (g : graph) (I W WPrevLink : Int) :
    SamePertinent g (walkDownDescend (sp_ClearStack g) I W WPrevLink).1 :=
  ⟨rfl, rfl, fun _ => ⟨rfl, rfl, rfl⟩, fun _ => rfl⟩

set_option maxRecDepth 100000 in
theorem triangle_pertRun : PertRun 50 _InitGraphNode 0 triangleAtStart triangleMerged := by
  have e1 : _WalkUp 50 triangleAtStart 0 10 = some triangleWalkedUp :=
    some_getD_of_isSome _ _ (by decide!)
  have e2 : mergeBicompsStep 50 _InitGraphNode triangleAtMerge = some triangleMerged :=
    some_getD_of_isSome _ _ (by decide!)
  have r1 : PertRun 50 _InitGraphNode 0 triangleAtStart triangleWalkedUp :=
    PertRun.walkUp _ _ 10 PertRun.start e1
  have r2 : PertRun 50 _InitGraphNode 0 triangleAtStart triangleAtMerge :=
    PertRun.other _ _ r1 (samePertinent_descend triangleWalkedUp 0 1 1)
  exact PertRun.merge _ _ 5 0 1 1 [] r2 (by decide!) (by decide!) (by decide!) e2

set_option maxRecDepth 100000 in
theorem pertinent_lists_active_first_witness :
    (∀ P, (triangleAtStart.V P).pertinentBicompList = NIL) ∧
    (triangleWalkedUp.V 1).pertinentBicompList = 2 ∧
    triangleAtMerge.theStack = [0, 5, 1, 1] ∧
    (triangleMerged.V 1).pertinentBicompList = NIL ∧
    ∃ l : Int → List Int, ∀ P,
      LCRep triangleMerged.BicompLists (triangleMerged.V P).pertinentBicompList (l P) ∧
      (l P).Pairwise
        (fun x y => (triangleMerged.V x).Lowpoint < 0 → (triangleMerged.V y).Lowpoint < 0) := by
  obtain ⟨l, hl⟩ := pertinent_lists_active_first 50 _InitGraphNode 0 triangleAtStart
    triangleMerged retiresNode_default keepsSideTables_default (fun _ => rfl) triangle_pertRun
  exact ⟨fun _ => rfl, by decide!, by decide!, by decide!, l,
    fun P => ⟨(hl P).1, (hl P).2.1⟩⟩

/-! ### The visits of `_OrientVerticesInBicomp` for any `PreserveSigns` -/

theorem orientArcP_frame (P flag : Int) (g : graph) (J : Int) :
    arenaRest (orientArcP P flag g J) = arenaRest g ∧
    (orientArcP P flag g J).extFace = g.extFace ∧
    (∀ x, ((orientArcP P flag g J).G x).link = (g.G x).link ∧
      ((orientArcP P flag g J).G x).type = (g.G x).type ∧
      ((orientArcP P flag g J).G x).v = (g.G x).v ∧
      ((orientArcP P flag g J).G x).visited = (g.G x).visited) ∧
    (∀ x, x ≠ J → (orientArcP P flag g J).G x = g.G x) ∧
    (P ≠ 0 → (orientArcP P flag g J).G = g.G) ∧
    (orientArcP P flag g J).theStack =
      (if (g.G J).type = EDGE_DFSCHILD then
        [Int.xor flag (if (g.G J).inverted then 1 else 0), (g.G J).v]
      else []) ++ g.theStack := by
  by_cases h : (g.G J).type = EDGE_DFSCHILD
  · by_cases hP : P = 0
    · have e : orientArcP P flag g J = setEdgeFlagInverted
          (sp_Push2 g (g.G J).v (Int.xor flag (if (g.G J).inverted then 1 else 0))) J
          false := by
        unfold orientArcP; rw [if_pos h]; simp only [if_pos hP]
      rw [e]
      refine ⟨rfl, rfl, ?_, ?_, fun h0 => absurd hP h0, ?_⟩
      · intro x
        simp only [setEdgeFlagInverted, sp_Push2, upd]
        split_ifs with e
        · subst e; exact ⟨rfl, rfl, rfl, rfl⟩
        · exact ⟨rfl, rfl, rfl, rfl⟩
      · intro x hx
        simp [setEdgeFlagInverted, sp_Push2, upd, hx]
      · rw [if_pos h]; rfl
    · have e : orientArcP P flag g J =
          sp_Push2 g (g.G J).v (Int.xor flag (if (g.G J).inverted then 1 else 0)) := by
        unfold orientArcP; rw [if_pos h]; simp only [if_neg hP]
      rw [e]
      refine ⟨rfl, rfl, fun _ => ⟨rfl, rfl, rfl, rfl⟩, fun _ _ => rfl, fun _ => rfl, ?_⟩
      rw [if_pos h]; rfl
  · have e : orientArcP P flag g J = g := by
      unfold orientArcP; rw [if_neg h]
    rw [e]
    refine ⟨rfl, rfl, fun _ => ⟨rfl, rfl, rfl, rfl⟩, fun _ _ => rfl, fun _ => rfl, ?_⟩
    rw [if_neg h]; rfl

/-- The state after the inner loop of `_OrientVerticesInBicomp` has visited the arcs `l`,
for any value of `PreserveSigns`. -/
theorem orientArcsP_spec (P flag : Int) :
    ∀ (l : List Int) (g : graph), l.Nodup →
      arenaRest (l.foldl (orientArcP P flag) g) = arenaRest g ∧
      (l.foldl (orientArcP P flag) g).extFace = g.extFace ∧
      (∀ x, ((l.foldl (orientArcP P flag) g).G x).link = (g.G x).link ∧
        ((l.foldl (orientArcP P flag) g).G x).type = (g.G x).type ∧
        ((l.foldl (orientArcP P flag) g).G x).v = (g.G x).v ∧
        ((l.foldl (orientArcP P flag) g).G x).visited = (g.G x).visited) ∧
      (∀ x, x ∉ l → (l.foldl (orientArcP P flag) g).G x = g.G x) ∧
      (P ≠ 0 → (l.foldl (orientArcP P flag) g).G = g.G) ∧
      (l.foldl (orientArcP P flag) g).theStack = pushedBy g flag l ++ g.theStack := by
  intro l
  induction l with
  | nil =>
    intro g _
    exact ⟨rfl, rfl, fun _ => ⟨rfl, rfl, rfl, rfl⟩, fun _ _ => rfl, fun _ => rfl, rfl⟩
  | cons J t ih =>
    intro g hn
    rw [List.nodup_cons] at hn
    simp only [List.foldl_cons]
    obtain ⟨a1, a2, a3, a4, a5, a8⟩ := ih (orientArcP P flag g J) hn.2
    obtain ⟨b1, b2, b3, b4, b5, b8⟩ := orientArcP_frame P flag g J
    refine ⟨a1.trans b1, a2.trans b2, fun x => ?_, ?_, fun hP => (a5 hP).trans (b5 hP), ?_⟩
    · obtain ⟨c1, c2, c3, c4⟩ := a3 x
      obtain ⟨d1, d2, d3, d4⟩ := b3 x
      exact ⟨c1.trans d1, c2.trans d2, c3.trans d3, c4.trans d4⟩
    · intro x hx
      rw [List.mem_cons, not_or] at hx
      rw [a4 x hx.2, b4 x hx.1]
    · rw [a8, b8, pushedBy_congr g (orientArcP P flag g J) flag t]
      · simp only [pushedBy, List.append_assoc]
      · intro x hx
        exact b4 x (fun e => hn.1 (e ▸ hx))

theorem pushDFSChildrenP_succ (fuel : Nat) (g : graph) (J flag P : Int) :
    pushDFSChildren (fuel + 1) g J flag P =
      if J ≥ g.edgeOffset then
        pushDFSChildren fuel (orientArcP P flag g J) (((orientArcP P flag g J).G J).link 0)
          flag P
      else some g := by
  rw [pushDFSChildren]
  rfl

theorem pushDFSChildrenP_chain (flag P V : Int) :
    ∀ (l : List Int) (g : graph) (k : Nat),
      List.Chain' (fun x y => (g.G x).link 0 = y) (l ++ [V]) →
      (∀ x ∈ l, g.edgeOffset ≤ x) → V < g.edgeOffset →
      pushDFSChildren (l.length + 1 + k) g ((l ++ [V]).headD V) flag P =
        some (l.foldl (orientArcP P flag) g) := by
  intro l
  induction l with
  | nil =>
    intro g k _ _ hV
    simp only [List.length_nil, List.nil_append, List.headD_cons, List.foldl_nil]
    rw [show 0 + 1 + k = k + 1 by omega, pushDFSChildrenP_succ, if_neg (by omega)]
  | cons J l ih =>
    intro g k hch hge hV
    simp only [List.length_cons, List.cons_append, List.headD_cons, List.foldl_cons]
    rw [show l.length + 1 + 1 + k = (l.length + 1 + k) + 1 by omega, pushDFSChildrenP_succ,
      if_pos (by have := hge J (List.mem_cons_self _ _); omega)]
    obtain ⟨b1, -, b3, -⟩ := orientArcP_frame P flag g J
    have b2 : (orientArcP P flag g J).edgeOffset = g.edgeOffset :=
      congrArg (fun q => q.2.2.2.1) b1
    have hnext : (g.G J).link 0 = (l ++ [V]).headD V := by
      cases l with
      | nil =>
        simp only [List.nil_append, List.headD_cons]
        simp only [List.cons_append, List.nil_append, List.chain'_cons, List.chain'_singleton,
          and_true] at hch
        exact hch
      | cons y t =>
        simp only [List.cons_append, List.headD_cons]
        simp only [List.cons_append, List.chain'_cons] at hch
        exact hch.1
    rw [(b3 J).1, hnext]
    refine ih (orientArcP P flag g J) k ?_ ?_ (by rw [b2]; exact hV)
    · have h2 : List.Chain' (fun x y => (g.G x).link 0 = y) (l ++ [V]) := by
        simp only [List.cons_append] at hch
        exact List.Chain'.tail hch
      refine List.Chain'.imp ?_ h2
      intro x y hxy
      rw [(b3 x).1]; exact hxy
    · intro x hx
      rw [b2]
      exact hge x (List.mem_cons_of_mem _ hx)

theorem orientLoopP_pop (fuel n : Nat) (s : graph) (flag U P : Int) (rest : List Int) :
    orientLoop fuel (n + 1) { s with theStack := flag :: U :: rest } P =
      ((if flag ≠ 0 then _InvertVertex fuel { s with theStack := rest } U
        else some { s with theStack := rest }).bind fun g =>
          pushDFSChildren fuel g ((g.G U).link 0) flag P).bind fun g =>
            orientLoop fuel n g P := by
  rw [orientLoop]
  rfl

theorem orientVisits_pop (fuel n : Nat) (s : graph) (flag U P : Int) (rest : List Int) :
    orientVisits fuel (n + 1) { s with theStack := flag :: U :: rest } P =
      ((if flag ≠ 0 then _InvertVertex fuel { s with theStack := rest } U
        else some { s with theStack := rest }).bind fun g =>
          pushDFSChildren fuel g ((g.G U).link 0) flag P).bind fun g =>
            (orientVisits fuel n g P).map fun r => (U, flag) :: r := by
  rw [orientVisits]
  rfl

theorem orientLoopP_empty (fuel n : Nat) (s : graph) (P : Int) (h : s.theStack = []) :
    orientLoop fuel (n + 1) s P = some s ∧ orientVisits fuel (n + 1) s P = some [] := by
  rw [orientLoop, orientVisits]
  simp [sp_NonEmpty, h]

theorem arenaRest_edgeOffset {s s1 : graph} (h : arenaRest s1 = arenaRest s) :
    s1.edgeOffset = s.edgeOffset ∧ s1.N = s.N :=
  ⟨congrArg (fun q => q.2.2.2.1) h, congrArg (fun q => q.2.2.1) h⟩

theorem flipped_stack (P : Int) (s : graph) (st : List Int) :
    Flipped P [] [] [] s { s with theStack := st } :=
  ⟨rfl, fun _ => ⟨rfl, rfl, rfl⟩, fun _ => by simp, fun _ _ => rfl, fun _ => ⟨rfl, by simp⟩⟩

theorem flipped_trans {P : Int} {F1 V1 C1 F2 V2 C2 : List Int} {s s1 s2 : graph}
    (h1 : Flipped P F1 V1 C1 s s1) (h2 : Flipped P F2 V2 C2 s1 s2)
    (hF : ∀ x ∈ F1, x ∉ F2) (hV : ∀ x ∈ V1, x ∉ V2) :
    Flipped P (F1 ++ F2) (V1 ++ V2) (C1 ++ C2) s s2 := by
  obtain ⟨a1, a2, a3, a4, a5⟩ := h1
  obtain ⟨b1, b2, b3, b4, b5⟩ := h2
  refine ⟨b1.trans a1, fun x => ?_, fun x => ?_, fun x hx => ?_, fun x => ⟨?_, ?_⟩⟩
  · obtain ⟨c1, c2, c3⟩ := a2 x
    obtain ⟨d1, d2, d3⟩ := b2 x
    exact ⟨d1.trans c1, d2.trans c2, d3.trans c3⟩
  · rw [b3, a3]
    by_cases x1 : x ∈ F1
    · have x2 : x ∉ F2 := hF x x1
      simp only [x1, x2, List.mem_append, true_or, if_true, if_false]
    · by_cases x2 : x ∈ F2
      · simp only [x1, x2, List.mem_append, or_true, if_true, if_false]
      · simp only [x1, x2, List.mem_append, or_self, if_false]
  · have hx1 : P ≠ 0 ∨ x ∉ C1 := by
      rcases hx with h | h
      · exact Or.inl h
      · exact Or.inr (fun hm => h (List.mem_append_left _ hm))
    have hx2 : P ≠ 0 ∨ x ∉ C2 := by
      rcases hx with h | h
      · exact Or.inl h
      · exact Or.inr (fun hm => h (List.mem_append_right _ hm))
    rw [b4 x hx2, a4 x hx1]
  · rw [(b5 x).1, (a5 x).1]
  · rw [(b5 x).2, (a5 x).2]
    by_cases x1 : x ∈ V1
    · have x2 : x ∉ V2 := hV x x1
      simp only [x1, x2, List.mem_append, true_or, if_true, if_false]
    · by_cases x2 : x ∈ V2
      · simp only [x1, x2, List.mem_append, or_true, if_true, if_false]
      · simp only [x1, x2, List.mem_append, or_self, if_false]

theorem flipped_congr {P : Int} {F V C F1 V1 C1 : List Int} {s s1 : graph}
    (h : Flipped P F V C s s1) (hF : ∀ x, x ∈ F ↔ x ∈ F1) (hV : ∀ x, x ∈ V ↔ x ∈ V1)
    (hC : ∀ x, x ∈ C → x ∈ C1) : Flipped P F1 V1 C1 s s1 := by
  obtain ⟨a1, a2, a3, a4, a5⟩ := h
  refine ⟨a1, a2, fun x => ?_, fun x hx => ?_, fun x => ⟨(a5 x).1, ?_⟩⟩
  · rw [a3]
    by_cases h1 : x ∈ F
    · rw [if_pos h1, if_pos ((hF x).1 h1)]
    · rw [if_neg h1, if_neg (fun h2 => h1 ((hF x).2 h2))]
  · apply a4
    rcases hx with h1 | h1
    · exact Or.inl h1
    · exact Or.inr (fun h2 => h1 (hC x h2))
  · rw [(a5 x).2]
    by_cases h1 : x ∈ V
    · rw [if_pos h1, if_pos ((hV x).1 h1)]
    · rw [if_neg h1, if_neg (fun h2 => h1 ((hV x).2 h2))]

theorem flipped_invert (P : Int) (s : graph) (U : Int) (l : List Int) :
    Flipped P (U :: l) [U] [] s (invertedState s U l) := by
  refine ⟨rfl, fun x => ?_, fun x => ?_, fun x _ => ?_, fun x => ⟨?_, ?_⟩⟩
  · simp only [invertedState]
    split_ifs <;> exact ⟨rfl, rfl, rfl⟩
  · simp only [invertedState]
    split_ifs <;> rfl
  · simp only [invertedState]
    split_ifs <;> rfl
  · simp only [invertedState, upd]
    split_ifs with h
    · rw [h]
    · rfl
  · simp only [invertedState, upd, List.mem_singleton]
    split_ifs with h
    · rw [h]
    · rfl

theorem ring_swapped {s s1 : graph} {W : Int} {l : List Int} (h : Ring s 0 W l)
    (he : s1.edgeOffset = s.edgeOffset)
    (hsw : ∀ x ∈ W :: l, (s1.G x).link = swapPair (s.G x).link) :
    Ring s1 0 W l.reverse := by
  have hR1 : Ring s 1 W l.reverse := by
    have := Ring_reverse (Or.inl rfl) h
    rwa [xor_one_zero] at this
  obtain ⟨c1, n1, o1, ge1⟩ := hR1
  refine ⟨?_, n1, he ▸ o1, fun x hx => he ▸ ge1 x hx⟩
  have c2 : List.Chain' (Linked s 1) (W :: l.reverse ++ [W]) := c1
  rw [List.Chain'.iff_mem] at c2 ⊢
  refine List.Chain'.imp ?_ c2
  rintro x y ⟨hx, hy, hxy⟩
  have hx2 : x ∈ W :: l := by
    simp only [List.cons_append, List.mem_cons, List.mem_append, List.mem_singleton,
      List.mem_reverse] at hx ⊢
    tauto
  have hy2 : y ∈ W :: l := by
    simp only [List.cons_append, List.mem_cons, List.mem_append, List.mem_singleton,
      List.mem_reverse] at hy ⊢
    tauto
  refine ⟨hx, hy, ?_⟩
  unfold Linked at hxy ⊢
  rw [xor_one_one] at hxy
  rw [xor_one_zero, hsw x hx2, hsw y hy2, swapPair_zero, swapPair_one]
  exact hxy

theorem ring_of_flipped {P : Int} {F V C : List Int} {s s1 : graph} (h : Flipped P F V C s s1)
    {W : Int} {l : List Int} (hr : Ring s 0 W l) :
    ((∀ x ∈ W :: l, x ∈ F) → Ring s1 0 W l.reverse) ∧
    ((∀ x ∈ W :: l, x ∉ F) → Ring s1 0 W l) := by
  have he := (arenaRest_edgeOffset h.1).1
  refine ⟨fun hin => ring_swapped hr he ?_, fun hout => Ring_frame hr he ?_⟩
  · intro x hx
    rw [h.2.2.1, if_pos (hin x hx)]
  · intro x hx
    rw [h.2.2.1, if_neg (hout x hx)]

theorem fresh_of_flipped {g : graph} {rl : Int → List Int} {P : Int} {F V C : List Int}
    {s s1 : graph} (h : Flipped P F V C s s1) {W : Int} (hf : Fresh g rl s W)
    (hF : ∀ x ∈ W :: rl W, x ∉ F) (hC : ∀ x ∈ rl W, x ∉ C) : Fresh g rl s1 W := by
  obtain ⟨h1, h2⟩ := hf
  refine ⟨?_, ?_⟩
  · rcases h1 with r | r
    · exact Or.inl ((ring_of_flipped h r).2 hF)
    · exact Or.inr ((ring_of_flipped h r).2 (fun x hx => hF x (by simpa using hx)))
  · intro J hJ
    rw [h.2.2.2.1 J (Or.inr (hC J hJ))]
    exact h2 J hJ

theorem sameShape_of_flipped {g : graph} {P : Int} {F V C : List Int} {s s1 : graph}
    (h : Flipped P F V C s s1) (hs : SameShape g s) : SameShape g s1 := by
  obtain ⟨e1, e2⟩ := arenaRest_edgeOffset h.1
  refine ⟨e2.trans hs.1, e1.trans hs.2.1, fun x => ?_⟩
  rw [(h.2.1 x).1, (h.2.1 x).2.1]
  exact ⟨(hs.2.2 x).1, (hs.2.2 x).2⟩

theorem desc_reach {g : graph} {rl : Int → List Int} {U W : Int} (h : Desc g rl U W) :
    Reach g rl U → Reach g rl W := by
  induction h with
  | refl U => exact id
  | step U J W hJ hc _ ih => exact fun hU => ih (Reach.child U J hU hJ hc)

theorem desc_wt {fuel : Nat} {g : graph} {rl : Int → List Int} {wt : Int → Nat}
    (hg : OrientReady fuel g rl wt) {U W : Int} (h : Desc g rl U W) :
    Reach g rl U → W = U ∨ wt W < wt U := by
  induction h with
  | refl U => exact fun _ => Or.inl rfl
  | step U J W hJ hc _ ih =>
    intro hU
    have hc1 := Reach.child U J hU hJ hc
    have h1 := childWeight_mem g wt (rl U) J hJ hc
    have h2 := (hg.2.2.1 U hU).2.2.2
    rcases ih hc1 with e | e
    · right; rw [e]; omega
    · right; omega

theorem desc_last {g : graph} {rl : Int → List Int} {U W : Int} (h : Desc g rl U W) :
    W = U ∨ ∃ X K, Desc g rl U X ∧ K ∈ rl X ∧ (g.G K).type = EDGE_DFSCHILD ∧
      (g.G K).v = W := by
  induction h with
  | refl U => exact Or.inl rfl
  | step U J W hJ hc hd ih =>
    right
    rcases ih with e | ⟨X, K, h1, h2, h3, h4⟩
    · exact ⟨U, J, Desc.refl _, hJ, hc, e.symm⟩
    · exact ⟨X, K, Desc.step U J X hJ hc h1, h2, h3, h4⟩

theorem parent_unique {fuel : Nat} {g : graph} {rl : Int → List Int} {wt : Int → Nat}
    (hg : OrientReady fuel g rl wt) (ha : ChildrenApart g rl) {X Y J K : Int}
    (hX : Reach g rl X) (hY : Reach g rl Y) (hJ : J ∈ rl X) (hK : K ∈ rl Y)
    (hcJ : (g.G J).type = EDGE_DFSCHILD) (hcK : (g.G K).type = EDGE_DFSCHILD)
    (e : (g.G J).v = (g.G K).v) : X = Y := by
  have e2 := ha X Y hX hY J hJ K hK hcJ hcK e
  by_contra hne
  exact hg.2.2.2 X Y hX hY hne J hJ (e2 ▸ hK)

theorem desc_apart {fuel : Nat} {g : graph} {rl : Int → List Int} {wt : Int → Nat}
    (hg : OrientReady fuel g rl wt) (ha : ChildrenApart g rl) {c1 c2 : Int}
    (h1 : Reach g rl c1) (h2 : Reach g rl c2) (hno1 : ¬ Desc g rl c1 c2)
    (hno2 : ¬ Desc g rl c2 c1) :
    ∀ (m : Nat) (W : Int), fuel ≤ wt W + m → Desc g rl c1 W → Desc g rl c2 W → False := by
  intro m
  induction m with
  | zero =>
    intro W hm d1 _
    have := (hg.2.2.1 W (desc_reach d1 h1)).2.2.1
    omega
  | succ m ih =>
    intro W hm d1 d2
    rcases desc_last d1 with e | ⟨X, K, a1, a2, a3, a4⟩
    · exact hno2 (e ▸ d2)
    rcases desc_last d2 with e | ⟨Y, L, b1, b2, b3, b4⟩
    · exact hno1 (e ▸ d1)
    have hX := desc_reach a1 h1
    have hY := desc_reach b1 h2
    have hXY : X = Y := parent_unique hg ha hX hY a2 b2 a3 b3 (a4.trans b4.symm)
    subst hXY
    have w1 := childWeight_mem g wt (rl X) K a2 a3
    have w2 := (hg.2.2.1 X hX).2.2.2
    rw [a4] at w1
    exact ih X (by omega) a1 b1

theorem child_not_up {fuel : Nat} {g : graph} {rl : Int → List Int} {wt : Int → Nat}
    (hg : OrientReady fuel g rl wt) {U J : Int} (hU : Reach g rl U) (hJ : J ∈ rl U)
    (hc : (g.G J).type = EDGE_DFSCHILD) : ¬ Desc g rl (g.G J).v U := by
  intro hd
  have w1 := childWeight_mem g wt (rl U) J hJ hc
  have w2 := (hg.2.2.1 U hU).2.2.2
  rcases desc_wt hg hd (Reach.child U J hU hJ hc) with e | e
  · rw [← e] at w1; omega
  · omega

theorem sibling_not_desc {fuel : Nat} {g : graph} {rl : Int → List Int} {wt : Int → Nat}
    (hg : OrientReady fuel g rl wt) (ha : ChildrenApart g rl) {U J K : Int}
    (hU : Reach g rl U) (hJ : J ∈ rl U) (hK : K ∈ rl U)
    (hcJ : (g.G J).type = EDGE_DFSCHILD) (hcK : (g.G K).type = EDGE_DFSCHILD)
    (hne : (g.G J).v ≠ (g.G K).v) : ¬ Desc g rl (g.G J).v (g.G K).v := by
  intro hd
  rcases desc_last hd with e | ⟨X, L, a1, a2, a3, a4⟩
  · exact hne e.symm
  have hX := desc_reach a1 (Reach.child U J hU hJ hcJ)
  have hXU : X = U := parent_unique hg ha hX hU a2 hK a3 hcK a4
  subst hXU
  exact child_not_up hg hX hJ hcJ a1

theorem sibling_apart {fuel : Nat} {g : graph} {rl : Int → List Int} {wt : Int → Nat}
    (hg : OrientReady fuel g rl wt) (ha : ChildrenApart g rl) {U J K : Int}
    (hU : Reach g rl U) (hJ : J ∈ rl U) (hK : K ∈ rl U)
    (hcJ : (g.G J).type = EDGE_DFSCHILD) (hcK : (g.G K).type = EDGE_DFSCHILD)
    (hne : (g.G J).v ≠ (g.G K).v) (W : Int) :
    Desc g rl (g.G J).v W → Desc g rl (g.G K).v W → False :=
  desc_apart hg ha (Reach.child U J hU hJ hcJ) (Reach.child U K hU hK hcK)
    (sibling_not_desc hg ha hU hJ hK hcJ hcK hne)
    (sibling_not_desc hg ha hU hK hJ hcK hcJ (Ne.symm hne)) fuel W (by omega)

theorem pathFlag_desc {g : graph} {rl : Int → List Int} {U f W f1 : Int}
    (h : PathFlag g rl U f W f1) : Desc g rl U W := by
  induction h with
  | refl U f => exact Desc.refl _
  | step U f J W f1 hJ hc _ ih => exact Desc.step U J W hJ hc ih

theorem desc_pathFlag {g : graph} {rl : Int → List Int} {U W : Int} (h : Desc g rl U W) :
    ∀ f, ∃ f1, PathFlag g rl U f W f1 := by
  induction h with
  | refl U => exact fun f => ⟨f, PathFlag.refl U f⟩
  | step U J W hJ hc _ ih =>
    intro f
    obtain ⟨f1, h1⟩ := ih (Int.xor f (if (g.G J).inverted then 1 else 0))
    exact ⟨f1, PathFlag.step U f J W f1 hJ hc h1⟩

theorem pathFlag_cases {g : graph} {rl : Int → List Int} {U f W f1 : Int} :
    PathFlag g rl U f W f1 ↔ (W = U ∧ f1 = f) ∨
      ∃ J ∈ rl U, (g.G J).type = EDGE_DFSCHILD ∧
        PathFlag g rl (g.G J).v (Int.xor f (if (g.G J).inverted then 1 else 0)) W f1 := by
  constructor
  · intro h
    cases h with
    | refl => exact Or.inl ⟨rfl, rfl⟩
    | step _ _ J _ _ hJ hc hp => exact Or.inr ⟨J, hJ, hc, hp⟩
  · rintro (⟨rfl, rfl⟩ | ⟨J, hJ, hc, hp⟩)
    · exact PathFlag.refl _ _
    · exact PathFlag.step U f J W f1 hJ hc hp

theorem xor_bit {a b : Int} (ha : a = 0 ∨ a = 1) (hb : b = 0 ∨ b = 1) :
    Int.xor a b = 0 ∨ Int.xor a b = 1 := by
  rcases ha with rfl | rfl <;> rcases hb with rfl | rfl <;> decide

theorem pathFlag_bit {g : graph} {rl : Int → List Int} {U f W f1 : Int}
    (h : PathFlag g rl U f W f1) : (f = 0 ∨ f = 1) → (f1 = 0 ∨ f1 = 1) := by
  induction h with
  | refl U f => exact id
  | step U f J W f1 hJ hc _ ih =>
    intro hf
    apply ih
    apply xor_bit hf
    by_cases hi : (g.G J).inverted = true
    · rw [if_pos hi]; exact Or.inr rfl
    · rw [if_neg hi]; exact Or.inl rfl

theorem mem_childPairs_iff (g : graph) (flag : Int) :
    ∀ (l : List Int) (p : Int × Int), p ∈ childPairs g flag l ↔
      ∃ J ∈ l, (g.G J).type = EDGE_DFSCHILD ∧
        p = ((g.G J).v, Int.xor flag (if (g.G J).inverted then 1 else 0)) := by
  intro l
  induction l with
  | nil => intro p; simp [childPairs]
  | cons J t ih =>
    intro p
    simp only [childPairs, List.mem_append, ih, List.mem_cons, exists_eq_or_imp]
    by_cases hc : (g.G J).type = EDGE_DFSCHILD
    · rw [if_pos hc, List.mem_singleton]
      constructor
      · rintro (h | h)
        · exact Or.inr h
        · exact Or.inl ⟨hc, h⟩
      · rintro (h | h)
        · exact Or.inr h.2
        · exact Or.inl h
    · rw [if_neg hc]
      constructor
      · rintro (h | h)
        · exact Or.inr h
        · simp at h
      · rintro (h | h)
        · exact absurd h.1 hc
        · exact Or.inl h

theorem childPairs_nodup (g : graph) (flag : Int) :
    ∀ l : List Int, l.Nodup →
      (∀ J ∈ l, ∀ K ∈ l, (g.G J).type = EDGE_DFSCHILD → (g.G K).type = EDGE_DFSCHILD →
        (g.G J).v = (g.G K).v → J = K) →
      ((childPairs g flag l).map Prod.fst).Nodup := by
  intro l
  induction l with
  | nil => intro _ _; simp [childPairs]
  | cons J t ih =>
    intro hn hinj
    rw [List.nodup_cons] at hn
    simp only [childPairs, List.map_append]
    rw [List.nodup_append]
    refine ⟨ih hn.2 (fun a ha b hb => hinj a (List.mem_cons_of_mem _ ha) b
      (List.mem_cons_of_mem _ hb)), ?_, ?_⟩
    · split_ifs <;> simp
    · intro a ha hb
      rw [List.mem_map] at ha
      obtain ⟨p, hp, rfl⟩ := ha
      obtain ⟨K, hK, hcK, e⟩ := mem_childPairs g flag t p hp
      by_cases hc : (g.G J).type = EDGE_DFSCHILD
      · rw [if_pos hc] at hb
        simp only [List.map_cons, List.map_nil, List.mem_singleton] at hb
        have := hinj K (List.mem_cons_of_mem _ hK) J (List.mem_cons_self _ _) hcK hc
          (e.symm.trans hb)
        exact hn.1 (this ▸ hK)
      · rw [if_neg hc] at hb
        simp at hb

theorem mem_flips {rl : Int → List Int} {ws : List (Int × Int)} {x : Int} :
    x ∈ flips rl ws ↔ ∃ p ∈ ws, p.2 ≠ 0 ∧ x ∈ p.1 :: rl p.1 := by
  unfold flips
  rw [List.mem_flatMap]
  constructor
  · rintro ⟨p, hp, hx⟩
    by_cases h : p.2 ≠ 0
    · rw [if_pos h] at hx
      exact ⟨p, hp, h, hx⟩
    · rw [if_neg h] at hx
      simp at hx
  · rintro ⟨p, hp, h, hx⟩
    exact ⟨p, hp, by rw [if_pos h]; exact hx⟩

theorem mem_flipVerts {ws : List (Int × Int)} {x : Int} :
    x ∈ flipVerts ws ↔ ∃ p ∈ ws, p.2 ≠ 0 ∧ x = p.1 := by
  unfold flipVerts
  rw [List.mem_flatMap]
  constructor
  · rintro ⟨p, hp, hx⟩
    by_cases h : p.2 ≠ 0
    · rw [if_pos h, List.mem_singleton] at hx
      exact ⟨p, hp, h, hx⟩
    · rw [if_neg h] at hx
      simp at hx
  · rintro ⟨p, hp, h, hx⟩
    exact ⟨p, hp, by rw [if_pos h, List.mem_singleton]; exact hx⟩

theorem mem_arcsOf {rl : Int → List Int} {ws : List (Int × Int)} {x : Int} :
    x ∈ arcsOf rl ws ↔ ∃ p ∈ ws, x ∈ rl p.1 := by
  unfold arcsOf
  rw [List.mem_flatMap]

theorem flipped_arcs (P flag : Int) (l : List Int) (g : graph) (hn : l.Nodup) :
    Flipped P [] [] l g (l.foldl (orientArcP P flag) g) := by
  obtain ⟨a1, a2, a3, a4, a5, -⟩ := orientArcsP_spec P flag l g hn
  refine ⟨a1, fun x => ⟨(a3 x).2.2.1, (a3 x).2.1, (a3 x).2.2.2⟩, fun x => ?_, fun x hx => ?_,
    fun x => ?_⟩
  · rw [(a3 x).1]; simp
  · rcases hx with h | h
    · rw [a5 h]
    · rw [a4 x h]
  · rw [a2]; simp

/-- One pass of the `while` loop of `_OrientVerticesInBicomp`, for any `PreserveSigns`, that
pops a vertex `U` not visited before: the vertex is inverted if the flag popped is not `0`,
and the loop continues from a state whose stack holds one pair for every child arc of
`U`. -/
theorem orientVisitP {fuel : Nat} {g : graph} {rl : Int → List Int} {wt : Int → Nat}
    (hg : OrientReady fuel g rl wt) (ha : ChildrenApart g rl) (P : Int) {U : Int}
    (hU : Reach g rl U) {s : graph} (hs : SameShape g s) (hf : Fresh g rl s U)
    (flag : Int) (rest : List Int) :
    ∃ (ps : List (Int × Int)) (s2 : graph),
      (∀ n, orientLoop fuel (n + 1) { s with theStack := flag :: U :: rest } P =
        orientLoop fuel n s2 P) ∧
      (∀ n, orientVisits fuel (n + 1) { s with theStack := flag :: U :: rest } P =
        (orientVisits fuel n s2 P).map fun r => (U, flag) :: r) ∧
      s2.theStack = stackOf ps ++ rest ∧
      Flipped P (flips rl [(U, flag)]) (flipVerts [(U, flag)]) (arcsOf rl [(U, flag)]) s s2 ∧
      (∀ p, p ∈ ps ↔ ChildPair g rl U flag p) ∧ (ps.map Prod.fst).Nodup ∧
      (ps.map fun p => wt p.1).sum = childWeight g wt (rl U) := by
  obtain ⟨-, hglen, -, -⟩ := hg.2.2.1 U hU
  have h0 : ∃ l0, Ring { s with theStack := rest } 0 U l0 ∧
      (l0 = rl U ∨ l0 = (rl U).reverse) := by
    rcases hf.1 with h | h
    · exact ⟨_, Ring_frame h rfl (fun _ _ => rfl), Or.inl rfl⟩
    · exact ⟨_, Ring_frame h rfl (fun _ _ => rfl), Or.inr rfl⟩
  obtain ⟨l0, hl0, hl0e⟩ := h0
  have hmem0 : ∀ x, x ∈ l0 ↔ x ∈ rl U := by
    intro x
    rcases hl0e with rfl | rfl <;> simp
  have hlen0 : l0.length < fuel := by
    rcases hl0e with rfl | rfl
    · exact hglen
    · simpa using hglen
  have hA : ∃ (l : List Int) (s1 : graph),
      (if flag ≠ 0 then _InvertVertex fuel { s with theStack := rest } U
        else some { s with theStack := rest }) = some s1 ∧
      Ring s1 0 U l ∧ (l = rl U ∨ l = (rl U).reverse) ∧ s1.theStack = rest ∧
      Flipped P (flips rl [(U, flag)]) (flipVerts [(U, flag)]) [] s s1 := by
    by_cases hfl : flag ≠ 0
    · have e1 := invertVertex_eq fuel { s with theStack := rest } U l0 hl0 hlen0
      have f1 : Flipped P (U :: l0) [U] [] s (invertedState { s with theStack := rest } U l0) :=
        flipped_invert P { s with theStack := rest } U l0
      refine ⟨l0.reverse, _, ?_, (ring_of_flipped f1 hl0).1 (fun x hx => hx), ?_, rfl, ?_⟩
      · rw [if_pos hfl, e1]
      · rcases hl0e with rfl | rfl
        · exact Or.inr rfl
        · exact Or.inl (List.reverse_reverse _)
      · refine flipped_congr f1 (fun x => ?_) (fun x => ?_) (fun x hx => hx)
        · rw [mem_flips]
          constructor
          · intro h
            refine ⟨(U, flag), List.mem_singleton_self _, hfl, ?_⟩
            rcases List.mem_cons.1 h with h | h
            · exact List.mem_cons.2 (Or.inl h)
            · exact List.mem_cons.2 (Or.inr ((hmem0 x).1 h))
          · rintro ⟨p, hp, -, hx⟩
            rw [List.mem_singleton] at hp
            subst hp
            rcases List.mem_cons.1 hx with h | h
            · exact List.mem_cons.2 (Or.inl h)
            · exact List.mem_cons.2 (Or.inr ((hmem0 x).2 h))
        · rw [mem_flipVerts]
          simp only [List.mem_singleton, exists_eq_left]
          exact ⟨fun h => ⟨hfl, h⟩, fun h => h.2⟩
    · refine ⟨l0, _, if_neg hfl, hl0, hl0e, rfl, ?_⟩
      refine flipped_congr (flipped_stack P s rest) (fun x => ?_) (fun x => ?_) (fun x hx => hx)
      · rw [mem_flips]
        simp only [List.mem_singleton, exists_eq_left]
        exact ⟨fun h => absurd h (List.not_mem_nil _), fun h => absurd h.1 hfl⟩
      · rw [mem_flipVerts]
        simp only [List.mem_singleton, exists_eq_left]
        exact ⟨fun h => absurd h (List.not_mem_nil _), fun h => absurd h.1 hfl⟩
  obtain ⟨l, s1, e1, r1, hl, t1, f1⟩ := hA
  have hmem : ∀ x, x ∈ l ↔ x ∈ rl U := by
    intro x
    rcases hl with rfl | rfl <;> simp
  have hlen : l.length < fuel := by
    rcases hl with rfl | rfl
    · exact hglen
    · simpa using hglen
  have hln : l.Nodup := (List.nodup_cons.1 r1.2.1).2
  have hB : pushDFSChildren fuel s1 ((s1.G U).link 0) flag P =
      some (l.foldl (orientArcP P flag) s1) := by
    have hch : List.Chain' (fun x y => (s1.G x).link 0 = y) (l ++ [U]) :=
      List.Chain'.imp (fun a b h => h.1) r1.1.tail
    have := pushDFSChildrenP_chain flag P U l s1 (fuel - (l.length + 1)) hch r1.2.2.2 r1.2.2.1
    rw [Ring_first r1]
    have e : l.length + 1 + (fuel - (l.length + 1)) = fuel := by omega
    rw [e] at this
    exact this
  have f2 := flipped_arcs P flag l s1 hln
  have hty : ∀ x, (s1.G x).type = (g.G x).type ∧ (s1.G x).v = (g.G x).v := by
    intro x
    rw [(f1.2.1 x).1, (f1.2.1 x).2.1]
    exact hs.2.2 x
  have hinv : ∀ J ∈ l, (s1.G J).inverted = (g.G J).inverted := by
    intro J hJ
    rw [f1.2.2.2.1 J (Or.inr (List.not_mem_nil _))]
    exact hf.2 J ((hmem J).1 hJ)
  refine ⟨childPairs s1 flag l, l.foldl (orientArcP P flag) s1, ?_, ?_, ?_, ?_, ?_, ?_, ?_⟩
  · intro n
    rw [orientLoopP_pop, e1, Option.some_bind, hB, Option.some_bind]
  · intro n
    rw [orientVisits_pop, e1, Option.some_bind, hB, Option.some_bind]
  · rw [(orientArcsP_spec P flag l s1 hln).2.2.2.2.2, pushedBy_eq, t1]
  · refine flipped_congr (flipped_trans f1 f2 (fun x _ => List.not_mem_nil _)
      (fun x _ => List.not_mem_nil _)) (fun x => by simp) (fun x => by simp) (fun x hx => ?_)
    rw [mem_arcsOf]
    simp only [List.nil_append] at hx
    exact ⟨(U, flag), List.mem_singleton_self _, (hmem x).1 hx⟩
  · intro p
    rw [mem_childPairs_iff]
    constructor
    · rintro ⟨J, hJ, hc, e⟩
      refine ⟨J, (hmem J).1 hJ, by rw [← (hty J).1]; exact hc, ?_⟩
      rw [e, (hty J).2, hinv J hJ]
    · rintro ⟨J, hJ, hc, e⟩
      refine ⟨J, (hmem J).2 hJ, by rw [(hty J).1]; exact hc, ?_⟩
      rw [e, (hty J).2, hinv J ((hmem J).2 hJ)]
  · apply childPairs_nodup s1 flag l hln
    intro J hJ K hK hcJ hcK e
    rw [(hty J).1] at hcJ
    rw [(hty K).1] at hcK
    rw [(hty J).2, (hty K).2] at e
    exact ha U U hU hU J ((hmem J).1 hJ) K ((hmem K).1 hK) hcJ hcK e
  · rw [childPairs_weight, childWeight_congr g s1 wt hty]
    rcases hl with rfl | rfl
    · rfl
    · exact childWeight_reverse g wt _

theorem flips_append (rl : Int → List Int) (a b : List (Int × Int)) :
    flips rl (a ++ b) = flips rl a ++ flips rl b ∧
    flipVerts (a ++ b) = flipVerts a ++ flipVerts b ∧
    arcsOf rl (a ++ b) = arcsOf rl a ++ arcsOf rl b := by
  simp [flips, flipVerts, arcsOf]

theorem visits_apart {fuel : Nat} {g : graph} {rl : Int → List Int} {wt : Int → Nat}
    (hg : OrientReady fuel g rl wt) {ws1 ws2 : List (Int × Int)}
    (h1 : ∀ p ∈ ws1, Reach g rl p.1) (h2 : ∀ p ∈ ws2, Reach g rl p.1)
    (hne : ∀ p ∈ ws1, ∀ q ∈ ws2, p.1 ≠ q.1) :
    (∀ x ∈ flips rl ws1, x ∉ flips rl ws2) ∧ (∀ x ∈ flipVerts ws1, x ∉ flipVerts ws2) ∧
    (∀ q ∈ ws2, ∀ x ∈ q.1 :: rl q.1, x ∉ flips rl ws1) ∧
    (∀ q ∈ ws2, ∀ x ∈ rl q.1, x ∉ arcsOf rl ws1) := by
  refine ⟨?_, ?_, ?_, ?_⟩
  · intro x hx hx2
    obtain ⟨p, hp, -, a⟩ := mem_flips.1 hx
    obtain ⟨q, hq, -, b⟩ := mem_flips.1 hx2
    exact reach_apart hg (h2 q hq) (h1 p hp) (hne p hp q hq) x a b
  · intro x hx hx2
    obtain ⟨p, hp, -, a⟩ := mem_flipVerts.1 hx
    obtain ⟨q, hq, -, b⟩ := mem_flipVerts.1 hx2
    exact hne p hp q hq (a.symm.trans b)
  · intro q hq x hx hx2
    obtain ⟨p, hp, -, a⟩ := mem_flips.1 hx2
    exact reach_apart hg (h2 q hq) (h1 p hp) (hne p hp q hq) x a hx
  · intro q hq x hx hx2
    obtain ⟨p, hp, a⟩ := mem_arcsOf.1 hx2
    exact reach_apart hg (h2 q hq) (h1 p hp) (hne p hp q hq) x (List.mem_cons_of_mem _ a)
      (List.mem_cons_of_mem _ hx)

/-- The loop of `_OrientVerticesInBicomp`, for any `PreserveSigns`, works off the pair of a
vertex `U` together with the whole DFS subtree below it in at most `wt U` passes and
leaves the rest of the stack: it pops every vertex of the subtree once, with the flag of its
tree path, and exchanges the links of those popped with a non-zero flag. -/
theorem orientSubtreeP {fuel : Nat} {g : graph} {rl : Int → List Int} {wt : Int → Nat}
    (hg : OrientReady fuel g rl wt) (ha : ChildrenApart g rl) (P : Int) :
    ∀ (r : Nat) (U : Int), Reach g rl U → wt U < r → ∀ (s : graph), SameShape g s →
      (∀ W, Desc g rl U W → Fresh g rl s W) →
      ∀ (flag : Int) (rest : List Int), ∃ (n : Nat) (s1 : graph) (ws : List (Int × Int)),
        n ≤ wt U ∧
        (∀ m, orientLoop fuel (n + m) { s with theStack := flag :: U :: rest } P =
          orientLoop fuel m s1 P) ∧
        (∀ m, orientVisits fuel (n + m) { s with theStack := flag :: U :: rest } P =
          (orientVisits fuel m s1 P).map fun r => ws ++ r) ∧
        s1.theStack = rest ∧ (ws.map Prod.fst).Nodup ∧
        (∀ W f, (W, f) ∈ ws ↔ PathFlag g rl U flag W f) ∧
        Flipped P (flips rl ws) (flipVerts ws) (arcsOf rl ws) s s1 := by
  intro r
  induction r with
  | zero => intro U _ h; omega
  | succ r ih =>
    intro U hU hwt s hs hfr flag rest
    have L : ∀ (ps : List (Int × Int)), (∀ p ∈ ps, ChildPair g rl U flag p) →
        (ps.map Prod.fst).Nodup → ∀ (s : graph), SameShape g s →
        (∀ p ∈ ps, ∀ W, Desc g rl p.1 W → Fresh g rl s W) →
        ∃ (n : Nat) (s1 : graph) (ws : List (Int × Int)),
          n ≤ (ps.map fun p => wt p.1).sum ∧
          (∀ m, orientLoop fuel (n + m) { s with theStack := stackOf ps ++ rest } P =
            orientLoop fuel m s1 P) ∧
          (∀ m, orientVisits fuel (n + m) { s with theStack := stackOf ps ++ rest } P =
            (orientVisits fuel m s1 P).map fun r => ws ++ r) ∧
          s1.theStack = rest ∧ (ws.map Prod.fst).Nodup ∧
          (∀ W f, (W, f) ∈ ws ↔ ∃ p ∈ ps, PathFlag g rl p.1 p.2 W f) ∧
          Flipped P (flips rl ws) (flipVerts ws) (arcsOf rl ws) s s1 := by
      intro ps
      induction ps with
      | nil =>
        intro _ _ s _ _
        refine ⟨0, { s with theStack := rest }, [], Nat.le_refl _, ?_, ?_, rfl, List.nodup_nil,
          ?_, flipped_stack P s rest⟩
        · intro m
          rw [Nat.zero_add]
          rfl
        · intro m
          rw [Nat.zero_add]
          have e : (fun r : List (Int × Int) => [] ++ r) = id := by
            funext r
            rfl
          rw [e, Option.map_id]
          rfl
        · intro W f
          simp
      | cons p t iht =>
        intro hps hnd s hs hfr
        rw [List.map_cons, List.nodup_cons] at hnd
        obtain ⟨J, hJ, hc, e⟩ := hps p (List.mem_cons_self _ _)
        have ep : p.1 = (g.G J).v := by rw [e]
        have hp1 : Reach g rl p.1 := ep ▸ Reach.child U J hU hJ hc
        have hp2 : wt p.1 < r := by
          have h1 := childWeight_mem g wt (rl U) J hJ hc
          have h2 := (hg.2.2.1 U hU).2.2.2
          rw [ep]
          omega
        obtain ⟨n1, s1, ws1, b1, b2, b3, b4, b5, b6, b7⟩ :=
          ih p.1 hp1 hp2 s hs (hfr p (List.mem_cons_self _ _)) p.2 (stackOf t ++ rest)
        have hdisj : ∀ q ∈ t, ∀ W, Desc g rl q.1 W → ∀ p1 ∈ ws1, p1.1 ≠ W := by
          intro q hq W hW p1 hp1m hWe
          obtain ⟨K, hK, hcK, eq⟩ := hps q (List.mem_cons_of_mem _ hq)
          have eq1 : q.1 = (g.G K).v := by rw [eq]
          have hne : (g.G J).v ≠ (g.G K).v := by
            intro h
            apply hnd.1
            rw [ep, h, ← eq1]
            exact List.mem_map_of_mem _ hq
          have d1 : Desc g rl p.1 p1.1 := pathFlag_desc ((b6 p1.1 p1.2).1 hp1m)
          rw [ep, hWe] at d1
          rw [eq1] at hW
          exact sibling_apart hg ha hU hJ hK hc hcK hne W d1 hW
        have hr1 : ∀ p1 ∈ ws1, Reach g rl p1.1 := fun p1 h =>
          desc_reach (pathFlag_desc ((b6 p1.1 p1.2).1 h)) hp1
        have hfr1 : ∀ q ∈ t, ∀ W, Desc g rl q.1 W → Fresh g rl s1 W := by
          intro q hq W hW
          obtain ⟨K, hK, hcK, eq⟩ := hps q (List.mem_cons_of_mem _ hq)
          have eq1 : q.1 = (g.G K).v := by rw [eq]
          have hWr : Reach g rl W := desc_reach hW (eq1 ▸ Reach.child U K hU hK hcK)
          have hap := @visits_apart fuel g rl wt hg ws1 [(W, 0)] hr1
            (fun x hx => by rw [List.mem_singleton.1 hx]; exact hWr)
            (fun p1 h1 x hx => by
              rw [List.mem_singleton.1 hx]
              exact hdisj q hq W hW p1 h1)
          exact fresh_of_flipped b7 (hfr q (List.mem_cons_of_mem _ hq) W hW)
            (hap.2.2.1 (W, 0) (List.mem_singleton_self _))
            (hap.2.2.2 (W, 0) (List.mem_singleton_self _))
        obtain ⟨n2, s2, ws2, c1, c2, c3, c4, c5, c6, c7⟩ :=
          iht (fun q hq => hps q (List.mem_cons_of_mem _ hq)) hnd.2 s1
            (sameShape_of_flipped b7 hs) hfr1
        rw [graph_stack_eta s1 _ b4] at c2 c3
        have hr2 : ∀ p2 ∈ ws2, ∃ q ∈ t, Desc g rl q.1 p2.1 := by
          intro p2 h2
          obtain ⟨q, hq, hpf⟩ := (c6 p2.1 p2.2).1 h2
          exact ⟨q, hq, pathFlag_desc hpf⟩
        have hne12 : ∀ p1 ∈ ws1, ∀ p2 ∈ ws2, p1.1 ≠ p2.1 := by
          intro p1 h1 p2 h2
          obtain ⟨q, hq, hd⟩ := hr2 p2 h2
          exact hdisj q hq p2.1 hd p1 h1
        have hap := @visits_apart fuel g rl wt hg ws1 ws2 hr1
          (fun p2 h2 => by
            obtain ⟨q, hq, hd⟩ := hr2 p2 h2
            obtain ⟨K, hK, hcK, eq⟩ := hps q (List.mem_cons_of_mem _ hq)
            have eq1 : q.1 = (g.G K).v := by rw [eq]
            exact desc_reach hd (eq1 ▸ Reach.child U K hU hK hcK))
          hne12
        have estk : stackOf (p :: t) ++ rest = p.2 :: p.1 :: (stackOf t ++ rest) := by
          simp [stackOf]
        refine ⟨n1 + n2, s2, ws1 ++ ws2, ?_, ?_, ?_, c4, ?_, ?_, ?_⟩
        · simp only [List.map_cons, List.sum_cons]
          omega
        · intro m
          rw [estk, Nat.add_assoc, b2, c2]
        · intro m
          rw [estk, Nat.add_assoc, b3, c3, Option.map_map]
          congr 1
          funext x
          simp [List.append_assoc]
        · rw [List.map_append, List.nodup_append]
          refine ⟨b5, c5, ?_⟩
          intro a ha1 ha2
          obtain ⟨p1, h1, rfl⟩ := List.mem_map.1 ha1
          obtain ⟨p2, h2, e2⟩ := List.mem_map.1 ha2
          exact hne12 p1 h1 p2 h2 e2.symm
        · intro W f
          rw [List.mem_append, b6, c6]
          simp only [List.mem_cons, exists_eq_or_imp]
        · obtain ⟨e1, e2, e3⟩ := flips_append rl ws1 ws2
          rw [e1, e2, e3]
          exact flipped_trans b7 c7 hap.1 hap.2.1
    obtain ⟨ps, s2, d1, d2, d3, d4, d5, d6, d7⟩ :=
      orientVisitP hg ha P hU hs (hfr U (Desc.refl U)) flag rest
    obtain ⟨-, -, -, hw⟩ := hg.2.2.1 U hU
    have hchild : ∀ p ∈ ps, ∀ W, Desc g rl p.1 W → Desc g rl U W ∧ W ≠ U ∧ Reach g rl W := by
      intro p hp W hW
      obtain ⟨J, hJ, hc, e⟩ := (d5 p).1 hp
      have ep : p.1 = (g.G J).v := by rw [e]
      rw [ep] at hW
      refine ⟨Desc.step U J W hJ hc hW, ?_, desc_reach hW (Reach.child U J hU hJ hc)⟩
      intro h
      rw [h] at hW
      exact child_not_up hg hU hJ hc hW
    have hfr2 : ∀ p ∈ ps, ∀ W, Desc g rl p.1 W → Fresh g rl s2 W := by
      intro p hp W hW
      obtain ⟨h1, h2, h3⟩ := hchild p hp W hW
      have hap := @visits_apart fuel g rl wt hg [(U, flag)] [(W, 0)]
        (fun x hx => by rw [List.mem_singleton.1 hx]; exact hU)
        (fun x hx => by rw [List.mem_singleton.1 hx]; exact h3)
        (fun p1 h1 x hx => by
          rw [List.mem_singleton.1 hx, List.mem_singleton.1 h1]
          exact Ne.symm h2)
      exact fresh_of_flipped d4 (hfr W h1)
        (hap.2.2.1 (W, 0) (List.mem_singleton_self _))
        (hap.2.2.2 (W, 0) (List.mem_singleton_self _))
    obtain ⟨n2, s3, ws, c1, c2, c3, c4, c5, c6, c7⟩ :=
      L ps (fun p hp => (d5 p).1 hp) d6 s2 (sameShape_of_flipped d4 hs) hfr2
    rw [← d3, graph_stack_eta s2 _ rfl] at c2 c3
    have hws : ∀ p1 ∈ ws, Desc g rl U p1.1 ∧ p1.1 ≠ U ∧ Reach g rl p1.1 := by
      intro p1 h1
      obtain ⟨p, hp, hpf⟩ := (c6 p1.1 p1.2).1 h1
      exact hchild p hp p1.1 (pathFlag_desc hpf)
    have hap := @visits_apart fuel g rl wt hg [(U, flag)] ws
      (fun x hx => by rw [List.mem_singleton.1 hx]; exact hU) (fun p1 h1 => (hws p1 h1).2.2)
      (fun p1 h1 x hx => by
        rw [List.mem_singleton.1 h1]
        exact Ne.symm (hws x hx).2.1)
    refine ⟨n2 + 1, s3, (U, flag) :: ws, by omega, ?_, ?_, c4, ?_, ?_, ?_⟩
    · intro m
      have e : n2 + 1 + m = (n2 + m) + 1 := by omega
      rw [e, d1, c2]
    · intro m
      have e : n2 + 1 + m = (n2 + m) + 1 := by omega
      rw [e, d2, c3, Option.map_map]
      rfl
    · rw [List.map_cons, List.nodup_cons]
      refine ⟨?_, c5⟩
      intro h
      obtain ⟨p1, h1, e1⟩ := List.mem_map.1 h
      exact (hws p1 h1).2.1 e1
    · intro W f
      rw [List.mem_cons, c6, pathFlag_cases, Prod.mk.injEq]
      constructor
      · rintro (h | ⟨p, hp, hpf⟩)
        · exact Or.inl h
        · obtain ⟨J, hJ, hc, e⟩ := (d5 p).1 hp
          rw [e] at hpf
          exact Or.inr ⟨J, hJ, hc, hpf⟩
      · rintro (h | ⟨J, hJ, hc, hpf⟩)
        · exact Or.inl h
        · exact Or.inr ⟨_, (d5 _).2 ⟨J, hJ, hc, rfl⟩, hpf⟩
    · obtain ⟨e1, e2, e3⟩ := flips_append rl [(U, flag)] ws
      rw [List.singleton_append] at e1 e2 e3
      rw [e1, e2, e3]
      exact flipped_trans d4 c7 hap.1 hap.2.1

/-- The run of `_OrientVerticesInBicomp(R, PreserveSigns)` from a state in which no vertex
below `R` has been visited: it returns, pops every vertex of the tree below `R` once, with
the flag of its tree path, and exchanges the links of those popped with a non-zero flag. -/
theorem orientBicompP {fuel : Nat} {g : graph} {rl : Int → List Int} {wt : Int → Nat}
    (hg : OrientReady fuel g rl wt) (ha : ChildrenApart g rl) (P : Int) {R : Int}
    (hR : Reach g rl R) {s : graph} (hs : SameShape g s)
    (hfr : ∀ W, Desc g rl R W → Fresh g rl s W) :
    ∃ (s1 : graph) (vs : List (Int × Int)),
      _OrientVerticesInBicomp fuel s R P = some s1 ∧
      orientVisits fuel fuel (sp_Push2 (sp_ClearStack s) R 0) P = some vs ∧
      (vs.map Prod.fst).Nodup ∧ (∀ W f, (W, f) ∈ vs ↔ PathFlag g rl R 0 W f) ∧
      Flipped P (flips rl vs) (flipVerts vs) (arcsOf rl vs) s s1 := by
  obtain ⟨n, s1, vs, h1, h2, h3, h4, h5, h6, h7⟩ :=
    orientSubtreeP hg ha P (wt R + 1) R hR (Nat.lt_succ_self _) s hs hfr 0 []
  obtain ⟨-, -, hw, -⟩ := hg.2.2.1 R hR
  refine ⟨s1, vs, ?_, ?_, h5, h6, h7⟩
  · have e : _OrientVerticesInBicomp fuel s R P =
        orientLoop fuel fuel { s with theStack := [0, R] } P := rfl
    have e2 : fuel = n + ((fuel - n - 1) + 1) := by omega
    rw [e]
    nth_rewrite 2 [e2]
    rw [h2, (orientLoopP_empty _ _ _ P h4).1]
  · have e : orientVisits fuel fuel (sp_Push2 (sp_ClearStack s) R 0) P =
        orientVisits fuel fuel { s with theStack := [0, R] } P := rfl
    have e2 : fuel = n + ((fuel - n - 1) + 1) := by omega
    rw [e]
    nth_rewrite 2 [e2]
    rw [h3, (orientLoopP_empty _ _ _ P h4).2, Option.map_some', List.append_nil]

/-- What the visits `vs` do to a vertex visited: its links, those of the arcs of its ring
and its external-face links are exchanged if and only if its flag is not `0`, and then
its ring is reversed. -/
theorem visit_effect {fuel : Nat} {g : graph} {rl : Int → List Int} {wt : Int → Nat}
    (hg : OrientReady fuel g rl wt) {P : Int} {vs : List (Int × Int)}
    (hnd : (vs.map Prod.fst).Nodup) (hr : ∀ p ∈ vs, Reach g rl p.1) {s s1 : graph}
    (hfl : Flipped P (flips rl vs) (flipVerts vs) (arcsOf rl vs) s s1) :
    ∀ p ∈ vs,
      (∀ x ∈ p.1 :: rl p.1,
        (s1.G x).link = if p.2 ≠ 0 then swapPair (s.G x).link else (s.G x).link) ∧
      (s1.extFace p.1).link =
        (if p.2 ≠ 0 then swapPair (s.extFace p.1).link else (s.extFace p.1).link) ∧
      ∀ l, Ring s 0 p.1 l → (∀ x, x ∈ l ↔ x ∈ rl p.1) →
        Ring s1 0 p.1 (if p.2 ≠ 0 then l.reverse else l) := by
  intro p hp
  have hsame : ∀ q ∈ vs, q.1 = p.1 → q = p := fun q hq e =>
    List.inj_on_of_nodup_map hnd hq hp e
  have hF : ∀ x ∈ p.1 :: rl p.1, (x ∈ flips rl vs ↔ p.2 ≠ 0) := by
    intro x hx
    rw [mem_flips]
    constructor
    · rintro ⟨q, hq, hq2, hx2⟩
      by_cases e : q.1 = p.1
      · rw [← hsame q hq e]
        exact hq2
      · exact absurd hx2 (reach_apart hg (hr q hq) (hr p hp) (Ne.symm e) x hx)
    · intro h
      exact ⟨p, hp, h, hx⟩
  have hV : p.1 ∈ flipVerts vs ↔ p.2 ≠ 0 := by
    rw [mem_flipVerts]
    constructor
    · rintro ⟨q, hq, hq2, e⟩
      rw [← hsame q hq e.symm]
      exact hq2
    · intro h
      exact ⟨p, hp, h, rfl⟩
  refine ⟨fun x hx => ?_, ?_, fun l hl hmem => ?_⟩
  · rw [hfl.2.2.1 x]
    by_cases h : p.2 ≠ 0
    · rw [if_pos ((hF x hx).2 h), if_pos h]
    · rw [if_neg (fun h2 => h ((hF x hx).1 h2)), if_neg h]
  · rw [(hfl.2.2.2.2 p.1).2]
    by_cases h : p.2 ≠ 0
    · rw [if_pos (hV.2 h), if_pos h]
    · rw [if_neg (fun h2 => h (hV.1 h2)), if_neg h]
  · have hx : ∀ x ∈ p.1 :: l, x ∈ p.1 :: rl p.1 := by
      intro x hx
      rcases List.mem_cons.1 hx with h | h
      · exact List.mem_cons.2 (Or.inl h)
      · exact List.mem_cons.2 (Or.inr ((hmem x).1 h))
    by_cases h : p.2 ≠ 0
    · rw [if_pos h]
      exact (ring_of_flipped hfl hl).1 (fun x hx1 => (hF x (hx x hx1)).2 h)
    · rw [if_neg h]
      exact (ring_of_flipped hfl hl).2 (fun x hx1 h2 => h ((hF x (hx x hx1)).1 h2))

theorem sameShape_refl (g : graph) : SameShape g g :=
  ⟨rfl, rfl, fun _ => ⟨rfl, rfl⟩⟩

theorem fresh_start {fuel : Nat} {g : graph} {rl : Int → List Int} {wt : Int → Nat}
    (hg : OrientReady fuel g rl wt) {R : Int} (hR : Reach g rl R) :
    ∀ W, Desc g rl R W → Fresh g rl g W :=
  fun W hW => ⟨Or.inl (hg.2.2.1 W (desc_reach hW hR)).1, fun _ _ => rfl⟩

theorem visited_iff_desc {g : graph} {rl : Int → List Int} {R : Int}
    {vs : List (Int × Int)} (h : ∀ W f, (W, f) ∈ vs ↔ PathFlag g rl R 0 W f) (W : Int) :
    W ∈ vs.map Prod.fst ↔ Desc g rl R W := by
  rw [List.mem_map]
  constructor
  · rintro ⟨p, hp, rfl⟩
    exact pathFlag_desc ((h p.1 p.2).1 hp)
  · intro hd
    obtain ⟨f, hf⟩ := desc_pathFlag hd 0
    exact ⟨(W, f), (h W f).2 hf, rfl⟩

set_option maxRecDepth 100000 in
theorem chordedPath_childrenApart : ChildrenApart chordedPathAtOrient chordedPathRings := by
  have key : ∀ U ∈ [(6 : Int), 1, 2, 3, 4], ∀ W ∈ [(6 : Int), 1, 2, 3, 4],
      ∀ J ∈ chordedPathRings U, ∀ K ∈ chordedPathRings W,
        (chordedPathAtOrient.G J).type = EDGE_DFSCHILD →
        (chordedPathAtOrient.G K).type = EDGE_DFSCHILD →
        (chordedPathAtOrient.G J).v = (chordedPathAtOrient.G K).v → J = K := by decide!
  intro U W hU hW
  exact key U (chordedPath_reach U hU) W (chordedPath_reach W hW)

set_option maxRecDepth 100000 in
theorem chordedPath_reach_root : Reach chordedPathAtOrient chordedPathRings 6 := by
  have := @Reach.root chordedPathAtOrient chordedPathRings 1 (by decide!) (by decide!)
  rwa [show chordedPathAtOrient.N + ((1 : Nat) : Int) = 6 by decide!] at this

theorem graphNode_eq {a b : graphNode} (h1 : a.v = b.v) (h2 : a.visited = b.visited)
    (h3 : a.link = b.link) (h4 : a.type = b.type) (h5 : a.inverted = b.inverted) : a = b := by
  cases a
  cases b
  simp only at h1 h2 h3 h4 h5
  simp only [graphNode.mk.injEq]
  exact ⟨h1, h2, h3, h4, h5⟩

theorem extFaceLinkRec_eq {a b : extFaceLinkRec} (h1 : a.link = b.link)
    (h2 : a.inversionFlag = b.inversionFlag) : a = b := by
  cases a
  cases b
  simp only at h1 h2
  simp only [extFaceLinkRec.mk.injEq]
  exact ⟨h1, h2⟩

/-- C29: `_OrientVerticesInBicomp(R, PreserveSigns)` on a bicomp whose DFS_CHILD arcs form a
tree below `R` returns and pops every vertex of that tree exactly once.  The flag popped
with a vertex is the XOR of the inverted flags of the DFS_CHILD arcs on the tree path from
`R` to it, and the vertex is inverted (its links, those of the arcs of its ring and its
external-face links are exchanged, which reverses its ring) if and only if that flag is `1`.
The root `R` is popped with the flag `0` and is not inverted; the links of the nodes outside
the rings visited stay as they were. -/
theorem orientVerticesInBicomp_visits (fuel : Nat) (g : graph) (rl : Int → List Int)
    (wt : Int → Nat) (R PreserveSigns : Int) (hg : OrientReady fuel g rl wt)
    (ha : ChildrenApart g rl) (hR : Reach g rl R) :
    ∃ (g1 : graph) (vs : List (Int × Int)),
      _OrientVerticesInBicomp fuel g R PreserveSigns = some g1 ∧
      orientVisits fuel fuel (sp_Push2 (sp_ClearStack g) R 0) PreserveSigns = some vs ∧
      (vs.map Prod.fst).Nodup ∧ (∀ W, W ∈ vs.map Prod.fst ↔ Desc g rl R W) ∧
      (∀ W f, (W, f) ∈ vs ↔ PathFlag g rl R 0 W f) ∧
      (R, 0) ∈ vs ∧ (g1.G R).link = (g.G R).link ∧
      (g1.extFace R).link = (g.extFace R).link ∧ Ring g1 0 R (rl R) ∧
      (∀ p ∈ vs, (p.2 = 0 ∨ p.2 = 1) ∧
        (∀ x ∈ p.1 :: rl p.1,
          (g1.G x).link = if p.2 = 1 then swapPair (g.G x).link else (g.G x).link) ∧
        (g1.extFace p.1).link =
          (if p.2 = 1 then swapPair (g.extFace p.1).link else (g.extFace p.1).link) ∧
        Ring g1 0 p.1 (if p.2 = 1 then (rl p.1).reverse else rl p.1)) ∧
      (∀ x, (∀ p ∈ vs, x ∉ p.1 :: rl p.1) → (g1.G x).link = (g.G x).link) ∧
      ∀ x, x ∉ vs.map Prod.fst → (g1.extFace x).link = (g.extFace x).link := by
  obtain ⟨g1, vs, a1, a2, a3, a4, a5⟩ :=
    orientBicompP hg ha PreserveSigns hR (sameShape_refl g) (fresh_start hg hR)
  have hr1 : ∀ p ∈ vs, Reach g rl p.1 := fun p hp =>
    desc_reach (pathFlag_desc ((a4 p.1 p.2).1 hp)) hR
  have hbit : ∀ p ∈ vs, p.2 = 0 ∨ p.2 = 1 := fun p hp =>
    pathFlag_bit ((a4 p.1 p.2).1 hp) (Or.inl rfl)
  have hcond : ∀ p ∈ vs, (p.2 ≠ 0 ↔ p.2 = 1) := by
    intro p hp
    rcases hbit p hp with h | h <;> rw [h] <;> decide
  have heff : ∀ p ∈ vs,
      (∀ x ∈ p.1 :: rl p.1,
        (g1.G x).link = if p.2 = 1 then swapPair (g.G x).link else (g.G x).link) ∧
      (g1.extFace p.1).link =
        (if p.2 = 1 then swapPair (g.extFace p.1).link else (g.extFace p.1).link) ∧
      Ring g1 0 p.1 (if p.2 = 1 then (rl p.1).reverse else rl p.1) := by
    intro p hp
    obtain ⟨b1, b2, b3⟩ := visit_effect hg a3 hr1 a5 p hp
    have b4 := b3 (rl p.1) (hg.2.2.1 p.1 (hr1 p hp)).1 (fun _ => Iff.rfl)
    simp only [hcond p hp] at b1 b2 b4
    exact ⟨b1, b2, b4⟩
  have hRin : (R, 0) ∈ vs := (a4 R 0).2 (PathFlag.refl R 0)
  obtain ⟨c1, c2, c3⟩ := heff (R, 0) hRin
  have h01 : ¬ ((R, (0 : Int)).2 = 1) := by
    show ¬ ((0 : Int) = 1)
    decide
  refine ⟨g1, vs, a1, a2, a3, visited_iff_desc a4, a4, hRin, ?_, ?_, ?_,
    fun p hp => ⟨hbit p hp, heff p hp⟩, ?_, ?_⟩
  · have := c1 R (List.mem_cons_self _ _)
    rwa [if_neg h01] at this
  · rwa [if_neg h01] at c2
  · rwa [if_neg h01] at c3
  · intro x hx
    rw [a5.2.2.1 x, if_neg]
    intro h
    obtain ⟨p, hp, -, h2⟩ := mem_flips.1 h
    exact hx p hp h2
  · intro x hx
    rw [(a5.2.2.2.2 x).2, if_neg]
    intro h
    obtain ⟨p, hp, -, h2⟩ := mem_flipVerts.1 h
    exact hx (List.mem_map.2 ⟨p, hp, h2.symm⟩)

set_option maxRecDepth 100000 in
theorem orientVerticesInBicomp_visits_witness :
    OrientReady 50 chordedPathAtOrient chordedPathRings chordedPathWeight ∧
    ChildrenApart chordedPathAtOrient chordedPathRings ∧
    Reach chordedPathAtOrient chordedPathRings 6 ∧
    orientVisits 50 50 (sp_Push2 (sp_ClearStack chordedPathAtOrient) 6 0) 0 =
      some [(6, 0), (1, 0), (2, 0), (3, 1), (4, 1)] ∧
    ∃ (g1 : graph) (vs : List (Int × Int)),
      _OrientVerticesInBicomp 50 chordedPathAtOrient 6 0 = some g1 ∧
      orientVisits 50 50 (sp_Push2 (sp_ClearStack chordedPathAtOrient) 6 0) 0 = some vs ∧
      (vs.map Prod.fst).Nodup ∧
      (∀ W, W ∈ vs.map Prod.fst ↔ Desc chordedPathAtOrient chordedPathRings 6 W) ∧
      (∀ W f, (W, f) ∈ vs ↔ PathFlag chordedPathAtOrient chordedPathRings 6 0 W f) ∧
      (6, 0) ∈ vs ∧ (g1.G 6).link = (chordedPathAtOrient.G 6).link ∧
      (g1.extFace 6).link = (chordedPathAtOrient.extFace 6).link ∧
      Ring g1 0 6 (chordedPathRings 6) ∧
      (∀ p ∈ vs, (p.2 = 0 ∨ p.2 = 1) ∧
        (∀ x ∈ p.1 :: chordedPathRings p.1,
          (g1.G x).link = if p.2 = 1 then swapPair (chordedPathAtOrient.G x).link
            else (chordedPathAtOrient.G x).link) ∧
        (g1.extFace p.1).link =
          (if p.2 = 1 then swapPair (chordedPathAtOrient.extFace p.1).link
            else (chordedPathAtOrient.extFace p.1).link) ∧
        Ring g1 0 p.1
          (if p.2 = 1 then (chordedPathRings p.1).reverse else chordedPathRings p.1)) ∧
      (∀ x, (∀ p ∈ vs, x ∉ p.1 :: chordedPathRings p.1) →
        (g1.G x).link = (chordedPathAtOrient.G x).link) ∧
      ∀ x, x ∉ vs.map Prod.fst →
        (g1.extFace x).link = (chordedPathAtOrient.extFace x).link :=
  ⟨chordedPath_orientReady, chordedPath_childrenApart, chordedPath_reach_root, by decide!,
    orientVerticesInBicomp_visits 50 chordedPathAtOrient chordedPathRings chordedPathWeight
      6 0 chordedPath_orientReady chordedPath_childrenApart chordedPath_reach_root⟩

/-- C31: two calls of `_OrientVerticesInBicomp(R, 1)` in succession on a bicomp with valid
rings, whose DFS_CHILD arcs form a tree below `R`, both return, and the second call restores
every `link[0]`/`link[1]` of the nodes and every link of the external-face table to the
values before the first call (the node array and the external-face table are those before
the first call); neither call changes an inverted flag. -/
theorem orientVerticesInBicomp_twice (fuel : Nat) (g : graph) (rl : Int → List Int)
    (wt : Int → Nat) (R : Int) (hg : OrientReady fuel g rl wt) (ha : ChildrenApart g rl)
    (hR : Reach g rl R) :
    ∃ (g1 g2 : graph), _OrientVerticesInBicomp fuel g R 1 = some g1 ∧
      _OrientVerticesInBicomp fuel g1 R 1 = some g2 ∧
      (∀ x, (g2.G x).link = (g.G x).link) ∧
      (∀ x, (g2.extFace x).link = (g.extFace x).link) ∧
      (∀ x, (g1.G x).inverted = (g.G x).inverted) ∧
      (∀ x, (g2.G x).inverted = (g1.G x).inverted) ∧
      g2.G = g.G ∧ g2.extFace = g.extFace := by
  obtain ⟨g1, vs, a1, -, a3, a4, a5⟩ :=
    orientBicompP hg ha 1 hR (sameShape_refl g) (fresh_start hg hR)
  have hr1 : ∀ p ∈ vs, Reach g rl p.1 := fun p hp =>
    desc_reach (pathFlag_desc ((a4 p.1 p.2).1 hp)) hR
  have hfr1 : ∀ W, Desc g rl R W → Fresh g rl g1 W := by
    intro W hW
    obtain ⟨p, hp, rfl⟩ := List.mem_map.1 ((visited_iff_desc a4 W).2 hW)
    have h1 := (visit_effect hg a3 hr1 a5 p hp).2.2 (rl p.1) (hg.2.2.1 p.1 (hr1 p hp)).1
      (fun _ => Iff.rfl)
    refine ⟨?_, fun J _ => a5.2.2.2.1 J (Or.inl (by decide))⟩
    by_cases h : p.2 ≠ 0
    · rw [if_pos h] at h1
      exact Or.inr h1
    · rw [if_neg h] at h1
      exact Or.inl h1
  obtain ⟨g2, vs2, b1, -, -, b4, b5⟩ :=
    orientBicompP hg ha 1 hR (sameShape_of_flipped a5 (sameShape_refl g)) hfr1
  have hsame : ∀ p, p ∈ vs2 ↔ p ∈ vs := fun p => (b4 p.1 p.2).trans (a4 p.1 p.2).symm
  have hF : ∀ x, x ∈ flips rl vs2 ↔ x ∈ flips rl vs := by
    intro x
    rw [mem_flips, mem_flips]
    constructor
    · rintro ⟨p, hp, h⟩
      exact ⟨p, (hsame p).1 hp, h⟩
    · rintro ⟨p, hp, h⟩
      exact ⟨p, (hsame p).2 hp, h⟩
  have hV : ∀ x, x ∈ flipVerts vs2 ↔ x ∈ flipVerts vs := by
    intro x
    rw [mem_flipVerts, mem_flipVerts]
    constructor
    · rintro ⟨p, hp, h⟩
      exact ⟨p, (hsame p).1 hp, h⟩
    · rintro ⟨p, hp, h⟩
      exact ⟨p, (hsame p).2 hp, h⟩
  have hl : ∀ x, (g2.G x).link = (g.G x).link := by
    intro x
    rw [b5.2.2.1 x, a5.2.2.1 x]
    by_cases h : x ∈ flips rl vs
    · rw [if_pos ((hF x).2 h), if_pos h, swapPair_swapPair]
    · rw [if_neg (fun h2 => h ((hF x).1 h2)), if_neg h]
  have he : ∀ x, (g2.extFace x).link = (g.extFace x).link := by
    intro x
    rw [(b5.2.2.2.2 x).2, (a5.2.2.2.2 x).2]
    by_cases h : x ∈ flipVerts vs
    · rw [if_pos ((hV x).2 h), if_pos h, swapPair_swapPair]
    · rw [if_neg (fun h2 => h ((hV x).1 h2)), if_neg h]
  have hi1 : ∀ x, (g1.G x).inverted = (g.G x).inverted := fun x =>
    a5.2.2.2.1 x (Or.inl (by decide))
  have hi2 : ∀ x, (g2.G x).inverted = (g1.G x).inverted := fun x =>
    b5.2.2.2.1 x (Or.inl (by decide))
  refine ⟨g1, g2, a1, b1, hl, he, hi1, hi2, ?_, ?_⟩
  · funext x
    obtain ⟨c1, c2, c3⟩ := a5.2.1 x
    obtain ⟨d1, d2, d3⟩ := b5.2.1 x
    exact graphNode_eq (d1.trans c1) (d3.trans c3) (hl x) (d2.trans c2)
      ((hi2 x).trans (hi1 x))
  · funext x
    exact extFaceLinkRec_eq (he x) ((b5.2.2.2.2 x).1.trans (a5.2.2.2.2 x).1)

set_option maxRecDepth 100000 in
theorem orientVerticesInBicomp_twice_witness :
    OrientReady 50 chordedPathAtOrient chordedPathRings chordedPathWeight ∧
    ChildrenApart chordedPathAtOrient chordedPathRings ∧
    Reach chordedPathAtOrient chordedPathRings 6 ∧
    ((chordedPathAtOrient.G 3).link 0, (chordedPathAtOrient.G 3).link 1) = (21, 16) ∧
    ((_OrientVerticesInBicomp 50 chordedPathAtOrient 6 1).map fun s =>
      ((s.G 3).link 0, (s.G 3).link 1, (s.G 14).inverted)) = some (16, 21, true) ∧
    ∃ (g1 g2 : graph), _OrientVerticesInBicomp 50 chordedPathAtOrient 6 1 = some g1 ∧
      _OrientVerticesInBicomp 50 g1 6 1 = some g2 ∧
      (∀ x, (g2.G x).link = (chordedPathAtOrient.G x).link) ∧
      (∀ x, (g2.extFace x).link = (chordedPathAtOrient.extFace x).link) ∧
      (∀ x, (g1.G x).inverted = (chordedPathAtOrient.G x).inverted) ∧
      (∀ x, (g2.G x).inverted = (g1.G x).inverted) ∧
      g2.G = chordedPathAtOrient.G ∧ g2.extFace = chordedPathAtOrient.extFace :=
  ⟨chordedPath_orientReady, chordedPath_childrenApart, chordedPath_reach_root, by decide!,
    by decide!,
    orientVerticesInBicomp_twice 50 chordedPathAtOrient chordedPathRings chordedPathWeight 6
      chordedPath_orientReady chordedPath_childrenApart chordedPath_reach_root⟩

/-! ### The `visited` stamps when the hooks may reset them -/

end Planarity
